import Mathlib

/-!
# The hexbus protocol engine of `sw/hexbus.cpp` / `sw/hexbus.h`

A shallow embedding of the host-side hexbus engine (class `HEXBUS`): the
address encoder, the vector write and read workers, the blocking decoder
`readword` and the idle drain `readidle`, together with a model of the byte
transport the engine is bound to.

Conventions.
* Bytes (`char`) are natural numbers below 256; `unsigned`/`BUSW` values are
  natural numbers with an explicit reduction modulo `2^32` (`u32`) wherever the
  C++ arithmetic can wrap.
* Every engine operation threads the engine record and the transport and
  returns an `Outcome`: normal return, a thrown `BUSERR`, process termination
  (`exit(EXIT_FAILURE)` / failed `assert`), or never returning.
* `DBGPRINTF` output is not modelled, with one exception: the `WRITEV-SUB`
  record that `writev` emits right before each transmission is kept in the
  transport log as `Ev.sub`, because it is the source's own record of the
  acknowledgement counter at the time a word is sent.
-/

namespace Hexbus

/-! ## Machine words and characters -/

/-- Reduction of a value to a 32-bit `unsigned`. -/
def u32 (x : Nat) : Nat := x % 4294967296

/-- `#define HEXB_ADDR 'A'` -/
abbrev HEXB_ADDR : Nat := 65
/-- `#define HEXB_READ 'R'` -/
abbrev HEXB_READ : Nat := 82
/-- `#define HEXB_IDLE 'Z'` -/
abbrev HEXB_IDLE : Nat := 90
/-- `#define HEXB_ACK 'K'` -/
abbrev HEXB_ACK : Nat := 75
/-- `#define HEXB_RESET 'T'` -/
abbrev HEXB_RESET : Nat := 84
/-- `#define HEXB_INT 'I'` -/
abbrev HEXB_INT : Nat := 73
/-- `#define HEXB_ERR 'E'` -/
abbrev HEXB_ERR : Nat := 69
/-- The character `'W'` that `writev` puts in front of every word. -/
abbrev CH_W : Nat := 87
/-- The character `'\n'`. -/
abbrev CH_NL : Nat := 10

/-- `isdigit` of `<ctype.h>` (C locale). -/
def isdigit (c : Nat) : Bool := decide (48 ≤ c ∧ c ≤ 57)

/-- `isspace` of `<ctype.h>` (C locale): space, and `\t \n \v \f \r`. -/
def isspace (c : Nat) : Bool := decide (c = 32 ∨ (9 ≤ c ∧ c ≤ 13))

/-- The test `(c >= 'a') && (c <= 'f')` of `readword` and `readidle`. -/
def isaf (c : Nat) : Bool := decide (97 ≤ c ∧ c ≤ 102)

/-- The lower-case hexadecimal digit character of a nibble, as `printf`
writes it under `%x`. -/
def hexdigit (n : Nat) : Nat := if n < 10 then 48 + n else 87 + n

/-- The `k` low nibbles of `v`, most significant first, as characters. -/
def hexnibbles : Nat → Nat → List Nat
  | 0, _ => []
  | k + 1, v => hexnibbles k (v / 16) ++ [hexdigit (v % 16)]

/-- `sprintf(ptr, "%08x", a)` for a 32-bit `a`: exactly eight digits. -/
def sprintf_08x (a : Nat) : List Nat := hexnibbles 8 a

/-- The significant hexadecimal digits of `v` (none for zero); the first
argument bounds the number of digits. -/
def hexsig : Nat → Nat → List Nat
  | 0, _ => []
  | k + 1, v => if v = 0 then [] else hexsig k (v / 16) ++ [hexdigit (v % 16)]

/-- `sprintf(ptr, "%x", v)` for a 32-bit `v`: no leading zeros, `"0"` for 0. -/
def sprintf_x (v : Nat) : List Nat := if v = 0 then [48] else hexsig 8 v

/-- The value of a run of lower-case hexadecimal digit characters. -/
def hexvalue (ds : List Nat) : Nat :=
  ds.foldl (fun acc c => acc * 16 + (if c < 58 then c - 48 else c - 87)) 0

/-! ## Engine state and outcomes -/

/-- The data members of `class HEXBUS` that carry protocol state
(`m_total_nread`, `m_buf` and `m_buflen` are scratch and not kept). -/
structure HEXBUS where
  m_interrupt_flag : Bool
  m_addr_set : Bool
  m_bus_err : Bool
  m_lastaddr : Nat
  m_nacks : Nat
  m_inc : Bool
  m_isspace : Bool
  m_cmd : Nat
deriving DecidableEq, Repr

/-- How a member function ends: it returns, it throws `BUSERR(a)`, it ends
the process (`exit(EXIT_FAILURE)` or a failed `assert`), or it never returns
because it waits for bytes that do not come. -/
inductive Outcome (α : Type) where
  | ok (v : α)
  | buserr (a : Nat)
  | fatal
  | hang
deriving DecidableEq, Repr

/-- `HEXBUS::init`.  It assigns neither `m_lastaddr` nor `m_inc` nor
`m_isspace`; their indeterminate initial values are the three arguments. -/
def init (lastaddr0 : Nat) (inc0 isspace0 : Bool) : HEXBUS :=
  { m_interrupt_flag := false, m_addr_set := false, m_bus_err := false,
    m_lastaddr := lastaddr0, m_nacks := 0, m_inc := inc0,
    m_isspace := isspace0, m_cmd := 0 }

/-! ## The transport -/

/-- What happens on the transport, in the order it happens. -/
inductive Ev where
  | tx (bytes : List Nat)
  | rx (b : Nat)
  | sub (nw nacks : Nat)
deriving DecidableEq, Repr

/-- Modelled from the spec: the transport `LLCOMMSI` (declared in `llcomms.h`,
which is not among the sources) as the spec's transport contract describes it:
an ordered, reliable duplex byte channel with `write`, a blocking `read`, and
`available`.  `rx` is what the remote end has sent and the engine has not yet
read: `some b` is a byte, `none` marks a moment at which nothing is available
(`available()` answers false once and a blocking read waits it out).  The
remote end is the state `rstate` and the function `respond`, which is given
every transmitted buffer and yields what the remote sends back.  `log` records
the traffic.  `closed` says that the remote end has closed the connection in an
orderly way: once `rx` is used up, every `read` returns zero bytes at once. -/
structure Dev (ρ : Type) where
  respond : ρ → List Nat → ρ × List (Option Nat)
  rstate : ρ
  rx : List (Option Nat)
  log : List Ev
  closed : Bool := false

/-- `m_dev->write(buf, len)`. -/
def Dev.write {ρ : Type} (d : Dev ρ) (bytes : List Nat) : Dev ρ :=
  { d with rstate := (d.respond d.rstate bytes).1,
           rx := d.rx ++ (d.respond d.rstate bytes).2,
           log := d.log ++ [Ev.tx bytes] }

/-- The `WRITEV-SUB` trace record. -/
def Dev.note {ρ : Type} (d : Dev ρ) (e : Ev) : Dev ρ :=
  { d with log := d.log ++ [e] }

/-! ## `lclreadcode` -/

/-- The loop of `lclreadcode` over the `nr` bytes just read into `buf`:
`i`, `sp`, `dp` are the loop index and the two pointers (as offsets). -/
def lclreadcodeLoop : Nat → Nat → Nat → Nat → List Nat → List Nat
  | 0, _, _, _, buf => buf
  | k + 1, i, sp, dp, buf =>
    if (buf.getD i 0) &&& 0x7f = 0x7f then
      lclreadcodeLoop k (i + 1) (sp + 1) dp buf
    else
      lclreadcodeLoop k (i + 1) (sp + 1) (dp + 1) (buf.set sp (buf.getD dp 0))

/-- `HEXBUS::lclreadcode(buf, len)` when the transport delivers `delivered`:
the buffer contents afterwards and the returned count. -/
def lclreadcode (delivered : List Nat) : List Nat × Nat :=
  (lclreadcodeLoop delivered.length 0 0 0 delivered, delivered.length)

/-! ## The decoders -/

/-- How one pass through the body of a decoder loop ends. -/
inductive Flow where
  | next
  | done (result : Nat)
  | throw (a : Nat)
deriving DecidableEq, Repr

/-- The tail of the out-of-band branch of `readword`: a character other than
white space starts a new command. -/
def newcmd (s : HEXBUS) (c : Nat) : HEXBUS :=
  if !isspace c then { s with m_cmd := c, m_isspace := false }
  else { s with m_isspace := true }

/-- `if (m_inc) m_lastaddr += 4;` -/
def bump (s : HEXBUS) : HEXBUS :=
  if s.m_inc then { s with m_lastaddr := u32 (s.m_lastaddr + 4) } else s

/-- One pass through the body of the `do ... while(!done)` loop of `readword`
after the blocking read has put the character `c` into `m_buf[0]`; `word` and
`abort` are the locals `word` and `abort_countdown`. -/
def readwordStep (s : HEXBUS) (word abort c : Nat) : HEXBUS × Nat × Nat × Flow :=
  if isdigit c then
    ({ s with m_isspace := false }, u32 (word <<< 4) ||| (c &&& 0x0f), abort, Flow.next)
  else if isaf c then
    ({ s with m_isspace := false }, u32 (word <<< 4) ||| ((c - 97 + 10) &&& 0x0f), abort,
      Flow.next)
  else if s.m_isspace then
    (newcmd s c, 0, abort, Flow.next)
  else if s.m_cmd = HEXB_READ then
    (newcmd (bump s) c, 0, abort, Flow.done word)
  else if s.m_cmd = HEXB_ACK then
    (newcmd { bump s with m_nacks := u32 ((bump s).m_nacks + 1) } c, 0, abort, Flow.next)
  else if s.m_cmd = HEXB_INT then
    (newcmd { s with m_interrupt_flag := true } c, 0, abort, Flow.next)
  else if s.m_cmd = HEXB_ERR then
    (if isspace c then { s with m_bus_err := true, m_isspace := true }
      else { s with m_bus_err := true, m_isspace := false, m_cmd := c },
      word, abort, Flow.throw s.m_lastaddr)
  else if s.m_cmd = HEXB_IDLE then
    if u32 (abort + 4294967295) = 0 then
      (s, word, u32 (abort + 4294967295), Flow.throw 0)
    else
      (newcmd s c, 0, u32 (abort + 4294967295), Flow.next)
  else if s.m_cmd = HEXB_ADDR then
    (newcmd { s with m_addr_set := true, m_inc := decide (word &&& 1 = 0),
                     m_lastaddr := word &&& 4294967292 } c, 0, abort, Flow.next)
  else if s.m_cmd = HEXB_RESET then
    (newcmd { s with m_addr_set := false } c, 0, abort, Flow.next)
  else
    (newcmd s c, 0, abort, Flow.next)

/-- The loop of `readword` over the inbound stream; the blocking read waits
out the moments at which nothing is available, and never returns when the
stream has ended: either no byte comes any more, or the transport is closed and
every `read` returns 0, which the loop `while (nr < 1)` answers by reading
again. -/
def readwordLoop (s : HEXBUS) (word abort : Nat) :
    List (Option Nat) → List Ev → Outcome Nat × HEXBUS × List (Option Nat) × List Ev
  | [], log => (Outcome.hang, s, [], log)
  | none :: rest, log => readwordLoop s word abort rest log
  | some b :: rest, log =>
    match readwordStep s word abort ((lclreadcode [b]).1.getD 0 0) with
    | (s1, word1, abort1, Flow.next) => readwordLoop s1 word1 abort1 rest (log ++ [Ev.rx b])
    | (s1, _, _, Flow.done r) => (Outcome.ok r, s1, rest, log ++ [Ev.rx b])
    | (s1, _, _, Flow.throw a) => (Outcome.buserr a, s1, rest, log ++ [Ev.rx b])

/-- `HEXBUS::readword`. -/
def readword {ρ : Type} (s : HEXBUS) (d : Dev ρ) : Outcome Nat × HEXBUS × Dev ρ :=
  match readwordLoop s 0 3 d.rx d.log with
  | (o, s1, rx1, log1) => (o, s1, { d with rx := rx1, log := log1 })

/-- One pass through the body of the `while(m_dev->available())` loop of
`readidle` after `lclreadcode` has put the character `c` into `m_buf[0]`. -/
def readidleStep (s : HEXBUS) (word c : Nat) : HEXBUS × Nat × Flow :=
  if isdigit c then
    (s, u32 (word <<< 4) ||| (c &&& 0x0f), Flow.next)
  else if isaf c then
    (s, u32 (word <<< 4) ||| ((c - 97 + 10) &&& 0x0f), Flow.next)
  else if isspace c && s.m_isspace then
    (s, word, Flow.next)
  else if s.m_isspace then
    (newcmd s c, 0, Flow.next)
  else if s.m_cmd = HEXB_ADDR then
    (newcmd { s with m_addr_set := true, m_inc := decide (word &&& 1 = 0),
                     m_lastaddr := word &&& 4294967292 } c, 0, Flow.next)
  else if s.m_cmd = HEXB_READ then
    (newcmd (bump s) c, 0, Flow.next)
  else if s.m_cmd = HEXB_INT then
    (newcmd { s with m_interrupt_flag := true } c, 0, Flow.next)
  else if s.m_cmd = HEXB_ACK then
    (newcmd { bump s with m_nacks := u32 ((bump s).m_nacks + 1) } c, 0, Flow.next)
  else if s.m_cmd = HEXB_ERR then
    ({ s with m_bus_err := true }, word, Flow.throw s.m_lastaddr)
  else if s.m_cmd = HEXB_RESET then
    (newcmd { s with m_addr_set := false, m_bus_err := false } c, 0, Flow.next)
  else
    (newcmd s c, 0, Flow.next)

/-- The loop of `readidle`: it runs as long as bytes are available. -/
def readidleLoop (s : HEXBUS) (word : Nat) :
    List (Option Nat) → List Ev → Outcome Unit × HEXBUS × List (Option Nat) × List Ev
  | [], log => (Outcome.ok (), s, [], log)
  | none :: rest, log => (Outcome.ok (), s, rest, log)
  | some b :: rest, log =>
    match readidleStep s word ((lclreadcode [b]).1.getD 0 0) with
    | (s1, word1, Flow.next) => readidleLoop s1 word1 rest (log ++ [Ev.rx b])
    | (s1, _, Flow.done _) => (Outcome.ok (), s1, rest, log ++ [Ev.rx b])
    | (s1, _, Flow.throw a) => (Outcome.buserr a, s1, rest, log ++ [Ev.rx b])

/-- `HEXBUS::readidle`. -/
def readidle {ρ : Type} (s : HEXBUS) (d : Dev ρ) : Outcome Unit × HEXBUS × Dev ρ :=
  match readidleLoop s 0 d.rx d.log with
  | (o, s1, rx1, log1) => (o, s1, { d with rx := rx1, log := log1 })

/-! ## Encoding and the vector workers -/

/-- `HEXBUS::encode_address(a)`: the characters it leaves in `m_buf` (none
when the address is taken to be set already). -/
def encode_address (s : HEXBUS) (a : Nat) : List Nat :=
  if s.m_addr_set = true ∧ a = s.m_lastaddr
      ∧ (if s.m_inc then 1 else 0) = (a &&& 1) ^^^ 1 then []
  else HEXB_ADDR :: sprintf_08x a

/-- The loop `while(m_nacks < target) readidle();` of `writev`.  The first
argument bounds the number of `readidle` calls; each call on a non-empty
inbound stream consumes at least one item of it, and on an empty stream
nothing will ever arrive, so the loop spins for ever. -/
def waitAcks {ρ : Type} : Nat → Nat → HEXBUS → Dev ρ → Outcome Unit × HEXBUS × Dev ρ
  | 0, target, s, d => if s.m_nacks < target then (Outcome.hang, s, d) else (Outcome.ok (), s, d)
  | fuel + 1, target, s, d =>
    if s.m_nacks < target then
      if d.rx = [] then (Outcome.hang, s, d)
      else
        match readidle s d with
        | (Outcome.ok _, s1, d1) => waitAcks fuel target s1 d1
        | r => r
    else (Outcome.ok (), s, d)

/-- The characters `writev` composes for one word: `W`, then `%x\n` of a
non-zero value, or the bare `\n` for zero. -/
def encode_word (v : Nat) : List Nat :=
  CH_W :: (if v ≠ 0 then sprintf_x v ++ [CH_NL] else [CH_NL])

/-- The loop `while(nw < (unsigned)len)` of `writev` over the words still to
be written; `pre` is what stands in `m_buf` in front of `ptr`. -/
def writevLoop {ρ : Type} :
    List Nat → Nat → List Nat → HEXBUS → Dev ρ → Outcome Unit × HEXBUS × Dev ρ
  | [], _, _, s, d => (Outcome.ok (), s, d)
  | v :: rest, nw, pre, s, d =>
    match waitAcks (((d.note (Ev.sub nw s.m_nacks)).write (pre ++ encode_word v)).rx.length + 1)
        nw s ((d.note (Ev.sub nw s.m_nacks)).write (pre ++ encode_word v)) with
    | (Outcome.ok _, s1, d1) => writevLoop rest (nw + 1) [] s1 d1
    | r => r

/-- `HEXBUS::writev(a, p, len, buf)` with `len` the length of `buf`. -/
def writev {ρ : Type} (a : Nat) (p : Bool) (buf : List Nat) (s : HEXBUS) (d : Dev ρ) :
    Outcome Unit × HEXBUS × Dev ρ :=
  match writevLoop buf 0 (encode_address s (a ||| (if p then 0 else 1)))
      { s with m_lastaddr := a, m_addr_set := true, m_nacks := 0 } d with
  | (Outcome.ok _, s1, d1) =>
    match waitAcks (d1.rx.length + 1) buf.length s1 d1 with
    | (Outcome.ok _, s2, d2) =>
      (Outcome.ok (),
        if p then { s2 with m_lastaddr := u32 (s2.m_lastaddr + (buf.length <<< 2)) } else s2, d2)
    | r => r
  | r => r

/-- `HEXBUS::writez`. -/
def writez {ρ : Type} (a : Nat) (buf : List Nat) (s : HEXBUS) (d : Dev ρ) :
    Outcome Unit × HEXBUS × Dev ρ :=
  writev a false buf s d

/-- `HEXBUS::writei`. -/
def writei {ρ : Type} (a : Nat) (buf : List Nat) (s : HEXBUS) (d : Dev ρ) :
    Outcome Unit × HEXBUS × Dev ρ :=
  writev a true buf s d

/-- `HEXBUS::writeio`. -/
def writeio {ρ : Type} (a v : Nat) (s : HEXBUS) (d : Dev ρ) :
    Outcome Unit × HEXBUS × Dev ρ :=
  match writev a false [v] s d with
  | (Outcome.ok _, s1, d1) => (Outcome.ok (), { s1 with m_lastaddr := a, m_addr_set := true }, d1)
  | r => r

/-- The loop `while(nread < len)` inside the `try` block of `readv`: the first
argument is `len - nread`, `pre` is what stands in `m_buf` in front of `ptr`,
`buf` holds the words stored so far (`buf[0..nread)`). -/
def readvLoop {ρ : Type} :
    Nat → List Nat → List Nat → HEXBUS → Dev ρ → Outcome Unit × List Nat × HEXBUS × Dev ρ
  | 0, _, buf, s, d => (Outcome.ok (), buf, s, d)
  | k + 1, pre, buf, s, d =>
    match readword s (d.write (pre ++ [HEXB_READ, CH_NL])) with
    | (Outcome.ok w, s1, d1) => readvLoop k [] (buf ++ [w]) s1 d1
    | (Outcome.buserr b, s1, d1) => (Outcome.buserr b, buf, s1, d1)
    | (Outcome.fatal, s1, d1) => (Outcome.fatal, buf, s1, d1)
    | (Outcome.hang, s1, d1) => (Outcome.hang, buf, s1, d1)

/-- `HEXBUS::readv(a, inc, len, buf)`: the outcome, and the words stored into
`buf` (all `len` of them on a normal return). -/
def readv {ρ : Type} (a : Nat) (inc : Bool) (len : Nat) (s : HEXBUS) (d : Dev ρ) :
    Outcome Unit × List Nat × HEXBUS × Dev ρ :=
  if len = 0 then (Outcome.ok (), [], s, d)
  else
    match readvLoop len (encode_address s (a ||| (if inc then 0 else 1))) []
        { s with m_lastaddr := a, m_addr_set := true, m_inc := inc } d with
    | (Outcome.ok _, buf, s1, d1) =>
      if s1.m_lastaddr ≠ u32 (a + (if inc then len <<< 2 else 0)) then
        (Outcome.fatal, buf, s1, d1)
      else (Outcome.ok (), buf, s1, d1)
    | (Outcome.buserr _, buf, s1, d1) =>
      (Outcome.buserr (u32 (a + (if inc then buf.length <<< 2 else 0))), buf, s1, d1)
    | r => r

/-- `HEXBUS::readi`. -/
def readi {ρ : Type} (a : Nat) (len : Nat) (s : HEXBUS) (d : Dev ρ) :
    Outcome Unit × List Nat × HEXBUS × Dev ρ :=
  readv a true len s d

/-- `HEXBUS::readz`. -/
def readz {ρ : Type} (a : Nat) (len : Nat) (s : HEXBUS) (d : Dev ρ) :
    Outcome Unit × List Nat × HEXBUS × Dev ρ :=
  readv a false len s d

/-- `HEXBUS::readio`. -/
def readio {ρ : Type} (a : Nat) (s : HEXBUS) (d : Dev ρ) : Outcome Nat × HEXBUS × Dev ρ :=
  match readv a false 1 s d with
  | (Outcome.ok _, buf, s1, d1) =>
    if s1.m_lastaddr ≠ a then (Outcome.fatal, { s1 with m_addr_set := false }, d1)
    else (Outcome.ok (buf.getD 0 0), s1, d1)
  | (Outcome.buserr _, _, s1, d1) => (Outcome.buserr a, s1, d1)
  | (Outcome.fatal, _, s1, d1) => (Outcome.fatal, s1, d1)
  | (Outcome.hang, _, s1, d1) => (Outcome.hang, s1, d1)

/-! ## A scripted transport and a simulated remote -/

/-- A transport whose remote end answers nothing to what is transmitted:
everything the engine will receive is loaded into `rx` beforehand. -/
def scripted (rx : List (Option Nat)) : Dev Unit :=
  { respond := fun u _ => (u, []), rstate := (), rx := rx, log := [] }

/-- The bytes of a script, all of them available. -/
def avail (bytes : List Nat) : List (Option Nat) := bytes.map some

/-- The response token to a read request, as the wire format of the spec
gives it: `R`, the hexadecimal digits of the word (none for zero), `\n`. -/
def encode_datum (w : Nat) : List Nat :=
  HEXB_READ :: ((if w ≠ 0 then sprintf_x w else []) ++ [CH_NL])

/-- The response token to a write: `K`, `\n`. -/
def encode_ack : List Nat := [HEXB_ACK, CH_NL]

/-- Modelled from the spec: the remote end of the wire (the bus master inside
the FPGA, which is not among the sources), as the wire format table of the spec
describes it, over a memory of 32-bit words indexed by byte address.  `A` sets
the address (low bit set: do not increment), `R` is answered by the word at
the address, `W` stores its payload and is answered by `K`; after every word
transacted the address advances by 4 when incrementing.  `cmd` and `word` are
the tag and the payload of the token being received. -/
structure Remote where
  mem : Nat → Nat
  addr : Nat
  inc : Bool
  cmd : Nat
  word : Nat

/-- The remote after a token has ended with the character `c`. -/
def Remote.fresh (r : Remote) (c : Nat) : Remote :=
  { r with cmd := if isspace c then 0 else c, word := 0 }

/-- `if (inc) addr += 4` on the remote side. -/
def Remote.advance (r : Remote) : Remote :=
  if r.inc then { r with addr := u32 (r.addr + 4) } else r

/-- Modelled from the spec: the remote receives one character and says what it
sends back. -/
def Remote.step (r : Remote) (c : Nat) : Remote × List Nat :=
  if isdigit c then ({ r with word := u32 (r.word * 16 + (c - 48)) }, [])
  else if isaf c then ({ r with word := u32 (r.word * 16 + (c - 87)) }, [])
  else if r.cmd = HEXB_ADDR then
    (Remote.fresh { r with addr := r.word &&& 4294967292, inc := decide (r.word &&& 1 = 0) } c, [])
  else if r.cmd = HEXB_READ then
    (Remote.fresh r.advance c, encode_datum (r.mem r.addr))
  else if r.cmd = CH_W then
    (Remote.fresh { r with mem := Function.update r.mem r.addr r.word }.advance c, encode_ack)
  else (Remote.fresh r c, [])

/-- The remote receives a buffer of characters. -/
def Remote.run : Remote → List Nat → Remote × List Nat
  | r, [] => (r, [])
  | r, c :: cs => ((Remote.run (r.step c).1 cs).1, (r.step c).2 ++ (Remote.run (r.step c).1 cs).2)

/-- The simulated remote answers at once: what it sends back to a buffer is
available as soon as the buffer has been written. -/
def Remote.respond (r : Remote) (bytes : List Nat) : Remote × List (Option Nat) :=
  ((Remote.run r bytes).1, avail (Remote.run r bytes).2)

/-- A transport with the simulated remote at its far end and nothing in
flight. -/
def simulated (r : Remote) : Dev Remote :=
  { respond := Remote.respond, rstate := r, rx := [], log := [] }

/-- A newly created engine, the indeterminate members taken as zero. -/
def fresh : HEXBUS := init 0 false false

/-- A remote that announces address `0x40` and then answers one read with 5. -/
def echoed : Dev Unit :=
  scripted (avail (HEXB_ADDR :: sprintf_08x 64 ++ CH_NL :: encode_datum 5))

/-! ## Reading the transport log -/

/-- A stretch of the log in which the engine only received bytes. -/
def onlyRx (l : List Ev) : Prop := ∀ e ∈ l, ∃ b, e = Ev.rx b

/-- The number of buffers transmitted in a stretch of the log. -/
def countTx : List Ev → Nat
  | [] => 0
  | Ev.tx _ :: l => countTx l + 1
  | _ :: l => countTx l

/-- Walks a stretch of the log of a `writev` call with the number `n` of
buffers transmitted so far: every `WRITEV-SUB` record must carry that number as
its word index, an acknowledgement count that is at most one behind it, and be
followed at once by the transmission it announces. -/
def subsOK : Nat → List Ev → Prop
  | _, [] => True
  | n, Ev.tx _ :: l => subsOK (n + 1) l
  | n, Ev.rx _ :: l => subsOK n l
  | n, Ev.sub nw k :: l =>
    n = nw ∧ nw ≤ k + 1 ∧ (∃ bytes l2, l = Ev.tx bytes :: l2) ∧ subsOK n l

/-- The reading of "at most one write outstanding at any point" on a stretch of
the log: right after every transmission, the number of words transmitted so far
exceeds the acknowledgement count by at most one. -/
def depthOne (ext : List Ev) : Prop :=
  ∀ pre post nw k bytes, ext = pre ++ Ev.sub nw k :: Ev.tx bytes :: post →
    countTx (pre ++ [Ev.sub nw k, Ev.tx bytes]) - k ≤ 1

/-- A remote whose two acknowledgements arrive only after a moment at which
nothing is available. -/
def delayed : Dev Unit := scripted (none :: avail (encode_ack ++ encode_ack))

/-- The number of `K` characters received in a stretch of the log. -/
def countK : List Ev → Nat
  | [] => 0
  | Ev.rx b :: l => (if b = HEXB_ACK then 1 else 0) + countK l
  | _ :: l => countK l

/-- Whether the decoder holds a `K` token that it has not dispatched yet
(1 if so, 0 if not). -/
def pendingK (s : HEXBUS) : Nat :=
  if s.m_isspace = false ∧ s.m_cmd = HEXB_ACK then 1 else 0

/-! ## The decoder between tokens, and what it makes of a datum -/

/-- The decoder holds no token that the next terminating character would
dispatch: either the last character was white space, or the current tag is none
of the tags the decoders act on.  This holds on a newly created engine and
after every token that ended with a newline. -/
def quiet (s : HEXBUS) : Prop :=
  s.m_isspace = true ∨
    (s.m_cmd ≠ HEXB_ADDR ∧ s.m_cmd ≠ HEXB_READ ∧ s.m_cmd ≠ HEXB_ACK ∧ s.m_cmd ≠ HEXB_INT ∧
      s.m_cmd ≠ HEXB_ERR ∧ s.m_cmd ≠ HEXB_IDLE ∧ s.m_cmd ≠ HEXB_RESET)

/-- The value `readword` accumulates over the significant digits of `v`,
starting from `word`. -/
def sigfold : Nat → Nat → Nat → Nat
  | 0, _, word => word
  | k + 1, v, word =>
    if v = 0 then word else (sigfold k (v / 16) word * 16 + v % 16) % 4294967296

/-- The engine after `readword` has returned one datum that ended in a
newline. -/
def afterDatum (s : HEXBUS) : HEXBUS :=
  { bump s with m_cmd := HEXB_READ, m_isspace := true }

/-- The engine after `n` such data. -/
def afterData : Nat → HEXBUS → HEXBUS
  | 0, s => s
  | n + 1, s => afterData n (afterDatum s)

/-- The log of a `readv` call that is answered datum by datum: the first
request (with `pre`, the address token if there is one, in front of it), the
characters of its datum, the next request, the characters of its datum, and so
on. -/
def readvTrace : List Nat → List Nat → List Ev
  | _, [] => []
  | pre, w :: ws =>
    Ev.tx (pre ++ [HEXB_READ, CH_NL]) :: ((encode_datum w).map Ev.rx ++ readvTrace [] ws)

/-- The number of `A` characters put on the wire in a stretch of the log.
Hexadecimal digits are written in lower case, so every `A` is the tag of an
address token. -/
def countA : List Ev → Nat
  | [] => 0
  | Ev.tx bytes :: l => bytes.count HEXB_ADDR + countA l
  | _ :: l => countA l

/-- A remote that answers two read requests with the word 5. -/
def twoData : Dev Unit := scripted (avail (encode_datum 5 ++ encode_datum 5))

/-- A stretch of the log in which the engine received nothing but the
characters of acknowledgement tokens, `K` and newline. -/
def ackOnly (l : List Ev) : Prop := ∀ b, Ev.rx b ∈ l → b = HEXB_ACK ∨ b = CH_NL

/-- The decoder holds no token other than possibly a `K`. -/
def calm (s : HEXBUS) : Prop :=
  s.m_isspace = true ∨
    (s.m_cmd ≠ HEXB_ADDR ∧ s.m_cmd ≠ HEXB_READ ∧ s.m_cmd ≠ HEXB_INT ∧ s.m_cmd ≠ HEXB_ERR ∧
      s.m_cmd ≠ HEXB_RESET)

/-- A remote that announces address `0x40`, fixed, and then acknowledges one
write. -/
def echoedAck : Dev Unit :=
  scripted (avail (HEXB_ADDR :: sprintf_08x 65 ++ CH_NL :: encode_ack))

/-- A remote, idle, whose memory holds 7 at every address. -/
def sevens : Remote := { mem := fun _ => 7, addr := 0, inc := false, cmd := 0, word := 0 }

/-! ## The interrupt flag, the bus-error flag and the interrupt wait -/

/-- `HEXBUS::poll`. -/
def HEXBUS.poll (s : HEXBUS) : Bool := s.m_interrupt_flag

/-- `HEXBUS::clear`. -/
def HEXBUS.clear (s : HEXBUS) : HEXBUS := { s with m_interrupt_flag := false }

/-- `HEXBUS::bus_err`. -/
def HEXBUS.bus_err (s : HEXBUS) : Bool := s.m_bus_err

/-- `HEXBUS::reset_err`. -/
def HEXBUS.reset_err (s : HEXBUS) : HEXBUS := { s with m_bus_err := false }

/-- One pass through the `for` loop of `usleep` over the character `c` of the
buffer. -/
def usleepByte (s : HEXBUS) (c : Nat) : HEXBUS :=
  if c = HEXB_INT then { s with m_interrupt_flag := true }
  else if c = HEXB_IDLE then s
  else if c = HEXB_ACK then s
  else if c = HEXB_RESET then { s with m_bus_err := false }
  else if c = HEXB_ERR then { s with m_bus_err := true }
  else s

/-- The `for` loop of `usleep` over the `nr` characters read. -/
def usleepScan (s : HEXBUS) (bytes : List Nat) : HEXBUS := bytes.foldl usleepByte s

/-- `m_dev->read(buf, max)` on a transport that has something available: the
bytes available at this moment, at most `max` of them, and what stays
unread. -/
def takeAvail : Nat → List (Option Nat) → List Nat × List (Option Nat)
  | 0, rx => ([], rx)
  | _ + 1, [] => ([], [])
  | _ + 1, none :: rest => ([], none :: rest)
  | k + 1, some b :: rest => (b :: (takeAvail k rest).1, (takeAvail k rest).2)

/-- `HEXBUS::usleep(ms)`.  `m_dev->poll(ms)` answers false when nothing comes
within the time slice (a `none` at the head of `rx`, or a stream that has ended
on a connection that is still open), and true when bytes are available or the
connection has been closed; in the latter case the `read` returns 0 and
`usleep` closes the transport and calls `exit(-1)`. -/
def usleep {ρ : Type} (s : HEXBUS) (d : Dev ρ) : Outcome Unit × HEXBUS × Dev ρ :=
  match d.rx with
  | [] => if d.closed then (Outcome.fatal, s, d) else (Outcome.ok (), s, d)
  | none :: rest => (Outcome.ok (), s, { d with rx := rest })
  | some _ :: _ =>
    (Outcome.ok (), usleepScan s (takeAvail 16 d.rx).1,
      { d with rx := (takeAvail 16 d.rx).2,
               log := d.log ++ (takeAvail 16 d.rx).1.map Ev.rx })

/-- The loop `do { usleep(200); } while(!m_interrupt_flag);` of `wait`.  The
first argument bounds the number of `usleep` calls; on a stream that has ended
without the flag being set, on a connection still open, the loop polls for
ever. -/
def waitLoop {ρ : Type} : Nat → HEXBUS → Dev ρ → Outcome Unit × HEXBUS × Dev ρ
  | 0, s, d => (Outcome.hang, s, d)
  | fuel + 1, s, d =>
    match usleep s d with
    | (Outcome.ok _, s1, d1) =>
      if s1.m_interrupt_flag then (Outcome.ok (), s1, d1)
      else if d1.rx = [] ∧ d1.closed = false then (Outcome.hang, s1, d1)
      else waitLoop fuel s1 d1
    | r => r

/-- `HEXBUS::wait`. -/
def wait {ρ : Type} (s : HEXBUS) (d : Dev ρ) : Outcome Unit × HEXBUS × Dev ρ :=
  waitLoop (d.rx.length + 2) s d

/-- The characters put on the wire in a stretch of the log, in order. -/
def txBytes : List Ev → List Nat
  | [] => []
  | Ev.tx bytes :: l => bytes ++ txBytes l
  | _ :: l => txBytes l

/-- A transport that the remote end has closed, with nothing left to read. -/
def closedDev : Dev Unit :=
  { respond := fun u _ => (u, []), rstate := (), rx := [], log := [], closed := true }

/-! ## The value of a token -/

/-- The word register of a decoder after the characters `ds`, all of them
hexadecimal digits, starting from `word`: each digit shifts the register by
four bits, within 32 bits, and fills in its nibble. -/
def hexfold (ds : List Nat) (word : Nat) : Nat :=
  ds.foldl (fun w c => (w * 16 + hexvalue [c]) % 4294967296) word

/-- A stretch of the log in which no `T` character was received. -/
def noReset (l : List Ev) : Prop := ∀ b, Ev.rx b ∈ l → b ≠ HEXB_RESET

/-- A stretch of the log in which neither an `A` nor a `T` character was
received. -/
def noEcho (l : List Ev) : Prop := ∀ b, Ev.rx b ∈ l → b ≠ HEXB_ADDR ∧ b ≠ HEXB_RESET

/-- The characters of `k` idle tokens, each `Z` and a newline. -/
def idles (k : Nat) : List Nat := (List.replicate k [HEXB_IDLE, CH_NL]).flatten

/-! ## Streams of tokens -/

/-- A token as it stands on the wire: the tag character, the hexadecimal digits
of the payload, and the white space that ends it. -/
structure WireToken where
  tag : Nat
  digits : List Nat
  sep : List Nat
deriving DecidableEq, Repr

/-- The characters of a token. -/
def WireToken.bytes (t : WireToken) : List Nat := t.tag :: (t.digits ++ t.sep)

/-- A token is well formed when its tag is neither a hexadecimal digit nor
white space, its payload consists of hexadecimal digits, and it ends in one or
more white-space characters. -/
def WireToken.wf (t : WireToken) : Prop :=
  isdigit t.tag = false ∧ isaf t.tag = false ∧ isspace t.tag = false ∧
    (∀ x ∈ t.digits, isdigit x = true ∨ isaf x = true) ∧ t.sep ≠ [] ∧
    ∀ x ∈ t.sep, isspace x = true

/-- The tag is none of `R`, `E`, `T`, `Z`. -/
def WireToken.plain (t : WireToken) : Prop :=
  t.tag ≠ HEXB_READ ∧ t.tag ≠ HEXB_ERR ∧ t.tag ≠ HEXB_RESET ∧ t.tag ≠ HEXB_IDLE

/-- The characters of a stream of tokens. -/
def wire (toks : List WireToken) : List Nat := toks.flatMap WireToken.bytes

/-- The number of idle tokens in a stream of tokens. -/
def countZ : List WireToken → Nat
  | [] => 0
  | t :: ts => (if t.tag = HEXB_IDLE then 1 else 0) + countZ ts

/-- A remote whose memory holds at every address the address itself. -/
def ramp : Remote := { mem := fun a => a, addr := 0, inc := false, cmd := 0, word := 0 }

/-! ## The command buffer -/

/-- The members `m_buf` and `m_buflen` of `class HEXBUS`: whether `m_buf` points
to a buffer, and the recorded length. -/
structure CmdBuf where
  m_buf : Bool
  m_buflen : Nat
deriving DecidableEq, Repr

/-- `HEXBUS::bufalloc(len)` for `0 <= len`, on 32-bit `int`: `-0x3f` is the bit
pattern `0xffffffc1`.  The sum `(len & -0x3f) + 0x40` is formed in `int`; where
it exceeds `INT_MAX` the behaviour is undefined and the result is `none`. -/
def bufalloc (b : CmdBuf) (len : Nat) : Option CmdBuf :=
  if b.m_buf = true ∧ len ≤ b.m_buflen then some b
  else if (len &&& 4294967233) + 64 ≤ 2147483647 then
    some { m_buf := true, m_buflen := (len &&& 4294967233) + 64 }
  else none

/-- The buffer part of `HEXBUS::init`: `m_buflen = 0; m_buf = NULL;
bufalloc(64);`. -/
def initBuf : Option CmdBuf := bufalloc { m_buf := false, m_buflen := 0 } 64

/-! ## The constellation display (`src/sw/constellation.cpp`) -/

/-- The row and column `(y, x)` at which the fill loop of `main` stores
`hbuf[k]`: `x = (k>>5) & 0x1f; y = k & 0x1f; con[y][x] = hbuf[k];`. -/
def fillIndex (k : Nat) : Nat × Nat := (k &&& 0x1f, (k >>> 5) &&& 0x1f)

/-- The table `con` after the first `n` passes of the fill loop, as the word
held at row `y`, column `x`; a cell not yet written holds `none`. -/
def fill (hbuf : Nat → Nat) : Nat → Nat → Nat → Option Nat
  | 0, _, _ => none
  | n + 1, y, x => if (y, x) = fillIndex n then some (hbuf n) else fill hbuf n y x

/-- The indices `(cy, cx)` with which the print loop reads `con` in its row
`y` and column `x`: `cy = y - 0x10`, `cx = x - 0x10`. -/
def printIndex (y x : Nat) : Int × Int := ((y : Int) - 0x10, (x : Int) - 0x10)

/-- The access `con[cy][cx]` to `int con[32][32]`: `none` when an index is
outside the table. -/
def readCon (con : Nat → Nat → Option Nat) (i : Int × Int) : Option Nat :=
  if 0 ≤ i.1 ∧ i.1 < 32 ∧ 0 ≤ i.2 ∧ i.2 < 32 then con i.1.toNat i.2.toNat else none

/-- What the print loop reads for its row `y` and column `x` once the fill loop
has run over the 1024 words of `hbuf`. -/
def printed (hbuf : Nat → Nat) (y x : Nat) : Option Nat :=
  readCon (fill hbuf 1024) (printIndex y x)

/-! ## The I2C slave simulator (`src/sim/i2csim.h`, `src/sim/i2csim.cpp`) -/

/-- The class `I2CBUS`: its two members are bit-fields of one bit. -/
structure I2CBUS where
  m_scl : Bool
  m_sda : Bool
deriving DecidableEq, Repr

/-- The conversion of an `int` to a bit-field of one bit: its low bit. -/
def lowbit (v : Nat) : Bool := decide (v % 2 = 1)

/-- The constructor `I2CBUS(int scl, int sda)`; without arguments both are 1. -/
def I2CBUS.ofInts (scl sda : Nat) : I2CBUS := { m_scl := lowbit scl, m_sda := lowbit sda }

/-- `I2CBUS::operator+`. -/
def I2CBUS.add (a b : I2CBUS) : I2CBUS :=
  I2CBUS.ofInts (a.m_scl.toNat &&& b.m_scl.toNat) (a.m_sda.toNat &&& b.m_sda.toNat)

/-- `I2CBUS::operator+=`: the value left in `*this`. -/
def I2CBUS.addAssign (a b : I2CBUS) : I2CBUS :=
  { m_scl := lowbit (a.m_scl.toNat &&& b.m_scl.toNat),
    m_sda := lowbit (a.m_sda.toNat &&& b.m_sda.toNat) }

/-- The enumeration `I2CSTATE`. -/
inductive I2CSTATE where
  | I2CIDLE
  | I2CDEVADDR
  | I2CDEVACK
  | I2CADDR
  | I2CSACK
  | I2CSRX
  | I2CSTX
  | I2CMACK
  | I2CLOSTBUS
  | I2CILLEGAL
deriving DecidableEq, Repr

/-- The data members of `class I2CSIMSLAVE`.  The `int` members are natural
numbers here (the simulator only ever stores non-negative values in them, given
line levels that are not negative), except `m_dreg`, which takes a sign-extended
`char` and holds the 32-bit two's complement pattern of its value; `m_data`
lists the `m_memsz` bytes of the memory as values below 256. -/
structure I2CSIMSLAVE where
  m_data : List Nat
  m_addr : Nat
  m_daddr : Nat
  m_abits : Nat
  m_dbits : Nat
  m_dreg : Nat
  m_ack : Nat
  m_last_sda : Nat
  m_last_scl : Nat
  m_counter : Nat
  m_devword : Nat
  m_memsz : Nat
  m_adrmsk : Nat
  m_devaddr : Nat
  m_illegal : Bool
  m_tick : Nat
  m_last_change_tick : Nat
  m_speed : Nat
  m_bus : I2CBUS
  m_state : I2CSTATE
deriving DecidableEq, Repr

/-- How a call into the simulator ends: it returns, or an `assert` fails, or
`m_data` is indexed at `index` outside `[0, m_memsz)`. -/
inductive SimOut (α : Type) where
  | ok (v : α)
  | assert_failed
  | outside (index : Nat)
deriving DecidableEq, Repr

/-- The constructor `I2CSIMSLAVE(ADDRESS, nbits)`.  It assigns no value to
`m_abits`, `m_dbits`, `m_dreg`, `m_ack`, `m_counter` and `m_devword`: whatever
they hold is given by the last six arguments. -/
def I2CSIMSLAVE.new (ADDRESS nbits abits0 dbits0 dreg0 ack0 counter0 devword0 : Nat) :
    I2CSIMSLAVE :=
  { m_data := List.replicate (1 <<< nbits) 0, m_addr := 0, m_daddr := 0, m_abits := abits0,
    m_dbits := dbits0, m_dreg := dreg0, m_ack := ack0, m_last_sda := 1, m_last_scl := 1,
    m_counter := counter0, m_devword := devword0, m_memsz := 1 <<< nbits,
    m_adrmsk := (1 <<< nbits) - 1, m_devaddr := ADDRESS, m_illegal := false, m_tick := 0,
    m_last_change_tick := 0, m_speed := 20, m_bus := I2CBUS.ofInts 1 1,
    m_state := I2CSTATE.I2CIDLE }

/-- `I2CSIMSLAVE::read(void)`: `vl = m_data[m_daddr]`, then
`m_daddr = (m_daddr+1)&m_adrmsk`. -/
def I2CSIMSLAVE.read (s : I2CSIMSLAVE) : SimOut (Nat × I2CSIMSLAVE) :=
  if s.m_daddr < s.m_memsz then
    SimOut.ok (s.m_data.getD s.m_daddr 0, { s with m_daddr := (s.m_daddr + 1) &&& s.m_adrmsk })
  else SimOut.outside s.m_daddr

/-- `I2CSIMSLAVE::write(addr, data)`: `m_daddr = addr & m_adrmsk`, then
`m_data[m_daddr] = data`. -/
def I2CSIMSLAVE.write (s : I2CSIMSLAVE) (addr data : Nat) : SimOut I2CSIMSLAVE :=
  if addr &&& s.m_adrmsk < s.m_memsz then
    SimOut.ok { s with m_daddr := addr &&& s.m_adrmsk,
                       m_data := s.m_data.set (addr &&& s.m_adrmsk) (data % 256) }
  else SimOut.outside (addr &&& s.m_adrmsk)
/-- The conversion to `int` of a `char` that holds the byte `v` (plain `char` is
signed): the 32-bit two's complement pattern of the sign-extended value, so
`0xab` gives `0xffffffab`, which is -85. -/
def signExtend (v : Nat) : Nat := if v % 256 < 128 then v % 256 else v % 256 + 4294967040

/-- The `switch(m_state)` of `I2CSIMSLAVE::operator()`, entered with `m_bus`
already set to `(1, 1)`; `r` is the local `I2CBUS r(scl, sda)`.  The call
`getack(m_addr)` sets `m_ack = 0` and returns it; the `char` that `read()`
returns is sign-extended when it is assigned to `m_dreg`. -/
def I2CSIMSLAVE.dispatch (s : I2CSIMSLAVE) (scl sda : Nat) (r : I2CBUS) :
    SimOut I2CSIMSLAVE :=
  match s.m_state with
  | I2CSTATE.I2CIDLE =>
    if scl = 0 then SimOut.ok { s with m_state := I2CSTATE.I2CILLEGAL }
    else if sda = 0 then
      SimOut.ok { s with m_state := I2CSTATE.I2CDEVADDR, m_addr := 0, m_abits := 0,
                         m_ack := 1, m_dbits := 0 }
    else SimOut.ok s
  | I2CSTATE.I2CDEVADDR =>
    if scl ≠ 0 ∧ s.m_last_scl = 0 then
      if s.m_abits + 1 = 8 then
        if (((s.m_addr <<< 1) ||| sda) &&& 0x0ff) >>> 1 = s.m_devaddr then
          SimOut.ok { s with m_addr := ((s.m_addr <<< 1) ||| sda) &&& 0x0ff,
                             m_abits := s.m_abits + 1, m_state := I2CSTATE.I2CDEVACK,
                             m_ack := 0, m_devword := ((s.m_addr <<< 1) ||| sda) &&& 0x0ff,
                             m_counter := 0 }
        else
          SimOut.ok { s with m_addr := ((s.m_addr <<< 1) ||| sda) &&& 0x0ff,
                             m_abits := s.m_abits + 1, m_state := I2CSTATE.I2CLOSTBUS,
                             m_counter := 0 }
      else
        SimOut.ok { s with m_addr := (s.m_addr <<< 1) ||| sda, m_abits := s.m_abits + 1,
                           m_counter := 0 }
    else if scl ≠ 0 then
      if sda = s.m_last_sda then SimOut.ok s else SimOut.assert_failed
    else SimOut.ok s
  | I2CSTATE.I2CDEVACK =>
    if s.m_counter = 0 ∧ r.m_scl = true then SimOut.ok { s with m_dbits := 0 }
    else if scl ≠ 0 ∧ r.m_sda = false then SimOut.assert_failed
    else if s.m_counter < 400 then
      SimOut.ok { s with m_bus := { m_scl := false, m_sda := lowbit s.m_ack },
                         m_counter := s.m_counter + 1, m_dbits := 0 }
    else if r.m_scl = false ∧ s.m_last_scl ≠ 0 then
      if s.m_devword &&& 1 ≠ 0 then
        match I2CSIMSLAVE.read { s with m_bus := { s.m_bus with m_sda := lowbit s.m_ack },
                                        m_counter := s.m_counter + 1,
                                        m_state := I2CSTATE.I2CSTX } with
        | SimOut.ok (vl, s1) => SimOut.ok { s1 with m_dreg := signExtend vl, m_dbits := 0 }
        | SimOut.assert_failed => SimOut.assert_failed
        | SimOut.outside i => SimOut.outside i
      else
        SimOut.ok { s with m_bus := { s.m_bus with m_sda := lowbit s.m_ack },
                           m_counter := s.m_counter + 1, m_state := I2CSTATE.I2CADDR,
                           m_abits := 0, m_addr := 0, m_dbits := 0 }
    else
      SimOut.ok { s with m_bus := { s.m_bus with m_sda := lowbit s.m_ack },
                         m_counter := s.m_counter + 1, m_dbits := 0 }
  | I2CSTATE.I2CADDR =>
    if scl ≠ 0 ∧ s.m_last_scl = 0 then
      if s.m_abits + 1 ≥ 8 then
        SimOut.ok { s with m_addr := (s.m_addr <<< 1) ||| sda, m_abits := s.m_abits + 1,
                           m_state := I2CSTATE.I2CSACK, m_daddr := (s.m_addr <<< 1) ||| sda,
                           m_ack := 0, m_counter := 0 }
      else
        SimOut.ok { s with m_addr := (s.m_addr <<< 1) ||| sda, m_abits := s.m_abits + 1,
                           m_counter := 0 }
    else if scl ≠ 0 then
      if sda = s.m_last_sda then SimOut.ok s else SimOut.assert_failed
    else SimOut.ok s
  | I2CSTATE.I2CSACK =>
    if s.m_counter = 0 ∧ r.m_scl = true then SimOut.ok { s with m_dbits := 0 }
    else if r.m_scl = true ∧ r.m_sda = false then SimOut.assert_failed
    else if s.m_counter < 400 then
      SimOut.ok { s with m_bus := { m_scl := false, m_sda := lowbit s.m_ack },
                         m_counter := s.m_counter + 1, m_dbits := 0 }
    else if r.m_scl = false ∧ s.m_last_scl ≠ 0 then
      SimOut.ok { s with m_bus := { s.m_bus with m_sda := lowbit s.m_ack },
                         m_counter := s.m_counter + 1, m_state := I2CSTATE.I2CSRX,
                         m_dbits := 0 }
    else
      SimOut.ok { s with m_bus := { s.m_bus with m_sda := lowbit s.m_ack },
                         m_counter := s.m_counter + 1, m_dbits := 0 }
  | I2CSTATE.I2CSRX =>
    if r.m_scl = true then
      if s.m_last_scl ≠ 0 then
        if sda = s.m_last_sda then SimOut.ok { s with m_counter := 0 }
        else SimOut.assert_failed
      else if s.m_dbits + 1 = 8 then
        match I2CSIMSLAVE.write
            { s with m_dreg := ((s.m_dreg <<< 1) ||| r.m_sda.toNat) &&& 0x0ff,
                     m_dbits := s.m_dbits + 1, m_state := I2CSTATE.I2CSACK }
            s.m_addr (((s.m_dreg <<< 1) ||| r.m_sda.toNat) &&& 0x0ff) with
        | SimOut.ok s1 =>
          SimOut.ok { s1 with m_addr := (s1.m_addr + 1) &&& s1.m_adrmsk, m_counter := 0 }
        | SimOut.assert_failed => SimOut.assert_failed
        | SimOut.outside i => SimOut.outside i
      else
        SimOut.ok { s with m_dreg := ((s.m_dreg <<< 1) ||| r.m_sda.toNat) &&& 0x0ff,
                           m_dbits := s.m_dbits + 1, m_counter := 0 }
    else SimOut.ok s
  | I2CSTATE.I2CSTX =>
    if r.m_scl = true then
      SimOut.ok { s with m_counter := if s.m_counter = 0 then s.m_counter else s.m_counter + 1,
                         m_bus := { s.m_bus with m_sda := lowbit s.m_last_sda } }
    else if s.m_last_scl = 0 then
      SimOut.ok { s with m_counter := s.m_counter + 1,
                         m_bus := { s.m_bus with
                           m_sda := lowbit (s.m_dreg >>> (7 - (s.m_dbits &&& 0x07))) } }
    else if s.m_dbits + 1 = 8 then
      SimOut.ok { s with m_counter := s.m_counter + 1,
                         m_bus := { s.m_bus with m_sda := lowbit s.m_last_sda },
                         m_state := I2CSTATE.I2CMACK, m_dbits := 0 }
    else
      SimOut.ok { s with m_counter := s.m_counter + 1,
                         m_bus := { s.m_bus with m_sda := lowbit s.m_last_sda },
                         m_dbits := s.m_dbits + 1 }
  | I2CSTATE.I2CMACK =>
    if r.m_scl = false ∧ s.m_last_scl ≠ 0 then
      if sda = 0 then
        match I2CSIMSLAVE.read { s with m_state := I2CSTATE.I2CSTX } with
        | SimOut.ok (vl, s1) => SimOut.ok { s1 with m_dreg := signExtend vl, m_dbits := 0 }
        | SimOut.assert_failed => SimOut.assert_failed
        | SimOut.outside i => SimOut.outside i
      else SimOut.ok { s with m_state := I2CSTATE.I2CILLEGAL, m_dbits := 0 }
    else SimOut.ok { s with m_dbits := 0 }
  | I2CSTATE.I2CLOSTBUS => SimOut.ok { s with m_state := I2CSTATE.I2CLOSTBUS }
  | I2CSTATE.I2CILLEGAL =>
    if s.m_illegal = false then SimOut.assert_failed
    else SimOut.ok { s with m_bus := { m_scl := true, m_sda := true } }

/-- The end of `I2CSIMSLAVE::operator()`: `m_tick++; r += m_bus;`, the record of
the last change, `m_last_scl = r.m_scl; m_last_sda = r.m_sda; return r;`. -/
def I2CSIMSLAVE.finish (s : I2CSIMSLAVE) (r : I2CBUS) : I2CBUS × I2CSIMSLAVE :=
  (r.addAssign s.m_bus,
   { s with m_tick := (s.m_tick + 1) % 18446744073709551616,
            m_last_change_tick :=
              if (r.addAssign s.m_bus).m_scl.toNat ≠ s.m_last_scl
                  ∨ (r.addAssign s.m_bus).m_sda.toNat ≠ s.m_last_sda
              then (s.m_tick + 1) % 18446744073709551616 else s.m_last_change_tick,
            m_last_scl := (r.addAssign s.m_bus).m_scl.toNat,
            m_last_sda := (r.addAssign s.m_bus).m_sda.toNat })

/-- `I2CSIMSLAVE::operator()(int scl, int sda)` for line levels that are not
negative; a failed `assert` ends the call. -/
def I2CSIMSLAVE.call (s : I2CSIMSLAVE) (scl sda : Nat) : SimOut (I2CBUS × I2CSIMSLAVE) :=
  if scl &&& s.m_bus.m_scl.toNat ≠ 0 ∧ s.m_last_scl ≠ 0 ∧ sda &&& s.m_bus.m_sda.toNat ≠ 0
      ∧ s.m_last_sda = 0 then
    SimOut.ok (I2CSIMSLAVE.finish
      { s with m_state := I2CSTATE.I2CIDLE, m_illegal := false,
               m_bus := { m_scl := true, m_sda := true } } (I2CBUS.ofInts scl sda))
  else
    match I2CSIMSLAVE.dispatch { s with m_bus := { m_scl := true, m_sda := true } } scl sda
        (I2CBUS.ofInts scl sda) with
    | SimOut.ok s1 => SimOut.ok (I2CSIMSLAVE.finish s1 (I2CBUS.ofInts scl sda))
    | SimOut.assert_failed => SimOut.assert_failed
    | SimOut.outside i => SimOut.outside i

/-- The slave called once for every pair `(scl, sda)` of a list, in order. -/
def I2CSIMSLAVE.run (s : I2CSIMSLAVE) : List (Nat × Nat) → SimOut I2CSIMSLAVE
  | [] => SimOut.ok s
  | (scl, sda) :: rest =>
    match I2CSIMSLAVE.call s scl sda with
    | SimOut.ok (_, s1) => I2CSIMSLAVE.run s1 rest
    | SimOut.assert_failed => SimOut.assert_failed
    | SimOut.outside i => SimOut.outside i

/-- A master clocks one bit out: the level set while the clock is low, the
clock raised, the clock lowered. -/
def clockBit (b : Nat) : List (Nat × Nat) := [(0, b), (1, b), (0, b)]

/-- A master clocks the bits of a byte out, the most significant first. -/
def clockByte (bits : List Nat) : List (Nat × Nat) := bits.flatMap clockBit

/-- A master releases the data line, waits 400 calls with the clock low, then
raises and lowers the clock to take the acknowledgement. -/
def awaitAck : List (Nat × Nat) := List.replicate 400 (0, 1) ++ [(1, 1), (0, 1)]

/-- A start condition from an idle bus: the data line falls while the clock is
high, then the clock is lowered. -/
def startBit : List (Nat × Nat) := [(1, 1), (1, 0), (0, 0)]

/-- A stop condition: the data line rises while the clock is high. -/
def stopBit : List (Nat × Nat) := [(0, 0), (1, 0), (1, 1)]

/-- A master addresses the device `0x50` for writing, sends the register address
whose bits are `reg`, stops, then addresses the device for reading and takes
its acknowledgement. -/
def setAddressThenRead (reg : List Nat) : List (Nat × Nat) :=
  startBit ++ clockByte [1, 0, 1, 0, 0, 0, 0, 0] ++ awaitAck ++ clockByte reg ++ awaitAck
    ++ stopBit ++ startBit ++ clockByte [1, 0, 1, 0, 0, 0, 0, 1] ++ awaitAck

/-! # Properties of the engine -/

theorem lclreadcode_one (b : Nat) : (lclreadcode [b]).1.getD 0 0 = b := by
  unfold lclreadcode
  simp only [List.length_singleton, lclreadcodeLoop]
  split <;> simp [lclreadcodeLoop]

theorem accum_eq (word nib : Nat) (h : nib < 16) :
    u32 (word <<< 4) ||| nib = (word * 16 + nib) % 4294967296 := by
  have h1 : u32 (word <<< 4) = 2 ^ 4 * (word % 268435456) := by
    unfold u32
    rw [Nat.shiftLeft_eq]
    omega
  rw [h1, ← Nat.mul_add_lt_is_or (by simpa using h)]
  omega

theorem hexdigit_digit (n : Nat) (h : n < 10) :
    isdigit (hexdigit n) = true ∧ hexdigit n &&& 0x0f = n := by
  interval_cases n <;> decide

theorem hexdigit_af (n : Nat) (h : 10 ≤ n) (h2 : n < 16) :
    isdigit (hexdigit n) = false ∧ isaf (hexdigit n) = true
      ∧ (hexdigit n - 97 + 10) &&& 0x0f = n := by
  interval_cases n <;> decide

theorem u32_of_lt {x : Nat} (h : x < 4294967296) : u32 x = x := Nat.mod_eq_of_lt h

theorem waitAcks_ok {ρ : Type} (fuel target : Nat) (s : HEXBUS) (d : Dev ρ)
    (s1 : HEXBUS) (d1 : Dev ρ) (u : Unit)
    (h : waitAcks fuel target s d = (Outcome.ok u, s1, d1)) : target ≤ s1.m_nacks := by
  induction fuel generalizing s d with
  | zero =>
    unfold waitAcks at h
    split at h
    · simp at h
    · simp only [Prod.mk.injEq] at h
      obtain ⟨-, rfl, -⟩ := h
      omega
  | succ k ih =>
    unfold waitAcks at h
    split at h
    · split at h
      · simp at h
      · split at h
        · exact ih _ _ h
        · rename_i r hr
          rcases r with ⟨o, s2, d2⟩
          cases o <;> simp_all
    · simp only [Prod.mk.injEq] at h
      obtain ⟨-, rfl, -⟩ := h
      omega

/-- C3: when `readv(a, inc, len)` with `len ≥ 1` returns normally,
`m_lastaddr` is `a + 4*len` (modulo `2^32`) if `inc` is set and `a` otherwise;
and when the read loop has received all `len` data but the tokens decoded on the
way left `m_lastaddr` at any other value, `readv` does not return: it ends the
process (failed `assert` / `exit(EXIT_FAILURE)`). -/
theorem readv_post_or_fatal {ρ : Type} (a : Nat) (inc : Bool) (len : Nat) (s : HEXBUS)
    (d : Dev ρ) (ha : a < 4294967296) (hlen : 1 ≤ len) :
    (∀ buf s1 d1, readv a inc len s d = (Outcome.ok (), buf, s1, d1) →
        s1.m_lastaddr = if inc then u32 (a + 4 * len) else a) ∧
    (∀ buf s1 d1,
        readvLoop len (encode_address s (a ||| (if inc then 0 else 1))) []
          { s with m_lastaddr := a, m_addr_set := true, m_inc := inc } d
          = (Outcome.ok (), buf, s1, d1) →
        s1.m_lastaddr ≠ (if inc then u32 (a + 4 * len) else a) →
        readv a inc len s d = (Outcome.fatal, buf, s1, d1)) := by
  have hexp : u32 (a + (if inc then len <<< 2 else 0)) = if inc then u32 (a + 4 * len) else a := by
    cases inc
    · simp [u32_of_lt ha]
    · simp [Nat.shiftLeft_eq]; congr 1; omega
  have hne : len ≠ 0 := by omega
  rcases hL : readvLoop len (encode_address s (a ||| (if inc then 0 else 1))) []
      { s with m_lastaddr := a, m_addr_set := true, m_inc := inc } d with ⟨o, b, s2, d2⟩
  constructor
  · intro buf s1 d1 h
    unfold readv at h
    rw [if_neg hne, hL] at h
    cases o
    · rw [hexp] at h
      by_cases hc : s2.m_lastaddr = (if inc then u32 (a + 4 * len) else a)
      · dsimp only at h
        rw [if_neg (not_not.mpr hc)] at h
        simp only [Prod.mk.injEq, true_and] at h
        obtain ⟨-, rfl, -⟩ := h
        exact hc
      · dsimp only at h
        rw [if_pos hc] at h
        simp at h
    · simp at h
    · simp at h
    · simp at h
  · intro buf s1 d1 h hbad
    simp only [Prod.mk.injEq] at h
    obtain ⟨rfl, rfl, rfl, rfl⟩ := h
    unfold readv
    rw [if_neg hne, hL]
    simp only
    rw [hexp, if_pos hbad]

/-- Witness for C3: against a remote that announces the wrong address `0x40`
before its datum, `readv(0x100, 1, 1)` ends the process; against one that only
sends the datum it returns with `last_address = 0x104`. -/
theorem readv_post_or_fatal_witness :
    (readv 256 true 1 fresh echoed).1 = Outcome.fatal ∧
    (readv 256 true 1 fresh (scripted (avail (encode_datum 5)))).2.2.1.m_lastaddr = 260 :=
  ⟨congrArg Prod.fst
      ((readv_post_or_fatal 256 true 1 fresh echoed (by decide) (by decide)).2 [5] _ _ rfl
        (by decide)),
    (readv_post_or_fatal 256 true 1 fresh (scripted (avail (encode_datum 5))) (by decide)
      (by decide)).1 _ _ _ rfl⟩

/-! ## The log only grows, and the decoders only add received bytes to it -/

theorem onlyRx_nil : onlyRx [] := by
  intro e he; simp at he

theorem onlyRx_append {l1 l2 : List Ev} (h1 : onlyRx l1) (h2 : onlyRx l2) :
    onlyRx (l1 ++ l2) := by
  intro e he
  rcases List.mem_append.mp he with h | h
  · exact h1 e h
  · exact h2 e h

theorem onlyRx_single (b : Nat) : onlyRx [Ev.rx b] := by
  intro e he
  simp only [List.mem_singleton] at he
  exact ⟨b, he⟩

theorem countTx_append (l1 l2 : List Ev) : countTx (l1 ++ l2) = countTx l1 + countTx l2 := by
  induction l1 with
  | nil => simp [countTx]
  | cons e l ih =>
    cases e <;> simp [countTx, ih]
    omega

theorem countTx_onlyRx {l : List Ev} (h : onlyRx l) : countTx l = 0 := by
  induction l with
  | nil => rfl
  | cons e l ih =>
    obtain ⟨b, rfl⟩ := h e (List.mem_cons_self _ _)
    simp only [countTx]
    exact ih (fun e he => h e (List.mem_cons_of_mem _ he))

theorem readidleLoop_log (s : HEXBUS) (word : Nat) (rx : List (Option Nat)) (log : List Ev) :
    ∃ ext, (readidleLoop s word rx log).2.2.2 = log ++ ext ∧ onlyRx ext := by
  induction rx generalizing s word log with
  | nil => exact ⟨[], by simp [readidleLoop], onlyRx_nil⟩
  | cons x rest ih =>
    cases x with
    | none => exact ⟨[], by simp [readidleLoop], onlyRx_nil⟩
    | some b =>
      unfold readidleLoop
      rcases hstep : readidleStep s word ((lclreadcode [b]).1.getD 0 0) with ⟨s1, w1, f⟩
      cases f with
      | next =>
        obtain ⟨ext, h1, h2⟩ := ih s1 w1 (log ++ [Ev.rx b])
        refine ⟨Ev.rx b :: ext, ?_, ?_⟩
        · simp only [h1]; simp
        · exact onlyRx_append (onlyRx_single b) h2
      | done r => exact ⟨[Ev.rx b], rfl, onlyRx_single b⟩
      | throw a => exact ⟨[Ev.rx b], rfl, onlyRx_single b⟩

theorem readidleLoop_length (s : HEXBUS) (word : Nat) (rx : List (Option Nat)) (log : List Ev)
    (h : rx ≠ []) : (readidleLoop s word rx log).2.2.1.length < rx.length := by
  induction rx generalizing s word log with
  | nil => exact absurd rfl h
  | cons x rest ih =>
    cases x with
    | none => simp [readidleLoop]
    | some b =>
      unfold readidleLoop
      rcases hstep : readidleStep s word ((lclreadcode [b]).1.getD 0 0) with ⟨s1, w1, f⟩
      cases f with
      | next =>
        simp only [List.length_cons]
        cases rest with
        | nil => simp [readidleLoop]
        | cons y ys =>
          have := ih s1 w1 (log ++ [Ev.rx b]) (by simp)
          simp only [List.length_cons] at this ⊢
          omega
      | done r => simp
      | throw a => simp

theorem readidle_log {ρ : Type} (s : HEXBUS) (d : Dev ρ) :
    ∃ ext, (readidle s d).2.2.log = d.log ++ ext ∧ onlyRx ext := by
  obtain ⟨ext, h1, h2⟩ := readidleLoop_log s 0 d.rx d.log
  exact ⟨ext, by simpa [readidle] using h1, h2⟩

theorem readidle_length {ρ : Type} (s : HEXBUS) (d : Dev ρ) (h : d.rx ≠ []) :
    (readidle s d).2.2.rx.length < d.rx.length := by
  simpa [readidle] using readidleLoop_length s 0 d.rx d.log h

theorem waitAcks_log {ρ : Type} (fuel target : Nat) (s : HEXBUS) (d : Dev ρ) :
    ∃ ext, (waitAcks fuel target s d).2.2.log = d.log ++ ext ∧ onlyRx ext := by
  induction fuel generalizing s d with
  | zero =>
    unfold waitAcks
    split <;> exact ⟨[], by simp, onlyRx_nil⟩
  | succ k ih =>
    unfold waitAcks
    split
    · split
      · exact ⟨[], by simp, onlyRx_nil⟩
      · obtain ⟨e1, h1, h2⟩ := readidle_log s d
        rcases hr : readidle s d with ⟨o, s1, d1⟩
        rw [hr] at h1
        cases o with
        | ok u =>
          obtain ⟨e2, h3, h4⟩ := ih s1 d1
          refine ⟨e1 ++ e2, ?_, onlyRx_append h2 h4⟩
          simp only [h3]
          simp only [] at h1
          rw [h1, List.append_assoc]
        | buserr a => exact ⟨e1, h1, h2⟩
        | fatal => exact ⟨e1, h1, h2⟩
        | hang => exact ⟨e1, h1, h2⟩
    · exact ⟨[], by simp, onlyRx_nil⟩

/-- The bound on the number of `readidle` calls never cuts the waiting loop
short: any two bounds above the length of the inbound stream give the same
run. -/
theorem waitAcks_fuel {ρ : Type} (f1 f2 target : Nat) (s : HEXBUS) (d : Dev ρ)
    (h1 : d.rx.length < f1) (h2 : d.rx.length < f2) :
    waitAcks f1 target s d = waitAcks f2 target s d := by
  induction f1 generalizing f2 s d with
  | zero => omega
  | succ k ih =>
    cases f2 with
    | zero => omega
    | succ j =>
      unfold waitAcks
      split
      · split
        · rfl
        · rename_i hne
          have hlen := readidle_length s d hne
          rcases hr : readidle s d with ⟨o, s1, d1⟩
          rw [hr] at hlen
          cases o with
          | ok u => exact ih j s1 d1 (by simp only [] at hlen; omega) (by simp only [] at hlen; omega)
          | buserr a => rfl
          | fatal => rfl
          | hang => rfl
      · rfl

/-! ## The acknowledgement counter during `writev` -/

theorem subsOK_onlyRx (n : Nat) {l : List Ev} (h : onlyRx l) : subsOK n l := by
  induction l with
  | nil => trivial
  | cons e l ih =>
    obtain ⟨b, rfl⟩ := h e (List.mem_cons_self _ _)
    simp only [subsOK]
    exact ih (fun e he => h e (List.mem_cons_of_mem _ he))

theorem subsOK_append (n : Nat) (l1 l2 : List Ev) (h1 : subsOK n l1)
    (h2 : subsOK (n + countTx l1) l2) : subsOK n (l1 ++ l2) := by
  induction l1 generalizing n with
  | nil => simpa [countTx] using h2
  | cons e l ih =>
    cases e with
    | tx b =>
      simp only [subsOK, List.cons_append] at h1 ⊢
      exact ih (n + 1) h1 (by simpa [countTx, Nat.add_assoc, Nat.add_comm 1] using h2)
    | rx b =>
      simp only [subsOK, List.cons_append] at h1 ⊢
      exact ih n h1 (by simpa [countTx] using h2)
    | sub nw k =>
      simp only [subsOK, List.cons_append] at h1 ⊢
      obtain ⟨e1, e2, ⟨bytes, l2', e3⟩, e4⟩ := h1
      refine ⟨e1, e2, ⟨bytes, l2' ++ l2, by simp [e3]⟩, ?_⟩
      exact ih n e4 (by simpa [countTx] using h2)

theorem subsOK_split (n : Nat) (pre post : List Ev) (nw k : Nat)
    (h : subsOK n (pre ++ Ev.sub nw k :: post)) :
    n + countTx pre = nw ∧ nw ≤ k + 1 ∧ ∃ bytes post2, post = Ev.tx bytes :: post2 := by
  induction pre generalizing n with
  | nil =>
    simp only [List.nil_append, subsOK] at h
    exact ⟨by simpa [countTx] using h.1, h.2.1, h.2.2.1⟩
  | cons e l ih =>
    cases e with
    | tx b =>
      simp only [subsOK, List.cons_append] at h
      obtain ⟨e1, e2, e3⟩ := ih (n + 1) h
      exact ⟨by simp only [countTx]; omega, e2, e3⟩
    | rx b =>
      simp only [subsOK, List.cons_append] at h
      obtain ⟨e1, e2, e3⟩ := ih n h
      exact ⟨by simpa [countTx] using e1, e2, e3⟩
    | sub nw2 k2 =>
      simp only [subsOK, List.cons_append] at h
      obtain ⟨e1, e2, e3⟩ := ih n h.2.2.2
      exact ⟨by simpa [countTx] using e1, e2, e3⟩

theorem writevLoop_subs {ρ : Type} (buf : List Nat) (nw : Nat) (pre : List Nat) (s : HEXBUS)
    (d : Dev ρ) (h : nw ≤ s.m_nacks + 1) :
    ∃ ext, (writevLoop buf nw pre s d).2.2.log = d.log ++ ext ∧ subsOK nw ext := by
  induction buf generalizing nw pre s d with
  | nil => exact ⟨[], by simp [writevLoop], trivial⟩
  | cons v rest ih =>
    unfold writevLoop
    generalize hd0 : (d.note (Ev.sub nw s.m_nacks)).write (pre ++ encode_word v) = d0
    have hlog0 : d0.log = d.log ++ [Ev.sub nw s.m_nacks, Ev.tx (pre ++ encode_word v)] := by
      rw [← hd0]; simp [Dev.write, Dev.note]
    obtain ⟨e1, h1, h2⟩ := waitAcks_log (d0.rx.length + 1) nw s d0
    rcases hw : waitAcks (d0.rx.length + 1) nw s d0 with ⟨o, s1, d1⟩
    rw [hw] at h1
    simp only [] at h1
    have hfirst : ∀ tail, subsOK (nw + 1) tail →
        subsOK nw (Ev.sub nw s.m_nacks :: Ev.tx (pre ++ encode_word v) :: tail) := by
      intro tail ht
      simp only [subsOK]
      exact ⟨trivial, h, ⟨_, _, rfl⟩, ht⟩
    cases o with
    | ok u =>
      have hn := waitAcks_ok _ _ _ _ _ _ u hw
      obtain ⟨e2, h3, h4⟩ := ih (nw + 1) [] s1 d1 (by omega)
      refine ⟨Ev.sub nw s.m_nacks :: Ev.tx (pre ++ encode_word v) :: (e1 ++ e2), ?_, ?_⟩
      · simp only [h3, h1, hlog0]; simp
      · exact hfirst _ (subsOK_append _ _ _ (subsOK_onlyRx _ h2)
          (by simpa [countTx_onlyRx h2] using h4))
    | buserr a =>
      exact ⟨Ev.sub nw s.m_nacks :: Ev.tx (pre ++ encode_word v) :: e1,
        by simp only [h1, hlog0]; simp, hfirst _ (subsOK_onlyRx _ h2)⟩
    | fatal =>
      exact ⟨Ev.sub nw s.m_nacks :: Ev.tx (pre ++ encode_word v) :: e1,
        by simp only [h1, hlog0]; simp, hfirst _ (subsOK_onlyRx _ h2)⟩
    | hang =>
      exact ⟨Ev.sub nw s.m_nacks :: Ev.tx (pre ++ encode_word v) :: e1,
        by simp only [h1, hlog0]; simp, hfirst _ (subsOK_onlyRx _ h2)⟩

theorem writev_subs {ρ : Type} (a : Nat) (p : Bool) (buf : List Nat) (s : HEXBUS) (d : Dev ρ) :
    ∃ ext, (writev a p buf s d).2.2.log = d.log ++ ext ∧ subsOK 0 ext := by
  obtain ⟨e1, h1, h2⟩ := writevLoop_subs buf 0 (encode_address s (a ||| (if p then 0 else 1)))
    { s with m_lastaddr := a, m_addr_set := true, m_nacks := 0 } d (by simp)
  unfold writev
  rcases hL : writevLoop buf 0 (encode_address s (a ||| (if p then 0 else 1)))
    { s with m_lastaddr := a, m_addr_set := true, m_nacks := 0 } d with ⟨o, s1, d1⟩
  rw [hL] at h1
  simp only [] at h1
  cases o with
  | ok u =>
    simp only []
    obtain ⟨e2, h3, h4⟩ := waitAcks_log (d1.rx.length + 1) buf.length s1 d1
    rcases hw : waitAcks (d1.rx.length + 1) buf.length s1 d1 with ⟨o2, s2, d2⟩
    rw [hw] at h3
    simp only [] at h3
    have hall : d2.log = d.log ++ (e1 ++ e2) ∧ subsOK 0 (e1 ++ e2) :=
      ⟨by rw [h3, h1, List.append_assoc], subsOK_append _ _ _ h2 (subsOK_onlyRx _ h4)⟩
    cases o2 <;> exact ⟨e1 ++ e2, hall.1, hall.2⟩
  | buserr a => exact ⟨e1, h1, h2⟩
  | fatal => exact ⟨e1, h1, h2⟩
  | hang => exact ⟨e1, h1, h2⟩

/-- C6 (invariant I2): in every `writev` call, whatever the remote sends and
whenever it sends it, at each moment right before a word is transmitted (the
moment of the `WRITEV-SUB` record, which carries the word index `nw` and the
acknowledgement counter `k`), the number of words already transmitted in this
call is `nw`, and it exceeds the number of acknowledgements counted in this call
by at most 1. -/
theorem writev_unacked_before_send {ρ : Type} (a : Nat) (p : Bool) (buf : List Nat)
    (s : HEXBUS) (d : Dev ρ) :
    ∃ ext, (writev a p buf s d).2.2.log = d.log ++ ext ∧
      ∀ pre post nw k, ext = pre ++ Ev.sub nw k :: post →
        countTx pre = nw ∧ nw - k ≤ 1 := by
  obtain ⟨ext, h1, h2⟩ := writev_subs a p buf s d
  refine ⟨ext, h1, ?_⟩
  intro pre post nw k he
  rw [he] at h2
  obtain ⟨e1, e2, -⟩ := subsOK_split 0 pre post nw k h2
  exact ⟨by omega, by omega⟩

/-- C5, as amended: in every `writev` call and on every schedule of the remote,
each `WRITEV-SUB` record is followed at once by the transmission of its word;
right after that transmission the number of words transmitted exceeds the
acknowledgement counter by at most 2, and word `nw` is transmitted only after
the counter has reached `nw - 1`. -/
theorem writev_unacked_after_send {ρ : Type} (a : Nat) (p : Bool) (buf : List Nat)
    (s : HEXBUS) (d : Dev ρ) :
    ∃ ext, (writev a p buf s d).2.2.log = d.log ++ ext ∧
      ∀ pre post nw k, ext = pre ++ Ev.sub nw k :: post →
        ∃ bytes post2, post = Ev.tx bytes :: post2 ∧
          countTx (pre ++ [Ev.sub nw k, Ev.tx bytes]) - k ≤ 2 ∧ nw - 1 ≤ k := by
  obtain ⟨ext, h1, h2⟩ := writev_subs a p buf s d
  refine ⟨ext, h1, ?_⟩
  intro pre post nw k he
  rw [he] at h2
  obtain ⟨e1, e2, bytes, post2, e3⟩ := subsOK_split 0 pre post nw k h2
  refine ⟨bytes, post2, e3, ?_, by omega⟩
  simp only [countTx_append, countTx]
  omega

/-- C5, counterexample: writing the two words 1 and 2 with `writei` while the
acknowledgements are late, the second word is transmitted while the counter is
still 0: two writes are then outstanding. -/
theorem writev_depth_two : ¬ depthOne (writev 256 true [1, 2] fresh delayed).2.2.log := by
  intro h
  have hlog : (writev 256 true [1, 2] fresh delayed).2.2.log
      = [Ev.sub 0 0, Ev.tx [65, 48, 48, 48, 48, 48, 49, 48, 48, 87, 49, 10]]
        ++ Ev.sub 1 0 :: Ev.tx [87, 50, 10] :: [Ev.rx 75, Ev.rx 10, Ev.rx 75, Ev.rx 10] := by
    decide
  have := h _ _ _ _ _ hlog
  revert this
  decide

/-! ## Every counted acknowledgement is a received `K` -/

theorem u32_le (x : Nat) : u32 x ≤ x := Nat.mod_le _ _

theorem countK_append (l1 l2 : List Ev) : countK (l1 ++ l2) = countK l1 + countK l2 := by
  induction l1 with
  | nil => simp [countK]
  | cons e l ih =>
    cases e <;> simp [countK, ih]
    omega

theorem newcmd_nacks (s : HEXBUS) (c : Nat) : (newcmd s c).m_nacks = s.m_nacks := by
  unfold newcmd; split <;> rfl

theorem newcmd_pendingK (s : HEXBUS) (c : Nat) :
    pendingK (newcmd s c) ≤ if c = HEXB_ACK then 1 else 0 := by
  unfold newcmd pendingK
  by_cases hs : isspace c = true
  · simp [hs]
  · by_cases hc : c = 75
    · subst hc; simp [show isspace 75 = false by decide]
    · simp [hs, hc]

theorem bump_nacks (s : HEXBUS) : (bump s).m_nacks = s.m_nacks := by
  unfold bump; split <;> rfl

theorem readidleStep_acks (s : HEXBUS) (word c : Nat) :
    (readidleStep s word c).1.m_nacks + pendingK (readidleStep s word c).1
      ≤ s.m_nacks + pendingK s + (if c = HEXB_ACK then 1 else 0) := by
  have hu := u32_le (s.m_nacks + 1)
  have key : ∀ t : HEXBUS, t.m_nacks ≤ s.m_nacks + pendingK s →
      (newcmd t c).m_nacks + pendingK (newcmd t c)
        ≤ s.m_nacks + pendingK s + (if c = HEXB_ACK then 1 else 0) := by
    intro t ht
    have h1 := newcmd_nacks t c
    have h2 := newcmd_pendingK t c
    omega
  unfold readidleStep
  by_cases h1 : isdigit c = true
  · simp only [h1, if_true]; omega
  simp only [h1, Bool.false_eq_true, if_false]
  by_cases h2 : isaf c = true
  · simp only [h2, if_true]; omega
  simp only [h2, Bool.false_eq_true, if_false]
  by_cases h3 : (isspace c && s.m_isspace) = true
  · simp only [h3, if_true]; omega
  simp only [h3, Bool.false_eq_true, if_false]
  by_cases h4 : s.m_isspace = true
  · simp only [h4, if_true]; exact key s (by omega)
  simp only [h4, Bool.false_eq_true, if_false]
  by_cases h5 : s.m_cmd = HEXB_ADDR
  · simp only [h5, if_true]; exact key _ (by simp)
  simp only [h5, if_false]
  by_cases h6 : s.m_cmd = HEXB_READ
  · simp only [h6, if_true]; exact key _ (by simp [bump_nacks])
  simp only [h6, if_false]
  by_cases h7 : s.m_cmd = HEXB_INT
  · simp only [h7, if_true]; exact key _ (by simp)
  simp only [h7, if_false]
  by_cases h8 : s.m_cmd = HEXB_ACK
  · simp only [h8, if_true]
    apply key
    have hp : pendingK s = 1 := by simp [pendingK, h4, h8]
    simp only [bump_nacks, hp]
    omega
  simp only [h8, if_false]
  by_cases h9 : s.m_cmd = HEXB_ERR
  · simp only [h9, if_true]
    have hz : ∀ t : HEXBUS, t.m_cmd = HEXB_ERR → pendingK t = 0 := by
      intro t ht; simp [pendingK, ht]
    rw [hz _ rfl]; omega
  simp only [h9, if_false]
  by_cases h10 : s.m_cmd = HEXB_RESET
  · simp only [h10, if_true]; exact key _ (by simp)
  simp only [h10, if_false]
  exact key s (by omega)

theorem readidleLoop_acks (s : HEXBUS) (word : Nat) (rx : List (Option Nat)) (log : List Ev) :
    ∃ ext, (readidleLoop s word rx log).2.2.2 = log ++ ext ∧
      (readidleLoop s word rx log).2.1.m_nacks + pendingK (readidleLoop s word rx log).2.1
        ≤ s.m_nacks + pendingK s + countK ext := by
  induction rx generalizing s word log with
  | nil => exact ⟨[], by simp [readidleLoop], by simp [readidleLoop, countK]⟩
  | cons x rest ih =>
    cases x with
    | none => exact ⟨[], by simp [readidleLoop], by simp [readidleLoop, countK]⟩
    | some b =>
      have hstepK := readidleStep_acks s word b
      unfold readidleLoop
      rw [lclreadcode_one]
      rcases hstep : readidleStep s word b with ⟨s1, w1, f⟩
      rw [hstep] at hstepK
      simp only [] at hstepK
      have hone : countK [Ev.rx b] = if b = HEXB_ACK then 1 else 0 := by simp [countK]
      cases f with
      | next =>
        obtain ⟨ext, h1, h2⟩ := ih s1 w1 (log ++ [Ev.rx b])
        refine ⟨Ev.rx b :: ext, ?_, ?_⟩
        · simp only [h1]; simp
        · simp only [countK]
          omega
      | done r => exact ⟨[Ev.rx b], rfl, by simp only [hone]; exact hstepK⟩
      | throw a => exact ⟨[Ev.rx b], rfl, by simp only [hone]; exact hstepK⟩

theorem readidle_acks {ρ : Type} (s : HEXBUS) (d : Dev ρ) :
    ∃ ext, (readidle s d).2.2.log = d.log ++ ext ∧
      (readidle s d).2.1.m_nacks + pendingK (readidle s d).2.1
        ≤ s.m_nacks + pendingK s + countK ext := by
  obtain ⟨ext, h1, h2⟩ := readidleLoop_acks s 0 d.rx d.log
  exact ⟨ext, by simpa [readidle] using h1, by simpa [readidle] using h2⟩

theorem waitAcks_acks {ρ : Type} (fuel target : Nat) (s : HEXBUS) (d : Dev ρ) :
    ∃ ext, (waitAcks fuel target s d).2.2.log = d.log ++ ext ∧
      (waitAcks fuel target s d).2.1.m_nacks + pendingK (waitAcks fuel target s d).2.1
        ≤ s.m_nacks + pendingK s + countK ext := by
  induction fuel generalizing s d with
  | zero =>
    unfold waitAcks
    split <;> exact ⟨[], by simp, by simp [countK]⟩
  | succ k ih =>
    unfold waitAcks
    split
    · split
      · exact ⟨[], by simp, by simp [countK]⟩
      · obtain ⟨e1, h1, h2⟩ := readidle_acks s d
        rcases hr : readidle s d with ⟨o, s1, d1⟩
        rw [hr] at h1 h2
        simp only [] at h1 h2
        cases o with
        | ok u =>
          obtain ⟨e2, h3, h4⟩ := ih s1 d1
          refine ⟨e1 ++ e2, ?_, ?_⟩
          · simp only [h3]
            rw [h1, List.append_assoc]
          · simp only [countK_append]
            omega
        | buserr a => exact ⟨e1, h1, h2⟩
        | fatal => exact ⟨e1, h1, h2⟩
        | hang => exact ⟨e1, h1, h2⟩
    · exact ⟨[], by simp, by simp [countK]⟩

theorem writevLoop_acks {ρ : Type} (buf : List Nat) (nw : Nat) (pre : List Nat) (s : HEXBUS)
    (d : Dev ρ) :
    ∃ ext, (writevLoop buf nw pre s d).2.2.log = d.log ++ ext ∧
      (writevLoop buf nw pre s d).2.1.m_nacks + pendingK (writevLoop buf nw pre s d).2.1
        ≤ s.m_nacks + pendingK s + countK ext := by
  induction buf generalizing nw pre s d with
  | nil => exact ⟨[], by simp [writevLoop], by simp [writevLoop, countK]⟩
  | cons v rest ih =>
    unfold writevLoop
    generalize hd0 : (d.note (Ev.sub nw s.m_nacks)).write (pre ++ encode_word v) = d0
    have hlog0 : d0.log = d.log ++ [Ev.sub nw s.m_nacks, Ev.tx (pre ++ encode_word v)] := by
      rw [← hd0]; simp [Dev.write, Dev.note]
    obtain ⟨e1, h1, h2⟩ := waitAcks_acks (d0.rx.length + 1) nw s d0
    rcases hw : waitAcks (d0.rx.length + 1) nw s d0 with ⟨o, s1, d1⟩
    rw [hw] at h1 h2
    simp only [] at h1 h2
    have hK : ∀ tail, countK (Ev.sub nw s.m_nacks :: Ev.tx (pre ++ encode_word v) :: tail)
        = countK tail := by
      intro tail; simp [countK]
    cases o with
    | ok u =>
      obtain ⟨e2, h3, h4⟩ := ih (nw + 1) [] s1 d1
      refine ⟨Ev.sub nw s.m_nacks :: Ev.tx (pre ++ encode_word v) :: (e1 ++ e2), ?_, ?_⟩
      · simp only [h3, h1, hlog0]; simp
      · rw [hK, countK_append]
        simp only [] at h4 ⊢
        omega
    | buserr a =>
      exact ⟨Ev.sub nw s.m_nacks :: Ev.tx (pre ++ encode_word v) :: e1,
        by simp only [h1, hlog0]; simp, by rw [hK]; exact h2⟩
    | fatal =>
      exact ⟨Ev.sub nw s.m_nacks :: Ev.tx (pre ++ encode_word v) :: e1,
        by simp only [h1, hlog0]; simp, by rw [hK]; exact h2⟩
    | hang =>
      exact ⟨Ev.sub nw s.m_nacks :: Ev.tx (pre ++ encode_word v) :: e1,
        by simp only [h1, hlog0]; simp, by rw [hK]; exact h2⟩

/-- C7: `writev` resets the acknowledgement counter and returns normally only
when the counter has reached the number of words: on a normal return
`m_nacks ≥ len`.  The counter counts received `K` tokens: it is at most the
number of `K` characters read from the transport during the call, plus one if a
`K` token was still undispatched in the decoder when the call began; so `writev`
never returns while fewer than `len` such tokens have come in. -/
theorem writev_returns_acked {ρ : Type} (a : Nat) (p : Bool) (buf : List Nat)
    (s : HEXBUS) (d : Dev ρ) (s1 : HEXBUS) (d1 : Dev ρ)
    (h : writev a p buf s d = (Outcome.ok (), s1, d1)) :
    buf.length ≤ s1.m_nacks ∧
      ∃ ext, d1.log = d.log ++ ext ∧ s1.m_nacks ≤ countK ext + pendingK s := by
  unfold writev at h
  obtain ⟨e1, g1, g2⟩ := writevLoop_acks buf 0 (encode_address s (a ||| (if p then 0 else 1)))
    { s with m_lastaddr := a, m_addr_set := true, m_nacks := 0 } d
  rcases hL : writevLoop buf 0 (encode_address s (a ||| (if p then 0 else 1)))
    { s with m_lastaddr := a, m_addr_set := true, m_nacks := 0 } d with ⟨o, s2, d2⟩
  rw [hL] at h g1 g2
  have hp : pendingK { s with m_lastaddr := a, m_addr_set := true, m_nacks := 0 } = pendingK s :=
    rfl
  rw [hp] at g2
  simp only [] at g1 g2
  cases o with
  | ok u =>
    simp only [] at h
    obtain ⟨e2, g3, g4⟩ := waitAcks_acks (d2.rx.length + 1) buf.length s2 d2
    rcases hw : waitAcks (d2.rx.length + 1) buf.length s2 d2 with ⟨o2, s3, d3⟩
    rw [hw] at h g3 g4
    simp only [] at g3 g4
    cases o2 with
    | ok u2 =>
      have hn := waitAcks_ok _ _ _ _ _ _ u2 hw
      simp only [Prod.mk.injEq, true_and] at h
      obtain ⟨rfl, rfl⟩ := h
      have hs : ∀ t : HEXBUS, (if p = true then
          { s3 with m_lastaddr := t.m_lastaddr } else s3).m_nacks = s3.m_nacks := by
        intro t; cases p <;> rfl
      refine ⟨by cases p <;> simpa using hn, e1 ++ e2, by rw [g3, g1, List.append_assoc], ?_⟩
      rw [countK_append]
      cases p <;> simp only [Bool.false_eq_true, if_false, if_true] <;> omega
    | buserr a => simp at h
    | fatal => simp at h
    | hang => simp at h
  | buserr a => simp at h
  | fatal => simp at h
  | hang => simp at h

/-- Witness for C7: `writei` of two words, acknowledged late by the remote,
returns with the counter at 2 after two `K` characters were read. -/
theorem writev_returns_acked_witness :
    2 ≤ (writev 256 true [1, 2] fresh delayed).2.1.m_nacks ∧
      (writev 256 true [1, 2] fresh delayed).2.1.m_nacks
        ≤ countK (writev 256 true [1, 2] fresh delayed).2.2.log + pendingK fresh := by
  obtain ⟨h1, ext, h2, h3⟩ := writev_returns_acked 256 true [1, 2] fresh delayed
    (writev 256 true [1, 2] fresh delayed).2.1 (writev 256 true [1, 2] fresh delayed).2.2 rfl
  have h4 : (writev 256 true [1, 2] fresh delayed).2.2.log = ext := by
    rw [h2]; rfl
  rw [h4]
  exact ⟨h1, h3⟩

/-! ## What is transmitted, and in which order -/

theorem readwordLoop_log (s : HEXBUS) (word abort : Nat) (rx : List (Option Nat))
    (log : List Ev) :
    ∃ ext, (readwordLoop s word abort rx log).2.2.2 = log ++ ext ∧ onlyRx ext := by
  induction rx generalizing s word abort log with
  | nil => exact ⟨[], by simp [readwordLoop], onlyRx_nil⟩
  | cons x rest ih =>
    cases x with
    | none =>
      unfold readwordLoop
      exact ih s word abort log
    | some b =>
      unfold readwordLoop
      rcases hstep : readwordStep s word abort ((lclreadcode [b]).1.getD 0 0)
        with ⟨s1, w1, a1, f⟩
      cases f with
      | next =>
        obtain ⟨ext, h1, h2⟩ := ih s1 w1 a1 (log ++ [Ev.rx b])
        refine ⟨Ev.rx b :: ext, ?_, ?_⟩
        · simp only [h1]; simp
        · exact onlyRx_append (onlyRx_single b) h2
      | done r => exact ⟨[Ev.rx b], rfl, onlyRx_single b⟩
      | throw a => exact ⟨[Ev.rx b], rfl, onlyRx_single b⟩

theorem readword_log {ρ : Type} (s : HEXBUS) (d : Dev ρ) :
    ∃ ext, (readword s d).2.2.log = d.log ++ ext ∧ onlyRx ext := by
  obtain ⟨ext, h1, h2⟩ := readwordLoop_log s 0 3 d.rx d.log
  exact ⟨ext, by simpa [readword] using h1, h2⟩

theorem not_tx_of_onlyRx {l : List Ev} (h : onlyRx l) (bytes : List Nat) : Ev.tx bytes ∉ l := by
  intro hm
  obtain ⟨b, hb⟩ := h _ hm
  cases hb

/-- Every buffer `readv` transmits is a read request, the first one preceded by
whatever `encode_address` left in the buffer. -/
theorem readvLoop_tx {ρ : Type} (k : Nat) (pre buf : List Nat) (s : HEXBUS) (d : Dev ρ) :
    ∃ tail, (readvLoop (k + 1) pre buf s d).2.2.2.log
        = d.log ++ Ev.tx (pre ++ [HEXB_READ, CH_NL]) :: tail ∧
      ∀ bytes, Ev.tx bytes ∈ tail → bytes = [HEXB_READ, CH_NL] := by
  induction k generalizing pre buf s d with
  | zero =>
    unfold readvLoop
    obtain ⟨e1, h1, h2⟩ := readword_log s (d.write (pre ++ [HEXB_READ, CH_NL]))
    have hw : (d.write (pre ++ [HEXB_READ, CH_NL])).log
        = d.log ++ [Ev.tx (pre ++ [HEXB_READ, CH_NL])] := rfl
    rcases hr : readword s (d.write (pre ++ [HEXB_READ, CH_NL])) with ⟨o, s1, d1⟩
    rw [hr, hw] at h1
    simp only [] at h1
    have hno : ∀ bytes, Ev.tx bytes ∈ e1 → bytes = [HEXB_READ, CH_NL] :=
      fun bytes hm => absurd hm (not_tx_of_onlyRx h2 bytes)
    cases o <;> exact ⟨e1, by simp [readvLoop, h1], hno⟩
  | succ k ih =>
    unfold readvLoop
    obtain ⟨e1, h1, h2⟩ := readword_log s (d.write (pre ++ [HEXB_READ, CH_NL]))
    have hw : (d.write (pre ++ [HEXB_READ, CH_NL])).log
        = d.log ++ [Ev.tx (pre ++ [HEXB_READ, CH_NL])] := rfl
    rcases hr : readword s (d.write (pre ++ [HEXB_READ, CH_NL])) with ⟨o, s1, d1⟩
    rw [hr, hw] at h1
    simp only [] at h1
    have hno : ∀ bytes, Ev.tx bytes ∈ e1 → bytes = [HEXB_READ, CH_NL] :=
      fun bytes hm => absurd hm (not_tx_of_onlyRx h2 bytes)
    cases o with
    | ok w =>
      obtain ⟨t2, h3, h4⟩ := ih [] (buf ++ [w]) s1 d1
      refine ⟨e1 ++ Ev.tx [HEXB_READ, CH_NL] :: t2, ?_, ?_⟩
      · simp only [h3, h1]; simp
      · intro bytes hm
        rcases List.mem_append.mp hm with hm | hm
        · exact hno bytes hm
        · rcases List.mem_cons.mp hm with hm | hm
          · cases hm; rfl
          · exact h4 bytes hm
    | buserr a => exact ⟨e1, by simp [h1], hno⟩
    | fatal => exact ⟨e1, by simp [h1], hno⟩
    | hang => exact ⟨e1, by simp [h1], hno⟩

theorem ite_tail {α β : Type} (c : Prop) [Decidable c] (o1 o2 : α) (x : β) :
    (if c then (o1, x) else (o2, x)).2 = x := by
  split <;> rfl

theorem readv_tx {ρ : Type} (a : Nat) (inc : Bool) (len : Nat) (s : HEXBUS) (d : Dev ρ)
    (hlen : 1 ≤ len) :
    ∃ tail, (readv a inc len s d).2.2.2.log
        = d.log ++ Ev.tx (encode_address s (a ||| (if inc then 0 else 1))
            ++ [HEXB_READ, CH_NL]) :: tail ∧
      ∀ bytes, Ev.tx bytes ∈ tail → bytes = [HEXB_READ, CH_NL] := by
  obtain ⟨k, rfl⟩ : ∃ k, len = k + 1 := ⟨len - 1, by omega⟩
  obtain ⟨tail, h1, h2⟩ := readvLoop_tx k (encode_address s (a ||| (if inc then 0 else 1))) []
    { s with m_lastaddr := a, m_addr_set := true, m_inc := inc } d
  refine ⟨tail, ?_, h2⟩
  unfold readv
  rw [if_neg (by omega)]
  rcases hL : readvLoop (k + 1) (encode_address s (a ||| (if inc then 0 else 1))) []
    { s with m_lastaddr := a, m_addr_set := true, m_inc := inc } d with ⟨o, b, s1, d1⟩
  rw [hL] at h1
  simp only [] at h1
  cases o with
  | ok u =>
    simp only []
    rw [ite_tail]
    exact h1
  | buserr a => exact h1
  | fatal => exact h1
  | hang => exact h1

/-- Every buffer `writev` transmits is one encoded word, the first one preceded
by whatever `encode_address` left in the buffer. -/
theorem writevLoop_tx {ρ : Type} (v : Nat) (rest : List Nat) (nw : Nat) (pre : List Nat)
    (s : HEXBUS) (d : Dev ρ) :
    ∃ tail, (writevLoop (v :: rest) nw pre s d).2.2.log
        = d.log ++ Ev.sub nw s.m_nacks :: Ev.tx (pre ++ encode_word v) :: tail ∧
      ∀ bytes, Ev.tx bytes ∈ tail → ∃ w, w ∈ rest ∧ bytes = encode_word w := by
  induction rest generalizing v nw pre s d with
  | nil =>
    unfold writevLoop
    generalize hd0 : (d.note (Ev.sub nw s.m_nacks)).write (pre ++ encode_word v) = d0
    have hlog0 : d0.log = d.log ++ [Ev.sub nw s.m_nacks, Ev.tx (pre ++ encode_word v)] := by
      rw [← hd0]; simp [Dev.write, Dev.note]
    obtain ⟨e1, h1, h2⟩ := waitAcks_log (d0.rx.length + 1) nw s d0
    rcases hw : waitAcks (d0.rx.length + 1) nw s d0 with ⟨o, s1, d1⟩
    rw [hw, hlog0] at h1
    simp only [] at h1
    have hno : ∀ bytes, Ev.tx bytes ∈ e1 → ∃ w, w ∈ ([] : List Nat) ∧ bytes = encode_word w :=
      fun bytes hm => absurd hm (not_tx_of_onlyRx h2 bytes)
    cases o <;> exact ⟨e1, by simp [writevLoop, h1], hno⟩
  | cons v2 rest2 ih =>
    unfold writevLoop
    generalize hd0 : (d.note (Ev.sub nw s.m_nacks)).write (pre ++ encode_word v) = d0
    have hlog0 : d0.log = d.log ++ [Ev.sub nw s.m_nacks, Ev.tx (pre ++ encode_word v)] := by
      rw [← hd0]; simp [Dev.write, Dev.note]
    obtain ⟨e1, h1, h2⟩ := waitAcks_log (d0.rx.length + 1) nw s d0
    rcases hw : waitAcks (d0.rx.length + 1) nw s d0 with ⟨o, s1, d1⟩
    rw [hw, hlog0] at h1
    simp only [] at h1
    have hno : ∀ bytes, Ev.tx bytes ∈ e1 → ∃ w, w ∈ v2 :: rest2 ∧ bytes = encode_word w :=
      fun bytes hm => absurd hm (not_tx_of_onlyRx h2 bytes)
    cases o with
    | ok u =>
      obtain ⟨t2, h3, h4⟩ := ih v2 (nw + 1) [] s1 d1
      refine ⟨e1 ++ Ev.sub (nw + 1) s1.m_nacks :: Ev.tx (encode_word v2) :: t2, ?_, ?_⟩
      · simp only [h3, h1]; simp
      · intro bytes hm
        rcases List.mem_append.mp hm with hm | hm
        · exact hno bytes hm
        · rcases List.mem_cons.mp hm with hm | hm
          · cases hm
          · rcases List.mem_cons.mp hm with hm | hm
            · cases hm; exact ⟨v2, List.mem_cons_self _ _, rfl⟩
            · obtain ⟨w, hw1, hw2⟩ := h4 bytes hm
              exact ⟨w, List.mem_cons_of_mem _ hw1, hw2⟩
    | buserr a => exact ⟨e1, by simp [h1], hno⟩
    | fatal => exact ⟨e1, by simp [h1], hno⟩
    | hang => exact ⟨e1, by simp [h1], hno⟩

theorem writev_tx {ρ : Type} (a : Nat) (p : Bool) (v : Nat) (rest : List Nat) (s : HEXBUS)
    (d : Dev ρ) :
    ∃ tail, (writev a p (v :: rest) s d).2.2.log
        = d.log ++ Ev.sub 0 0 :: Ev.tx (encode_address s (a ||| (if p then 0 else 1))
            ++ encode_word v) :: tail ∧
      ∀ bytes, Ev.tx bytes ∈ tail → ∃ w, w ∈ rest ∧ bytes = encode_word w := by
  obtain ⟨t1, h1, h2⟩ := writevLoop_tx v rest 0 (encode_address s (a ||| (if p then 0 else 1)))
    { s with m_lastaddr := a, m_addr_set := true, m_nacks := 0 } d
  unfold writev
  rcases hL : writevLoop (v :: rest) 0 (encode_address s (a ||| (if p then 0 else 1)))
    { s with m_lastaddr := a, m_addr_set := true, m_nacks := 0 } d with ⟨o, s1, d1⟩
  rw [hL] at h1
  simp only [] at h1
  cases o with
  | ok u =>
    simp only []
    obtain ⟨e2, h3, h4⟩ := waitAcks_log (d1.rx.length + 1) (v :: rest).length s1 d1
    rcases hw : waitAcks (d1.rx.length + 1) (v :: rest).length s1 d1 with ⟨o2, s2, d2⟩
    rw [hw] at h3
    simp only [] at h3
    have hall : d2.log = d.log ++ Ev.sub 0 0 :: Ev.tx (encode_address s
        (a ||| (if p then 0 else 1)) ++ encode_word v) :: (t1 ++ e2) := by
      rw [h3, h1]; simp
    have hmem : ∀ bytes, Ev.tx bytes ∈ t1 ++ e2 → ∃ w, w ∈ rest ∧ bytes = encode_word w := by
      intro bytes hm
      rcases List.mem_append.mp hm with hm | hm
      · exact h2 bytes hm
      · exact absurd hm (not_tx_of_onlyRx h4 bytes)
    cases o2 <;> exact ⟨t1 ++ e2, hall, hmem⟩
  | buserr a => exact ⟨t1, h1, h2⟩
  | fatal => exact ⟨t1, h1, h2⟩
  | hang => exact ⟨t1, h1, h2⟩

/-! ## Hexadecimal rendering -/

theorem hexdigit_lower (n : Nat) (h : n < 16) :
    (48 ≤ hexdigit n ∧ hexdigit n ≤ 57) ∨ (97 ≤ hexdigit n ∧ hexdigit n ≤ 102) := by
  unfold hexdigit
  split <;> omega

theorem hexdigit_value (n : Nat) (h : n < 16) :
    (if hexdigit n < 58 then hexdigit n - 48 else hexdigit n - 87) = n := by
  unfold hexdigit
  split <;> split <;> omega

theorem hexnibbles_length (k v : Nat) : (hexnibbles k v).length = k := by
  induction k generalizing v with
  | zero => rfl
  | succ k ih => simp [hexnibbles, ih]

theorem hexnibbles_lower (k v : Nat) :
    ∀ c ∈ hexnibbles k v, (48 ≤ c ∧ c ≤ 57) ∨ (97 ≤ c ∧ c ≤ 102) := by
  induction k generalizing v with
  | zero => intro c hc; simp [hexnibbles] at hc
  | succ k ih =>
    intro c hc
    simp only [hexnibbles, List.mem_append, List.mem_singleton] at hc
    rcases hc with hc | hc
    · exact ih _ c hc
    · rw [hc]; exact hexdigit_lower _ (Nat.mod_lt _ (by decide))

theorem hexvalue_hexnibbles (k v : Nat) : hexvalue (hexnibbles k v) = v % 16 ^ k := by
  induction k generalizing v with
  | zero => simp [hexnibbles, hexvalue, Nat.mod_one]
  | succ k ih =>
    have h := ih (v / 16)
    unfold hexvalue at h ⊢
    simp only [hexnibbles, List.foldl_append, List.foldl_cons, List.foldl_nil]
    rw [h, hexdigit_value _ (Nat.mod_lt _ (by decide))]
    rw [pow_succ, Nat.mul_comm (16 ^ k) 16, Nat.mod_mul]
    omega

theorem hexsig_lower (k v : Nat) :
    ∀ c ∈ hexsig k v, (48 ≤ c ∧ c ≤ 57) ∨ (97 ≤ c ∧ c ≤ 102) := by
  induction k generalizing v with
  | zero => intro c hc; simp [hexsig] at hc
  | succ k ih =>
    intro c hc
    unfold hexsig at hc
    split at hc
    · simp at hc
    · simp only [List.mem_append, List.mem_singleton] at hc
      rcases hc with hc | hc
      · exact ih _ c hc
      · rw [hc]; exact hexdigit_lower _ (Nat.mod_lt _ (by decide))

theorem encode_word_noA (w : Nat) : HEXB_ADDR ∉ encode_word w := by
  intro h
  by_cases hw : w = 0
  · subst hw
    revert h
    decide
  · simp only [encode_word, sprintf_x, hw, ne_eq, not_false_eq_true, if_true, if_false,
      List.mem_cons, List.mem_append, List.mem_singleton, List.not_mem_nil, or_false] at h
    rcases h with h | h | h
    · exact absurd h (by decide)
    · have := hexsig_lower 8 w 65 h
      omega
    · exact absurd h (by decide)

theorem or_flag_lt (a : Nat) (inc : Bool) (ha : a < 4294967296) :
    a ||| (if inc then 0 else 1) < 4294967296 := by
  cases inc
  · exact Nat.or_lt_two_pow (n := 32) ha (by decide)
  · simpa using ha

/-- C10, as amended: for every 32-bit address `a` and increment flag, the `A`
token, whenever `readv` or `writev` emits one, stands at the head of the first
buffer transmitted and is `A` followed by exactly 8 lower-case hexadecimal
digits whose value is `a` itself when incrementing is requested and `a | 1`
when it is not: the low bit is forced to 1 for the fixed mode and left as it is
for the incrementing mode.  No later buffer of the call holds an `A`. -/
theorem address_token_form {ρ : Type} (s : HEXBUS) (d : Dev ρ) (a : Nat) (inc : Bool)
    (ha : a < 4294967296) :
    (encode_address s (a ||| (if inc then 0 else 1)) = [] ∨
      ∃ ds, encode_address s (a ||| (if inc then 0 else 1)) = HEXB_ADDR :: ds ∧
        ds.length = 8 ∧ (∀ c ∈ ds, (48 ≤ c ∧ c ≤ 57) ∨ (97 ≤ c ∧ c ≤ 102)) ∧
        hexvalue ds = (if inc then a else a ||| 1) ∧ (a ||| 1) % 2 = 1) ∧
    (∀ len, 1 ≤ len → ∃ tail, (readv a inc len s d).2.2.2.log
        = d.log ++ Ev.tx (encode_address s (a ||| (if inc then 0 else 1))
            ++ [HEXB_READ, CH_NL]) :: tail ∧
        ∀ bytes, Ev.tx bytes ∈ tail → HEXB_ADDR ∉ bytes) ∧
    (∀ v rest, ∃ tail, (writev a inc (v :: rest) s d).2.2.log
        = d.log ++ Ev.sub 0 0 :: Ev.tx (encode_address s (a ||| (if inc then 0 else 1))
            ++ encode_word v) :: tail ∧
        ∀ bytes, Ev.tx bytes ∈ tail → HEXB_ADDR ∉ bytes) := by
  refine ⟨?_, ?_, ?_⟩
  · have hx1 := or_flag_lt a inc ha
    have hx2 : a ||| (if inc then 0 else 1) = (if inc then a else a ||| 1) := by
      cases inc <;> simp
    generalize a ||| (if inc then 0 else 1) = x at hx1 hx2 ⊢
    unfold encode_address
    by_cases hc : s.m_addr_set = true ∧ x = s.m_lastaddr
        ∧ (if s.m_inc then 1 else 0) = (x &&& 1) ^^^ 1
    · exact Or.inl (if_pos hc)
    · refine Or.inr ⟨sprintf_08x x, if_neg hc, hexnibbles_length _ _,
        hexnibbles_lower _ _, ?_, ?_⟩
      · unfold sprintf_08x
        rw [hexvalue_hexnibbles, ← hx2]
        exact Nat.mod_eq_of_lt hx1
      · rw [Nat.or_mod_two_eq_one]; exact Or.inr rfl
  · intro len hlen
    obtain ⟨tail, h1, h2⟩ := readv_tx a inc len s d hlen
    refine ⟨tail, h1, ?_⟩
    intro bytes hb
    rw [h2 bytes hb]
    decide
  · intro v rest
    obtain ⟨tail, h1, h2⟩ := writev_tx a inc v rest s d
    refine ⟨tail, h1, ?_⟩
    intro bytes hb
    obtain ⟨w, -, hw⟩ := h2 bytes hb
    rw [hw]
    exact encode_word_noA w

/-- Witness for C10: the fixed-mode token for `0x100` on a new engine. -/
theorem address_token_form_witness :
    encode_address fresh (256 ||| (if false then 0 else 1)) = [] ∨
      ∃ ds, encode_address fresh (256 ||| (if false then 0 else 1)) = HEXB_ADDR :: ds ∧
        ds.length = 8 ∧ (∀ c ∈ ds, (48 ≤ c ∧ c ≤ 57) ∨ (97 ≤ c ∧ c ≤ 102)) ∧
        hexvalue ds = (if false then 256 else 256 ||| 1) ∧ (256 ||| 1) % 2 = 1 :=
  (address_token_form fresh (scripted []) 256 false (by decide)).1

/-- C10, counterexample: asked to read at the odd address `0x101` with
increment, `readv` transmits `A00000101`: the low bit of the token is 1, not
forced to 0. -/
theorem address_low_bit_not_cleared :
    (readv 257 true 1 fresh (scripted (avail (encode_datum 5)))).2.2.2.log.head?
      = some (Ev.tx ([HEXB_ADDR] ++ [48, 48, 48, 48, 48, 49, 48, 49] ++ [HEXB_READ, CH_NL])) ∧
    hexvalue [48, 48, 48, 48, 48, 49, 48, 49] = 257 ∧
    hexvalue [48, 48, 48, 48, 48, 49, 48, 49] % 2 ≠ 0 := by
  decide

/-! ## `readword` on a datum -/

theorem avail_append (l1 l2 : List Nat) : avail (l1 ++ l2) = avail l1 ++ avail l2 := by
  simp [avail]

theorem avail_cons (b : Nat) (l : List Nat) : avail (b :: l) = some b :: avail l := rfl

theorem set_isspace_false (s : HEXBUS) (h : s.m_isspace = false) :
    { s with m_isspace := false } = s := by
  cases s; simp_all

theorem readwordStep_hexdigit (s : HEXBUS) (word abort n : Nat) (hn : n < 16)
    (hs : s.m_isspace = false) :
    readwordStep s word abort (hexdigit n)
      = (s, (word * 16 + n) % 4294967296, abort, Flow.next) := by
  unfold readwordStep
  by_cases h : n < 10
  · obtain ⟨h1, h2⟩ := hexdigit_digit n h
    rw [if_pos h1, h2, accum_eq _ _ hn, set_isspace_false s hs]
  · obtain ⟨h1, h2, h3⟩ := hexdigit_af n (by omega) hn
    rw [if_neg (by simp [h1]), if_pos h2, h3, accum_eq _ _ hn, set_isspace_false s hs]

theorem readwordLoop_hexsig (k v : Nat) (s : HEXBUS) (word abort : Nat)
    (rest : List (Option Nat)) (log : List Ev) (hs : s.m_isspace = false) :
    readwordLoop s word abort (avail (hexsig k v) ++ rest) log
      = readwordLoop s (sigfold k v word) abort rest (log ++ (hexsig k v).map Ev.rx) := by
  induction k generalizing v rest log with
  | zero => simp [hexsig, sigfold, avail]
  | succ k ih =>
    unfold hexsig sigfold
    by_cases hv : v = 0
    · simp [hv, avail]
    · rw [if_neg hv, if_neg hv, avail_append, List.append_assoc, ih]
      simp only [avail, List.map_cons, List.map_nil, List.singleton_append]
      rw [readwordLoop, lclreadcode_one,
        readwordStep_hexdigit _ _ _ _ (Nat.mod_lt _ (by decide)) hs]
      simp

theorem sigfold_zero (k v : Nat) (h1 : v < 16 ^ k) : sigfold k v 0 = v % 4294967296 := by
  induction k generalizing v with
  | zero =>
    have : v = 0 := by simpa using h1
    simp [sigfold, this]
  | succ k ih =>
    unfold sigfold
    by_cases hv : v = 0
    · simp [hv]
    · rw [if_neg hv, ih (v / 16) (by rw [pow_succ] at h1; omega)]
      omega

theorem sigfold_word (v : Nat) (h : v < 4294967296) : sigfold 8 v 0 = v := by
  rw [sigfold_zero 8 v (by norm_num; exact h)]
  exact Nat.mod_eq_of_lt h

theorem readwordStep_tag_quiet (s : HEXBUS) (abort : Nat) (hq : quiet s) :
    readwordStep s 0 abort HEXB_READ
      = ({ s with m_cmd := HEXB_READ, m_isspace := false }, 0, abort, Flow.next) := by
  unfold readwordStep
  rw [if_neg (by decide), if_neg (by decide)]
  have hnew : ∀ t : HEXBUS, newcmd t HEXB_READ = { t with m_cmd := HEXB_READ, m_isspace := false } := by
    intro t; rfl
  rcases hq with h | ⟨h1, h2, h3, h4, h5, h6, h7⟩
  · rw [if_pos h, hnew]
  · by_cases h : s.m_isspace = true
    · rw [if_pos h, hnew]
    · rw [if_neg h, if_neg h2, if_neg h3, if_neg h4, if_neg h5, if_neg h6, if_neg h1,
        if_neg h7, hnew]

/-- From a decoder that is between tokens, `readword` turns the next datum
token into its word and leaves the rest of the stream. -/
theorem readwordLoop_datum (s : HEXBUS) (w : Nat) (rest : List (Option Nat)) (log : List Ev)
    (hq : quiet s) (hw : w < 4294967296) :
    readwordLoop s 0 3 (avail (encode_datum w) ++ rest) log
      = (Outcome.ok w, afterDatum s, rest, log ++ (encode_datum w).map Ev.rx) := by
  have hlast : ∀ (word : Nat) (l : List Ev),
      readwordLoop { s with m_cmd := HEXB_READ, m_isspace := false } word 3
        (some CH_NL :: rest) l = (Outcome.ok word, afterDatum s, rest, l ++ [Ev.rx CH_NL]) := by
    intro word l
    rw [readwordLoop, lclreadcode_one]
    have : readwordStep { s with m_cmd := HEXB_READ, m_isspace := false } word 3 CH_NL
        = (afterDatum s, 0, 3, Flow.done word) := by
      unfold readwordStep
      rw [if_neg (by decide), if_neg (by decide), if_neg (by simp), if_pos rfl]
      simp only [newcmd, bump, afterDatum, show isspace CH_NL = true by decide]
      cases hi : s.m_inc <;> simp [hi]
    rw [this]
  unfold encode_datum
  rw [avail_cons, List.cons_append, readwordLoop, lclreadcode_one, readwordStep_tag_quiet s 3 hq]
  simp only []
  by_cases hz : w = 0
  · subst hz
    simp only [ne_eq, not_true_eq_false, if_false, List.nil_append, avail_cons, avail,
      List.map_nil, List.map_cons, List.cons_append]
    rw [hlast]
    simp
  · rw [if_pos hz, sprintf_x, if_neg hz, avail_append, List.append_assoc,
      readwordLoop_hexsig 8 w _ 0 3 _ _ rfl, sigfold_word w hw]
    simp only [avail, List.map_cons, List.map_nil, List.singleton_append]
    rw [hlast]
    simp

/-! ## A vector read that is answered datum by datum -/

theorem quiet_afterDatum (s : HEXBUS) : quiet (afterDatum s) := Or.inl rfl

theorem afterDatum_inc (s : HEXBUS) : (afterDatum s).m_inc = s.m_inc := by
  unfold afterDatum bump; split <;> rfl

theorem afterDatum_addr_set (s : HEXBUS) : (afterDatum s).m_addr_set = s.m_addr_set := by
  unfold afterDatum bump; split <;> rfl

theorem afterDatum_lastaddr (s : HEXBUS) :
    (afterDatum s).m_lastaddr = if s.m_inc then u32 (s.m_lastaddr + 4) else s.m_lastaddr := by
  unfold afterDatum bump; split <;> rfl

theorem afterData_inc (n : Nat) (s : HEXBUS) : (afterData n s).m_inc = s.m_inc := by
  induction n generalizing s with
  | zero => rfl
  | succ n ih => rw [afterData, ih, afterDatum_inc]

theorem afterData_addr_set (n : Nat) (s : HEXBUS) :
    (afterData n s).m_addr_set = s.m_addr_set := by
  induction n generalizing s with
  | zero => rfl
  | succ n ih => rw [afterData, ih, afterDatum_addr_set]

theorem afterData_lastaddr (n : Nat) (s : HEXBUS) (h : s.m_lastaddr < 4294967296) :
    (afterData n s).m_lastaddr
      = if s.m_inc then u32 (s.m_lastaddr + 4 * n) else s.m_lastaddr := by
  induction n generalizing s with
  | zero =>
    simp only [afterData, Nat.mul_zero, Nat.add_zero, u32_of_lt h, ite_self]
  | succ n ih =>
    have hlt : (afterDatum s).m_lastaddr < 4294967296 := by
      rw [afterDatum_lastaddr]
      split
      · exact Nat.mod_lt _ (by decide)
      · exact h
    rw [afterData, ih _ hlt, afterDatum_inc, afterDatum_lastaddr]
    cases hi : s.m_inc
    · simp
    · simp only [if_true, u32]
      omega

theorem quiet_afterData (n : Nat) (s : HEXBUS) (hq : quiet s) : quiet (afterData n s) := by
  induction n generalizing s with
  | zero => exact hq
  | succ n ih => exact ih _ (quiet_afterDatum s)

theorem readword_datum {ρ : Type} (s : HEXBUS) (d : Dev ρ) (w : Nat) (rest : List (Option Nat))
    (hq : quiet s) (hw : w < 4294967296) (hrx : d.rx = avail (encode_datum w) ++ rest) :
    readword s d = (Outcome.ok w, afterDatum s,
      { d with rx := rest, log := d.log ++ (encode_datum w).map Ev.rx }) := by
  unfold readword
  rw [hrx, readwordLoop_datum s w rest d.log hq hw]

theorem readvLoop_data {ρ : Type} (ws : List Nat) (pre buf : List Nat) (s : HEXBUS) (d : Dev ρ)
    (rest : List (Option Nat)) (hq : quiet s) (hw : ∀ w ∈ ws, w < 4294967296)
    (hrx : d.rx = avail (ws.flatMap encode_datum) ++ rest) :
    ∃ d1, readvLoop ws.length pre buf s d
        = (Outcome.ok (), buf ++ ws, afterData ws.length s, d1) ∧
      d1.log = d.log ++ readvTrace pre ws ∧ ∃ extra, d1.rx = rest ++ extra := by
  induction ws generalizing pre buf s d rest with
  | nil => exact ⟨d, by simp [readvLoop, afterData], by simp [readvTrace], [], by simpa [avail] using hrx⟩
  | cons w ws ih =>
    have hw1 : w < 4294967296 := hw w (List.mem_cons_self _ _)
    have hrx1 : (d.write (pre ++ [HEXB_READ, CH_NL])).rx
        = avail (encode_datum w) ++ (avail (ws.flatMap encode_datum)
            ++ (rest ++ (d.respond d.rstate (pre ++ [HEXB_READ, CH_NL])).2)) := by
      simp only [Dev.write, hrx, List.flatMap_cons, avail_append, List.append_assoc]
    obtain ⟨d1, h1, h2, extra, h3⟩ := ih [] (buf ++ [w]) (afterDatum s)
      { d.write (pre ++ [HEXB_READ, CH_NL]) with
        rx := avail (ws.flatMap encode_datum)
            ++ (rest ++ (d.respond d.rstate (pre ++ [HEXB_READ, CH_NL])).2),
        log := (d.write (pre ++ [HEXB_READ, CH_NL])).log ++ (encode_datum w).map Ev.rx }
      (rest ++ (d.respond d.rstate (pre ++ [HEXB_READ, CH_NL])).2)
      (quiet_afterDatum s) (fun x hx => hw x (List.mem_cons_of_mem _ hx)) rfl
    refine ⟨d1, ?_, ?_, ?_⟩
    · simp only [List.length_cons]
      rw [readvLoop, readword_datum s _ w _ hq hw1 hrx1]
      simp only []
      rw [h1]
      simp [afterData]
    · rw [h2]
      simp [readvTrace, Dev.write]
    · exact ⟨_, by rw [h3, List.append_assoc]⟩

theorem readv_data {ρ : Type} (a : Nat) (inc : Bool) (ws : List Nat) (s : HEXBUS)
    (d : Dev ρ) (rest : List (Option Nat)) (ha : a < 4294967296) (hn : ws ≠ [])
    (hw : ∀ w ∈ ws, w < 4294967296) (hq : quiet s)
    (hrx : d.rx = avail (ws.flatMap encode_datum) ++ rest) :
    ∃ d1, readv a inc ws.length s d
        = (Outcome.ok (), ws,
            afterData ws.length { s with m_lastaddr := a, m_addr_set := true, m_inc := inc },
            d1) ∧
      d1.log = d.log ++ readvTrace (encode_address s (a ||| (if inc then 0 else 1))) ws ∧
      ∃ extra, d1.rx = rest ++ extra := by
  have hq0 : quiet { s with m_lastaddr := a, m_addr_set := true, m_inc := inc } := hq
  obtain ⟨d1, h1, h2, h3⟩ := readvLoop_data ws (encode_address s (a ||| (if inc then 0 else 1)))
    [] { s with m_lastaddr := a, m_addr_set := true, m_inc := inc } d rest hq0 hw hrx
  have hlen : ws.length ≠ 0 := by
    intro h0; exact hn (List.length_eq_zero.mp h0)
  have hla := afterData_lastaddr ws.length
    { s with m_lastaddr := a, m_addr_set := true, m_inc := inc } ha
  simp only [] at hla
  have hchk : (afterData ws.length
      { s with m_lastaddr := a, m_addr_set := true, m_inc := inc }).m_lastaddr
        = u32 (a + (if inc then ws.length <<< 2 else 0)) := by
    rw [hla]
    cases inc
    · simp [u32_of_lt ha]
    · simp only [if_true, Nat.shiftLeft_eq]; congr 1; omega
  refine ⟨d1, ?_, h2, h3⟩
  unfold readv
  rw [if_neg hlen, h1]
  simp only []
  rw [if_neg (not_not.mpr hchk)]
  simp

/-- C2: for every 32-bit address `a`, mode `inc` and words `w_0 .. w_{n-1}`
(`n ≥ 1`), if no address is cached, the decoder is between tokens, and the
remote answers the read requests in turn with the tokens `R`, lower-case
hexadecimal digits of `w_i` (none for zero), newline, then `readv(a, inc, n)`
returns normally with `w_0 .. w_{n-1}` in that order, and its traffic is exactly:
one buffer holding the `A` token and `R\n`, the characters of the first datum,
then for each further word the buffer `R\n` followed by the characters of its
datum; every request goes out only after the previous datum has been read. -/
theorem readv_happy_path {ρ : Type} (a : Nat) (inc : Bool) (ws : List Nat) (s : HEXBUS)
    (d : Dev ρ) (rest : List (Option Nat)) (ha : a < 4294967296) (hn : ws ≠ [])
    (hw : ∀ w ∈ ws, w < 4294967296) (hs : s.m_addr_set = false) (hq : quiet s)
    (hrx : d.rx = avail (ws.flatMap encode_datum) ++ rest) :
    (readv a inc ws.length s d).1 = Outcome.ok () ∧
    (readv a inc ws.length s d).2.1 = ws ∧
    (readv a inc ws.length s d).2.2.2.log
      = d.log ++ readvTrace (HEXB_ADDR :: sprintf_08x (a ||| (if inc then 0 else 1))) ws := by
  have henc : encode_address s (a ||| (if inc then 0 else 1))
      = HEXB_ADDR :: sprintf_08x (a ||| (if inc then 0 else 1)) := by
    unfold encode_address
    rw [if_neg]
    simp [hs]
  obtain ⟨d1, h1, h2, -⟩ := readv_data a inc ws s d rest ha hn hw hq hrx
  rw [h1]
  exact ⟨rfl, rfl, by rw [h2, henc]⟩

/-- Witness for C2: a new engine reads the two words `0x1f` and `0` at `0x100`. -/
theorem readv_happy_path_witness :
    (readv 256 true [31, 0].length fresh
        (scripted (avail ([31, 0].flatMap encode_datum)))).1 = Outcome.ok () ∧
    (readv 256 true [31, 0].length fresh
        (scripted (avail ([31, 0].flatMap encode_datum)))).2.1 = [31, 0] ∧
    (readv 256 true [31, 0].length fresh
        (scripted (avail ([31, 0].flatMap encode_datum)))).2.2.2.log
      = (scripted (avail ([31, 0].flatMap encode_datum))).log
        ++ readvTrace (HEXB_ADDR :: sprintf_08x (256 ||| (if true then 0 else 1))) [31, 0] :=
  readv_happy_path 256 true [31, 0] fresh (scripted (avail ([31, 0].flatMap encode_datum))) []
    (by decide) (by decide) (by decide) rfl (show quiet fresh from Or.inr (by decide))
    (by simp [scripted])

/-! ## How many address tokens go out -/

theorem countA_append (l1 l2 : List Ev) : countA (l1 ++ l2) = countA l1 + countA l2 := by
  induction l1 with
  | nil => simp [countA]
  | cons e l ih =>
    cases e <;> simp [countA, ih]
    omega

theorem countA_rx (bytes : List Nat) : countA (bytes.map Ev.rx) = 0 := by
  induction bytes with
  | nil => rfl
  | cons b l ih => simpa [countA] using ih

theorem readvTrace_cons (pre : List Nat) (w : Nat) (ws : List Nat) :
    readvTrace pre (w :: ws)
      = Ev.tx (pre ++ [HEXB_READ, CH_NL])
          :: ((encode_datum w).map Ev.rx ++ readvTrace [] ws) := rfl

theorem countA_tx (bytes : List Nat) (l : List Ev) :
    countA (Ev.tx bytes :: l) = bytes.count HEXB_ADDR + countA l := rfl

theorem countA_readvTrace (pre ws : List Nat) (hn : ws ≠ []) :
    countA (readvTrace pre ws) = pre.count HEXB_ADDR := by
  have hnil : ∀ ws : List Nat, countA (readvTrace [] ws) = 0 := by
    intro ws
    induction ws with
    | nil => rfl
    | cons w ws ih =>
      rw [readvTrace_cons, countA_tx, countA_append, countA_rx, ih]
      rfl
  cases ws with
  | nil => exact absurd rfl hn
  | cons w ws =>
    rw [readvTrace_cons, countA_tx, countA_append, countA_rx, hnil, List.count_append]
    simp

theorem count_sprintf_08x (x : Nat) : (sprintf_08x x).count HEXB_ADDR = 0 := by
  rw [List.count_eq_zero]
  intro h
  have := hexnibbles_lower 8 x 65 h
  omega

/-- C8, counterexample: two consecutive `readi(0x100, 1)` on a new engine put
two `A` tokens on the wire, and so do two consecutive `readio(0x100)`. -/
theorem same_address_twice_two_tokens :
    (readi 256 1 fresh twoData).1 = Outcome.ok () ∧
    (readi 256 1 (readi 256 1 fresh twoData).2.2.1 (readi 256 1 fresh twoData).2.2.2).1
      = Outcome.ok () ∧
    countA (readi 256 1 (readi 256 1 fresh twoData).2.2.1
      (readi 256 1 fresh twoData).2.2.2).2.2.2.log = 2 ∧
    (readio 256 fresh twoData).1 = Outcome.ok 5 ∧
    (readio 256 (readio 256 fresh twoData).2.1 (readio 256 fresh twoData).2.2).1
      = Outcome.ok 5 ∧
    countA (readio 256 (readio 256 fresh twoData).2.1 (readio 256 fresh twoData).2.2).2.2.log
      = 2 := by
  decide

/-- C8, as amended: two consecutive incrementing reads of which the second
starts where the first ended, `readi(a, n)` and then `readi(a + 4n, m)`, on an
engine that had no address cached and against a remote that answers every
request with its datum, return their words and put exactly one `A` token on the
wire in total. -/
theorem continued_read_one_token {ρ : Type} (a : Nat) (ws1 ws2 : List Nat) (s : HEXBUS)
    (d : Dev ρ) (rest : List (Option Nat)) (ha : a < 4294967296) (hal : a % 4 = 0)
    (hn1 : ws1 ≠ []) (hn2 : ws2 ≠ []) (hw1 : ∀ w ∈ ws1, w < 4294967296)
    (hw2 : ∀ w ∈ ws2, w < 4294967296) (hs : s.m_addr_set = false) (hq : quiet s)
    (hrx : d.rx = avail ((ws1 ++ ws2).flatMap encode_datum) ++ rest) :
    (readi a ws1.length s d).1 = Outcome.ok () ∧
    (readi a ws1.length s d).2.1 = ws1 ∧
    (readi (u32 (a + 4 * ws1.length)) ws2.length (readi a ws1.length s d).2.2.1
      (readi a ws1.length s d).2.2.2).1 = Outcome.ok () ∧
    (readi (u32 (a + 4 * ws1.length)) ws2.length (readi a ws1.length s d).2.2.1
      (readi a ws1.length s d).2.2.2).2.1 = ws2 ∧
    ∃ ext, (readi (u32 (a + 4 * ws1.length)) ws2.length (readi a ws1.length s d).2.2.1
      (readi a ws1.length s d).2.2.2).2.2.2.log = d.log ++ ext ∧ countA ext = 1 := by
  have hrx1 : d.rx = avail (ws1.flatMap encode_datum)
      ++ (avail (ws2.flatMap encode_datum) ++ rest) := by
    rw [hrx, List.flatMap_append, avail_append, List.append_assoc]
  obtain ⟨d1, h1, h2, extra, h3⟩ := readv_data a true ws1 s d _ ha hn1 hw1 hq hrx1
  have henc1 : encode_address s (a ||| (if true then 0 else 1))
      = HEXB_ADDR :: sprintf_08x a := by
    unfold encode_address
    rw [if_neg (by simp [hs])]
    simp
  rw [henc1] at h2
  -- the engine after the first read
  generalize hs1 : afterData ws1.length
    { s with m_lastaddr := a, m_addr_set := true, m_inc := true } = s1 at h1
  have hs1_set : s1.m_addr_set = true := by rw [← hs1, afterData_addr_set]
  have hs1_inc : s1.m_inc = true := by rw [← hs1, afterData_inc]
  have hs1_la : s1.m_lastaddr = u32 (a + 4 * ws1.length) := by
    rw [← hs1, afterData_lastaddr _ _ ha]
    rfl
  have hs1_q : quiet s1 := by rw [← hs1]; exact quiet_afterData _ _ hq
  have ha2 : u32 (a + 4 * ws1.length) < 4294967296 := Nat.mod_lt _ (by decide)
  have hrx2 : d1.rx = avail (ws2.flatMap encode_datum) ++ (rest ++ extra) := by
    rw [h3, List.append_assoc]
  obtain ⟨d2, g1, g2, -⟩ := readv_data (u32 (a + 4 * ws1.length)) true ws2 s1 d1 _ ha2 hn2 hw2
    hs1_q hrx2
  have henc2 : encode_address s1 (u32 (a + 4 * ws1.length) ||| (if true then 0 else 1)) = [] := by
    unfold encode_address
    rw [if_pos]
    refine ⟨hs1_set, by simp [hs1_la], ?_⟩
    have hev : u32 (a + 4 * ws1.length) % 2 = 0 := by unfold u32; omega
    simp [hs1_inc, Nat.and_one_is_mod, hev]
  rw [henc2] at g2
  unfold readi
  rw [h1]
  simp only []
  rw [g1]
  refine ⟨trivial, trivial, rfl, rfl,
    readvTrace (HEXB_ADDR :: sprintf_08x a) ws1 ++ readvTrace [] ws2, ?_, ?_⟩
  · simp only []
    rw [g2, h2, List.append_assoc]
  · rw [countA_append, countA_readvTrace _ _ hn1, countA_readvTrace _ _ hn2]
    simp [count_sprintf_08x]

/-- Witness for C8 as amended: `readi(0x100, 1)` and then `readi(0x104, 1)` on a
new engine put one `A` on the wire. -/
theorem continued_read_one_token_witness :
    countA (readi (u32 (256 + 4 * [5].length)) [5].length
        (readi 256 [5].length fresh twoData).2.2.1
        (readi 256 [5].length fresh twoData).2.2.2).2.2.2.log = 1 := by
  obtain ⟨ext, h1, h2⟩ := (continued_read_one_token 256 [5] [5] fresh twoData [] (by decide)
    (by decide) (by decide) (by decide) (by decide) (by decide) rfl
    (show quiet fresh from Or.inr (by decide)) (by decide)).2.2.2.2
  rw [h1]
  exact h2

/-! ## `writev` and `m_lastaddr` -/

theorem calm_of_quiet {s : HEXBUS} (h : quiet s) : calm s := by
  rcases h with h | ⟨h1, h2, -, h4, h5, -, h7⟩
  · exact Or.inl h
  · exact Or.inr ⟨h1, h2, h4, h5, h7⟩

theorem readidleStep_ackonly (s : HEXBUS) (word c : Nat) (hc : c = HEXB_ACK ∨ c = CH_NL)
    (hcalm : calm s) (hinc : s.m_inc = false) :
    (readidleStep s word c).2.2 = Flow.next ∧
    (readidleStep s word c).1.m_lastaddr = s.m_lastaddr ∧
    (readidleStep s word c).1.m_inc = false ∧ calm (readidleStep s word c).1 := by
  have h1 : isdigit c = false := by rcases hc with rfl | rfl <;> decide
  have h2 : isaf c = false := by rcases hc with rfl | rfl <;> decide
  have key : ∀ t : HEXBUS, t.m_lastaddr = s.m_lastaddr → t.m_inc = false →
      (newcmd t c).m_lastaddr = s.m_lastaddr ∧ (newcmd t c).m_inc = false ∧
        calm (newcmd t c) := by
    intro t ht1 ht2
    rcases hc with rfl | rfl
    · have hk : newcmd t HEXB_ACK = { t with m_cmd := HEXB_ACK, m_isspace := false } := rfl
      rw [hk]
      exact ⟨ht1, ht2, Or.inr (by simp)⟩
    · have hk : newcmd t CH_NL = { t with m_isspace := true } := rfl
      rw [hk]
      exact ⟨ht1, ht2, Or.inl rfl⟩
  have hb : bump s = s := by unfold bump; rw [hinc]; rfl
  unfold readidleStep
  simp only [h1, h2, Bool.false_eq_true, if_false]
  by_cases h3 : (isspace c && s.m_isspace) = true
  · simp only [h3, if_true]; exact ⟨by trivial, by trivial, hinc, hcalm⟩
  simp only [h3, Bool.false_eq_true, if_false]
  by_cases h4 : s.m_isspace = true
  · simp only [h4, if_true]; exact ⟨by trivial, key s rfl hinc⟩
  simp only [h4, Bool.false_eq_true, if_false]
  rcases hcalm with h | ⟨g1, g2, g3, g4, g5⟩
  · exact absurd h h4
  simp only [g1, g2, g3, if_false]
  by_cases h8 : s.m_cmd = HEXB_ACK
  · simp only [h8, if_true, hb]; exact ⟨by trivial, key _ rfl hinc⟩
  simp only [h8, g4, g5, if_false]
  exact ⟨by trivial, key s rfl hinc⟩

theorem ackOnly_append {l1 l2 : List Ev} (h : ackOnly (l1 ++ l2)) : ackOnly l1 ∧ ackOnly l2 :=
  ⟨fun b hb => h b (List.mem_append_left _ hb), fun b hb => h b (List.mem_append_right _ hb)⟩

theorem readidleLoop_ackonly (s : HEXBUS) (word : Nat) (rx : List (Option Nat))
    (log : List Ev) :
    ∃ ext, (readidleLoop s word rx log).2.2.2 = log ++ ext ∧
      (ackOnly ext → calm s → s.m_inc = false →
        (readidleLoop s word rx log).2.1.m_lastaddr = s.m_lastaddr ∧
        (readidleLoop s word rx log).2.1.m_inc = false ∧
        calm (readidleLoop s word rx log).2.1) := by
  induction rx generalizing s word log with
  | nil => exact ⟨[], by simp [readidleLoop], fun _ hc hi => ⟨rfl, hi, hc⟩⟩
  | cons x rest ih =>
    cases x with
    | none => exact ⟨[], by simp [readidleLoop], fun _ hc hi => ⟨rfl, hi, hc⟩⟩
    | some b =>
      unfold readidleLoop
      rw [lclreadcode_one]
      rcases hstep : readidleStep s word b with ⟨s1, w1, f⟩
      have hst := readidleStep_ackonly s word b
      rw [hstep] at hst
      simp only [] at hst
      cases f with
      | next =>
        obtain ⟨ext, h1, h2⟩ := ih s1 w1 (log ++ [Ev.rx b])
        refine ⟨Ev.rx b :: ext, by simp only [h1]; simp, ?_⟩
        intro hack hc hi
        obtain ⟨-, e2, e3, e4⟩ := hst (hack b (List.mem_cons_self _ _)) hc hi
        obtain ⟨r1, r2, r3⟩ := h2 (fun x hx => hack x (List.mem_cons_of_mem _ hx)) e4 e3
        exact ⟨by simp only []; rw [r1, e2], r2, r3⟩
      | done r =>
        refine ⟨[Ev.rx b], rfl, ?_⟩
        intro hack hc hi
        exact absurd (hst (hack b (List.mem_cons_self _ _)) hc hi).1 (by simp)
      | throw a =>
        refine ⟨[Ev.rx b], rfl, ?_⟩
        intro hack hc hi
        exact absurd (hst (hack b (List.mem_cons_self _ _)) hc hi).1 (by simp)

theorem readidle_ackonly {ρ : Type} (s : HEXBUS) (d : Dev ρ) :
    ∃ ext, (readidle s d).2.2.log = d.log ++ ext ∧
      (ackOnly ext → calm s → s.m_inc = false →
        (readidle s d).2.1.m_lastaddr = s.m_lastaddr ∧
        (readidle s d).2.1.m_inc = false ∧ calm (readidle s d).2.1) := by
  obtain ⟨ext, h1, h2⟩ := readidleLoop_ackonly s 0 d.rx d.log
  exact ⟨ext, by simpa [readidle] using h1, by simpa [readidle] using h2⟩

theorem waitAcks_ackonly {ρ : Type} (fuel target : Nat) (s : HEXBUS) (d : Dev ρ) :
    ∃ ext, (waitAcks fuel target s d).2.2.log = d.log ++ ext ∧
      (ackOnly ext → calm s → s.m_inc = false →
        (waitAcks fuel target s d).2.1.m_lastaddr = s.m_lastaddr ∧
        (waitAcks fuel target s d).2.1.m_inc = false ∧
        calm (waitAcks fuel target s d).2.1) := by
  induction fuel generalizing s d with
  | zero =>
    unfold waitAcks
    split <;> exact ⟨[], by simp, fun _ hc hi => ⟨rfl, hi, hc⟩⟩
  | succ k ih =>
    unfold waitAcks
    split
    · split
      · exact ⟨[], by simp, fun _ hc hi => ⟨rfl, hi, hc⟩⟩
      · obtain ⟨e1, h1, h2⟩ := readidle_ackonly s d
        rcases hr : readidle s d with ⟨o, s1, d1⟩
        rw [hr] at h1 h2
        simp only [] at h1 h2
        cases o with
        | ok u =>
          obtain ⟨e2, h3, h4⟩ := ih s1 d1
          refine ⟨e1 ++ e2, by simp only [h3]; rw [h1, List.append_assoc], ?_⟩
          intro hack hc hi
          obtain ⟨a1, a2⟩ := ackOnly_append hack
          obtain ⟨r1, r2, r3⟩ := h2 a1 hc hi
          obtain ⟨q1, q2, q3⟩ := h4 a2 r3 r2
          exact ⟨by rw [q1, r1], q2, q3⟩
        | buserr a => exact ⟨e1, h1, h2⟩
        | fatal => exact ⟨e1, h1, h2⟩
        | hang => exact ⟨e1, h1, h2⟩
    · exact ⟨[], by simp, fun _ hc hi => ⟨rfl, hi, hc⟩⟩

theorem writevLoop_ackonly {ρ : Type} (buf : List Nat) (nw : Nat) (pre : List Nat)
    (s : HEXBUS) (d : Dev ρ) :
    ∃ ext, (writevLoop buf nw pre s d).2.2.log = d.log ++ ext ∧
      (ackOnly ext → calm s → s.m_inc = false →
        (writevLoop buf nw pre s d).2.1.m_lastaddr = s.m_lastaddr ∧
        (writevLoop buf nw pre s d).2.1.m_inc = false ∧
        calm (writevLoop buf nw pre s d).2.1) := by
  induction buf generalizing nw pre s d with
  | nil => exact ⟨[], by simp [writevLoop], fun _ hc hi => ⟨rfl, hi, hc⟩⟩
  | cons v rest ih =>
    unfold writevLoop
    generalize hd0 : (d.note (Ev.sub nw s.m_nacks)).write (pre ++ encode_word v) = d0
    have hlog0 : d0.log = d.log ++ [Ev.sub nw s.m_nacks, Ev.tx (pre ++ encode_word v)] := by
      rw [← hd0]; simp [Dev.write, Dev.note]
    obtain ⟨e1, h1, h2⟩ := waitAcks_ackonly (d0.rx.length + 1) nw s d0
    rcases hw : waitAcks (d0.rx.length + 1) nw s d0 with ⟨o, s1, d1⟩
    rw [hw] at h1 h2
    simp only [] at h1 h2
    have hsub : ∀ tail, ackOnly (Ev.sub nw s.m_nacks :: Ev.tx (pre ++ encode_word v) :: tail) →
        ackOnly tail := fun tail h b hb =>
      h b (List.mem_cons_of_mem _ (List.mem_cons_of_mem _ hb))
    cases o with
    | ok u =>
      obtain ⟨e2, h3, h4⟩ := ih (nw + 1) [] s1 d1
      refine ⟨Ev.sub nw s.m_nacks :: Ev.tx (pre ++ encode_word v) :: (e1 ++ e2),
        by simp only [h3, h1, hlog0]; simp, ?_⟩
      intro hack hc hi
      obtain ⟨a1, a2⟩ := ackOnly_append (hsub _ hack)
      obtain ⟨r1, r2, r3⟩ := h2 a1 hc hi
      obtain ⟨q1, q2, q3⟩ := h4 a2 r3 r2
      exact ⟨by rw [q1, r1], q2, q3⟩
    | buserr a =>
      exact ⟨Ev.sub nw s.m_nacks :: Ev.tx (pre ++ encode_word v) :: e1,
        by simp only [h1, hlog0]; simp, fun hack hc hi => h2 (hsub _ hack) hc hi⟩
    | fatal =>
      exact ⟨Ev.sub nw s.m_nacks :: Ev.tx (pre ++ encode_word v) :: e1,
        by simp only [h1, hlog0]; simp, fun hack hc hi => h2 (hsub _ hack) hc hi⟩
    | hang =>
      exact ⟨Ev.sub nw s.m_nacks :: Ev.tx (pre ++ encode_word v) :: e1,
        by simp only [h1, hlog0]; simp, fun hack hc hi => h2 (hsub _ hack) hc hi⟩

theorem readidleLoop_not_fatal (s : HEXBUS) (word : Nat) (rx : List (Option Nat))
    (log : List Ev) : (readidleLoop s word rx log).1 ≠ Outcome.fatal := by
  induction rx generalizing s word log with
  | nil => simp [readidleLoop]
  | cons x rest ih =>
    cases x with
    | none => simp [readidleLoop]
    | some b =>
      unfold readidleLoop
      rcases hstep : readidleStep s word ((lclreadcode [b]).1.getD 0 0) with ⟨s1, w1, f⟩
      cases f with
      | next => exact ih s1 w1 _
      | done r => simp
      | throw a => simp

theorem waitAcks_not_fatal {ρ : Type} (fuel target : Nat) (s : HEXBUS) (d : Dev ρ) :
    (waitAcks fuel target s d).1 ≠ Outcome.fatal := by
  induction fuel generalizing s d with
  | zero => unfold waitAcks; split <;> simp
  | succ k ih =>
    unfold waitAcks
    split
    · split
      · simp
      · have hr := readidleLoop_not_fatal s 0 d.rx d.log
        rcases hrd : readidle s d with ⟨o, s1, d1⟩
        have ho : o = (readidleLoop s 0 d.rx d.log).1 := by
          have := congrArg Prod.fst hrd
          simpa [readidle] using this.symm
        cases o with
        | ok u => exact ih s1 d1
        | buserr a => simp
        | fatal => exact absurd ho.symm hr
        | hang => simp
    · simp

theorem writevLoop_not_fatal {ρ : Type} (buf : List Nat) (nw : Nat) (pre : List Nat)
    (s : HEXBUS) (d : Dev ρ) : (writevLoop buf nw pre s d).1 ≠ Outcome.fatal := by
  induction buf generalizing nw pre s d with
  | nil => simp [writevLoop]
  | cons v rest ih =>
    unfold writevLoop
    generalize (d.note (Ev.sub nw s.m_nacks)).write (pre ++ encode_word v) = d0
    have hw := waitAcks_not_fatal (d0.rx.length + 1) nw s d0
    rcases hwa : waitAcks (d0.rx.length + 1) nw s d0 with ⟨o, s1, d1⟩
    rw [hwa] at hw
    cases o with
    | ok u => exact ih _ _ _ _
    | buserr a => simp
    | fatal => exact absurd rfl hw
    | hang => simp

theorem writev_not_fatal {ρ : Type} (a : Nat) (p : Bool) (buf : List Nat) (s : HEXBUS)
    (d : Dev ρ) : (writev a p buf s d).1 ≠ Outcome.fatal := by
  unfold writev
  have hL := writevLoop_not_fatal buf 0 (encode_address s (a ||| (if p then 0 else 1)))
    { s with m_lastaddr := a, m_addr_set := true, m_nacks := 0 } d
  rcases hLe : writevLoop buf 0 (encode_address s (a ||| (if p then 0 else 1)))
    { s with m_lastaddr := a, m_addr_set := true, m_nacks := 0 } d with ⟨o, s1, d1⟩
  rw [hLe] at hL
  cases o with
  | ok u =>
    simp only []
    have hw := waitAcks_not_fatal (d1.rx.length + 1) buf.length s1 d1
    rcases hwa : waitAcks (d1.rx.length + 1) buf.length s1 d1 with ⟨o2, s2, d2⟩
    rw [hwa] at hw
    cases o2 with
    | ok u => simp
    | buserr a => simp
    | fatal => exact absurd rfl hw
    | hang => simp
  | buserr a => simp
  | fatal => exact absurd rfl hL
  | hang => simp

/-- C4, as amended: `writev` makes no check of `m_lastaddr`: no run of it ends
the process as a protocol desync.  When `writev(a, p, n, buf)` returns normally
on an engine whose decoder was between tokens and whose `m_inc` was false at the
call, and nothing but acknowledgement tokens (`K`, newline) was received during
the call, then `m_lastaddr` is `a + 4n` (modulo `2^32`) if `p` is set and `a`
otherwise. -/
theorem writev_post_unchecked {ρ : Type} (a : Nat) (p : Bool) (buf : List Nat) (s : HEXBUS)
    (d : Dev ρ) (s1 : HEXBUS) (d1 : Dev ρ) (ext : List Ev)
    (h : writev a p buf s d = (Outcome.ok (), s1, d1)) (hlog : d1.log = d.log ++ ext)
    (hack : ackOnly ext) (hq : quiet s) (hinc : s.m_inc = false) :
    s1.m_lastaddr = (if p then u32 (a + 4 * buf.length) else a) ∧
    ∀ (a2 : Nat) (p2 : Bool) (buf2 : List Nat) (s2 : HEXBUS) (d2 : Dev ρ),
      (writev a2 p2 buf2 s2 d2).1 ≠ Outcome.fatal := by
  refine ⟨?_, fun a2 p2 buf2 s2 d2 => writev_not_fatal a2 p2 buf2 s2 d2⟩
  unfold writev at h
  obtain ⟨e1, g1, g2⟩ := writevLoop_ackonly buf 0
    (encode_address s (a ||| (if p then 0 else 1)))
    { s with m_lastaddr := a, m_addr_set := true, m_nacks := 0 } d
  rcases hL : writevLoop buf 0 (encode_address s (a ||| (if p then 0 else 1)))
    { s with m_lastaddr := a, m_addr_set := true, m_nacks := 0 } d with ⟨o, s2, d2⟩
  rw [hL] at h g1 g2
  simp only [] at g1 g2
  cases o with
  | ok u =>
    simp only [] at h
    obtain ⟨e2, g3, g4⟩ := waitAcks_ackonly (d2.rx.length + 1) buf.length s2 d2
    rcases hw : waitAcks (d2.rx.length + 1) buf.length s2 d2 with ⟨o2, s3, d3⟩
    rw [hw] at h g3 g4
    simp only [] at g3 g4
    cases o2 with
    | ok u2 =>
      simp only [Prod.mk.injEq, true_and] at h
      obtain ⟨rfl, rfl⟩ := h
      have hext : ext = e1 ++ e2 := by
        have : d.log ++ ext = d.log ++ (e1 ++ e2) := by
          rw [← hlog, g3, g1, List.append_assoc]
        exact List.append_cancel_left this
      rw [hext] at hack
      obtain ⟨a1, a2⟩ := ackOnly_append hack
      obtain ⟨r1, r2, r3⟩ := g2 a1 (calm_of_quiet hq) hinc
      obtain ⟨q1, -, -⟩ := g4 a2 r3 r2
      cases p
      · simp only [Bool.false_eq_true, if_false]
        rw [q1, r1]
      · simp only [if_true, Nat.shiftLeft_eq]
        rw [q1, r1]
        congr 1
        omega
    | buserr a => simp at h
    | fatal => simp at h
    | hang => simp at h
  | buserr a => simp at h
  | fatal => simp at h
  | hang => simp at h

/-- Witness for C4 as amended: `writei` of two words on a new engine (`m_inc`
false), acknowledged late, returns with `m_lastaddr = 0x108`. -/
theorem writev_post_unchecked_witness :
    (writev 256 true [1, 2] fresh delayed).2.1.m_lastaddr
      = (if true then u32 (256 + 4 * [1, 2].length) else 256) :=
  (writev_post_unchecked 256 true [1, 2] fresh delayed
    (writev 256 true [1, 2] fresh delayed).2.1 (writev 256 true [1, 2] fresh delayed).2.2
    [Ev.sub 0 0, Ev.tx [65, 48, 48, 48, 48, 48, 49, 48, 48, 87, 49, 10], Ev.sub 1 0,
      Ev.tx [87, 50, 10], Ev.rx 75, Ev.rx 10, Ev.rx 75, Ev.rx 10]
    rfl (by decide) (by intro b hb; simp at hb; show b = 75 ∨ b = 10; omega) (show quiet fresh from Or.inr (by decide))
    rfl).1

/-- C4, counterexample: the remote announces address `0x40` before it
acknowledges the one word of `writei(0x100, [5])`; `writev` returns normally
with `m_lastaddr = 0x44`, not `0x104`, and no desync is raised. -/
theorem writev_returns_desynced :
    (writev 256 true [5] fresh echoedAck).1 = Outcome.ok () ∧
    (writev 256 true [5] fresh echoedAck).2.1.m_lastaddr = 68 ∧
    (68 : Nat) ≠ 256 + 4 * 1 := by
  decide

/-! ## The simulated remote -/

theorem and_mask4 (x : Nat) (h : x < 4294967296) : x &&& 4294967292 = x - x % 4 := by
  apply Nat.eq_of_testBit_eq
  intro i
  rw [Nat.testBit_and]
  rcases i with _ | _ | j
  · have h0 : (x - x % 4) % 2 = 0 := by omega
    simp [Nat.testBit_zero, h0]
  · have h1 : (x - x % 4) / 2 % 2 = 0 := by omega
    simp [Nat.testBit_succ, Nat.testBit_zero, h1]
  · have hq : (x - x % 4) / 2 / 2 = x / 2 / 2 := by omega
    have hm : (4294967292 : Nat) / 2 / 2 = 2 ^ 30 - 1 := by norm_num
    simp only [Nat.testBit_succ, hq, hm, Nat.testBit_two_pow_sub_one]
    by_cases hj : j < 30
    · simp [hj]
    · have : x / 2 / 2 < 2 ^ j := by
        have h30 : x / 2 / 2 < 2 ^ 30 := by omega
        exact lt_of_lt_of_le h30 (Nat.pow_le_pow_right (by decide) (by omega))
      simp [hj, Nat.testBit_lt_two_pow this]

theorem waitAcks_done {ρ : Type} (fuel target : Nat) (s : HEXBUS) (d : Dev ρ)
    (h : ¬ s.m_nacks < target) : waitAcks fuel target s d = (Outcome.ok (), s, d) := by
  cases fuel <;> simp [waitAcks, h]

theorem datum_of_word (v : Nat) : HEXB_READ :: (encode_word v).tail = encode_datum v := by
  unfold encode_word encode_datum
  by_cases hv : v = 0
  · simp [hv]
  · simp [hv]

/-- C12: for every 32-bit value `v`, zero included, when the payload that the
write encoder composes for `v` (what follows the `W` in `encode_word v`: the
hexadecimal digits, none for zero, and the newline) arrives as the payload of an
`R` token at a decoder that is between tokens, `readword` returns exactly `v`
and leaves the rest of the stream unread. -/
theorem encoder_payload_decodes {ρ : Type} (s : HEXBUS) (d : Dev ρ) (v : Nat)
    (rest : List (Option Nat)) (hq : quiet s) (hv : v < 4294967296)
    (hrx : d.rx = avail (HEXB_READ :: (encode_word v).tail) ++ rest) :
    (readword s d).1 = Outcome.ok v ∧ (readword s d).2.2.rx = rest := by
  rw [datum_of_word] at hrx
  rw [readword_datum s d v rest hq hv hrx]
  exact ⟨rfl, rfl⟩

theorem encoder_payload_decodes_witness :
    (readword fresh (scripted (avail (HEXB_READ :: (encode_word 0).tail)))).1 = Outcome.ok 0 ∧
    (readword fresh (scripted (avail (HEXB_READ :: (encode_word 0).tail)))).2.2.rx = [] :=
  encoder_payload_decodes fresh (scripted (avail (HEXB_READ :: (encode_word 0).tail))) 0 []
    (show quiet fresh from Or.inr (by decide)) (by decide) (by simp [scripted])

/-! ## Which characters are hexadecimal digits -/

theorem digit_nibble (c : Nat) (h1 : 48 ≤ c) (h2 : c ≤ 57) : c &&& 15 = c - 48 := by
  interval_cases c <;> rfl

theorem af_nibble (c : Nat) (h1 : 97 ≤ c) (h2 : c ≤ 102) : (c - 97 + 10) &&& 15 = c - 87 := by
  interval_cases c <;> rfl

/-- C20, counterexample: the upper-case `B` after `R1` is not folded into the
word; it ends the `R` token, so that `readword` returns 1 and the tag becomes
`B`; in `readidle` it likewise ends the token and becomes the tag. -/
theorem uppercase_hex_ends_token :
    readwordStep { fresh with m_cmd := HEXB_READ } 1 3 66
      = ({ fresh with m_cmd := 66 }, 0, 3, Flow.done 1) ∧
    readidleStep { fresh with m_cmd := HEXB_READ } 1 66
      = ({ fresh with m_cmd := 66 }, 0, Flow.next) ∧
    (readword fresh (scripted (avail [82, 49, 66, 10]))).1 = Outcome.ok 1 ∧
    (1 : Nat) ≠ 1 * 16 + 11 := by
  decide

/-- C20, as amended: for every inbound byte that is a decimal digit or a
lower-case letter `a` to `f`, both decoders fold its nibble into the accumulator
(`word := word * 16 + nibble`, modulo `2^32`), go on with the same token, and
leave the tag and every other field as they are, except that `readword` marks
the decoder as being inside a token (`m_isspace := false`). -/
theorem lowercase_hex_folds (s : HEXBUS) (word abort c : Nat)
    (hc : (48 ≤ c ∧ c ≤ 57) ∨ (97 ≤ c ∧ c ≤ 102)) :
    readwordStep s word abort c
        = ({ s with m_isspace := false }, (word * 16 + hexvalue [c]) % 4294967296, abort,
            Flow.next) ∧
    readidleStep s word c = (s, (word * 16 + hexvalue [c]) % 4294967296, Flow.next) := by
  rcases hc with ⟨h1, h2⟩ | ⟨h1, h2⟩
  · have hd : isdigit c = true := by simp [isdigit, h1, h2]
    have hv : hexvalue [c] = c - 48 := by
      simp only [hexvalue, List.foldl_cons, List.foldl_nil]
      rw [if_pos (by omega)]; omega
    have hn : c - 48 < 16 := by omega
    unfold readwordStep readidleStep
    rw [if_pos hd, if_pos hd, digit_nibble c h1 h2, accum_eq _ _ hn, hv]
    exact ⟨rfl, rfl⟩
  · have hd : ¬ (isdigit c = true) := by simp [isdigit]; omega
    have ha : isaf c = true := by simp [isaf, h1, h2]
    have hv : hexvalue [c] = c - 87 := by
      simp only [hexvalue, List.foldl_cons, List.foldl_nil]
      rw [if_neg (by omega)]; omega
    have hn : c - 87 < 16 := by omega
    unfold readwordStep readidleStep
    rw [if_neg hd, if_neg hd, if_pos ha, if_pos ha, af_nibble c h1 h2, accum_eq _ _ hn, hv]
    exact ⟨rfl, rfl⟩

theorem lowercase_hex_folds_witness :
    readwordStep fresh 1 3 102
        = ({ fresh with m_isspace := false }, (1 * 16 + hexvalue [102]) % 4294967296, 3,
            Flow.next) ∧
    readidleStep fresh 1 102 = (fresh, (1 * 16 + hexvalue [102]) % 4294967296, Flow.next) :=
  lowercase_hex_folds fresh 1 3 102 (Or.inr ⟨by decide, by decide⟩)

/-! ## Idle characters -/

/-- C13, failing input: `readio(0x100)` on a new engine.  Answered by `R1f\n`
it returns `0x1f`; with the idle character `0x7f` inserted between the two
digits it returns 1.  `lclreadcode`, asked for one character, hands the idle
character on (buffer unchanged, count 1), and the decoder takes it for the tag
that ends the `R` token. -/
theorem idle_filler_splits_datum :
    (readio 256 fresh (scripted (avail [82, 49, 102, 10]))).1 = Outcome.ok 31 ∧
    (readio 256 fresh (scripted (avail [82, 49, 127, 102, 10]))).1 = Outcome.ok 1 ∧
    lclreadcode [127] = ([127], 1) ∧
    (readio 256 fresh (scripted (avail [82, 49, 127, 102, 10]))).2.1.m_cmd = 127 := by
  decide

/-! ## The reset token -/

/-- C17, failing input: with the bus-error flag latched by an `E` token and the
address known, a `T` token that `readword` dispatches clears `m_addr_set` and
leaves `m_bus_err` set; one that `usleep` reads clears `m_bus_err` and leaves
`m_addr_set` set; only `readidle` clears both.  After `readio(0x100)` has
failed on `E\n`, a second `readio(0x100)` answered by `T\nR5\n` returns 5 with
`m_bus_err` still set. -/
theorem reset_clears_one_flag_only :
    (readwordStep { fresh with m_addr_set := true, m_bus_err := true, m_cmd := HEXB_RESET }
        0 3 CH_NL).1.m_bus_err = true ∧
    (readwordStep { fresh with m_addr_set := true, m_bus_err := true, m_cmd := HEXB_RESET }
        0 3 CH_NL).1.m_addr_set = false ∧
    (usleep { fresh with m_addr_set := true, m_bus_err := true }
        (scripted (avail [HEXB_RESET, CH_NL]))).2.1.m_addr_set = true ∧
    (usleep { fresh with m_addr_set := true, m_bus_err := true }
        (scripted (avail [HEXB_RESET, CH_NL]))).2.1.m_bus_err = false ∧
    (readidleStep { fresh with m_addr_set := true, m_bus_err := true, m_cmd := HEXB_RESET }
        0 CH_NL).1.m_addr_set = false ∧
    (readidleStep { fresh with m_addr_set := true, m_bus_err := true, m_cmd := HEXB_RESET }
        0 CH_NL).1.m_bus_err = false ∧
    (readio 256 fresh (scripted (avail [HEXB_ERR, CH_NL]))).1 = Outcome.buserr 256 ∧
    (readio 256 (readio 256 fresh (scripted (avail [HEXB_ERR, CH_NL]))).2.1
        (scripted (avail [HEXB_RESET, CH_NL, HEXB_READ, 53, CH_NL]))).1 = Outcome.ok 5 ∧
    (readio 256 (readio 256 fresh (scripted (avail [HEXB_ERR, CH_NL]))).2.1
        (scripted (avail [HEXB_RESET, CH_NL, HEXB_READ, 53, CH_NL]))).2.1.m_bus_err = true := by
  decide

/-! ## Tokens with a tag the decoders do not know -/

theorem readwordStep_hexchar (s : HEXBUS) (word abort c : Nat)
    (h : isdigit c = true ∨ isaf c = true) (hs : s.m_isspace = false) :
    ∃ w, readwordStep s word abort c = (s, w, abort, Flow.next) := by
  unfold readwordStep
  by_cases hd : isdigit c = true
  · rw [if_pos hd, set_isspace_false s hs]; exact ⟨_, rfl⟩
  · have ha : isaf c = true := h.resolve_left hd
    rw [if_neg hd, if_pos ha, set_isspace_false s hs]; exact ⟨_, rfl⟩

theorem readidleStep_hexchar (s : HEXBUS) (word c : Nat)
    (h : isdigit c = true ∨ isaf c = true) :
    ∃ w, readidleStep s word c = (s, w, Flow.next) := by
  unfold readidleStep
  by_cases hd : isdigit c = true
  · rw [if_pos hd]; exact ⟨_, rfl⟩
  · have ha : isaf c = true := h.resolve_left hd
    rw [if_neg hd, if_pos ha]; exact ⟨_, rfl⟩

theorem readwordLoop_hexrun (ds : List Nat) (s : HEXBUS) (word abort : Nat)
    (rest : List (Option Nat)) (log : List Ev)
    (hds : ∀ x ∈ ds, isdigit x = true ∨ isaf x = true) (hs : s.m_isspace = false) :
    ∃ w, readwordLoop s word abort (avail ds ++ rest) log
      = readwordLoop s w abort rest (log ++ ds.map Ev.rx) := by
  induction ds generalizing word log with
  | nil => exact ⟨word, by simp [avail]⟩
  | cons x xs ih =>
    obtain ⟨w1, h1⟩ := readwordStep_hexchar s word abort x (hds x (List.mem_cons_self _ _)) hs
    obtain ⟨w2, h2⟩ := ih w1 (log ++ [Ev.rx x]) (fun y hy => hds y (List.mem_cons_of_mem _ hy))
    refine ⟨w2, ?_⟩
    rw [avail_cons, List.cons_append, readwordLoop, lclreadcode_one, h1]
    simp only []
    rw [h2]
    simp

theorem readidleLoop_hexrun (ds : List Nat) (s : HEXBUS) (word : Nat)
    (rest : List (Option Nat)) (log : List Ev)
    (hds : ∀ x ∈ ds, isdigit x = true ∨ isaf x = true) :
    ∃ w, readidleLoop s word (avail ds ++ rest) log
      = readidleLoop s w rest (log ++ ds.map Ev.rx) := by
  induction ds generalizing word log with
  | nil => exact ⟨word, by simp [avail]⟩
  | cons x xs ih =>
    obtain ⟨w1, h1⟩ := readidleStep_hexchar s word x (hds x (List.mem_cons_self _ _))
    obtain ⟨w2, h2⟩ := ih w1 (log ++ [Ev.rx x]) (fun y hy => hds y (List.mem_cons_of_mem _ hy))
    refine ⟨w2, ?_⟩
    rw [avail_cons, List.cons_append, readidleLoop, lclreadcode_one, h1]
    simp only []
    rw [h2]
    simp

theorem readwordStep_quiet (s : HEXBUS) (word abort c : Nat) (hq : quiet s)
    (hd : isdigit c = false) (ha : isaf c = false) :
    readwordStep s word abort c = (newcmd s c, 0, abort, Flow.next) := by
  unfold readwordStep
  rw [if_neg (by simp [hd]), if_neg (by simp [ha])]
  by_cases h : s.m_isspace = true
  · rw [if_pos h]
  · rcases hq with h0 | ⟨h1, h2, h3, h4, h5, h6, h7⟩
    · exact absurd h0 h
    · rw [if_neg h, if_neg h2, if_neg h3, if_neg h4, if_neg h5, if_neg h6, if_neg h1,
        if_neg h7]

theorem readidleStep_quiet (s : HEXBUS) (word c : Nat) (hq : quiet s)
    (hd : isdigit c = false) (ha : isaf c = false)
    (h : isspace c = false ∨ s.m_isspace = false) :
    readidleStep s word c = (newcmd s c, 0, Flow.next) := by
  unfold readidleStep
  have hns : ¬ ((isspace c && s.m_isspace) = true) := by
    rcases h with h | h <;> simp [h]
  rw [if_neg (by simp [hd]), if_neg (by simp [ha]), if_neg hns]
  by_cases hsp : s.m_isspace = true
  · rw [if_pos hsp]
  · rcases hq with h0 | ⟨h1, h2, h3, h4, h5, h6, h7⟩
    · exact absurd h0 hsp
    · rw [if_neg hsp, if_neg h1, if_neg h2, if_neg h4, if_neg h3, if_neg h5, if_neg h7]

theorem newcmd_tag (s : HEXBUS) (c : Nat) (h : isspace c = false) :
    newcmd s c = { s with m_cmd := c, m_isspace := false } := by
  simp [newcmd, h]

/-- C16: for every byte `c` that is neither a lower-case hexadecimal digit nor
white space nor one of the tags `A`, `R`, `K`, `I`, `E`, `T`, `Z`, a token that
`c` introduces at a decoder between tokens, with any run `ds` of hexadecimal
digits as its payload and any character `t` that is not a hexadecimal digit as
its end, raises no fault: `readword` and `readidle` both go on with what follows
the token, the word register cleared and the idle countdown of `readword` as it
was; `readidle` returns normally when nothing follows, and `readword` goes on
waiting for its datum.  The engine they go on with differs from the one at the
start in the current tag and the white-space flag only. -/
theorem unknown_tag_no_fault (s : HEXBUS) (c t word abort : Nat) (ds : List Nat)
    (rest : List (Option Nat)) (log : List Ev) (hq : quiet s)
    (hc : isdigit c = false ∧ isaf c = false ∧ isspace c = false)
    (htag : c ≠ HEXB_ADDR ∧ c ≠ HEXB_READ ∧ c ≠ HEXB_ACK ∧ c ≠ HEXB_INT ∧ c ≠ HEXB_ERR ∧
      c ≠ HEXB_RESET ∧ c ≠ HEXB_IDLE)
    (hds : ∀ x ∈ ds, isdigit x = true ∨ isaf x = true)
    (ht : isdigit t = false ∧ isaf t = false) :
    ∃ s1 : HEXBUS,
      (s1.m_interrupt_flag = s.m_interrupt_flag ∧ s1.m_addr_set = s.m_addr_set ∧
        s1.m_bus_err = s.m_bus_err ∧ s1.m_lastaddr = s.m_lastaddr ∧
        s1.m_nacks = s.m_nacks ∧ s1.m_inc = s.m_inc) ∧
      readwordLoop s word abort (avail (c :: ds ++ [t]) ++ rest) log
        = readwordLoop s1 0 abort rest (log ++ (c :: ds ++ [t]).map Ev.rx) ∧
      readidleLoop s word (avail (c :: ds ++ [t]) ++ rest) log
        = readidleLoop s1 0 rest (log ++ (c :: ds ++ [t]).map Ev.rx) ∧
      (readidleLoop s word (avail (c :: ds ++ [t])) log).1 = Outcome.ok () ∧
      (readwordLoop s word abort (avail (c :: ds ++ [t])) log).1 = Outcome.hang := by
  obtain ⟨hc1, hc2, hc3⟩ := hc
  obtain ⟨g1, g2, g3, g4, g5, g6, g7⟩ := htag
  have hq1 : quiet { s with m_cmd := c, m_isspace := false } :=
    Or.inr ⟨g1, g2, g3, g4, g5, g7, g6⟩
  have hw : ∀ (r : List (Option Nat)),
      readwordLoop s word abort (avail (c :: ds ++ [t]) ++ r) log
        = readwordLoop (newcmd { s with m_cmd := c, m_isspace := false } t) 0 abort r
            (log ++ (c :: ds ++ [t]).map Ev.rx) := by
    intro r
    obtain ⟨w, h2⟩ := readwordLoop_hexrun ds { s with m_cmd := c, m_isspace := false } 0 abort
      (some t :: r) (log ++ [Ev.rx c]) hds rfl
    rw [List.cons_append, avail_cons, List.cons_append, readwordLoop, lclreadcode_one,
      readwordStep_quiet s word abort c hq hc1 hc2, newcmd_tag s c hc3]
    simp only []
    rw [avail_append, List.append_assoc]
    simp only [avail, List.map_cons, List.map_nil, List.singleton_append]
    rw [show List.map some ds = avail ds from rfl, h2, readwordLoop, lclreadcode_one,
      readwordStep_quiet _ w abort t hq1 ht.1 ht.2]
    simp
  have hi : ∀ (r : List (Option Nat)),
      readidleLoop s word (avail (c :: ds ++ [t]) ++ r) log
        = readidleLoop (newcmd { s with m_cmd := c, m_isspace := false } t) 0 r
            (log ++ (c :: ds ++ [t]).map Ev.rx) := by
    intro r
    obtain ⟨w, h2⟩ := readidleLoop_hexrun ds { s with m_cmd := c, m_isspace := false } 0
      (some t :: r) (log ++ [Ev.rx c]) hds
    rw [List.cons_append, avail_cons, List.cons_append, readidleLoop, lclreadcode_one,
      readidleStep_quiet s word c hq hc1 hc2 (Or.inl hc3), newcmd_tag s c hc3]
    simp only []
    rw [avail_append, List.append_assoc]
    simp only [avail, List.map_cons, List.map_nil, List.singleton_append]
    rw [show List.map some ds = avail ds from rfl, h2, readidleLoop, lclreadcode_one,
      readidleStep_quiet _ w t hq1 ht.1 ht.2 (Or.inr rfl)]
    simp
  refine ⟨newcmd { s with m_cmd := c, m_isspace := false } t, ?_, hw rest, hi rest, ?_, ?_⟩
  · unfold newcmd
    split <;> simp
  · have := hi []
    rw [List.append_nil] at this
    rw [this]
    simp [readidleLoop]
  · have := hw []
    rw [List.append_nil] at this
    rw [this]
    simp [readwordLoop]

theorem unknown_tag_no_fault_witness :
    (readidleLoop fresh 0 (avail (81 :: [49] ++ [10])) []).1 = Outcome.ok () ∧
    (readwordLoop fresh 0 3 (avail (81 :: [49] ++ [10])) []).1 = Outcome.hang := by
  obtain ⟨s1, _, _, _, h1, h2⟩ := unknown_tag_no_fault fresh 81 10 0 3 [49] [] []
    (Or.inr (by decide)) (by decide) (by decide) (by decide) (by decide)
  exact ⟨h1, h2⟩

/-! ## What `writev` puts on the wire -/

theorem txBytes_append (l1 l2 : List Ev) : txBytes (l1 ++ l2) = txBytes l1 ++ txBytes l2 := by
  induction l1 with
  | nil => rfl
  | cons e l ih => cases e <;> simp [txBytes, ih]

theorem txBytes_onlyRx {l : List Ev} (h : onlyRx l) : txBytes l = [] := by
  induction l with
  | nil => rfl
  | cons e l ih =>
    obtain ⟨b, hb⟩ := h e (List.mem_cons_self _ _)
    subst hb
    simpa [txBytes] using ih (fun e he => h e (List.mem_cons_of_mem _ he))

theorem writevLoop_wire {ρ : Type} (buf : List Nat) (nw : Nat) (pre : List Nat) (s : HEXBUS)
    (d : Dev ρ) :
    ∃ ext k, (writevLoop buf nw pre s d).2.2.log = d.log ++ ext ∧ k ≤ buf.length ∧
      (buf ≠ [] → 0 < k) ∧
      txBytes ext = (if k = 0 then [] else pre) ++ (buf.take k).flatMap encode_word ∧
      ((writevLoop buf nw pre s d).1 = Outcome.ok () → k = buf.length) := by
  induction buf generalizing nw pre s d with
  | nil => exact ⟨[], 0, by simp [writevLoop], le_refl _, fun h => absurd rfl h, by simp [txBytes],
      fun _ => rfl⟩
  | cons v rest ih =>
    unfold writevLoop
    generalize hd0 : (d.note (Ev.sub nw s.m_nacks)).write (pre ++ encode_word v) = d0
    have hlog0 : d0.log = d.log ++ [Ev.sub nw s.m_nacks, Ev.tx (pre ++ encode_word v)] := by
      rw [← hd0]; simp [Dev.write, Dev.note]
    obtain ⟨e1, h1, h2⟩ := waitAcks_log (d0.rx.length + 1) nw s d0
    rcases hw : waitAcks (d0.rx.length + 1) nw s d0 with ⟨o, s1, d1⟩
    rw [hw, hlog0] at h1
    simp only [] at h1
    have hstop : txBytes ([Ev.sub nw s.m_nacks, Ev.tx (pre ++ encode_word v)] ++ e1)
        = (if 1 = 0 then [] else pre) ++ ((v :: rest).take 1).flatMap encode_word := by
      rw [txBytes_append, txBytes_onlyRx h2]
      simp [txBytes]
    cases o with
    | ok u =>
      obtain ⟨e2, k2, h3, h4, _, h5, h6⟩ := ih (nw + 1) [] s1 d1
      refine ⟨[Ev.sub nw s.m_nacks, Ev.tx (pre ++ encode_word v)] ++ e1 ++ e2, k2 + 1, ?_, ?_, ?_,
        ?_, ?_⟩
      · simp only [h3, h1]; simp
      · simpa using h4
      · intro _; omega
      · rw [txBytes_append, hstop, h5]
        simp
      · intro hok
        simp only [] at hok
        simp [h6 hok]
    | buserr a =>
      exact ⟨[Ev.sub nw s.m_nacks, Ev.tx (pre ++ encode_word v)] ++ e1, 1,
        by simp [h1], by simp, fun _ => by omega, hstop, fun hok => by simp at hok⟩
    | fatal =>
      exact ⟨[Ev.sub nw s.m_nacks, Ev.tx (pre ++ encode_word v)] ++ e1, 1,
        by simp [h1], by simp, fun _ => by omega, hstop, fun hok => by simp at hok⟩
    | hang =>
      exact ⟨[Ev.sub nw s.m_nacks, Ev.tx (pre ++ encode_word v)] ++ e1, 1,
        by simp [h1], by simp, fun _ => by omega, hstop, fun hok => by simp at hok⟩

theorem writev_wire {ρ : Type} (a : Nat) (p : Bool) (buf : List Nat) (s : HEXBUS) (d : Dev ρ) :
    ∃ ext k, (writev a p buf s d).2.2.log = d.log ++ ext ∧ k ≤ buf.length ∧
      (buf ≠ [] → 0 < k) ∧
      txBytes ext = (if k = 0 then [] else encode_address s (a ||| (if p then 0 else 1)))
        ++ (buf.take k).flatMap encode_word ∧
      ((writev a p buf s d).1 = Outcome.ok () → k = buf.length) := by
  obtain ⟨e1, k, h1, h2, h3, h4, h5⟩ := writevLoop_wire buf 0
    (encode_address s (a ||| (if p then 0 else 1)))
    { s with m_lastaddr := a, m_addr_set := true, m_nacks := 0 } d
  unfold writev
  rcases hL : writevLoop buf 0 (encode_address s (a ||| (if p then 0 else 1)))
    { s with m_lastaddr := a, m_addr_set := true, m_nacks := 0 } d with ⟨o, s1, d1⟩
  rw [hL] at h1 h5
  simp only [] at h1 h5
  cases o with
  | ok u =>
    simp only []
    obtain ⟨e2, h6, h7⟩ := waitAcks_log (d1.rx.length + 1) buf.length s1 d1
    rcases hw : waitAcks (d1.rx.length + 1) buf.length s1 d1 with ⟨o2, s2, d2⟩
    rw [hw] at h6
    simp only [] at h6
    have hall : d2.log = d.log ++ (e1 ++ e2) := by rw [h6, h1]; simp
    have htx : txBytes (e1 ++ e2)
        = (if k = 0 then [] else encode_address s (a ||| (if p then 0 else 1)))
          ++ (buf.take k).flatMap encode_word := by
      rw [txBytes_append, txBytes_onlyRx h7, h4]; simp
    cases o2 <;> exact ⟨e1 ++ e2, k, hall, h2, h3, htx, fun _ => h5 rfl⟩
  | buserr b => exact ⟨e1, k, h1, h2, h3, h4, fun hok => by simp at hok⟩
  | fatal => exact ⟨e1, k, h1, h2, h3, h4, fun hok => by simp at hok⟩
  | hang => exact ⟨e1, k, h1, h2, h3, h4, fun hok => by simp at hok⟩

theorem hexsig_zero (k : Nat) : hexsig k 0 = [] := by
  cases k <;> simp [hexsig]

theorem hexvalue_snoc (ds : List Nat) (c : Nat) :
    hexvalue (ds ++ [c]) = hexvalue ds * 16 + (if c < 58 then c - 48 else c - 87) := by
  simp [hexvalue, List.foldl_append]

theorem hexvalue_hexsig (k v : Nat) (h : v < 16 ^ k) : hexvalue (hexsig k v) = v := by
  induction k generalizing v with
  | zero =>
    have : v = 0 := by simpa using h
    simp [hexsig, hexvalue, this]
  | succ k ih =>
    unfold hexsig
    by_cases hv : v = 0
    · simp [hv, hexvalue]
    · rw [if_neg hv, hexvalue_snoc, ih (v / 16) (by rw [pow_succ] at h; omega),
        hexdigit_value _ (Nat.mod_lt _ (by decide))]
      omega

theorem hexsig_head (k v : Nat) (h : v < 16 ^ k) (hv : v ≠ 0) :
    ∃ x tl, hexsig k v = x :: tl ∧ x ≠ 48 := by
  induction k generalizing v with
  | zero =>
    have : v = 0 := by simpa using h
    exact absurd this hv
  | succ k ih =>
    unfold hexsig
    rw [if_neg hv]
    by_cases h16 : v / 16 = 0
    · rw [h16, hexsig_zero]
      refine ⟨hexdigit (v % 16), [], rfl, ?_⟩
      unfold hexdigit
      split <;> omega
    · obtain ⟨x, tl, h1, h2⟩ := ih (v / 16) (by rw [pow_succ] at h; omega) h16
      exact ⟨x, tl ++ [hexdigit (v % 16)], by rw [h1]; rfl, h2⟩

theorem encode_word_form (v : Nat) (hv : v < 4294967296) :
    ∃ ds, encode_word v = CH_W :: (ds ++ [CH_NL]) ∧
      (∀ c ∈ ds, (48 ≤ c ∧ c ≤ 57) ∨ (97 ≤ c ∧ c ≤ 102)) ∧ hexvalue ds = v ∧
      ds.head? ≠ some 48 ∧ (v = 0 → ds = []) := by
  by_cases h0 : v = 0
  · subst h0
    exact ⟨[], by decide, by simp, by decide, by simp, fun _ => rfl⟩
  · refine ⟨hexsig 8 v, ?_, hexsig_lower 8 v, hexvalue_hexsig 8 v (by norm_num; exact hv), ?_,
      fun h => absurd h h0⟩
    · simp [encode_word, sprintf_x, h0]
    · obtain ⟨x, tl, h1, h2⟩ := hexsig_head 8 v (by norm_num; exact hv) h0
      rw [h1]
      simpa using h2

/-- C11: for every call `writev(a, p, n, buf)`, whatever arrives meanwhile and
however the call ends, the characters it puts on the wire are, for some `k ≤ n`
(`k = n` when the call returns normally, `k ≥ 1` when `n ≥ 1`): the `A` token or
nothing, as `encode_address` decides (nothing at all when no word goes out),
followed by the tokens of `buf[0] .. buf[k-1]` in order.  The token of a 32-bit
word `v` is `W`, then lower-case hexadecimal digits whose value is `v` and of
which the first is not `0` (no digit at all when `v = 0`), then one newline; the
token of 0 is the bare `W` and the newline. -/
theorem writev_wire_format {ρ : Type} (a : Nat) (p : Bool) (buf : List Nat) (s : HEXBUS)
    (d : Dev ρ) :
    (∃ ext k, (writev a p buf s d).2.2.log = d.log ++ ext ∧ k ≤ buf.length ∧
      (buf ≠ [] → 0 < k) ∧
      ((writev a p buf s d).1 = Outcome.ok () → k = buf.length) ∧
      txBytes ext = (if k = 0 then [] else encode_address s (a ||| (if p then 0 else 1)))
        ++ (buf.take k).flatMap encode_word) ∧
    (encode_address s (a ||| (if p then 0 else 1)) = [] ∨
      encode_address s (a ||| (if p then 0 else 1))
        = HEXB_ADDR :: sprintf_08x (a ||| (if p then 0 else 1))) ∧
    (∀ v, v < 4294967296 →
      ∃ ds, encode_word v = CH_W :: (ds ++ [CH_NL]) ∧
        (∀ c ∈ ds, (48 ≤ c ∧ c ≤ 57) ∨ (97 ≤ c ∧ c ≤ 102)) ∧ hexvalue ds = v ∧
        ds.head? ≠ some 48 ∧ (v = 0 → ds = [])) ∧
    encode_word 0 = [CH_W, CH_NL] := by
  refine ⟨?_, ?_, encode_word_form, rfl⟩
  · obtain ⟨ext, k, h1, h2, h3, h4, h5⟩ := writev_wire a p buf s d
    exact ⟨ext, k, h1, h2, h3, h5, h4⟩
  · unfold encode_address
    exact ite_eq_or_eq _ _ _

theorem writev_wire_format_witness :
    encode_word 31 = CH_W :: ([49, 102] ++ [CH_NL]) ∧ hexvalue [49, 102] = 31 := by
  obtain ⟨ds, h1, _, h3, _, _⟩ := (writev_wire_format 256 true [31, 0] fresh echoed).2.2.1 31
    (by decide)
  have hds : ds = [49, 102] := by
    have h : encode_word 31 = CH_W :: ([49, 102] ++ [CH_NL]) := by decide
    rw [h] at h1
    exact (List.append_cancel_right (List.cons.inj h1).2).symm
  subst hds
  exact ⟨h1, h3⟩

/-! ## A vector read that meets a fault -/

theorem readwordLoop_err (s : HEXBUS) (t : Nat) (rest : List (Option Nat)) (log : List Ev)
    (hq : quiet s) (hd : isdigit t = false) (ha : isaf t = false) :
    ∃ s1, readwordLoop s 0 3 (avail [HEXB_ERR, t] ++ rest) log
        = (Outcome.buserr s.m_lastaddr, s1, rest, log ++ [HEXB_ERR, t].map Ev.rx) ∧
      s1.m_bus_err = true := by
  have h1 : readwordStep { s with m_cmd := HEXB_ERR, m_isspace := false } 0 3 t
      = (if isspace t then { s with m_cmd := HEXB_ERR, m_bus_err := true, m_isspace := true }
          else { s with m_bus_err := true, m_isspace := false, m_cmd := t },
          0, 3, Flow.throw s.m_lastaddr) := by
    unfold readwordStep
    rw [if_neg (by simp [hd]), if_neg (by simp [ha]), if_neg (by simp), if_neg (by simp),
      if_neg (by simp), if_neg (by simp), if_pos rfl]
  refine ⟨if isspace t then { s with m_cmd := HEXB_ERR, m_bus_err := true, m_isspace := true }
      else { s with m_bus_err := true, m_isspace := false, m_cmd := t }, ?_, ?_⟩
  · simp only [avail, List.map_cons, List.map_nil, List.cons_append, List.nil_append]
    rw [readwordLoop, lclreadcode_one, readwordStep_quiet s 0 3 HEXB_ERR hq (by decide) (by decide),
      newcmd_tag s HEXB_ERR (by decide)]
    simp only []
    rw [readwordLoop, lclreadcode_one, h1]
    simp
  · split <;> rfl

theorem readwordLoop_idle3 (s : HEXBUS) (rest : List (Option Nat)) (log : List Ev)
    (hq : quiet s) :
    readwordLoop s 0 3
        (avail [HEXB_IDLE, CH_NL, HEXB_IDLE, CH_NL, HEXB_IDLE, CH_NL] ++ rest) log
      = (Outcome.buserr 0, { s with m_cmd := HEXB_IDLE, m_isspace := false }, rest,
          log ++ [HEXB_IDLE, CH_NL, HEXB_IDLE, CH_NL, HEXB_IDLE, CH_NL].map Ev.rx) := by
  have hz : ∀ (t : HEXBUS) (abort : Nat), t.m_isspace = true →
      readwordStep t 0 abort HEXB_IDLE
        = ({ t with m_cmd := HEXB_IDLE, m_isspace := false }, 0, abort, Flow.next) := by
    intro t abort ht
    rw [readwordStep_quiet t 0 abort HEXB_IDLE (Or.inl ht) (by decide) (by decide),
      newcmd_tag t HEXB_IDLE (by decide)]
  have hn : ∀ (t : HEXBUS) (abort : Nat),
      readwordStep { t with m_cmd := HEXB_IDLE, m_isspace := false } 0 abort CH_NL
        = if u32 (abort + 4294967295) = 0 then
            ({ t with m_cmd := HEXB_IDLE, m_isspace := false }, 0, u32 (abort + 4294967295),
              Flow.throw 0)
          else
            ({ t with m_cmd := HEXB_IDLE, m_isspace := true }, 0, u32 (abort + 4294967295),
              Flow.next) := by
    intro t abort
    unfold readwordStep
    rw [if_neg (by decide), if_neg (by decide), if_neg (by simp), if_neg (by simp),
      if_neg (by simp), if_neg (by simp), if_neg (by simp), if_pos rfl]
    rfl
  have h3 : u32 (3 + 4294967295) = 2 := by decide
  have h2 : u32 (2 + 4294967295) = 1 := by decide
  have h1 : u32 (1 + 4294967295) = 0 := by decide
  simp only [avail, List.map_cons, List.map_nil, List.cons_append, List.nil_append]
  rw [readwordLoop, lclreadcode_one, readwordStep_quiet s 0 3 HEXB_IDLE hq (by decide) (by decide),
    newcmd_tag s HEXB_IDLE (by decide)]
  simp only []
  rw [readwordLoop, lclreadcode_one, hn s 3, h3, if_neg (by decide)]
  simp only []
  rw [readwordLoop, lclreadcode_one, hz _ 2 rfl]
  simp only []
  rw [readwordLoop, lclreadcode_one, hn _ 2, h2, if_neg (by decide)]
  simp only []
  rw [readwordLoop, lclreadcode_one, hz _ 1 rfl]
  simp only []
  rw [readwordLoop, lclreadcode_one, hn _ 1, h1, if_pos rfl]
  simp

theorem readvLoop_data_fault {ρ : Type} (ws : List Nat) (n : Nat) (pre buf : List Nat)
    (s : HEXBUS) (d : Dev ρ) (F : List Nat) (rest : List (Option Nat)) (hq : quiet s)
    (hw : ∀ w ∈ ws, w < 4294967296) (hn : ws.length < n)
    (hF : ∀ (t : HEXBUS) (r : List (Option Nat)) (l : List Ev), quiet t →
      ∃ b t1, readwordLoop t 0 3 (avail F ++ r) l = (Outcome.buserr b, t1, r, l ++ F.map Ev.rx))
    (hrx : d.rx = avail (ws.flatMap encode_datum ++ F) ++ rest) :
    ∃ b s1 d1, readvLoop n pre buf s d = (Outcome.buserr b, buf ++ ws, s1, d1) := by
  induction ws generalizing n pre buf s d rest with
  | nil =>
    obtain ⟨m, rfl⟩ : ∃ m, n = m + 1 := ⟨n - 1, by simp at hn; omega⟩
    obtain ⟨b, t1, h1⟩ := hF s (rest ++ (d.respond d.rstate (pre ++ [HEXB_READ, CH_NL])).2)
      (d.log ++ [Ev.tx (pre ++ [HEXB_READ, CH_NL])]) hq
    refine ⟨b, t1,
      { d.write (pre ++ [HEXB_READ, CH_NL]) with
        rx := rest ++ (d.respond d.rstate (pre ++ [HEXB_READ, CH_NL])).2,
        log := d.log ++ [Ev.tx (pre ++ [HEXB_READ, CH_NL])] ++ F.map Ev.rx }, ?_⟩
    rw [readvLoop]
    unfold readword
    have hrx1 : (d.write (pre ++ [HEXB_READ, CH_NL])).rx
        = avail F ++ (rest ++ (d.respond d.rstate (pre ++ [HEXB_READ, CH_NL])).2) := by
      simp [Dev.write, hrx]
    have hlog1 : (d.write (pre ++ [HEXB_READ, CH_NL])).log
        = d.log ++ [Ev.tx (pre ++ [HEXB_READ, CH_NL])] := rfl
    rw [hrx1, hlog1, h1]
    simp
  | cons w ws ih =>
    obtain ⟨m, rfl⟩ : ∃ m, n = m + 1 := ⟨n - 1, by simp at hn; omega⟩
    have hw1 : w < 4294967296 := hw w (List.mem_cons_self _ _)
    have hrx1 : (d.write (pre ++ [HEXB_READ, CH_NL])).rx
        = avail (encode_datum w) ++ (avail (ws.flatMap encode_datum ++ F)
            ++ (rest ++ (d.respond d.rstate (pre ++ [HEXB_READ, CH_NL])).2)) := by
      simp only [Dev.write, hrx, List.flatMap_cons, avail_append, List.append_assoc]
    obtain ⟨b, s1, d1, h1⟩ := ih m [] (buf ++ [w]) (afterDatum s)
      { d.write (pre ++ [HEXB_READ, CH_NL]) with
        rx := avail (ws.flatMap encode_datum ++ F)
            ++ (rest ++ (d.respond d.rstate (pre ++ [HEXB_READ, CH_NL])).2),
        log := (d.write (pre ++ [HEXB_READ, CH_NL])).log ++ (encode_datum w).map Ev.rx }
      (rest ++ (d.respond d.rstate (pre ++ [HEXB_READ, CH_NL])).2)
      (quiet_afterDatum s) (fun x hx => hw x (List.mem_cons_of_mem _ hx))
      (by simp at hn; omega) rfl
    refine ⟨b, s1, d1, ?_⟩
    rw [readvLoop, readword_datum s _ w _ hq hw1 hrx1]
    simp only []
    rw [h1]
    simp

theorem readv_data_fault {ρ : Type} (a : Nat) (inc : Bool) (n : Nat) (ws : List Nat)
    (s : HEXBUS) (d : Dev ρ) (F : List Nat) (rest : List (Option Nat)) (ha : a < 4294967296)
    (hq : quiet s) (hw : ∀ w ∈ ws, w < 4294967296) (hn : ws.length < n)
    (hF : ∀ (t : HEXBUS) (r : List (Option Nat)) (l : List Ev), quiet t →
      ∃ b t1, readwordLoop t 0 3 (avail F ++ r) l = (Outcome.buserr b, t1, r, l ++ F.map Ev.rx))
    (hrx : d.rx = avail (ws.flatMap encode_datum ++ F) ++ rest) :
    ∃ s1 d1, readv a inc n s d
      = (Outcome.buserr (if inc then (a + 4 * ws.length) % 4294967296 else a), ws, s1, d1) := by
  have hq0 : quiet { s with m_lastaddr := a, m_addr_set := true, m_inc := inc } := hq
  obtain ⟨b, s1, d1, h1⟩ := readvLoop_data_fault ws n
    (encode_address s (a ||| (if inc then 0 else 1))) []
    { s with m_lastaddr := a, m_addr_set := true, m_inc := inc } d F rest hq0 hw hn hF hrx
  refine ⟨s1, d1, ?_⟩
  unfold readv
  rw [if_neg (by omega), h1]
  simp only [List.nil_append]
  cases inc
  · simp [u32_of_lt ha]
  · simp only [if_true, Nat.shiftLeft_eq, u32]
    congr 2
    omega

theorem readio_data_fault {ρ : Type} (a : Nat) (s : HEXBUS) (d : Dev ρ) (F : List Nat)
    (rest : List (Option Nat)) (ha : a < 4294967296) (hq : quiet s)
    (hF : ∀ (t : HEXBUS) (r : List (Option Nat)) (l : List Ev), quiet t →
      ∃ b t1, readwordLoop t 0 3 (avail F ++ r) l = (Outcome.buserr b, t1, r, l ++ F.map Ev.rx))
    (hrx : d.rx = avail F ++ rest) :
    (readio a s d).1 = Outcome.buserr a := by
  obtain ⟨s1, d1, h1⟩ := readv_data_fault a false 1 [] s d F rest ha hq
    (fun w hw => absurd hw (List.not_mem_nil w)) (by simp) hF (by simpa using hrx)
  unfold readio
  rw [h1]

/-- C14: for every 32-bit address `a`, mode `inc`, length `n` and `k < n`, when
the remote answers the first `k` read requests of `readv(a, inc, n)` with the
data `ws` (`k` words) and then sends an `E` token (`E` and any character that
is not a hexadecimal digit), at a decoder that was between tokens, `readv`
throws `BUSERR` with the address `a + 4k` (modulo `2^32`) when incrementing and
`a` otherwise, and `buf` holds the `k` words read before and nothing for word
`k`.  `readio(a)`, answered by an `E` token at once, throws `BUSERR(a)` and
returns no value. -/
theorem fault_mid_vector {ρ : Type} (a : Nat) (inc : Bool) (n : Nat) (ws : List Nat)
    (t : Nat) (s : HEXBUS) (d : Dev ρ) (rest : List (Option Nat)) (ha : a < 4294967296)
    (hq : quiet s) (hw : ∀ w ∈ ws, w < 4294967296) (hn : ws.length < n)
    (ht : isdigit t = false ∧ isaf t = false)
    (hrx : d.rx = avail (ws.flatMap encode_datum ++ [HEXB_ERR, t]) ++ rest) :
    (readv a inc n s d).1
        = Outcome.buserr (if inc then (a + 4 * ws.length) % 4294967296 else a) ∧
    (readv a inc n s d).2.1 = ws ∧
    (ws = [] → (readio a s d).1 = Outcome.buserr a) := by
  have hF : ∀ (u : HEXBUS) (r : List (Option Nat)) (l : List Ev), quiet u →
      ∃ b t1, readwordLoop u 0 3 (avail [HEXB_ERR, t] ++ r) l
        = (Outcome.buserr b, t1, r, l ++ [HEXB_ERR, t].map Ev.rx) := by
    intro u r l hu
    obtain ⟨s1, h1, _⟩ := readwordLoop_err u t r l hu ht.1 ht.2
    exact ⟨_, s1, h1⟩
  obtain ⟨s1, d1, h1⟩ := readv_data_fault a inc n ws s d [HEXB_ERR, t] rest ha hq hw hn hF hrx
  refine ⟨by rw [h1], by rw [h1], ?_⟩
  intro h0
  subst h0
  exact readio_data_fault a s d [HEXB_ERR, t] rest ha hq hF (by simpa using hrx)

theorem fault_mid_vector_witness :
    (readv 256 true 3 fresh
        (scripted (avail ([7, 0].flatMap encode_datum ++ [HEXB_ERR, CH_NL])))).1
      = Outcome.buserr (if true then (256 + 4 * [7, 0].length) % 4294967296 else 256) ∧
    (readv 256 true 3 fresh
        (scripted (avail ([7, 0].flatMap encode_datum ++ [HEXB_ERR, CH_NL])))).2.1 = [7, 0] :=
  ⟨(fault_mid_vector 256 true 3 [7, 0] CH_NL fresh
      (scripted (avail ([7, 0].flatMap encode_datum ++ [HEXB_ERR, CH_NL]))) [] (by decide)
      (show quiet fresh from Or.inr (by decide)) (by decide) (by decide) (by decide)
      (by simp [scripted])).1,
   (fault_mid_vector 256 true 3 [7, 0] CH_NL fresh
      (scripted (avail ([7, 0].flatMap encode_datum ++ [HEXB_ERR, CH_NL]))) [] (by decide)
      (show quiet fresh from Or.inr (by decide)) (by decide) (by decide) (by decide)
      (by simp [scripted])).2.1⟩

/-- C15, counterexample: `readio(0x100)` on a new engine, answered by three
idle tokens `Z\n`.  `readword` throws `BUSERR(0)`, and `readio` hands the caller
a `BUSERR` whose address is `0x100`, not 0; `readi(0x100, 1)` likewise. -/
theorem idle_abort_address_replaced :
    (readword fresh (scripted (avail [90, 10, 90, 10, 90, 10]))).1 = Outcome.buserr 0 ∧
    (readio 256 fresh (scripted (avail [90, 10, 90, 10, 90, 10]))).1 = Outcome.buserr 256 ∧
    (readi 256 1 fresh (scripted (avail [90, 10, 90, 10, 90, 10]))).1 = Outcome.buserr 256 ∧
    (256 : Nat) ≠ 0 := by
  decide

/-- C15, as amended: for every 32-bit address `a`, when the remote sends three
consecutive idle tokens (`Z\n` three times) while a read is pending, after
having answered the first `k < n` requests of `readv(a, inc, n)`, the operation
throws a `BUSERR` whose address is the address of the pending word: `a + 4k`
(modulo `2^32`) for `readi`, `a` for `readz` and for `readio(a)`.  The 0 that
`readword` throws is replaced by `readv` and by `readio`. -/
theorem idle_abort_pending_address {ρ : Type} (a : Nat) (inc : Bool) (n : Nat)
    (ws : List Nat) (s : HEXBUS) (d : Dev ρ) (rest : List (Option Nat)) (ha : a < 4294967296)
    (hq : quiet s) (hw : ∀ w ∈ ws, w < 4294967296) (hn : ws.length < n)
    (hrx : d.rx = avail (ws.flatMap encode_datum
      ++ [HEXB_IDLE, CH_NL, HEXB_IDLE, CH_NL, HEXB_IDLE, CH_NL]) ++ rest) :
    (readv a inc n s d).1
        = Outcome.buserr (if inc then (a + 4 * ws.length) % 4294967296 else a) ∧
    (readv a inc n s d).2.1 = ws ∧
    (ws = [] → (readio a s d).1 = Outcome.buserr a) ∧
    (ws = [] → (readword s d).1 = Outcome.buserr 0) := by
  have hF : ∀ (u : HEXBUS) (r : List (Option Nat)) (l : List Ev), quiet u →
      ∃ b t1, readwordLoop u 0 3
          (avail [HEXB_IDLE, CH_NL, HEXB_IDLE, CH_NL, HEXB_IDLE, CH_NL] ++ r) l
        = (Outcome.buserr b, t1, r,
            l ++ [HEXB_IDLE, CH_NL, HEXB_IDLE, CH_NL, HEXB_IDLE, CH_NL].map Ev.rx) :=
    fun u r l hu => ⟨_, _, readwordLoop_idle3 u r l hu⟩
  obtain ⟨s1, d1, h1⟩ := readv_data_fault a inc n ws s d _ rest ha hq hw hn hF hrx
  refine ⟨by rw [h1], by rw [h1], ?_, ?_⟩
  · intro h0
    subst h0
    exact readio_data_fault a s d _ rest ha hq hF (by simpa using hrx)
  · intro h0
    subst h0
    unfold readword
    have hrx0 : d.rx = avail [HEXB_IDLE, CH_NL, HEXB_IDLE, CH_NL, HEXB_IDLE, CH_NL] ++ rest := by
      simpa using hrx
    rw [hrx0, readwordLoop_idle3 s rest d.log hq]

theorem idle_abort_pending_address_witness :
    (readv 256 true 2 fresh (scripted (avail ([7].flatMap encode_datum
      ++ [HEXB_IDLE, CH_NL, HEXB_IDLE, CH_NL, HEXB_IDLE, CH_NL])))).1
      = Outcome.buserr (if true then (256 + 4 * [7].length) % 4294967296 else 256) :=
  (idle_abort_pending_address 256 true 2 [7] fresh (scripted (avail ([7].flatMap encode_datum
      ++ [HEXB_IDLE, CH_NL, HEXB_IDLE, CH_NL, HEXB_IDLE, CH_NL]))) [] (by decide)
      (show quiet fresh from Or.inr (by decide)) (by decide) (by decide)
      (by simp [scripted])).1

/-! ## The interrupt flag is latched -/

theorem newcmd_flag (s : HEXBUS) (c : Nat) :
    (newcmd s c).m_interrupt_flag = s.m_interrupt_flag := by
  unfold newcmd; split <;> rfl

theorem bump_flag (s : HEXBUS) : (bump s).m_interrupt_flag = s.m_interrupt_flag := by
  unfold bump; split <;> rfl

theorem ite_ind {α : Type} (P : α → Prop) (c : Prop) [Decidable c] (x y : α) (hx : P x)
    (hy : P y) : P (if c then x else y) := by
  split <;> assumption

theorem readwordStep_flag (s : HEXBUS) (word abort c : Nat) (h : s.m_interrupt_flag = true) :
    (readwordStep s word abort c).1.m_interrupt_flag = true := by
  unfold readwordStep
  repeat' apply ite_ind (fun r : HEXBUS × Nat × Nat × Flow => r.1.m_interrupt_flag = true)
  all_goals first
    | exact h
    | (simp only [newcmd_flag, bump_flag]; done)
    | (simp only [newcmd_flag, bump_flag]; exact h)
    | (dsimp only; split <;> exact h)

theorem readidleStep_flag (s : HEXBUS) (word c : Nat) (h : s.m_interrupt_flag = true) :
    (readidleStep s word c).1.m_interrupt_flag = true := by
  unfold readidleStep
  repeat' apply ite_ind (fun r : HEXBUS × Nat × Flow => r.1.m_interrupt_flag = true)
  all_goals first
    | exact h
    | (simp only [newcmd_flag, bump_flag]; done)
    | (simp only [newcmd_flag, bump_flag]; exact h)

theorem readwordStep_int (s : HEXBUS) (word abort c : Nat) (hc : s.m_cmd = HEXB_INT)
    (hs : s.m_isspace = false) (hd : isdigit c = false) (ha : isaf c = false) :
    (readwordStep s word abort c).1.m_interrupt_flag = true := by
  unfold readwordStep
  rw [if_neg (by simp [hd]), if_neg (by simp [ha]), if_neg (by simp [hs]),
    if_neg (by rw [hc]; decide), if_neg (by rw [hc]; decide), if_pos hc]
  simp [newcmd_flag]

theorem readidleStep_int (s : HEXBUS) (word c : Nat) (hc : s.m_cmd = HEXB_INT)
    (hs : s.m_isspace = false) (hd : isdigit c = false) (ha : isaf c = false) :
    (readidleStep s word c).1.m_interrupt_flag = true := by
  unfold readidleStep
  rw [if_neg (by simp [hd]), if_neg (by simp [ha]), if_neg (by simp [hs]), if_neg (by simp [hs]),
    if_neg (by rw [hc]; decide), if_neg (by rw [hc]; decide), if_pos hc]
  simp [newcmd_flag]

theorem readwordLoop_flag (s : HEXBUS) (word abort : Nat) (rx : List (Option Nat))
    (log : List Ev) (h : s.m_interrupt_flag = true) :
    (readwordLoop s word abort rx log).2.1.m_interrupt_flag = true := by
  induction rx generalizing s word abort log with
  | nil => simpa [readwordLoop] using h
  | cons x rest ih =>
    cases x with
    | none => rw [readwordLoop]; exact ih s word abort log h
    | some b =>
      have hs := readwordStep_flag s word abort ((lclreadcode [b]).1.getD 0 0) h
      unfold readwordLoop
      rcases hstep : readwordStep s word abort ((lclreadcode [b]).1.getD 0 0) with ⟨s1, w1, a1, f⟩
      rw [hstep] at hs
      cases f with
      | next => exact ih s1 w1 a1 _ hs
      | done r => exact hs
      | throw a => exact hs

theorem readidleLoop_flag (s : HEXBUS) (word : Nat) (rx : List (Option Nat))
    (log : List Ev) (h : s.m_interrupt_flag = true) :
    (readidleLoop s word rx log).2.1.m_interrupt_flag = true := by
  induction rx generalizing s word log with
  | nil => simpa [readidleLoop] using h
  | cons x rest ih =>
    cases x with
    | none => simpa [readidleLoop] using h
    | some b =>
      have hs := readidleStep_flag s word ((lclreadcode [b]).1.getD 0 0) h
      unfold readidleLoop
      rcases hstep : readidleStep s word ((lclreadcode [b]).1.getD 0 0) with ⟨s1, w1, f⟩
      rw [hstep] at hs
      cases f with
      | next => exact ih s1 w1 _ hs
      | done r => exact hs
      | throw a => exact hs

theorem readword_flag {ρ : Type} (s : HEXBUS) (d : Dev ρ) (h : s.m_interrupt_flag = true) :
    (readword s d).2.1.m_interrupt_flag = true :=
  readwordLoop_flag s 0 3 d.rx d.log h

theorem readidle_flag {ρ : Type} (s : HEXBUS) (d : Dev ρ) (h : s.m_interrupt_flag = true) :
    (readidle s d).2.1.m_interrupt_flag = true :=
  readidleLoop_flag s 0 d.rx d.log h

theorem waitAcks_flag {ρ : Type} (fuel target : Nat) (s : HEXBUS) (d : Dev ρ)
    (h : s.m_interrupt_flag = true) :
    (waitAcks fuel target s d).2.1.m_interrupt_flag = true := by
  induction fuel generalizing s d with
  | zero => unfold waitAcks; split <;> exact h
  | succ k ih =>
    unfold waitAcks
    by_cases h1 : s.m_nacks < target
    · rw [if_pos h1]
      by_cases h2 : d.rx = []
      · rw [if_pos h2]; exact h
      · rw [if_neg h2]
        have hr := readidle_flag s d h
        rcases hrd : readidle s d with ⟨o, s1, d1⟩
        rw [hrd] at hr
        cases o with
        | ok u => exact ih s1 d1 hr
        | buserr a => exact hr
        | fatal => exact hr
        | hang => exact hr
    · rw [if_neg h1]; exact h

theorem writevLoop_flag {ρ : Type} (buf : List Nat) (nw : Nat) (pre : List Nat)
    (s : HEXBUS) (d : Dev ρ) (h : s.m_interrupt_flag = true) :
    (writevLoop buf nw pre s d).2.1.m_interrupt_flag = true := by
  induction buf generalizing nw pre s d with
  | nil => simpa [writevLoop] using h
  | cons v rest ih =>
    unfold writevLoop
    generalize (d.note (Ev.sub nw s.m_nacks)).write (pre ++ encode_word v) = d0
    have hw := waitAcks_flag (d0.rx.length + 1) nw s d0 h
    rcases hwa : waitAcks (d0.rx.length + 1) nw s d0 with ⟨o, s1, d1⟩
    rw [hwa] at hw
    cases o with
    | ok u => exact ih _ _ _ _ hw
    | buserr a => exact hw
    | fatal => exact hw
    | hang => exact hw

theorem writev_flag {ρ : Type} (a : Nat) (p : Bool) (buf : List Nat) (s : HEXBUS)
    (d : Dev ρ) (h : s.m_interrupt_flag = true) :
    (writev a p buf s d).2.1.m_interrupt_flag = true := by
  unfold writev
  have hL := writevLoop_flag buf 0 (encode_address s (a ||| (if p then 0 else 1)))
    { s with m_lastaddr := a, m_addr_set := true, m_nacks := 0 } d h
  rcases hLe : writevLoop buf 0 (encode_address s (a ||| (if p then 0 else 1)))
    { s with m_lastaddr := a, m_addr_set := true, m_nacks := 0 } d with ⟨o, s1, d1⟩
  rw [hLe] at hL
  cases o with
  | ok u =>
    simp only []
    have hw := waitAcks_flag (d1.rx.length + 1) buf.length s1 d1 hL
    rcases hwa : waitAcks (d1.rx.length + 1) buf.length s1 d1 with ⟨o2, s2, d2⟩
    rw [hwa] at hw
    cases o2 with
    | ok u => cases p <;> simpa using hw
    | buserr a => exact hw
    | fatal => exact hw
    | hang => exact hw
  | buserr a => exact hL
  | fatal => exact hL
  | hang => exact hL

theorem writeio_flag {ρ : Type} (a v : Nat) (s : HEXBUS) (d : Dev ρ)
    (h : s.m_interrupt_flag = true) :
    (writeio a v s d).2.1.m_interrupt_flag = true := by
  unfold writeio
  have hw := writev_flag a false [v] s d h
  rcases hwa : writev a false [v] s d with ⟨o, s1, d1⟩
  rw [hwa] at hw
  cases o <;> exact hw

theorem readvLoop_flag {ρ : Type} (k : Nat) (pre buf : List Nat) (s : HEXBUS) (d : Dev ρ)
    (h : s.m_interrupt_flag = true) :
    (readvLoop k pre buf s d).2.2.1.m_interrupt_flag = true := by
  induction k generalizing pre buf s d with
  | zero => simpa [readvLoop] using h
  | succ k ih =>
    unfold readvLoop
    have hr := readword_flag s (d.write (pre ++ [HEXB_READ, CH_NL])) h
    rcases hrd : readword s (d.write (pre ++ [HEXB_READ, CH_NL])) with ⟨o, s1, d1⟩
    rw [hrd] at hr
    cases o with
    | ok w => exact ih _ _ _ _ hr
    | buserr a => exact hr
    | fatal => exact hr
    | hang => exact hr

theorem readv_flag {ρ : Type} (a : Nat) (inc : Bool) (len : Nat) (s : HEXBUS) (d : Dev ρ)
    (h : s.m_interrupt_flag = true) :
    (readv a inc len s d).2.2.1.m_interrupt_flag = true := by
  unfold readv
  by_cases h0 : len = 0
  · rw [if_pos h0]; exact h
  · rw [if_neg h0]
    have hL := readvLoop_flag len (encode_address s (a ||| (if inc then 0 else 1))) []
      { s with m_lastaddr := a, m_addr_set := true, m_inc := inc } d h
    rcases hLe : readvLoop len (encode_address s (a ||| (if inc then 0 else 1))) []
      { s with m_lastaddr := a, m_addr_set := true, m_inc := inc } d with ⟨o, b, s1, d1⟩
    rw [hLe] at hL
    cases o with
    | ok u =>
      dsimp only
      by_cases hc : s1.m_lastaddr ≠ u32 (a + (if inc then len <<< 2 else 0))
      · rw [if_pos hc]; exact hL
      · rw [if_neg hc]; exact hL
    | buserr a => exact hL
    | fatal => exact hL
    | hang => exact hL

theorem readio_flag {ρ : Type} (a : Nat) (s : HEXBUS) (d : Dev ρ)
    (h : s.m_interrupt_flag = true) :
    (readio a s d).2.1.m_interrupt_flag = true := by
  unfold readio
  have hr := readv_flag a false 1 s d h
  rcases hrd : readv a false 1 s d with ⟨o, b, s1, d1⟩
  rw [hrd] at hr
  cases o with
  | ok u =>
    dsimp only
    by_cases hc : s1.m_lastaddr ≠ a
    · rw [if_pos hc]; exact hr
    · rw [if_neg hc]; exact hr
  | buserr a => exact hr
  | fatal => exact hr
  | hang => exact hr

theorem usleepByte_flag (s : HEXBUS) (c : Nat) (h : s.m_interrupt_flag = true) :
    (usleepByte s c).m_interrupt_flag = true := by
  unfold usleepByte
  repeat' apply ite_ind (fun r : HEXBUS => r.m_interrupt_flag = true)
  all_goals first
    | exact h
    | rfl

theorem usleepScan_flag (bytes : List Nat) (s : HEXBUS) (h : s.m_interrupt_flag = true) :
    (usleepScan s bytes).m_interrupt_flag = true := by
  induction bytes generalizing s with
  | nil => exact h
  | cons b bs ih => exact ih (usleepByte s b) (usleepByte_flag s b h)

theorem usleepScan_int (bytes : List Nat) (s : HEXBUS) (h : HEXB_INT ∈ bytes) :
    (usleepScan s bytes).m_interrupt_flag = true := by
  induction bytes generalizing s with
  | nil => simp at h
  | cons b bs ih =>
    by_cases hb : b = HEXB_INT
    · subst hb
      exact usleepScan_flag bs _ rfl
    · have hm : HEXB_INT ∈ bs := by
        rcases List.mem_cons.mp h with h1 | h1
        · exact absurd h1.symm hb
        · exact h1
      exact ih (usleepByte s b) hm

theorem usleep_flag {ρ : Type} (s : HEXBUS) (d : Dev ρ) (h : s.m_interrupt_flag = true) :
    (usleep s d).2.1.m_interrupt_flag = true := by
  unfold usleep
  rcases hrx : d.rx with _ | ⟨x, rest⟩
  · dsimp only; split <;> exact h
  · cases x with
    | none => exact h
    | some b => exact usleepScan_flag _ s h

theorem waitLoop_flag {ρ : Type} (fuel : Nat) (s : HEXBUS) (d : Dev ρ)
    (h : s.m_interrupt_flag = true) :
    (waitLoop fuel s d).2.1.m_interrupt_flag = true := by
  induction fuel generalizing s d with
  | zero => exact h
  | succ k ih =>
    unfold waitLoop
    have hu := usleep_flag s d h
    rcases hus : usleep s d with ⟨o, s1, d1⟩
    rw [hus] at hu
    cases o with
    | ok u =>
      dsimp only
      rw [if_pos hu]
      exact hu
    | buserr a => exact hu
    | fatal => exact hu
    | hang => exact hu

theorem wait_flag {ρ : Type} (s : HEXBUS) (d : Dev ρ) (h : s.m_interrupt_flag = true) :
    (wait s d).2.1.m_interrupt_flag = true :=
  waitLoop_flag _ s d h

theorem readwordLoop_int (s : HEXBUS) (word abort c : Nat) (rest : List (Option Nat))
    (log : List Ev) (hc : s.m_cmd = HEXB_INT) (hs : s.m_isspace = false)
    (hd : isdigit c = false) (ha : isaf c = false) :
    (readwordLoop s word abort (some c :: rest) log).2.1.m_interrupt_flag = true := by
  have h1 := readwordStep_int s word abort c hc hs hd ha
  rw [readwordLoop, lclreadcode_one]
  rcases hstep : readwordStep s word abort c with ⟨s1, w1, a1, f⟩
  rw [hstep] at h1
  cases f with
  | next => exact readwordLoop_flag s1 w1 a1 rest _ h1
  | done r => exact h1
  | throw a => exact h1

theorem readidleLoop_int (s : HEXBUS) (word c : Nat) (rest : List (Option Nat))
    (log : List Ev) (hc : s.m_cmd = HEXB_INT) (hs : s.m_isspace = false)
    (hd : isdigit c = false) (ha : isaf c = false) :
    (readidleLoop s word (some c :: rest) log).2.1.m_interrupt_flag = true := by
  have h1 := readidleStep_int s word c hc hs hd ha
  rw [readidleLoop, lclreadcode_one]
  rcases hstep : readidleStep s word c with ⟨s1, w1, f⟩
  rw [hstep] at h1
  cases f with
  | next => exact readidleLoop_flag s1 w1 rest _ h1
  | done r => exact h1
  | throw a => exact h1

/-- C19: when the character that ends an `I` token reaches `readword` or
`readidle` (the tag is `I`, the decoder is inside the token, the character is
not a hexadecimal digit), and when `usleep` reads a buffer that holds an `I`,
`poll()` is true afterwards, also at the end of the decoder call.  Once
`poll()` is true it is true after every `readword`, `readidle`, `usleep`,
`wait`, `readv` (`readi`, `readz`), `readio`, `writev` (`writei`, `writez`) and
`writeio`, on every transport, whatever arrives (`T` and `E` included) and
however the operation ends.  `clear()` makes `poll()` false and changes no
other field. -/
theorem interrupt_latch {ρ : Type} (s : HEXBUS) (d : Dev ρ) :
    (∀ word abort c rest log, s.m_cmd = HEXB_INT → s.m_isspace = false →
      isdigit c = false → isaf c = false →
        (readwordStep s word abort c).1.poll = true ∧
        (readidleStep s word c).1.poll = true ∧
        (readwordLoop s word abort (some c :: rest) log).2.1.poll = true ∧
        (readidleLoop s word (some c :: rest) log).2.1.poll = true) ∧
    (∀ bytes, HEXB_INT ∈ bytes → (usleepScan s bytes).poll = true) ∧
    (s.poll = true →
      (readword s d).2.1.poll = true ∧ (readidle s d).2.1.poll = true ∧
      (usleep s d).2.1.poll = true ∧ (wait s d).2.1.poll = true ∧
      (∀ a inc n, (readv a inc n s d).2.2.1.poll = true) ∧
      (∀ a, (readio a s d).2.1.poll = true) ∧
      (∀ a p buf, (writev a p buf s d).2.1.poll = true) ∧
      (∀ a v, (writeio a v s d).2.1.poll = true)) ∧
    (s.clear.poll = false ∧ s.clear.m_addr_set = s.m_addr_set ∧
      s.clear.m_bus_err = s.m_bus_err ∧ s.clear.m_lastaddr = s.m_lastaddr ∧
      s.clear.m_nacks = s.m_nacks ∧ s.clear.m_inc = s.m_inc ∧
      s.clear.m_isspace = s.m_isspace ∧ s.clear.m_cmd = s.m_cmd) := by
  refine ⟨?_, ?_, ?_, ⟨rfl, rfl, rfl, rfl, rfl, rfl, rfl, rfl⟩⟩
  · intro word abort c rest log hc hs hd ha
    exact ⟨readwordStep_int s word abort c hc hs hd ha, readidleStep_int s word c hc hs hd ha,
      readwordLoop_int s word abort c rest log hc hs hd ha,
      readidleLoop_int s word c rest log hc hs hd ha⟩
  · intro bytes hb
    exact usleepScan_int bytes s hb
  · intro h
    exact ⟨readword_flag s d h, readidle_flag s d h, usleep_flag s d h, wait_flag s d h,
      fun a inc n => readv_flag a inc n s d h, fun a => readio_flag a s d h,
      fun a p buf => writev_flag a p buf s d h, fun a v => writeio_flag a v s d h⟩

theorem interrupt_latch_witness :
    (readidle { fresh with m_interrupt_flag := true }
        (scripted (avail [HEXB_RESET, CH_NL, HEXB_ERR, CH_NL]))).2.1.poll = true ∧
    (readio 256 { fresh with m_interrupt_flag := true }
        (scripted (avail [HEXB_RESET, CH_NL, HEXB_ERR, CH_NL]))).2.1.poll = true :=
  ⟨((interrupt_latch { fresh with m_interrupt_flag := true }
      (scripted (avail [HEXB_RESET, CH_NL, HEXB_ERR, CH_NL]))).2.2.1 rfl).2.1,
   ((interrupt_latch { fresh with m_interrupt_flag := true }
      (scripted (avail [HEXB_RESET, CH_NL, HEXB_ERR, CH_NL]))).2.2.1 rfl).2.2.2.2.2.1 256⟩

/-! ## A transport that has been closed -/

theorem waitAcks_stuck {ρ : Type} (fuel target : Nat) (s : HEXBUS) (d : Dev ρ)
    (h : s.m_nacks < target) (hrx : d.rx = []) :
    waitAcks fuel target s d = (Outcome.hang, s, d) := by
  cases fuel <;> simp [waitAcks, h, hrx]

theorem write_silent {ρ : Type} (d : Dev ρ) (bytes : List Nat) (hrx : d.rx = [])
    (hsilent : ∀ r b, (d.respond r b).2 = []) :
    (d.write bytes).rx = [] ∧ (∀ r b, ((d.write bytes).respond r b).2 = []) ∧
      (d.write bytes).closed = d.closed := by
  refine ⟨by simp [Dev.write, hrx, hsilent], fun r b => hsilent r b, rfl⟩

theorem writevLoop_silent {ρ : Type} (v : Nat) (rest : List Nat) (nw : Nat) (pre : List Nat)
    (s : HEXBUS) (d : Dev ρ) (hrx : d.rx = []) (hsilent : ∀ r b, (d.respond r b).2 = [])
    (hn : s.m_nacks < nw) :
    (writevLoop (v :: rest) nw pre s d).1 = Outcome.hang := by
  unfold writevLoop
  have h0 : ((d.note (Ev.sub nw s.m_nacks)).write (pre ++ encode_word v)).rx = [] :=
    (write_silent (d.note (Ev.sub nw s.m_nacks)) _ hrx hsilent).1
  rw [waitAcks_stuck _ nw s _ hn h0]

theorem writev_silent {ρ : Type} (a : Nat) (p : Bool) (buf : List Nat) (s : HEXBUS)
    (d : Dev ρ) (hrx : d.rx = []) (hsilent : ∀ r b, (d.respond r b).2 = [])
    (hb : buf ≠ []) :
    (writev a p buf s d).1 = Outcome.hang := by
  obtain ⟨v, rest, rfl⟩ : ∃ v rest, buf = v :: rest := by
    cases buf with
    | nil => exact absurd rfl hb
    | cons v rest => exact ⟨v, rest, rfl⟩
  unfold writev
  generalize hpre : encode_address s (a ||| (if p then 0 else 1)) = pre
  have h0 : ((d.note (Ev.sub 0 0)).write (pre ++ encode_word v)).rx = [] :=
    (write_silent (d.note (Ev.sub 0 0)) _ hrx hsilent).1
  have hs0 : ∀ r b, (((d.note (Ev.sub 0 0)).write (pre ++ encode_word v)).respond r b).2 = [] :=
    (write_silent (d.note (Ev.sub 0 0)) (pre ++ encode_word v) hrx hsilent).2.1
  have hfirst : writevLoop (v :: rest) 0 pre
      { s with m_lastaddr := a, m_addr_set := true, m_nacks := 0 } d
      = writevLoop rest 1 [] { s with m_lastaddr := a, m_addr_set := true, m_nacks := 0 }
          ((d.note (Ev.sub 0 0)).write (pre ++ encode_word v)) := by
    rw [writevLoop, waitAcks_done _ 0 _ _ (by simp)]
  rw [hfirst]
  cases rest with
  | nil =>
    rw [writevLoop]
    simp only []
    rw [waitAcks_stuck _ _ _ _ (by simp) h0]
  | cons v2 rest2 =>
    have h2 := writevLoop_silent v2 rest2 1 []
      { s with m_lastaddr := a, m_addr_set := true, m_nacks := 0 }
      ((d.note (Ev.sub 0 0)).write (pre ++ encode_word v)) h0 hs0 (by simp)
    rcases hL : writevLoop (v2 :: rest2) 1 []
      { s with m_lastaddr := a, m_addr_set := true, m_nacks := 0 }
      ((d.note (Ev.sub 0 0)).write (pre ++ encode_word v)) with ⟨o, s1, d1⟩
    rw [hL] at h2
    simp only [] at h2
    subst h2
    rfl

theorem readv_silent {ρ : Type} (a : Nat) (inc : Bool) (n : Nat) (s : HEXBUS)
    (d : Dev ρ) (hrx : d.rx = []) (hsilent : ∀ r b, (d.respond r b).2 = [])
    (hn : 0 < n) :
    (readv a inc n s d).1 = Outcome.hang := by
  obtain ⟨m, rfl⟩ : ∃ m, n = m + 1 := ⟨n - 1, by omega⟩
  unfold readv
  rw [if_neg (by omega), readvLoop]
  unfold readword
  rw [(write_silent d _ hrx hsilent).1]
  simp [readwordLoop]

theorem readio_silent {ρ : Type} (a : Nat) (s : HEXBUS) (d : Dev ρ) (hrx : d.rx = [])
    (hsilent : ∀ r b, (d.respond r b).2 = []) :
    (readio a s d).1 = Outcome.hang := by
  have h := readv_silent a false 1 s d hrx hsilent (by decide)
  unfold readio
  rcases hr : readv a false 1 s d with ⟨o, b, s1, d1⟩
  rw [hr] at h
  simp only [] at h
  subst h
  rfl

theorem writeio_silent {ρ : Type} (a v : Nat) (s : HEXBUS) (d : Dev ρ) (hrx : d.rx = [])
    (hsilent : ∀ r b, (d.respond r b).2 = []) :
    (writeio a v s d).1 = Outcome.hang := by
  have h := writev_silent a false [v] s d hrx hsilent (by simp)
  unfold writeio
  rcases hr : writev a false [v] s d with ⟨o, s1, d1⟩
  rw [hr] at h
  simp only [] at h
  subst h
  rfl

/-- C18, counterexample: on a transport that has been closed, with nothing
left to read, `readio(0x100)` and `writeio(0x100, 5)` do not end at all: the
blocking read takes the zero-length read for nothing received and reads again,
and the acknowledgement wait of `writev` goes on calling `readidle`.  Only the
interrupt wait reacts, and it ends the process instead of raising a fault. -/
theorem closed_transport_keeps_waiting :
    (readio 256 fresh closedDev).1 = Outcome.hang ∧
    (writeio 256 5 fresh closedDev).1 = Outcome.hang ∧
    (wait fresh closedDev).1 = Outcome.fatal := by
  decide

/-- C18, as amended: the engine has no fault for a closed transport.  When the
transport has been closed and nothing is left to read, `usleep`, and with it
`wait`, closes the transport and ends the process (`exit(-1)`), leaving the
engine as it is and raising no `BUSERR`; `readword`, and with it every `readv`
of at least one word and `readio`, takes the zero-length read for nothing
received and reads again, so it never returns; `writev` of at least one word
and `writeio` never return from their acknowledgement wait. -/
theorem closed_transport_no_fault {ρ : Type} (s : HEXBUS) (d : Dev ρ) (hrx : d.rx = [])
    (hc : d.closed = true) (hsilent : ∀ r b, (d.respond r b).2 = []) :
    usleep s d = (Outcome.fatal, s, d) ∧ wait s d = (Outcome.fatal, s, d) ∧
    (readword s d).1 = Outcome.hang ∧
    (∀ a inc n, 0 < n → (readv a inc n s d).1 = Outcome.hang) ∧
    (∀ a, (readio a s d).1 = Outcome.hang) ∧
    (∀ a p buf, buf ≠ [] → (writev a p buf s d).1 = Outcome.hang) ∧
    (∀ a v, (writeio a v s d).1 = Outcome.hang) := by
  have hu : usleep s d = (Outcome.fatal, s, d) := by
    unfold usleep
    rw [hrx]
    simp [hc]
  refine ⟨hu, ?_, ?_, fun a inc n hn => readv_silent a inc n s d hrx hsilent hn,
    fun a => readio_silent a s d hrx hsilent,
    fun a p buf hb => writev_silent a p buf s d hrx hsilent hb,
    fun a v => writeio_silent a v s d hrx hsilent⟩
  · unfold wait
    rw [waitLoop, hu]
  · unfold readword
    rw [hrx]
    simp [readwordLoop]

theorem closed_transport_no_fault_witness :
    usleep fresh closedDev = (Outcome.fatal, fresh, closedDev) ∧
    (readword fresh closedDev).1 = Outcome.hang :=
  ⟨(closed_transport_no_fault fresh closedDev rfl rfl (fun _ _ => rfl)).1,
   (closed_transport_no_fault fresh closedDev rfl rfl (fun _ _ => rfl)).2.2.1⟩

/-! ## The bound on the polls of `wait` -/

theorem takeAvail_length (k : Nat) (rx : List (Option Nat)) :
    (takeAvail k rx).2.length ≤ rx.length := by
  induction k generalizing rx with
  | zero => simp [takeAvail]
  | succ k ih =>
    cases rx with
    | nil => simp [takeAvail]
    | cons x rest =>
      cases x with
      | none => simp [takeAvail]
      | some b =>
        simp only [takeAvail, List.length_cons]
        have := ih rest
        omega

theorem usleep_length {ρ : Type} (s : HEXBUS) (d : Dev ρ) (h : d.rx ≠ []) :
    (usleep s d).2.2.rx.length < d.rx.length := by
  unfold usleep
  rcases hrx : d.rx with _ | ⟨x, rest⟩
  · exact absurd hrx h
  · cases x with
    | none => simp
    | some b =>
      simp only [takeAvail, List.length_cons]
      have := takeAvail_length 15 rest
      omega

theorem usleep_empty {ρ : Type} (s : HEXBUS) (d : Dev ρ) (h : d.rx = []) :
    usleep s d = if d.closed then (Outcome.fatal, s, d) else (Outcome.ok (), s, d) := by
  unfold usleep
  rw [h]

/-- The bound on the number of `usleep` calls never cuts the loop of `wait`
short: any two bounds above the length of the inbound stream plus one give the
same run. -/
theorem waitLoop_fuel {ρ : Type} (f1 f2 : Nat) (s : HEXBUS) (d : Dev ρ)
    (h1 : d.rx.length + 1 < f1) (h2 : d.rx.length + 1 < f2) :
    waitLoop f1 s d = waitLoop f2 s d := by
  induction f1 generalizing f2 s d with
  | zero => omega
  | succ k ih =>
    cases f2 with
    | zero => omega
    | succ j =>
      unfold waitLoop
      by_cases hrx : d.rx = []
      · rw [usleep_empty s d hrx]
        cases hcl : d.closed
        · simp [hrx, hcl]
        · simp
      · have hlen := usleep_length s d hrx
        rcases hr : usleep s d with ⟨o, s1, d1⟩
        rw [hr] at hlen
        simp only [] at hlen
        cases o with
        | ok u =>
          dsimp only
          rw [ih j s1 d1 (by omega) (by omega)]
        | buserr a => rfl
        | fatal => rfl
        | hang => rfl

/-! ## Tokens, character by character -/

theorem hexvalue_single (c : Nat) :
    hexvalue [c] = if c < 58 then c - 48 else c - 87 := by
  simp [hexvalue]

theorem readwordStep_hex (s : HEXBUS) (word abort c : Nat)
    (h : isdigit c = true ∨ isaf c = true) :
    readwordStep s word abort c
      = ({ s with m_isspace := false }, (word * 16 + hexvalue [c]) % 4294967296, abort,
          Flow.next) := by
  unfold readwordStep
  by_cases hd : isdigit c = true
  · have hb : 48 ≤ c ∧ c ≤ 57 := by simpa [isdigit] using hd
    rw [if_pos hd, digit_nibble c hb.1 hb.2, accum_eq _ _ (by omega), hexvalue_single,
      if_pos (by omega)]
  · have ha : isaf c = true := h.resolve_left hd
    have hb : 97 ≤ c ∧ c ≤ 102 := by simpa [isaf] using ha
    rw [if_neg hd, if_pos ha, af_nibble c hb.1 hb.2, accum_eq _ _ (by omega), hexvalue_single,
      if_neg (by omega)]

theorem readidleStep_hex (s : HEXBUS) (word c : Nat)
    (h : isdigit c = true ∨ isaf c = true) :
    readidleStep s word c = (s, (word * 16 + hexvalue [c]) % 4294967296, Flow.next) := by
  unfold readidleStep
  by_cases hd : isdigit c = true
  · have hb : 48 ≤ c ∧ c ≤ 57 := by simpa [isdigit] using hd
    rw [if_pos hd, digit_nibble c hb.1 hb.2, accum_eq _ _ (by omega), hexvalue_single,
      if_pos (by omega)]
  · have ha : isaf c = true := h.resolve_left hd
    have hb : 97 ≤ c ∧ c ≤ 102 := by simpa [isaf] using ha
    rw [if_neg hd, if_pos ha, af_nibble c hb.1 hb.2, accum_eq _ _ (by omega), hexvalue_single,
      if_neg (by omega)]

theorem hexfold_cons (c : Nat) (ds : List Nat) (word : Nat) :
    hexfold (c :: ds) word = hexfold ds ((word * 16 + hexvalue [c]) % 4294967296) := rfl

theorem hexfold_snoc (ds : List Nat) (c word : Nat) :
    hexfold (ds ++ [c]) word = (hexfold ds word * 16 + hexvalue [c]) % 4294967296 := by
  simp [hexfold, List.foldl_append]

theorem hexfold_lt (ds : List Nat) (word : Nat) (h : word < 4294967296) :
    hexfold ds word < 4294967296 := by
  induction ds generalizing word with
  | nil => exact h
  | cons c ds ih => exact ih _ (Nat.mod_lt _ (by decide))

theorem hexfold_eq (ds : List Nat) (word : Nat) :
    hexfold ds word = (word * 16 ^ ds.length + hexvalue ds) % 4294967296 ∨
      (ds = [] ∧ hexfold ds word = word) := by
  induction ds using List.reverseRecOn with
  | nil => exact Or.inr ⟨rfl, rfl⟩
  | append_singleton xs c ih =>
    left
    rw [hexfold_snoc, hexvalue_snoc, hexvalue_single, List.length_append, List.length_singleton,
      pow_succ]
    rcases ih with ih | ⟨hx, ih⟩
    · rw [ih]
      have e : word * (16 ^ xs.length * 16) = word * 16 ^ xs.length * 16 := by ring
      rw [e]
      generalize word * 16 ^ xs.length = y
      split <;> omega
    · subst hx
      rw [ih]
      simp [hexvalue]

theorem hexfold_value (ds : List Nat) : hexfold ds 0 = hexvalue ds % 4294967296 := by
  rcases hexfold_eq ds 0 with h | ⟨h1, h2⟩
  · simpa using h
  · subst h1; rfl

theorem hexfold_hexnibbles (x : Nat) (h : x < 4294967296) : hexfold (hexnibbles 8 x) 0 = x := by
  rw [hexfold_value, hexvalue_hexnibbles]
  norm_num
  omega

theorem readwordLoop_hexfold (ds : List Nat) (s : HEXBUS) (word abort : Nat)
    (rest : List (Option Nat)) (log : List Ev)
    (hds : ∀ x ∈ ds, isdigit x = true ∨ isaf x = true) (hs : s.m_isspace = false) :
    readwordLoop s word abort (avail ds ++ rest) log
      = readwordLoop s (hexfold ds word) abort rest (log ++ ds.map Ev.rx) := by
  induction ds generalizing word log with
  | nil => simp [avail, hexfold]
  | cons x xs ih =>
    rw [avail_cons, List.cons_append, readwordLoop, lclreadcode_one,
      readwordStep_hex s word abort x (hds x (List.mem_cons_self _ _)), set_isspace_false s hs]
    simp only []
    rw [ih _ _ (fun y hy => hds y (List.mem_cons_of_mem _ hy)), hexfold_cons]
    simp

theorem readidleLoop_hexfold (ds : List Nat) (s : HEXBUS) (word : Nat)
    (rest : List (Option Nat)) (log : List Ev)
    (hds : ∀ x ∈ ds, isdigit x = true ∨ isaf x = true) :
    readidleLoop s word (avail ds ++ rest) log
      = readidleLoop s (hexfold ds word) rest (log ++ ds.map Ev.rx) := by
  induction ds generalizing word log with
  | nil => simp [avail, hexfold]
  | cons x xs ih =>
    rw [avail_cons, List.cons_append, readidleLoop, lclreadcode_one,
      readidleStep_hex s word x (hds x (List.mem_cons_self _ _))]
    simp only []
    rw [ih _ _ (fun y hy => hds y (List.mem_cons_of_mem _ hy)), hexfold_cons]
    simp

/-- From a decoder between tokens, the tag `c` and the digits `ds` of a token
leave `readword` inside the token, with the value of the digits in the word
register. -/
theorem readwordLoop_token (s : HEXBUS) (c : Nat) (ds : List Nat) (word abort : Nat)
    (rest : List (Option Nat)) (log : List Ev) (hq : quiet s)
    (hc : isdigit c = false ∧ isaf c = false ∧ isspace c = false)
    (hds : ∀ x ∈ ds, isdigit x = true ∨ isaf x = true) :
    readwordLoop s word abort (avail (c :: ds) ++ rest) log
      = readwordLoop { s with m_cmd := c, m_isspace := false } (hexfold ds 0) abort rest
          (log ++ (c :: ds).map Ev.rx) := by
  rw [avail_cons, List.cons_append, readwordLoop, lclreadcode_one,
    readwordStep_quiet s word abort c hq hc.1 hc.2.1, newcmd_tag s c hc.2.2]
  simp only []
  rw [readwordLoop_hexfold ds _ 0 abort rest _ hds rfl]
  simp

theorem readidleLoop_token (s : HEXBUS) (c : Nat) (ds : List Nat) (word : Nat)
    (rest : List (Option Nat)) (log : List Ev) (hq : quiet s)
    (hc : isdigit c = false ∧ isaf c = false ∧ isspace c = false)
    (hds : ∀ x ∈ ds, isdigit x = true ∨ isaf x = true) :
    readidleLoop s word (avail (c :: ds) ++ rest) log
      = readidleLoop { s with m_cmd := c, m_isspace := false } (hexfold ds 0) rest
          (log ++ (c :: ds).map Ev.rx) := by
  rw [avail_cons, List.cons_append, readidleLoop, lclreadcode_one,
    readidleStep_quiet s word c hq hc.1 hc.2.1 (Or.inl hc.2.2), newcmd_tag s c hc.2.2]
  simp only []
  rw [readidleLoop_hexfold ds _ 0 rest _ hds]
  simp

/-! ## The dispatch of a completed token, tag by tag -/

theorem readwordStep_A (s : HEXBUS) (word abort c : Nat) (hc : s.m_cmd = HEXB_ADDR)
    (hs : s.m_isspace = false) (hd : isdigit c = false) (ha : isaf c = false) :
    readwordStep s word abort c
      = (newcmd { s with m_addr_set := true, m_inc := decide (word &&& 1 = 0),
                         m_lastaddr := word &&& 4294967292 } c, 0, abort, Flow.next) := by
  unfold readwordStep
  rw [if_neg (by simp [hd]), if_neg (by simp [ha]), if_neg (by simp [hs]),
    if_neg (by rw [hc]; decide), if_neg (by rw [hc]; decide), if_neg (by rw [hc]; decide),
    if_neg (by rw [hc]; decide), if_neg (by rw [hc]; decide), if_pos hc]

theorem readidleStep_A (s : HEXBUS) (word c : Nat) (hc : s.m_cmd = HEXB_ADDR)
    (hs : s.m_isspace = false) (hd : isdigit c = false) (ha : isaf c = false) :
    readidleStep s word c
      = (newcmd { s with m_addr_set := true, m_inc := decide (word &&& 1 = 0),
                         m_lastaddr := word &&& 4294967292 } c, 0, Flow.next) := by
  unfold readidleStep
  rw [if_neg (by simp [hd]), if_neg (by simp [ha]), if_neg (by simp [hs]), if_neg (by simp [hs]),
    if_pos hc]

theorem readwordStep_K (s : HEXBUS) (word abort c : Nat) (hc : s.m_cmd = HEXB_ACK)
    (hs : s.m_isspace = false) (hd : isdigit c = false) (ha : isaf c = false) :
    readwordStep s word abort c
      = (newcmd { bump s with m_nacks := u32 ((bump s).m_nacks + 1) } c, 0, abort,
          Flow.next) := by
  unfold readwordStep
  rw [if_neg (by simp [hd]), if_neg (by simp [ha]), if_neg (by simp [hs]),
    if_neg (by rw [hc]; decide), if_pos hc]

theorem readidleStep_K (s : HEXBUS) (word c : Nat) (hc : s.m_cmd = HEXB_ACK)
    (hs : s.m_isspace = false) (hd : isdigit c = false) (ha : isaf c = false) :
    readidleStep s word c
      = (newcmd { bump s with m_nacks := u32 ((bump s).m_nacks + 1) } c, 0, Flow.next) := by
  unfold readidleStep
  rw [if_neg (by simp [hd]), if_neg (by simp [ha]), if_neg (by simp [hs]), if_neg (by simp [hs]),
    if_neg (by rw [hc]; decide), if_neg (by rw [hc]; decide), if_neg (by rw [hc]; decide),
    if_pos hc]

theorem readwordStep_I (s : HEXBUS) (word abort c : Nat) (hc : s.m_cmd = HEXB_INT)
    (hs : s.m_isspace = false) (hd : isdigit c = false) (ha : isaf c = false) :
    readwordStep s word abort c
      = (newcmd { s with m_interrupt_flag := true } c, 0, abort, Flow.next) := by
  unfold readwordStep
  rw [if_neg (by simp [hd]), if_neg (by simp [ha]), if_neg (by simp [hs]),
    if_neg (by rw [hc]; decide), if_neg (by rw [hc]; decide), if_pos hc]

theorem readidleStep_I (s : HEXBUS) (word c : Nat) (hc : s.m_cmd = HEXB_INT)
    (hs : s.m_isspace = false) (hd : isdigit c = false) (ha : isaf c = false) :
    readidleStep s word c
      = (newcmd { s with m_interrupt_flag := true } c, 0, Flow.next) := by
  unfold readidleStep
  rw [if_neg (by simp [hd]), if_neg (by simp [ha]), if_neg (by simp [hs]), if_neg (by simp [hs]),
    if_neg (by rw [hc]; decide), if_neg (by rw [hc]; decide), if_pos hc]

theorem readwordStep_E (s : HEXBUS) (word abort c : Nat) (hc : s.m_cmd = HEXB_ERR)
    (hs : s.m_isspace = false) (hd : isdigit c = false) (ha : isaf c = false) :
    readwordStep s word abort c
      = (if isspace c then { s with m_bus_err := true, m_isspace := true }
          else { s with m_bus_err := true, m_isspace := false, m_cmd := c },
          word, abort, Flow.throw s.m_lastaddr) := by
  unfold readwordStep
  rw [if_neg (by simp [hd]), if_neg (by simp [ha]), if_neg (by simp [hs]),
    if_neg (by rw [hc]; decide), if_neg (by rw [hc]; decide), if_neg (by rw [hc]; decide),
    if_pos hc]

theorem readidleStep_E (s : HEXBUS) (word c : Nat) (hc : s.m_cmd = HEXB_ERR)
    (hs : s.m_isspace = false) (hd : isdigit c = false) (ha : isaf c = false) :
    readidleStep s word c = ({ s with m_bus_err := true }, word, Flow.throw s.m_lastaddr) := by
  unfold readidleStep
  rw [if_neg (by simp [hd]), if_neg (by simp [ha]), if_neg (by simp [hs]), if_neg (by simp [hs]),
    if_neg (by rw [hc]; decide), if_neg (by rw [hc]; decide), if_neg (by rw [hc]; decide),
    if_neg (by rw [hc]; decide), if_pos hc]

theorem readwordStep_space (s : HEXBUS) (word abort c : Nat) (hs : s.m_isspace = true)
    (hd : isdigit c = false) (ha : isaf c = false) :
    readwordStep s word abort c = (newcmd s c, 0, abort, Flow.next) :=
  readwordStep_quiet s word abort c (Or.inl hs) hd ha

/-! ## The address token -/

theorem newcmd_fields (s : HEXBUS) (c : Nat) :
    (newcmd s c).m_interrupt_flag = s.m_interrupt_flag ∧ (newcmd s c).m_addr_set = s.m_addr_set ∧
    (newcmd s c).m_bus_err = s.m_bus_err ∧ (newcmd s c).m_lastaddr = s.m_lastaddr ∧
    (newcmd s c).m_nacks = s.m_nacks ∧ (newcmd s c).m_inc = s.m_inc := by
  unfold newcmd
  split <;> exact ⟨rfl, rfl, rfl, rfl, rfl, rfl⟩

/-- C21: when the character that ends an `A` token reaches `readword` or
`readidle` (the tag is `A`, the decoder is inside the token, the character is
not a hexadecimal digit) with the 32-bit value `v` in the word register, then
afterwards `m_lastaddr` is `v` with its two low bits cleared, `m_inc` says
whether the low bit of `v` is 0, and `m_addr_set` is true.  For a whole token
read by one decoder call, from a decoder between tokens: after `A`, any run
`ds` of hexadecimal digits and any character that is not one, both decoders go
on with these three fields set from the value of `ds` modulo `2^32`. -/
theorem address_echo_dispatch (s : HEXBUS) (word abort t : Nat) (ds : List Nat)
    (rest : List (Option Nat)) (log : List Ev) (ht : isdigit t = false ∧ isaf t = false) :
    (s.m_cmd = HEXB_ADDR → s.m_isspace = false → word < 4294967296 →
      ((readwordStep s word abort t).1.m_lastaddr = word - word % 4 ∧
        (readwordStep s word abort t).1.m_inc = decide (word % 2 = 0) ∧
        (readwordStep s word abort t).1.m_addr_set = true) ∧
      ((readidleStep s word t).1.m_lastaddr = word - word % 4 ∧
        (readidleStep s word t).1.m_inc = decide (word % 2 = 0) ∧
        (readidleStep s word t).1.m_addr_set = true)) ∧
    (quiet s → (∀ x ∈ ds, isdigit x = true ∨ isaf x = true) →
      ∃ s1 : HEXBUS,
        s1.m_lastaddr = hexvalue ds % 4294967296 - hexvalue ds % 4294967296 % 4 ∧
        s1.m_inc = decide (hexvalue ds % 4294967296 % 2 = 0) ∧ s1.m_addr_set = true ∧
        readwordLoop s word abort (avail (HEXB_ADDR :: ds ++ [t]) ++ rest) log
          = readwordLoop s1 0 abort rest (log ++ (HEXB_ADDR :: ds ++ [t]).map Ev.rx) ∧
        readidleLoop s word (avail (HEXB_ADDR :: ds ++ [t]) ++ rest) log
          = readidleLoop s1 0 rest (log ++ (HEXB_ADDR :: ds ++ [t]).map Ev.rx)) := by
  have hfields : ∀ (u : HEXBUS) (w : Nat), w < 4294967296 →
      (newcmd { u with m_addr_set := true, m_inc := decide (w &&& 1 = 0),
                       m_lastaddr := w &&& 4294967292 } t).m_lastaddr = w - w % 4 ∧
      (newcmd { u with m_addr_set := true, m_inc := decide (w &&& 1 = 0),
                       m_lastaddr := w &&& 4294967292 } t).m_inc = decide (w % 2 = 0) ∧
      (newcmd { u with m_addr_set := true, m_inc := decide (w &&& 1 = 0),
                       m_lastaddr := w &&& 4294967292 } t).m_addr_set = true := by
    intro u w hw
    obtain ⟨-, f2, -, f4, -, f6⟩ := newcmd_fields
      { u with m_addr_set := true, m_inc := decide (w &&& 1 = 0),
               m_lastaddr := w &&& 4294967292 } t
    rw [f2, f4, f6]
    exact ⟨and_mask4 w hw, by simp only [Nat.and_one_is_mod], rfl⟩
  refine ⟨?_, ?_⟩
  · intro hc hs hw
    rw [readwordStep_A s word abort t hc hs ht.1 ht.2, readidleStep_A s word t hc hs ht.1 ht.2]
    exact ⟨hfields s word hw, hfields s word hw⟩
  · intro hq hds
    have hv : hexfold ds 0 < 4294967296 := hexfold_lt ds 0 (by decide)
    obtain ⟨g1, g2, g3⟩ := hfields { s with m_cmd := HEXB_ADDR, m_isspace := false }
      (hexfold ds 0) hv
    rw [← hexfold_value ds]
    refine ⟨_, g1, g2, g3, ?_, ?_⟩
    · rw [avail_append, List.append_assoc,
        readwordLoop_token s HEXB_ADDR ds word abort _ log hq (by decide) hds]
      simp only [avail, List.map_cons, List.map_nil, List.singleton_append]
      rw [readwordLoop, lclreadcode_one, readwordStep_A _ _ abort t rfl rfl ht.1 ht.2]
      simp
    · rw [avail_append, List.append_assoc,
        readidleLoop_token s HEXB_ADDR ds word _ log hq (by decide) hds]
      simp only [avail, List.map_cons, List.map_nil, List.singleton_append]
      rw [readidleLoop, lclreadcode_one, readidleStep_A _ _ t rfl rfl ht.1 ht.2]
      simp

theorem address_echo_dispatch_witness :
    (readwordStep { fresh with m_cmd := HEXB_ADDR } 259 3 CH_NL).1.m_lastaddr = 259 - 259 % 4 ∧
    (readwordStep { fresh with m_cmd := HEXB_ADDR } 259 3 CH_NL).1.m_inc
      = decide (259 % 2 = 0) ∧
    (readwordStep { fresh with m_cmd := HEXB_ADDR } 259 3 CH_NL).1.m_addr_set = true :=
  ((address_echo_dispatch { fresh with m_cmd := HEXB_ADDR } 259 3 CH_NL [] [] []
    (by decide)).1 rfl rfl (by decide)).1

theorem or_one_aligned (a : Nat) (hal : a % 4 = 0) : a ||| 1 = a + 1 := by
  have h := Nat.mul_add_lt_is_or (i := 2) (b := 1) (by decide) (a / 4)
  have e : 2 ^ 2 * (a / 4) = a := by omega
  rw [e] at h
  exact h.symm

/-- C22: for every 4-byte aligned 32-bit address `a` and increment flag `p`,
when the `A` token that `encode_address` composes for `a | (p ? 0 : 1)` (the
case in which it does not elide) comes back to a decoder between tokens,
followed by any character that is not a hexadecimal digit, both `readword` and
`readidle` go on with `m_lastaddr = a`, `m_inc = p` and `m_addr_set = true`. -/
theorem address_token_round_trip (s0 s : HEXBUS) (a : Nat) (p : Bool) (word abort t : Nat)
    (rest : List (Option Nat)) (log : List Ev) (ha : a < 4294967296) (hal : a % 4 = 0)
    (hq : quiet s) (hne : encode_address s0 (a ||| (if p then 0 else 1)) ≠ [])
    (ht : isdigit t = false ∧ isaf t = false) :
    ∃ s1 : HEXBUS, s1.m_lastaddr = a ∧ s1.m_inc = p ∧ s1.m_addr_set = true ∧
      readwordLoop s word abort
          (avail (encode_address s0 (a ||| (if p then 0 else 1)) ++ [t]) ++ rest) log
        = readwordLoop s1 0 abort rest
            (log ++ (encode_address s0 (a ||| (if p then 0 else 1)) ++ [t]).map Ev.rx) ∧
      readidleLoop s word
          (avail (encode_address s0 (a ||| (if p then 0 else 1)) ++ [t]) ++ rest) log
        = readidleLoop s1 0 rest
            (log ++ (encode_address s0 (a ||| (if p then 0 else 1)) ++ [t]).map Ev.rx) := by
  have henc : encode_address s0 (a ||| (if p then 0 else 1))
      = HEXB_ADDR :: sprintf_08x (a ||| (if p then 0 else 1)) := by
    rcases ite_eq_or_eq (s0.m_addr_set = true ∧ (a ||| (if p then 0 else 1)) = s0.m_lastaddr
      ∧ (if s0.m_inc then 1 else 0) = ((a ||| (if p then 0 else 1)) &&& 1) ^^^ 1)
      ([] : List Nat) (HEXB_ADDR :: sprintf_08x (a ||| (if p then 0 else 1))) with h | h
    · exact absurd h hne
    · exact h
  have hx : a ||| (if p then 0 else 1) < 4294967296 := or_flag_lt a p ha
  have hfold : hexfold (sprintf_08x (a ||| (if p then 0 else 1))) 0
      = a ||| (if p then 0 else 1) := hexfold_hexnibbles _ hx
  have hdig : ∀ x ∈ sprintf_08x (a ||| (if p then 0 else 1)),
      isdigit x = true ∨ isaf x = true := by
    intro x hxm
    rcases hexnibbles_lower 8 _ x hxm with h | h
    · exact Or.inl (by simp [isdigit, h.1, h.2])
    · exact Or.inr (by simp [isaf, h.1, h.2])
  have hval : (a ||| (if p then 0 else 1)) &&& 4294967292 = a ∧
      decide ((a ||| (if p then 0 else 1)) &&& 1 = 0) = p := by
    cases p
    · simp only [Bool.false_eq_true, if_false]
      rw [and_mask4 _ (by simpa using hx), Nat.and_one_is_mod, or_one_aligned a hal]
      exact ⟨by omega, by simp; omega⟩
    · simp only [if_true, Nat.or_zero]
      rw [and_mask4 _ ha, Nat.and_one_is_mod]
      exact ⟨by omega, by simp; omega⟩
  obtain ⟨-, f2, -, f4, -, f6⟩ := newcmd_fields
    { s with m_cmd := HEXB_ADDR, m_isspace := false, m_addr_set := true,
             m_inc := decide ((a ||| (if p then 0 else 1)) &&& 1 = 0),
             m_lastaddr := (a ||| (if p then 0 else 1)) &&& 4294967292 } t
  refine ⟨newcmd
      { s with m_cmd := HEXB_ADDR, m_isspace := false, m_addr_set := true,
               m_inc := decide ((a ||| (if p then 0 else 1)) &&& 1 = 0),
               m_lastaddr := (a ||| (if p then 0 else 1)) &&& 4294967292 } t,
    by rw [f4]; exact hval.1, by rw [f6]; exact hval.2, by rw [f2], ?_, ?_⟩
  · rw [henc, avail_append, List.append_assoc,
      readwordLoop_token s HEXB_ADDR _ word abort _ log hq (by decide) hdig, hfold]
    simp only [avail, List.map_cons, List.map_nil, List.singleton_append]
    rw [readwordLoop, lclreadcode_one, readwordStep_A _ _ abort t rfl rfl ht.1 ht.2]
    simp
  · rw [henc, avail_append, List.append_assoc,
      readidleLoop_token s HEXB_ADDR _ word _ log hq (by decide) hdig, hfold]
    simp only [avail, List.map_cons, List.map_nil, List.singleton_append]
    rw [readidleLoop, lclreadcode_one, readidleStep_A _ _ t rfl rfl ht.1 ht.2]
    simp

theorem address_token_round_trip_witness :
    (readidleLoop fresh 0 (avail (encode_address fresh (256 ||| (if false then 0 else 1))
      ++ [CH_NL]) ++ []) []).2.1.m_lastaddr = 256 ∧
    (readidleLoop fresh 0 (avail (encode_address fresh (256 ||| (if false then 0 else 1))
      ++ [CH_NL]) ++ []) []).2.1.m_inc = false := by
  obtain ⟨s1, h1, h2, _, _, h5⟩ := address_token_round_trip fresh fresh 256 false 0 3 CH_NL [] []
    (by decide) (by decide) (Or.inr (by decide)) (by decide) (by decide)
  rw [h5]
  exact ⟨h1, h2⟩

/-! ## The acknowledgement token -/

theorem ite_ind2 {α : Type} (P : α → Prop) (c : Prop) [Decidable c] (x y : α)
    (hx : c → P x) (hy : ¬ c → P y) : P (if c then x else y) := by
  by_cases h : c
  · rw [if_pos h]; exact hx h
  · rw [if_neg h]; exact hy h

theorem readwordStep_nacks_frame (s : HEXBUS) (word abort c : Nat)
    (h : s.m_cmd = HEXB_ACK → s.m_isspace = false → isdigit c = false → isaf c = false → False) :
    (readwordStep s word abort c).1.m_nacks = s.m_nacks := by
  unfold readwordStep
  repeat' first
    | (apply ite_ind2 (fun r : HEXBUS × Nat × Nat × Flow => r.1.m_nacks = s.m_nacks) <;> intro h0)
  all_goals first
    | rfl
    | (simp only [newcmd_nacks, bump_nacks]; done)
    | exact absurd (h ‹s.m_cmd = HEXB_ACK› (by simpa using ‹¬s.m_isspace = true›)
        (by simpa using ‹¬isdigit c = true›) (by simpa using ‹¬isaf c = true›)) id
    | (dsimp only; split <;> rfl)

theorem readidleStep_nacks_frame (s : HEXBUS) (word c : Nat)
    (h : s.m_cmd = HEXB_ACK → s.m_isspace = false → isdigit c = false → isaf c = false → False) :
    (readidleStep s word c).1.m_nacks = s.m_nacks := by
  unfold readidleStep
  repeat' first
    | (apply ite_ind2 (fun r : HEXBUS × Nat × Flow => r.1.m_nacks = s.m_nacks) <;> intro h0)
  all_goals first
    | rfl
    | (simp only [newcmd_nacks, bump_nacks]; done)
    | exact absurd (h ‹s.m_cmd = HEXB_ACK› (by simpa using ‹¬s.m_isspace = true›)
        (by simpa using ‹¬isdigit c = true›) (by simpa using ‹¬isaf c = true›)) id

theorem ack_fields (s : HEXBUS) (c : Nat) :
    (newcmd { bump s with m_nacks := u32 ((bump s).m_nacks + 1) } c).m_nacks
        = (s.m_nacks + 1) % 4294967296 ∧
    (newcmd { bump s with m_nacks := u32 ((bump s).m_nacks + 1) } c).m_lastaddr
        = (if s.m_inc then (s.m_lastaddr + 4) % 4294967296 else s.m_lastaddr) := by
  obtain ⟨-, -, -, f4, f5, -⟩ := newcmd_fields
    { bump s with m_nacks := u32 ((bump s).m_nacks + 1) } c
  rw [f4, f5]
  unfold bump
  cases hi : s.m_inc <;> simp [u32]

/-- C23: when the character that ends a `K` token reaches `readword` or
`readidle` (the tag is `K`, the decoder is inside the token, the character is
not a hexadecimal digit), `m_nacks` goes up by 1 in 32-bit arithmetic (by
exactly 1 unless it stood at `2^32 - 1`), `m_lastaddr` goes up by 4 modulo
`2^32` if `m_inc` is set and stays as it is otherwise, and the decoder goes on.
Every other pass through either decoder, whatever the tag and the character,
leaves `m_nacks` as it is.  For a whole `K` token read by one decoder call, from
a decoder between tokens, both decoders go on with the counter and the address
so advanced. -/
theorem ack_dispatch (s : HEXBUS) (word abort t : Nat) (ds : List Nat)
    (rest : List (Option Nat)) (log : List Ev) :
    (s.m_cmd = HEXB_ACK → s.m_isspace = false → isdigit t = false → isaf t = false →
      ((readwordStep s word abort t).1.m_nacks = (s.m_nacks + 1) % 4294967296 ∧
        (s.m_nacks + 1 < 4294967296 → (readwordStep s word abort t).1.m_nacks = s.m_nacks + 1) ∧
        (readwordStep s word abort t).1.m_lastaddr
          = (if s.m_inc then (s.m_lastaddr + 4) % 4294967296 else s.m_lastaddr) ∧
        (readwordStep s word abort t).2.2.2 = Flow.next) ∧
      ((readidleStep s word t).1.m_nacks = (s.m_nacks + 1) % 4294967296 ∧
        (s.m_nacks + 1 < 4294967296 → (readidleStep s word t).1.m_nacks = s.m_nacks + 1) ∧
        (readidleStep s word t).1.m_lastaddr
          = (if s.m_inc then (s.m_lastaddr + 4) % 4294967296 else s.m_lastaddr) ∧
        (readidleStep s word t).2.2 = Flow.next)) ∧
    (¬ (s.m_cmd = HEXB_ACK ∧ s.m_isspace = false ∧ isdigit t = false ∧ isaf t = false) →
      (readwordStep s word abort t).1.m_nacks = s.m_nacks ∧
      (readidleStep s word t).1.m_nacks = s.m_nacks) ∧
    (quiet s → (∀ x ∈ ds, isdigit x = true ∨ isaf x = true) →
      isdigit t = false → isaf t = false →
      ∃ s1 : HEXBUS,
        s1.m_nacks = (s.m_nacks + 1) % 4294967296 ∧
        s1.m_lastaddr = (if s.m_inc then (s.m_lastaddr + 4) % 4294967296 else s.m_lastaddr) ∧
        readwordLoop s word abort (avail (HEXB_ACK :: ds ++ [t]) ++ rest) log
          = readwordLoop s1 0 abort rest (log ++ (HEXB_ACK :: ds ++ [t]).map Ev.rx) ∧
        readidleLoop s word (avail (HEXB_ACK :: ds ++ [t]) ++ rest) log
          = readidleLoop s1 0 rest (log ++ (HEXB_ACK :: ds ++ [t]).map Ev.rx)) := by
  refine ⟨?_, ?_, ?_⟩
  · intro hc hs hd ha
    rw [readwordStep_K s word abort t hc hs hd ha, readidleStep_K s word t hc hs hd ha]
    obtain ⟨g1, g2⟩ := ack_fields s t
    exact ⟨⟨g1, fun hlt => by rw [g1]; exact Nat.mod_eq_of_lt hlt, g2, rfl⟩,
      ⟨g1, fun hlt => by rw [g1]; exact Nat.mod_eq_of_lt hlt, g2, rfl⟩⟩
  · intro hn
    exact ⟨readwordStep_nacks_frame s word abort t (fun h1 h2 h3 h4 => hn ⟨h1, h2, h3, h4⟩),
      readidleStep_nacks_frame s word t (fun h1 h2 h3 h4 => hn ⟨h1, h2, h3, h4⟩)⟩
  · intro hq hds hd ha
    obtain ⟨g1, g2⟩ := ack_fields { s with m_cmd := HEXB_ACK, m_isspace := false } t
    refine ⟨_, g1, g2, ?_, ?_⟩
    · rw [avail_append, List.append_assoc,
        readwordLoop_token s HEXB_ACK ds word abort _ log hq (by decide) hds]
      simp only [avail, List.map_cons, List.map_nil, List.singleton_append]
      rw [readwordLoop, lclreadcode_one, readwordStep_K _ _ abort t rfl rfl hd ha]
      simp
    · rw [avail_append, List.append_assoc,
        readidleLoop_token s HEXB_ACK ds word _ log hq (by decide) hds]
      simp only [avail, List.map_cons, List.map_nil, List.singleton_append]
      rw [readidleLoop, lclreadcode_one, readidleStep_K _ _ t rfl rfl hd ha]
      simp

theorem ack_dispatch_witness :
    (readidleStep { fresh with m_cmd := HEXB_ACK, m_inc := true, m_lastaddr := 256 } 0
        CH_NL).1.m_nacks = (0 + 1) % 4294967296 ∧
    (readidleStep { fresh with m_cmd := HEXB_ACK, m_inc := true, m_lastaddr := 256 } 0
        CH_NL).1.m_lastaddr = (if true then (256 + 4) % 4294967296 else 256) :=
  ⟨((ack_dispatch { fresh with m_cmd := HEXB_ACK, m_inc := true, m_lastaddr := 256 } 0 3 CH_NL
      [] [] []).1 rfl rfl (by decide) (by decide)).2.1,
   ((ack_dispatch { fresh with m_cmd := HEXB_ACK, m_inc := true, m_lastaddr := 256 } 0 3 CH_NL
      [] [] []).1 rfl rfl (by decide) (by decide)).2.2.2.1⟩

/-! ## Properties of the engine that hold as long as certain characters stay away -/

theorem readwordLoop_inv (P : HEXBUS → Prop) (Q : Nat → Prop)
    (hstep : ∀ s w a c, P s → Q c → P (readwordStep s w a c).1)
    (s : HEXBUS) (word abort : Nat) (rx : List (Option Nat)) (log : List Ev) :
    ∃ ext, (readwordLoop s word abort rx log).2.2.2 = log ++ ext ∧
      ((∀ b, Ev.rx b ∈ ext → Q b) → P s → P (readwordLoop s word abort rx log).2.1) := by
  induction rx generalizing s word abort log with
  | nil => exact ⟨[], by simp [readwordLoop], fun _ hp => hp⟩
  | cons x rest ih =>
    cases x with
    | none =>
      obtain ⟨ext, h1, h2⟩ := ih s word abort log
      exact ⟨ext, by rw [readwordLoop]; exact h1, by rw [readwordLoop]; exact h2⟩
    | some b =>
      unfold readwordLoop
      rw [lclreadcode_one]
      have hst := hstep s word abort b
      rcases hstep1 : readwordStep s word abort b with ⟨s1, w1, a1, f⟩
      rw [hstep1] at hst
      simp only [] at hst
      cases f with
      | next =>
        obtain ⟨ext, h1, h2⟩ := ih s1 w1 a1 (log ++ [Ev.rx b])
        refine ⟨Ev.rx b :: ext, by simp only [h1]; simp, ?_⟩
        intro hq hp
        exact h2 (fun x hx => hq x (List.mem_cons_of_mem _ hx))
          (hst hp (hq b (List.mem_cons_self _ _)))
      | done r =>
        exact ⟨[Ev.rx b], rfl, fun hq hp => hst hp (hq b (List.mem_cons_self _ _))⟩
      | throw a =>
        exact ⟨[Ev.rx b], rfl, fun hq hp => hst hp (hq b (List.mem_cons_self _ _))⟩

theorem readword_inv {ρ : Type} (P : HEXBUS → Prop) (Q : Nat → Prop)
    (hstep : ∀ s w a c, P s → Q c → P (readwordStep s w a c).1)
    (s : HEXBUS) (d : Dev ρ) :
    ∃ ext, (readword s d).2.2.log = d.log ++ ext ∧
      ((∀ b, Ev.rx b ∈ ext → Q b) → P s → P (readword s d).2.1) := by
  obtain ⟨ext, h1, h2⟩ := readwordLoop_inv P Q hstep s 0 3 d.rx d.log
  exact ⟨ext, by simpa [readword] using h1, by simpa [readword] using h2⟩

theorem readidleLoop_inv (P : HEXBUS → Prop) (Q : Nat → Prop)
    (hstep : ∀ s w c, P s → Q c → P (readidleStep s w c).1)
    (s : HEXBUS) (word : Nat) (rx : List (Option Nat)) (log : List Ev) :
    ∃ ext, (readidleLoop s word rx log).2.2.2 = log ++ ext ∧
      ((∀ b, Ev.rx b ∈ ext → Q b) → P s → P (readidleLoop s word rx log).2.1) := by
  induction rx generalizing s word log with
  | nil => exact ⟨[], by simp [readidleLoop], fun _ hp => hp⟩
  | cons x rest ih =>
    cases x with
    | none => exact ⟨[], by simp [readidleLoop], fun _ hp => hp⟩
    | some b =>
      unfold readidleLoop
      rw [lclreadcode_one]
      have hst := hstep s word b
      rcases hstep1 : readidleStep s word b with ⟨s1, w1, f⟩
      rw [hstep1] at hst
      simp only [] at hst
      cases f with
      | next =>
        obtain ⟨ext, h1, h2⟩ := ih s1 w1 (log ++ [Ev.rx b])
        refine ⟨Ev.rx b :: ext, by simp only [h1]; simp, ?_⟩
        intro hq hp
        exact h2 (fun x hx => hq x (List.mem_cons_of_mem _ hx))
          (hst hp (hq b (List.mem_cons_self _ _)))
      | done r =>
        exact ⟨[Ev.rx b], rfl, fun hq hp => hst hp (hq b (List.mem_cons_self _ _))⟩
      | throw a =>
        exact ⟨[Ev.rx b], rfl, fun hq hp => hst hp (hq b (List.mem_cons_self _ _))⟩

theorem readidle_inv {ρ : Type} (P : HEXBUS → Prop) (Q : Nat → Prop)
    (hstep : ∀ s w c, P s → Q c → P (readidleStep s w c).1)
    (s : HEXBUS) (d : Dev ρ) :
    ∃ ext, (readidle s d).2.2.log = d.log ++ ext ∧
      ((∀ b, Ev.rx b ∈ ext → Q b) → P s → P (readidle s d).2.1) := by
  obtain ⟨ext, h1, h2⟩ := readidleLoop_inv P Q hstep s 0 d.rx d.log
  exact ⟨ext, by simpa [readidle] using h1, by simpa [readidle] using h2⟩

theorem rxQ_append {Q : Nat → Prop} {l1 l2 : List Ev} (h : ∀ b, Ev.rx b ∈ l1 ++ l2 → Q b) :
    (∀ b, Ev.rx b ∈ l1 → Q b) ∧ (∀ b, Ev.rx b ∈ l2 → Q b) :=
  ⟨fun b hb => h b (List.mem_append_left _ hb), fun b hb => h b (List.mem_append_right _ hb)⟩

theorem waitAcks_inv {ρ : Type} (P : HEXBUS → Prop) (Q : Nat → Prop)
    (hstep : ∀ s w c, P s → Q c → P (readidleStep s w c).1)
    (fuel target : Nat) (s : HEXBUS) (d : Dev ρ) :
    ∃ ext, (waitAcks fuel target s d).2.2.log = d.log ++ ext ∧
      ((∀ b, Ev.rx b ∈ ext → Q b) → P s → P (waitAcks fuel target s d).2.1) := by
  induction fuel generalizing s d with
  | zero =>
    unfold waitAcks
    split <;> exact ⟨[], by simp, fun _ hp => hp⟩
  | succ k ih =>
    unfold waitAcks
    by_cases h1 : s.m_nacks < target
    · rw [if_pos h1]
      by_cases h2 : d.rx = []
      · rw [if_pos h2]; exact ⟨[], by simp, fun _ hp => hp⟩
      · rw [if_neg h2]
        obtain ⟨e1, g1, g2⟩ := readidle_inv P Q hstep s d
        rcases hr : readidle s d with ⟨o, s1, d1⟩
        rw [hr] at g1 g2
        simp only [] at g1 g2
        cases o with
        | ok u =>
          obtain ⟨e2, g3, g4⟩ := ih s1 d1
          refine ⟨e1 ++ e2, by simp only [g3]; rw [g1, List.append_assoc], ?_⟩
          intro hq hp
          exact g4 (rxQ_append hq).2 (g2 (rxQ_append hq).1 hp)
        | buserr a => exact ⟨e1, g1, g2⟩
        | fatal => exact ⟨e1, g1, g2⟩
        | hang => exact ⟨e1, g1, g2⟩
    · rw [if_neg h1]; exact ⟨[], by simp, fun _ hp => hp⟩

theorem writevLoop_inv {ρ : Type} (P : HEXBUS → Prop) (Q : Nat → Prop)
    (hstep : ∀ s w c, P s → Q c → P (readidleStep s w c).1)
    (buf : List Nat) (nw : Nat) (pre : List Nat) (s : HEXBUS) (d : Dev ρ) :
    ∃ ext, (writevLoop buf nw pre s d).2.2.log = d.log ++ ext ∧
      ((∀ b, Ev.rx b ∈ ext → Q b) → P s → P (writevLoop buf nw pre s d).2.1) := by
  induction buf generalizing nw pre s d with
  | nil => exact ⟨[], by simp [writevLoop], fun _ hp => hp⟩
  | cons v rest ih =>
    unfold writevLoop
    generalize hd0 : (d.note (Ev.sub nw s.m_nacks)).write (pre ++ encode_word v) = d0
    have hlog0 : d0.log = d.log ++ [Ev.sub nw s.m_nacks, Ev.tx (pre ++ encode_word v)] := by
      rw [← hd0]; simp [Dev.write, Dev.note]
    obtain ⟨e1, h1, h2⟩ := waitAcks_inv P Q hstep (d0.rx.length + 1) nw s d0
    rcases hw : waitAcks (d0.rx.length + 1) nw s d0 with ⟨o, s1, d1⟩
    rw [hw] at h1 h2
    simp only [] at h1 h2
    have hsub : ∀ tail, (∀ b, Ev.rx b ∈ Ev.sub nw s.m_nacks :: Ev.tx (pre ++ encode_word v)
        :: tail → Q b) → ∀ b, Ev.rx b ∈ tail → Q b := fun tail h b hb =>
      h b (List.mem_cons_of_mem _ (List.mem_cons_of_mem _ hb))
    cases o with
    | ok u =>
      obtain ⟨e2, h3, h4⟩ := ih (nw + 1) [] s1 d1
      refine ⟨Ev.sub nw s.m_nacks :: Ev.tx (pre ++ encode_word v) :: (e1 ++ e2),
        by simp only [h3, h1, hlog0]; simp, ?_⟩
      intro hq hp
      exact h4 (rxQ_append (hsub _ hq)).2 (h2 (rxQ_append (hsub _ hq)).1 hp)
    | buserr a =>
      exact ⟨Ev.sub nw s.m_nacks :: Ev.tx (pre ++ encode_word v) :: e1,
        by simp only [h1, hlog0]; simp, fun hq hp => h2 (hsub _ hq) hp⟩
    | fatal =>
      exact ⟨Ev.sub nw s.m_nacks :: Ev.tx (pre ++ encode_word v) :: e1,
        by simp only [h1, hlog0]; simp, fun hq hp => h2 (hsub _ hq) hp⟩
    | hang =>
      exact ⟨Ev.sub nw s.m_nacks :: Ev.tx (pre ++ encode_word v) :: e1,
        by simp only [h1, hlog0]; simp, fun hq hp => h2 (hsub _ hq) hp⟩

theorem readvLoop_inv {ρ : Type} (P : HEXBUS → Prop) (Q : Nat → Prop)
    (hstep : ∀ s w a c, P s → Q c → P (readwordStep s w a c).1)
    (k : Nat) (pre buf : List Nat) (s : HEXBUS) (d : Dev ρ) :
    ∃ ext, (readvLoop k pre buf s d).2.2.2.log = d.log ++ ext ∧
      ((∀ b, Ev.rx b ∈ ext → Q b) → P s → P (readvLoop k pre buf s d).2.2.1) := by
  induction k generalizing pre buf s d with
  | zero => exact ⟨[], by simp [readvLoop], fun _ hp => hp⟩
  | succ k ih =>
    unfold readvLoop
    generalize hd0 : d.write (pre ++ [HEXB_READ, CH_NL]) = d0
    have hlog0 : d0.log = d.log ++ [Ev.tx (pre ++ [HEXB_READ, CH_NL])] := by
      rw [← hd0]; rfl
    obtain ⟨e1, h1, h2⟩ := readword_inv P Q hstep s d0
    rcases hr : readword s d0 with ⟨o, s1, d1⟩
    rw [hr] at h1 h2
    simp only [] at h1 h2
    have hsub : ∀ tail, (∀ b, Ev.rx b ∈ Ev.tx (pre ++ [HEXB_READ, CH_NL]) :: tail → Q b) →
        ∀ b, Ev.rx b ∈ tail → Q b := fun tail h b hb => h b (List.mem_cons_of_mem _ hb)
    cases o with
    | ok w =>
      obtain ⟨e2, h3, h4⟩ := ih [] (buf ++ [w]) s1 d1
      refine ⟨Ev.tx (pre ++ [HEXB_READ, CH_NL]) :: (e1 ++ e2),
        by simp only [h3, h1, hlog0]; simp, ?_⟩
      intro hq hp
      exact h4 (rxQ_append (hsub _ hq)).2 (h2 (rxQ_append (hsub _ hq)).1 hp)
    | buserr a =>
      exact ⟨Ev.tx (pre ++ [HEXB_READ, CH_NL]) :: e1, by simp only [h1, hlog0]; simp,
        fun hq hp => h2 (hsub _ hq) hp⟩
    | fatal =>
      exact ⟨Ev.tx (pre ++ [HEXB_READ, CH_NL]) :: e1, by simp only [h1, hlog0]; simp,
        fun hq hp => h2 (hsub _ hq) hp⟩
    | hang =>
      exact ⟨Ev.tx (pre ++ [HEXB_READ, CH_NL]) :: e1, by simp only [h1, hlog0]; simp,
        fun hq hp => h2 (hsub _ hq) hp⟩

theorem readv_inv {ρ : Type} (P : HEXBUS → Prop) (Q : Nat → Prop)
    (hstep : ∀ s w a c, P s → Q c → P (readwordStep s w a c).1)
    (a : Nat) (inc : Bool) (len : Nat) (s : HEXBUS) (d : Dev ρ) (hlen : len ≠ 0) :
    ∃ ext, (readv a inc len s d).2.2.2.log = d.log ++ ext ∧
      ((∀ b, Ev.rx b ∈ ext → Q b) →
        P { s with m_lastaddr := a, m_addr_set := true, m_inc := inc } →
        P (readv a inc len s d).2.2.1) := by
  obtain ⟨ext, h1, h2⟩ := readvLoop_inv P Q hstep len
    (encode_address s (a ||| (if inc then 0 else 1))) []
    { s with m_lastaddr := a, m_addr_set := true, m_inc := inc } d
  unfold readv
  rw [if_neg hlen]
  rcases hL : readvLoop len (encode_address s (a ||| (if inc then 0 else 1))) []
    { s with m_lastaddr := a, m_addr_set := true, m_inc := inc } d with ⟨o, b, s1, d1⟩
  rw [hL] at h1 h2
  simp only [] at h1 h2
  cases o with
  | ok u =>
    dsimp only
    by_cases hc : s1.m_lastaddr ≠ u32 (a + (if inc then len <<< 2 else 0))
    · rw [if_pos hc]; exact ⟨ext, h1, h2⟩
    · rw [if_neg hc]; exact ⟨ext, h1, h2⟩
  | buserr x => exact ⟨ext, h1, h2⟩
  | fatal => exact ⟨ext, h1, h2⟩
  | hang => exact ⟨ext, h1, h2⟩

theorem writev_inv {ρ : Type} (P : HEXBUS → Prop) (Q : Nat → Prop)
    (hstep : ∀ s w c, P s → Q c → P (readidleStep s w c).1)
    (hla : ∀ s x, P s → P { s with m_lastaddr := x })
    (a : Nat) (p : Bool) (buf : List Nat) (s : HEXBUS) (d : Dev ρ) :
    ∃ ext, (writev a p buf s d).2.2.log = d.log ++ ext ∧
      ((∀ b, Ev.rx b ∈ ext → Q b) →
        P { s with m_lastaddr := a, m_addr_set := true, m_nacks := 0 } →
        P (writev a p buf s d).2.1) := by
  obtain ⟨e1, h1, h2⟩ := writevLoop_inv P Q hstep buf 0
    (encode_address s (a ||| (if p then 0 else 1)))
    { s with m_lastaddr := a, m_addr_set := true, m_nacks := 0 } d
  unfold writev
  rcases hL : writevLoop buf 0 (encode_address s (a ||| (if p then 0 else 1)))
    { s with m_lastaddr := a, m_addr_set := true, m_nacks := 0 } d with ⟨o, s1, d1⟩
  rw [hL] at h1 h2
  simp only [] at h1 h2
  cases o with
  | ok u =>
    simp only []
    obtain ⟨e2, h3, h4⟩ := waitAcks_inv P Q hstep (d1.rx.length + 1) buf.length s1 d1
    rcases hw : waitAcks (d1.rx.length + 1) buf.length s1 d1 with ⟨o2, s2, d2⟩
    rw [hw] at h3 h4
    simp only [] at h3 h4
    have hall : d2.log = d.log ++ (e1 ++ e2) := by rw [h3, h1]; simp
    have hfin : (∀ b, Ev.rx b ∈ e1 ++ e2 → Q b) →
        P { s with m_lastaddr := a, m_addr_set := true, m_nacks := 0 } → P s2 :=
      fun hq hp => h4 (rxQ_append hq).2 (h2 (rxQ_append hq).1 hp)
    cases o2 with
    | ok u =>
      refine ⟨e1 ++ e2, hall, fun hq hp => ?_⟩
      cases p
      · exact hfin hq hp
      · exact hla _ _ (hfin hq hp)
    | buserr x => exact ⟨e1 ++ e2, hall, hfin⟩
    | fatal => exact ⟨e1 ++ e2, hall, hfin⟩
    | hang => exact ⟨e1 ++ e2, hall, hfin⟩
  | buserr x => exact ⟨e1, h1, h2⟩
  | fatal => exact ⟨e1, h1, h2⟩
  | hang => exact ⟨e1, h1, h2⟩

/-! ## The bus-error flag -/

theorem bump_bus_err (s : HEXBUS) : (bump s).m_bus_err = s.m_bus_err := by
  unfold bump; split <;> rfl

theorem bump_cmd (s : HEXBUS) : (bump s).m_cmd = s.m_cmd := by
  unfold bump; split <;> rfl

theorem newcmd_cmd (s : HEXBUS) (c : Nat) :
    (newcmd s c).m_cmd = c ∨ (newcmd s c).m_cmd = s.m_cmd := by
  unfold newcmd; split
  · exact Or.inl rfl
  · exact Or.inr rfl

theorem readwordStep_bus_err (s : HEXBUS) (word abort c : Nat) (h : s.m_bus_err = true) :
    (readwordStep s word abort c).1.m_bus_err = true := by
  unfold readwordStep
  repeat' apply ite_ind (fun r : HEXBUS × Nat × Nat × Flow => r.1.m_bus_err = true)
  all_goals first
    | exact h
    | exact ((newcmd_fields _ c).2.2.1).trans h
    | exact ((newcmd_fields _ c).2.2.1).trans ((bump_bus_err s).trans h)
    | (dsimp only; split <;> rfl)

theorem newcmd_latched (x : HEXBUS) (c : Nat) (h1 : x.m_bus_err = true)
    (h2 : x.m_cmd ≠ HEXB_RESET) (hc : c ≠ HEXB_RESET) :
    (newcmd x c).m_bus_err = true ∧ (newcmd x c).m_cmd ≠ HEXB_RESET := by
  refine ⟨((newcmd_fields x c).2.2.1).trans h1, ?_⟩
  rcases newcmd_cmd x c with h | h
  · rw [h]; exact hc
  · rw [h]; exact h2

theorem readidleStep_latched (s : HEXBUS) (word c : Nat)
    (hp : s.m_bus_err = true ∧ s.m_cmd ≠ HEXB_RESET) (hc : c ≠ HEXB_RESET) :
    (readidleStep s word c).1.m_bus_err = true ∧ (readidleStep s word c).1.m_cmd ≠ HEXB_RESET := by
  unfold readidleStep
  repeat' first
    | (apply ite_ind2 (fun r : HEXBUS × Nat × Flow =>
        r.1.m_bus_err = true ∧ r.1.m_cmd ≠ HEXB_RESET) <;> intro h0)
  all_goals first
    | exact hp
    | exact newcmd_latched _ c hp.1 hp.2 hc
    | exact newcmd_latched _ c ((bump_bus_err s).trans hp.1) (by rw [bump_cmd]; exact hp.2) hc
    | exact absurd ‹s.m_cmd = HEXB_RESET› hp.2
    | exact ⟨rfl, hp.2⟩

theorem readidleStep_bus_err_frame (s : HEXBUS) (word c : Nat) (h : s.m_bus_err = true)
    (hn : s.m_cmd = HEXB_RESET → s.m_isspace = false → isdigit c = false → isaf c = false →
      False) :
    (readidleStep s word c).1.m_bus_err = true := by
  unfold readidleStep
  repeat' first
    | (apply ite_ind2 (fun r : HEXBUS × Nat × Flow => r.1.m_bus_err = true) <;> intro h0)
  all_goals first
    | exact h
    | exact ((newcmd_fields _ c).2.2.1).trans h
    | exact ((newcmd_fields _ c).2.2.1).trans ((bump_bus_err s).trans h)
    | exact absurd (hn ‹s.m_cmd = HEXB_RESET› (by simpa using ‹¬s.m_isspace = true›)
        (by simpa using ‹¬isdigit c = true›) (by simpa using ‹¬isaf c = true›)) id
    | rfl

theorem usleepByte_bus_err (s : HEXBUS) (c : Nat) (h : s.m_bus_err = true)
    (hc : c ≠ HEXB_RESET) : (usleepByte s c).m_bus_err = true := by
  unfold usleepByte
  repeat' first
    | (apply ite_ind2 (fun r : HEXBUS => r.m_bus_err = true) <;> intro h0)
  all_goals first
    | exact h
    | exact absurd ‹c = HEXB_RESET› hc
    | rfl

theorem usleepScan_bus_err (bytes : List Nat) (s : HEXBUS) (h : s.m_bus_err = true)
    (hb : ∀ b ∈ bytes, b ≠ HEXB_RESET) : (usleepScan s bytes).m_bus_err = true := by
  induction bytes generalizing s with
  | nil => exact h
  | cons b bs ih =>
    exact ih (usleepByte s b) (usleepByte_bus_err s b h (hb b (List.mem_cons_self _ _)))
      (fun x hx => hb x (List.mem_cons_of_mem _ hx))

theorem usleep_bus_err {ρ : Type} (s : HEXBUS) (d : Dev ρ) :
    ∃ ext, (usleep s d).2.2.log = d.log ++ ext ∧
      (noReset ext → s.m_bus_err = true → (usleep s d).2.1.m_bus_err = true) := by
  unfold usleep
  rcases hrx : d.rx with _ | ⟨x, rest⟩
  · dsimp only
    split <;> exact ⟨[], by simp, fun _ h => h⟩
  · cases x with
    | none => exact ⟨[], by simp, fun _ h => h⟩
    | some b =>
      refine ⟨(takeAvail 16 (some b :: rest)).1.map Ev.rx, rfl, fun hn h => ?_⟩
      exact usleepScan_bus_err _ s h (fun x hx => hn x (List.mem_map_of_mem _ hx))

theorem waitLoop_bus_err {ρ : Type} (fuel : Nat) (s : HEXBUS) (d : Dev ρ) :
    ∃ ext, (waitLoop fuel s d).2.2.log = d.log ++ ext ∧
      (noReset ext → s.m_bus_err = true → (waitLoop fuel s d).2.1.m_bus_err = true) := by
  induction fuel generalizing s d with
  | zero => exact ⟨[], by simp [waitLoop], fun _ h => h⟩
  | succ k ih =>
    unfold waitLoop
    obtain ⟨e1, g1, g2⟩ := usleep_bus_err s d
    rcases hus : usleep s d with ⟨o, s1, d1⟩
    rw [hus] at g1 g2
    simp only [] at g1 g2
    cases o with
    | ok u =>
      dsimp only
      by_cases hf : s1.m_interrupt_flag = true
      · rw [if_pos hf]; exact ⟨e1, g1, g2⟩
      · rw [if_neg hf]
        by_cases he : d1.rx = [] ∧ d1.closed = false
        · rw [if_pos he]; exact ⟨e1, g1, g2⟩
        · rw [if_neg he]
          obtain ⟨e2, g3, g4⟩ := ih s1 d1
          refine ⟨e1 ++ e2, by rw [g3, g1, List.append_assoc], fun hn h => ?_⟩
          exact g4 (rxQ_append hn).2 (g2 (rxQ_append hn).1 h)
    | buserr a => exact ⟨e1, g1, g2⟩
    | fatal => exact ⟨e1, g1, g2⟩
    | hang => exact ⟨e1, g1, g2⟩

theorem readidleLoop_err (s : HEXBUS) (t : Nat) (rest : List (Option Nat)) (log : List Ev)
    (hq : quiet s) (hd : isdigit t = false) (ha : isaf t = false) :
    readidleLoop s 0 (avail [HEXB_ERR, t] ++ rest) log
      = (Outcome.buserr s.m_lastaddr,
          { s with m_cmd := HEXB_ERR, m_isspace := false, m_bus_err := true }, rest,
          log ++ [HEXB_ERR, t].map Ev.rx) := by
  simp only [avail, List.map_cons, List.map_nil, List.cons_append, List.nil_append]
  rw [readidleLoop, lclreadcode_one,
    readidleStep_quiet s 0 HEXB_ERR hq (by decide) (by decide) (Or.inl (by decide)),
    newcmd_tag s HEXB_ERR (by decide)]
  simp only []
  rw [readidleLoop, lclreadcode_one, readidleStep_E _ 0 t rfl rfl hd ha]
  simp

theorem log_ext_unique {l l1 e1 : List Ev} (h : l1 = l ++ e1) {R : List Ev → Prop} {C : Prop}
    (hc : R e1 → C) : ∀ ext, l1 = l ++ ext → R ext → C := by
  intro ext he hr
  have : ext = e1 := List.append_cancel_left (he.symm.trans h)
  exact hc (this ▸ hr)

theorem readword_bus_err {ρ : Type} (s : HEXBUS) (d : Dev ρ) (h : s.m_bus_err = true) :
    (readword s d).2.1.m_bus_err = true := by
  obtain ⟨ext, -, h2⟩ := readword_inv (fun u => u.m_bus_err = true) (fun _ => True)
    (fun u w a c hu _ => readwordStep_bus_err u w a c hu) s d
  exact h2 (fun _ _ => trivial) h

theorem readv_bus_err {ρ : Type} (a : Nat) (inc : Bool) (len : Nat) (s : HEXBUS) (d : Dev ρ)
    (h : s.m_bus_err = true) : (readv a inc len s d).2.2.1.m_bus_err = true := by
  by_cases hlen : len = 0
  · subst hlen
    simpa [readv] using h
  · obtain ⟨ext, -, h2⟩ := readv_inv (fun u => u.m_bus_err = true) (fun _ => True)
      (fun u w a c hu _ => readwordStep_bus_err u w a c hu) a inc len s d hlen
    exact h2 (fun _ _ => trivial) h

theorem readio_bus_err {ρ : Type} (a : Nat) (s : HEXBUS) (d : Dev ρ)
    (h : s.m_bus_err = true) : (readio a s d).2.1.m_bus_err = true := by
  have hr := readv_bus_err a false 1 s d h
  unfold readio
  rcases hrd : readv a false 1 s d with ⟨o, b, s1, d1⟩
  rw [hrd] at hr
  cases o with
  | ok u =>
    dsimp only
    by_cases hc : s1.m_lastaddr ≠ a
    · rw [if_pos hc]; exact hr
    · rw [if_neg hc]; exact hr
  | buserr x => exact hr
  | fatal => exact hr
  | hang => exact hr

theorem readidle_latched {ρ : Type} (s : HEXBUS) (d : Dev ρ) :
    ∃ ext, (readidle s d).2.2.log = d.log ++ ext ∧
      (noReset ext → s.m_bus_err = true ∧ s.m_cmd ≠ HEXB_RESET →
        (readidle s d).2.1.m_bus_err = true ∧ (readidle s d).2.1.m_cmd ≠ HEXB_RESET) :=
  readidle_inv (fun u => u.m_bus_err = true ∧ u.m_cmd ≠ HEXB_RESET) (fun c => c ≠ HEXB_RESET)
    (fun u w c hu hc => readidleStep_latched u w c hu hc) s d

theorem writev_latched {ρ : Type} (a : Nat) (p : Bool) (buf : List Nat) (s : HEXBUS)
    (d : Dev ρ) :
    ∃ ext, (writev a p buf s d).2.2.log = d.log ++ ext ∧
      (noReset ext → s.m_bus_err = true ∧ s.m_cmd ≠ HEXB_RESET →
        (writev a p buf s d).2.1.m_bus_err = true ∧
        (writev a p buf s d).2.1.m_cmd ≠ HEXB_RESET) := by
  obtain ⟨ext, h1, h2⟩ := writev_inv (fun u => u.m_bus_err = true ∧ u.m_cmd ≠ HEXB_RESET)
    (fun c => c ≠ HEXB_RESET) (fun u w c hu hc => readidleStep_latched u w c hu hc)
    (fun u x hu => hu) a p buf s d
  exact ⟨ext, h1, fun hn hp => h2 hn hp⟩

theorem writeio_latched {ρ : Type} (a v : Nat) (s : HEXBUS) (d : Dev ρ) :
    ∃ ext, (writeio a v s d).2.2.log = d.log ++ ext ∧
      (noReset ext → s.m_bus_err = true ∧ s.m_cmd ≠ HEXB_RESET →
        (writeio a v s d).2.1.m_bus_err = true) := by
  obtain ⟨ext, h1, h2⟩ := writev_latched a false [v] s d
  unfold writeio
  rcases hw : writev a false [v] s d with ⟨o, s1, d1⟩
  rw [hw] at h1 h2
  simp only [] at h1 h2
  cases o with
  | ok u => exact ⟨ext, h1, fun hn hp => (h2 hn hp).1⟩
  | buserr x => exact ⟨ext, h1, fun hn hp => (h2 hn hp).1⟩
  | fatal => exact ⟨ext, h1, fun hn hp => (h2 hn hp).1⟩
  | hang => exact ⟨ext, h1, fun hn hp => (h2 hn hp).1⟩

/-- C24: when the character that ends an `E` token reaches `readword` or
`readidle` (the tag is `E`, the decoder is inside the token, the character is
not a hexadecimal digit), `m_bus_err` becomes true and the decoder call throws
`BUSERR(m_lastaddr)`, with `m_lastaddr` as it is at that moment; so does a whole
`E` token read by `readword` or `readidle` from a decoder between tokens.  Once
`bus_err()` is true it stays true: through every pass of `readword`, hence
through `readword`, `readv` and `readio` whatever arrives; through every pass
of `readidle` other than the dispatch of a `T` token and every character of
`usleep` other than `T`, hence through `usleep`, `wait`, `readidle`, `writev`
and `writeio` as long as no `T` is received (and none is pending).
`reset_err()` makes it false. -/
theorem bus_error_dispatch {ρ : Type} (s : HEXBUS) (d : Dev ρ) (word abort t : Nat)
    (rest : List (Option Nat)) :
    (s.m_cmd = HEXB_ERR → s.m_isspace = false → isdigit t = false → isaf t = false →
      (readwordStep s word abort t).2.2.2 = Flow.throw s.m_lastaddr ∧
      (readwordStep s word abort t).1.bus_err = true ∧
      (readidleStep s word t).2.2 = Flow.throw s.m_lastaddr ∧
      (readidleStep s word t).1.bus_err = true) ∧
    (quiet s → isdigit t = false → isaf t = false → d.rx = avail [HEXB_ERR, t] ++ rest →
      (readword s d).1 = Outcome.buserr s.m_lastaddr ∧ (readword s d).2.1.bus_err = true ∧
      (readidle s d).1 = Outcome.buserr s.m_lastaddr ∧ (readidle s d).2.1.bus_err = true) ∧
    (s.bus_err = true →
      (readwordStep s word abort t).1.bus_err = true ∧
      (¬ (s.m_cmd = HEXB_RESET ∧ s.m_isspace = false ∧ isdigit t = false ∧ isaf t = false) →
        (readidleStep s word t).1.bus_err = true) ∧
      (t ≠ HEXB_RESET → (usleepByte s t).bus_err = true) ∧
      (readword s d).2.1.bus_err = true ∧
      (∀ a inc n, (readv a inc n s d).2.2.1.bus_err = true) ∧
      (∀ a, (readio a s d).2.1.bus_err = true) ∧
      (∀ ext, (usleep s d).2.2.log = d.log ++ ext → noReset ext →
        (usleep s d).2.1.bus_err = true) ∧
      (∀ ext, (wait s d).2.2.log = d.log ++ ext → noReset ext →
        (wait s d).2.1.bus_err = true) ∧
      (s.m_cmd ≠ HEXB_RESET →
        (∀ ext, (readidle s d).2.2.log = d.log ++ ext → noReset ext →
          (readidle s d).2.1.bus_err = true) ∧
        (∀ a p buf ext, (writev a p buf s d).2.2.log = d.log ++ ext → noReset ext →
          (writev a p buf s d).2.1.bus_err = true) ∧
        (∀ a v ext, (writeio a v s d).2.2.log = d.log ++ ext → noReset ext →
          (writeio a v s d).2.1.bus_err = true))) ∧
    s.reset_err.bus_err = false := by
  refine ⟨?_, ?_, ?_, rfl⟩
  · intro hc hs hd ha
    rw [readwordStep_E s word abort t hc hs hd ha, readidleStep_E s word t hc hs hd ha]
    refine ⟨rfl, ?_, rfl, rfl⟩
    dsimp only
    split <;> rfl
  · intro hq hd ha hrx
    obtain ⟨s1, h1, h2⟩ := readwordLoop_err s t rest d.log hq hd ha
    have hw : readword s d = (Outcome.buserr s.m_lastaddr, s1,
        { d with rx := rest, log := d.log ++ [HEXB_ERR, t].map Ev.rx }) := by
      unfold readword
      rw [hrx, h1]
    have hi : readidle s d = (Outcome.buserr s.m_lastaddr,
        { s with m_cmd := HEXB_ERR, m_isspace := false, m_bus_err := true },
        { d with rx := rest, log := d.log ++ [HEXB_ERR, t].map Ev.rx }) := by
      unfold readidle
      rw [hrx, readidleLoop_err s t rest d.log hq hd ha]
    rw [hw, hi]
    exact ⟨rfl, h2, rfl, rfl⟩
  · intro hb
    refine ⟨readwordStep_bus_err s word abort t hb, ?_, fun ht => usleepByte_bus_err s t hb ht,
      readword_bus_err s d hb, fun a inc n => readv_bus_err a inc n s d hb,
      fun a => readio_bus_err a s d hb, ?_, ?_, ?_⟩
    · intro hn
      exact readidleStep_bus_err_frame s word t hb (fun h1 h2 h3 h4 => hn ⟨h1, h2, h3, h4⟩)
    · obtain ⟨e1, g1, g2⟩ := usleep_bus_err s d
      exact log_ext_unique g1 (fun hn => g2 hn hb)
    · obtain ⟨e1, g1, g2⟩ := waitLoop_bus_err (d.rx.length + 2) s d
      exact log_ext_unique g1 (fun hn => g2 hn hb)
    · intro hcmd
      refine ⟨?_, ?_, ?_⟩
      · obtain ⟨e1, g1, g2⟩ := readidle_latched s d
        exact log_ext_unique g1 (fun hn => (g2 hn ⟨hb, hcmd⟩).1)
      · intro a p buf
        obtain ⟨e1, g1, g2⟩ := writev_latched a p buf s d
        exact log_ext_unique g1 (fun hn => (g2 hn ⟨hb, hcmd⟩).1)
      · intro a v
        obtain ⟨e1, g1, g2⟩ := writeio_latched a v s d
        exact log_ext_unique g1 (fun hn => g2 hn ⟨hb, hcmd⟩)

theorem bus_error_dispatch_witness :
    (readidle { fresh with m_lastaddr := 256 } (scripted (avail [HEXB_ERR, CH_NL] ++ []))).1
      = Outcome.buserr 256 ∧
    (readidle { fresh with m_lastaddr := 256 }
      (scripted (avail [HEXB_ERR, CH_NL] ++ []))).2.1.bus_err = true ∧
    (readio 512 { fresh with m_bus_err := true } (scripted (avail [HEXB_RESET, CH_NL, HEXB_READ,
      CH_NL]))).2.1.bus_err = true :=
  ⟨((bus_error_dispatch { fresh with m_lastaddr := 256 }
      (scripted (avail [HEXB_ERR, CH_NL] ++ [])) 0 3 CH_NL []).2.1 (Or.inr (by decide))
      (by decide) (by decide) rfl).2.2.1,
   ((bus_error_dispatch { fresh with m_lastaddr := 256 }
      (scripted (avail [HEXB_ERR, CH_NL] ++ [])) 0 3 CH_NL []).2.1 (Or.inr (by decide))
      (by decide) (by decide) rfl).2.2.2,
   ((bus_error_dispatch { fresh with m_bus_err := true } (scripted (avail [HEXB_RESET, CH_NL,
      HEXB_READ, CH_NL])) 0 3 CH_NL []).2.2.1 rfl).2.2.2.2.2.1 512⟩

/-! ## A read that continues where the last one ended -/

theorem bump_keep (s : HEXBUS) :
    (bump s).m_addr_set = s.m_addr_set ∧ (bump s).m_inc = s.m_inc := by
  unfold bump; split <;> exact ⟨rfl, rfl⟩

theorem newcmd_keep (x : HEXBUS) (c : Nat)
    (hx : x.m_addr_set = true ∧ x.m_inc = true ∧ x.m_cmd ≠ HEXB_ADDR ∧ x.m_cmd ≠ HEXB_RESET)
    (hc : c ≠ HEXB_ADDR ∧ c ≠ HEXB_RESET) :
    (newcmd x c).m_addr_set = true ∧ (newcmd x c).m_inc = true ∧
      (newcmd x c).m_cmd ≠ HEXB_ADDR ∧ (newcmd x c).m_cmd ≠ HEXB_RESET := by
  obtain ⟨-, f2, -, -, -, f6⟩ := newcmd_fields x c
  refine ⟨f2.trans hx.1, f6.trans hx.2.1, ?_⟩
  rcases newcmd_cmd x c with h | h
  · rw [h]; exact hc
  · rw [h]; exact hx.2.2

theorem readwordStep_keep (s : HEXBUS) (word abort c : Nat)
    (hp : s.m_addr_set = true ∧ s.m_inc = true ∧ s.m_cmd ≠ HEXB_ADDR ∧ s.m_cmd ≠ HEXB_RESET)
    (hc : c ≠ HEXB_ADDR ∧ c ≠ HEXB_RESET) :
    (readwordStep s word abort c).1.m_addr_set = true ∧
      (readwordStep s word abort c).1.m_inc = true ∧
      (readwordStep s word abort c).1.m_cmd ≠ HEXB_ADDR ∧
      (readwordStep s word abort c).1.m_cmd ≠ HEXB_RESET := by
  unfold readwordStep
  repeat' first
    | (apply ite_ind2 (fun r : HEXBUS × Nat × Nat × Flow =>
        r.1.m_addr_set = true ∧ r.1.m_inc = true ∧ r.1.m_cmd ≠ HEXB_ADDR ∧
          r.1.m_cmd ≠ HEXB_RESET) <;> intro h0)
  all_goals first
    | exact hp
    | exact newcmd_keep _ c hp hc
    | exact newcmd_keep _ c ⟨(bump_keep s).1.trans hp.1, (bump_keep s).2.trans hp.2.1,
        by rw [bump_cmd]; exact hp.2.2.1, by rw [bump_cmd]; exact hp.2.2.2⟩ hc
    | exact absurd ‹s.m_cmd = HEXB_ADDR› hp.2.2.1
    | exact absurd ‹s.m_cmd = HEXB_RESET› hp.2.2.2
    | (dsimp only; split
       · exact hp
       · exact ⟨hp.1, hp.2.1, hc.1, hc.2⟩)

theorem readv_keep {ρ : Type} (a : Nat) (len : Nat) (s : HEXBUS) (d : Dev ρ) (hlen : len ≠ 0) :
    ∃ ext, (readv a true len s d).2.2.2.log = d.log ++ ext ∧
      (noEcho ext → s.m_cmd ≠ HEXB_ADDR → s.m_cmd ≠ HEXB_RESET →
        (readv a true len s d).2.2.1.m_addr_set = true ∧
        (readv a true len s d).2.2.1.m_inc = true) := by
  obtain ⟨ext, h1, h2⟩ := readv_inv
    (fun u => u.m_addr_set = true ∧ u.m_inc = true ∧ u.m_cmd ≠ HEXB_ADDR ∧ u.m_cmd ≠ HEXB_RESET)
    (fun c => c ≠ HEXB_ADDR ∧ c ≠ HEXB_RESET)
    (fun u w x c hu hc => readwordStep_keep u w x c hu hc) a true len s d hlen
  exact ⟨ext, h1, fun hn g1 g2 => ⟨(h2 hn ⟨rfl, rfl, g1, g2⟩).1, (h2 hn ⟨rfl, rfl, g1, g2⟩).2.1⟩⟩

theorem readv_ok_lastaddr {ρ : Type} (a : Nat) (inc : Bool) (len : Nat) (s : HEXBUS)
    (d : Dev ρ) (hlen : len ≠ 0) (hok : (readv a inc len s d).1 = Outcome.ok ()) :
    (readv a inc len s d).2.2.1.m_lastaddr = u32 (a + (if inc then len <<< 2 else 0)) := by
  unfold readv at hok ⊢
  rw [if_neg hlen] at hok ⊢
  rcases hL : readvLoop len (encode_address s (a ||| (if inc then 0 else 1))) []
    { s with m_lastaddr := a, m_addr_set := true, m_inc := inc } d with ⟨o, b, s1, d1⟩
  rw [hL] at hok
  cases o with
  | ok u =>
    dsimp only at hok ⊢
    by_cases hc : s1.m_lastaddr ≠ u32 (a + (if inc then len <<< 2 else 0))
    · rw [if_pos hc] at hok; simp at hok
    · rw [if_neg hc]; exact not_not.mp hc
  | buserr x => simp at hok
  | fatal => simp at hok
  | hang => simp at hok

theorem readvLoop_wire {ρ : Type} (k : Nat) (pre buf : List Nat) (s : HEXBUS) (d : Dev ρ) :
    ∃ ext j, (readvLoop k pre buf s d).2.2.2.log = d.log ++ ext ∧ j ≤ k ∧ (k ≠ 0 → 0 < j) ∧
      txBytes ext = (if j = 0 then [] else pre) ++ (List.replicate j [HEXB_READ, CH_NL]).flatten ∧
      ((readvLoop k pre buf s d).1 = Outcome.ok () → j = k) := by
  induction k generalizing pre buf s d with
  | zero => exact ⟨[], 0, by simp [readvLoop], le_refl _, fun h => absurd rfl h, by simp [txBytes],
      fun _ => rfl⟩
  | succ k ih =>
    unfold readvLoop
    generalize hd0 : d.write (pre ++ [HEXB_READ, CH_NL]) = d0
    have hlog0 : d0.log = d.log ++ [Ev.tx (pre ++ [HEXB_READ, CH_NL])] := by
      rw [← hd0]; rfl
    obtain ⟨e1, h1, h2⟩ := readword_log s d0
    rcases hr : readword s d0 with ⟨o, s1, d1⟩
    rw [hr, hlog0] at h1
    simp only [] at h1
    have hstop : txBytes ([Ev.tx (pre ++ [HEXB_READ, CH_NL])] ++ e1)
        = (if 1 = 0 then [] else pre) ++ (List.replicate 1 [HEXB_READ, CH_NL]).flatten := by
      rw [txBytes_append, txBytes_onlyRx h2]
      simp [txBytes]
    cases o with
    | ok w =>
      obtain ⟨e2, j2, h3, h4, _, h5, h6⟩ := ih [] (buf ++ [w]) s1 d1
      refine ⟨[Ev.tx (pre ++ [HEXB_READ, CH_NL])] ++ e1 ++ e2, j2 + 1, ?_, ?_, ?_, ?_, ?_⟩
      · simp only [h3, h1]; simp
      · omega
      · intro _; omega
      · rw [txBytes_append, hstop, h5]
        simp [List.replicate_succ]
      · intro hok
        simp only [] at hok
        simp [h6 hok]
    | buserr x =>
      exact ⟨[Ev.tx (pre ++ [HEXB_READ, CH_NL])] ++ e1, 1, by simp [h1], by omega,
        fun _ => by omega, hstop, fun hok => by simp at hok⟩
    | fatal =>
      exact ⟨[Ev.tx (pre ++ [HEXB_READ, CH_NL])] ++ e1, 1, by simp [h1], by omega,
        fun _ => by omega, hstop, fun hok => by simp at hok⟩
    | hang =>
      exact ⟨[Ev.tx (pre ++ [HEXB_READ, CH_NL])] ++ e1, 1, by simp [h1], by omega,
        fun _ => by omega, hstop, fun hok => by simp at hok⟩

theorem readv_wire {ρ : Type} (a : Nat) (inc : Bool) (len : Nat) (s : HEXBUS) (d : Dev ρ) :
    ∃ ext j, (readv a inc len s d).2.2.2.log = d.log ++ ext ∧ j ≤ len ∧ (len ≠ 0 → 0 < j) ∧
      txBytes ext = (if j = 0 then [] else encode_address s (a ||| (if inc then 0 else 1)))
        ++ (List.replicate j [HEXB_READ, CH_NL]).flatten ∧
      ((readv a inc len s d).1 = Outcome.ok () → j = len) := by
  by_cases hlen : len = 0
  · subst hlen
    exact ⟨[], 0, by simp [readv], le_refl _, fun h => absurd rfl h, by simp [txBytes],
      fun _ => rfl⟩
  · obtain ⟨ext, j, h1, h2, h3, h4, h5⟩ := readvLoop_wire len
      (encode_address s (a ||| (if inc then 0 else 1))) []
      { s with m_lastaddr := a, m_addr_set := true, m_inc := inc } d
    unfold readv
    rw [if_neg hlen]
    rcases hL : readvLoop len (encode_address s (a ||| (if inc then 0 else 1))) []
      { s with m_lastaddr := a, m_addr_set := true, m_inc := inc } d with ⟨o, b, s1, d1⟩
    rw [hL] at h1 h5
    simp only [] at h1 h5
    cases o with
    | ok u =>
      dsimp only
      by_cases hc : s1.m_lastaddr ≠ u32 (a + (if inc then len <<< 2 else 0))
      · rw [if_pos hc]; exact ⟨ext, j, h1, h2, h3, h4, fun _ => h5 rfl⟩
      · rw [if_neg hc]; exact ⟨ext, j, h1, h2, h3, h4, fun _ => h5 rfl⟩
    | buserr x => exact ⟨ext, j, h1, h2, h3, h4, fun hok => by simp at hok⟩
    | fatal => exact ⟨ext, j, h1, h2, h3, h4, fun hok => by simp at hok⟩
    | hang => exact ⟨ext, j, h1, h2, h3, h4, fun hok => by simp at hok⟩

/-- C29: when `readi(a, n)` (`n ≥ 1`, `a` 4-byte aligned) has returned normally,
on an engine that held no `A` or `T` token at the call and received neither an
`A` nor a `T` character during it, then `encode_address` composes nothing for
`a + 4n` in incrementing mode, and the characters a following `readi(a + 4n, m)`
puts on the wire, on any transport and however it ends, are `R\n` repeated
`j ≤ m` times and nothing else, with `j = m` when it returns normally: no `A`
token at all. -/
theorem continuation_elides {ρ : Type} (a n m : Nat) (s : HEXBUS) (d d2 : Dev ρ)
    (ext : List Ev) (hal : a % 4 = 0) (hn : 1 ≤ n)
    (hok : (readi a n s d).1 = Outcome.ok ())
    (hcmd : s.m_cmd ≠ HEXB_ADDR ∧ s.m_cmd ≠ HEXB_RESET)
    (hext : (readi a n s d).2.2.2.log = d.log ++ ext) (hne : noEcho ext) :
    encode_address (readi a n s d).2.2.1 (u32 (a + 4 * n) ||| (if true then 0 else 1)) = [] ∧
    ∃ ext2 j,
      (readi (u32 (a + 4 * n)) m (readi a n s d).2.2.1 d2).2.2.2.log = d2.log ++ ext2 ∧
      j ≤ m ∧
      ((readi (u32 (a + 4 * n)) m (readi a n s d).2.2.1 d2).1 = Outcome.ok () → j = m) ∧
      txBytes ext2 = (List.replicate j [HEXB_READ, CH_NL]).flatten := by
  unfold readi at hok hext ⊢
  have hlen : n ≠ 0 := by omega
  obtain ⟨e1, g1, g2⟩ := readv_keep a n s d hlen
  have he : ext = e1 := List.append_cancel_left (hext.symm.trans g1)
  subst he
  obtain ⟨k1, k2⟩ := g2 hne hcmd.1 hcmd.2
  have hla := readv_ok_lastaddr a true n s d hlen hok
  have hx : u32 (a + (if true then n <<< 2 else 0)) = u32 (a + 4 * n) := by
    simp only [if_true, Nat.shiftLeft_eq]; congr 1; omega
  rw [hx] at hla
  have heven : u32 (a + 4 * n) % 2 = 0 := by unfold u32; omega
  have helide : encode_address (readv a true n s d).2.2.1
      (u32 (a + 4 * n) ||| (if true then 0 else 1)) = [] := by
    unfold encode_address
    rw [if_pos]
    refine ⟨k1, ?_, ?_⟩
    · simp [hla]
    · rw [k2]
      simp only [if_true, Nat.or_zero, Nat.and_one_is_mod, heven]
      rfl
  refine ⟨helide, ?_⟩
  obtain ⟨ext2, j, h1, h2, -, h4, h5⟩ := readv_wire (u32 (a + 4 * n)) true m
    (readv a true n s d).2.2.1 d2
  refine ⟨ext2, j, h1, h2, h5, ?_⟩
  rw [h4, helide]
  simp

theorem continuation_elides_witness :
    encode_address (readi 256 1 fresh (scripted (avail (encode_datum 5)))).2.2.1
      (u32 (256 + 4 * 1) ||| (if true then 0 else 1)) = [] :=
  (continuation_elides 256 1 1 fresh (scripted (avail (encode_datum 5)))
    (scripted (avail (encode_datum 7)))
    [Ev.tx [65, 48, 48, 48, 48, 48, 49, 48, 48, 82, 10], Ev.rx 82, Ev.rx 53, Ev.rx 10]
    (by decide) (by decide) (by decide) (by decide) (by decide)
    (by intro b hb; simp at hb; show b ≠ 65 ∧ b ≠ 84; omega)).1

/-! ## The idle countdown of `readword` -/

theorem readwordStep_Z (s : HEXBUS) (word abort c : Nat) (hc : s.m_cmd = HEXB_IDLE)
    (hs : s.m_isspace = false) (hd : isdigit c = false) (ha : isaf c = false) :
    readwordStep s word abort c
      = if u32 (abort + 4294967295) = 0 then (s, word, u32 (abort + 4294967295), Flow.throw 0)
        else (newcmd s c, 0, u32 (abort + 4294967295), Flow.next) := by
  unfold readwordStep
  rw [if_neg (by simp [hd]), if_neg (by simp [ha]), if_neg (by simp [hs]),
    if_neg (by rw [hc]; decide), if_neg (by rw [hc]; decide), if_neg (by rw [hc]; decide),
    if_neg (by rw [hc]; decide), if_pos hc]

theorem readwordStep_abort (s : HEXBUS) (word abort c : Nat) :
    (readwordStep s word abort c).2.2.1
      = if isdigit c = false ∧ isaf c = false ∧ s.m_isspace = false ∧ s.m_cmd = HEXB_IDLE
        then u32 (abort + 4294967295) else abort := by
  by_cases hcond : isdigit c = false ∧ isaf c = false ∧ s.m_isspace = false ∧ s.m_cmd = HEXB_IDLE
  · rw [if_pos hcond, readwordStep_Z s word abort c hcond.2.2.2 hcond.2.2.1 hcond.1 hcond.2.1]
    split <;> rfl
  · rw [if_neg hcond]
    unfold readwordStep
    by_cases hd : isdigit c = true
    · rw [if_pos hd]
    rw [if_neg hd]
    by_cases ha : isaf c = true
    · rw [if_pos ha]
    rw [if_neg ha]
    by_cases hs : s.m_isspace = true
    · rw [if_pos hs]
    rw [if_neg hs]
    have hz : ¬ s.m_cmd = HEXB_IDLE := fun h =>
      hcond ⟨by simpa using hd, by simpa using ha, by simpa using hs, h⟩
    by_cases h1 : s.m_cmd = HEXB_READ
    · rw [if_pos h1]
    rw [if_neg h1]
    by_cases h2 : s.m_cmd = HEXB_ACK
    · rw [if_pos h2]
    rw [if_neg h2]
    by_cases h3 : s.m_cmd = HEXB_INT
    · rw [if_pos h3]
    rw [if_neg h3]
    by_cases h4 : s.m_cmd = HEXB_ERR
    · rw [if_pos h4]
    rw [if_neg h4, if_neg hz]
    by_cases h5 : s.m_cmd = HEXB_ADDR
    · rw [if_pos h5]
    rw [if_neg h5]
    by_cases h6 : s.m_cmd = HEXB_RESET
    · rw [if_pos h6]
    rw [if_neg h6]

theorem readwordStep_throw (s : HEXBUS) (word abort c x : Nat)
    (h : (readwordStep s word abort c).2.2.2 = Flow.throw x) :
    (isdigit c = false ∧ isaf c = false ∧ s.m_isspace = false) ∧
    ((s.m_cmd = HEXB_ERR ∧ x = s.m_lastaddr) ∨
      (s.m_cmd = HEXB_IDLE ∧ x = 0 ∧ u32 (abort + 4294967295) = 0)) := by
  revert h
  unfold readwordStep
  by_cases hd : isdigit c = true
  · rw [if_pos hd]; intro h; exact Flow.noConfusion h
  rw [if_neg hd]
  by_cases ha : isaf c = true
  · rw [if_pos ha]; intro h; exact Flow.noConfusion h
  rw [if_neg ha]
  by_cases hs : s.m_isspace = true
  · rw [if_pos hs]; intro h; exact Flow.noConfusion h
  rw [if_neg hs]
  have hdisp : isdigit c = false ∧ isaf c = false ∧ s.m_isspace = false :=
    ⟨by simpa using hd, by simpa using ha, by simpa using hs⟩
  by_cases h1 : s.m_cmd = HEXB_READ
  · rw [if_pos h1]; intro h; exact Flow.noConfusion h
  rw [if_neg h1]
  by_cases h2 : s.m_cmd = HEXB_ACK
  · rw [if_pos h2]; intro h; exact Flow.noConfusion h
  rw [if_neg h2]
  by_cases h3 : s.m_cmd = HEXB_INT
  · rw [if_pos h3]; intro h; exact Flow.noConfusion h
  rw [if_neg h3]
  by_cases h4 : s.m_cmd = HEXB_ERR
  · rw [if_pos h4]; intro h
    exact ⟨hdisp, Or.inl ⟨h4, (Flow.throw.inj h).symm⟩⟩
  rw [if_neg h4]
  by_cases h5 : s.m_cmd = HEXB_IDLE
  · rw [if_pos h5]
    by_cases h0 : u32 (abort + 4294967295) = 0
    · rw [if_pos h0]; intro h
      exact ⟨hdisp, Or.inr ⟨h5, (Flow.throw.inj h).symm, h0⟩⟩
    · rw [if_neg h0]; intro h; exact Flow.noConfusion h
  rw [if_neg h5]
  by_cases h6 : s.m_cmd = HEXB_ADDR
  · rw [if_pos h6]; intro h; exact Flow.noConfusion h
  rw [if_neg h6]
  by_cases h7 : s.m_cmd = HEXB_RESET
  · rw [if_pos h7]; intro h; exact Flow.noConfusion h
  rw [if_neg h7]; intro h; exact Flow.noConfusion h

theorem afterDatum_idle (s : HEXBUS) :
    afterDatum { s with m_cmd := HEXB_IDLE, m_isspace := true } = afterDatum s := by
  unfold afterDatum bump
  cases hi : s.m_inc <;> simp [hi]

theorem idles_succ (k : Nat) : idles (k + 1) = HEXB_IDLE :: CH_NL :: idles k := by
  simp [idles, List.replicate_succ]

/-- Fewer idle tokens than the countdown stands at are read through: the
countdown goes down by one for each, and the decoder is between tokens
afterwards. -/
theorem readwordLoop_idles (k : Nat) (s : HEXBUS) (abort : Nat) (rest : List (Option Nat))
    (log : List Ev) (hq : quiet s) (hk : k < abort) (hab : abort < 4294967296) :
    ∃ s1, quiet s1 ∧ afterDatum s1 = afterDatum s ∧
      readwordLoop s 0 abort (avail (idles k) ++ rest) log
        = readwordLoop s1 0 (abort - k) rest (log ++ (idles k).map Ev.rx) := by
  induction k generalizing s abort log with
  | zero => exact ⟨s, hq, rfl, by simp [idles, avail]⟩
  | succ k ih =>
    have hu : u32 (abort + 4294967295) = abort - 1 := by unfold u32; omega
    obtain ⟨s1, h1, h2, h3⟩ := ih { s with m_cmd := HEXB_IDLE, m_isspace := true } (abort - 1)
      (log ++ [Ev.rx HEXB_IDLE, Ev.rx CH_NL]) (Or.inl rfl) (by omega) (by omega)
    refine ⟨s1, h1, h2.trans (afterDatum_idle s), ?_⟩
    rw [idles_succ, avail_cons, avail_cons, List.cons_append, List.cons_append, readwordLoop,
      lclreadcode_one, readwordStep_quiet s 0 abort HEXB_IDLE hq (by decide) (by decide),
      newcmd_tag s HEXB_IDLE (by decide)]
    simp only []
    rw [readwordLoop, lclreadcode_one, readwordStep_Z _ 0 abort CH_NL rfl rfl (by decide)
      (by decide), hu, if_neg (by omega)]
    simp only []
    have hnl : newcmd { s with m_cmd := HEXB_IDLE, m_isspace := false } CH_NL
        = { s with m_cmd := HEXB_IDLE, m_isspace := true } := rfl
    rw [hnl, List.append_assoc] 
    rw [show [Ev.rx HEXB_IDLE] ++ [Ev.rx CH_NL] = [Ev.rx HEXB_IDLE, Ev.rx CH_NL] from rfl, h3]
    have e : abort - 1 - k = abort - (k + 1) := by omega
    rw [e]
    simp

theorem readwordLoop_datum_any (s : HEXBUS) (w abort : Nat) (rest : List (Option Nat))
    (log : List Ev) (hq : quiet s) (hw : w < 4294967296) :
    readwordLoop s 0 abort (avail (encode_datum w) ++ rest) log
      = (Outcome.ok w, afterDatum s, rest, log ++ (encode_datum w).map Ev.rx) := by
  have hlast : ∀ (word : Nat) (l : List Ev),
      readwordLoop { s with m_cmd := HEXB_READ, m_isspace := false } word abort
        (some CH_NL :: rest) l = (Outcome.ok word, afterDatum s, rest, l ++ [Ev.rx CH_NL]) := by
    intro word l
    rw [readwordLoop, lclreadcode_one]
    have : readwordStep { s with m_cmd := HEXB_READ, m_isspace := false } word abort CH_NL
        = (afterDatum s, 0, abort, Flow.done word) := by
      unfold readwordStep
      rw [if_neg (by decide), if_neg (by decide), if_neg (by simp), if_pos rfl]
      simp only [newcmd, bump, afterDatum, show isspace CH_NL = true by decide]
      cases hi : s.m_inc <;> simp [hi]
    rw [this]
  unfold encode_datum
  rw [avail_cons, List.cons_append, readwordLoop, lclreadcode_one,
    readwordStep_quiet s 0 abort HEXB_READ hq (by decide) (by decide),
    newcmd_tag s HEXB_READ (by decide)]
  simp only []
  by_cases hz : w = 0
  · subst hz
    simp only [ne_eq, not_true_eq_false, if_false, List.nil_append, avail_cons, avail,
      List.map_nil, List.map_cons, List.cons_append]
    rw [hlast]
    simp
  · rw [if_pos hz, sprintf_x, if_neg hz, avail_append, List.append_assoc,
      readwordLoop_hexsig 8 w _ 0 abort _ _ rfl, sigfold_word w hw]
    simp only [avail, List.map_cons, List.map_nil, List.singleton_append]
    rw [hlast]
    simp

/-- At most two idle tokens and then a datum: `readword` returns the datum. -/
theorem readwordLoop_idles_datum (k w : Nat) (s : HEXBUS) (rest : List (Option Nat))
    (log : List Ev) (hq : quiet s) (hk : k ≤ 2) (hw : w < 4294967296) :
    readwordLoop s 0 3 (avail (idles k ++ encode_datum w) ++ rest) log
      = (Outcome.ok w, afterDatum s, rest, log ++ (idles k ++ encode_datum w).map Ev.rx) := by
  obtain ⟨s1, h1, h2, h3⟩ := readwordLoop_idles k s 3 (avail (encode_datum w) ++ rest) log hq
    (by omega) (by decide)
  rw [avail_append, List.append_assoc, h3, readwordLoop_datum_any s1 w (3 - k) rest _ h1 hw, h2]
  simp

theorem readvLoop_segs {ρ : Type} (segs : List (List Nat × Nat)) (pre buf : List Nat)
    (s : HEXBUS) (d : Dev ρ) (rest : List (Option Nat)) (hq : quiet s)
    (hseg : ∀ p ∈ segs, ∀ (t : HEXBUS) (r : List (Option Nat)) (l : List Ev), quiet t →
      readwordLoop t 0 3 (avail p.1 ++ r) l
        = (Outcome.ok p.2, afterDatum t, r, l ++ p.1.map Ev.rx))
    (hrx : d.rx = avail (segs.flatMap (fun p => p.1)) ++ rest) :
    ∃ d1, readvLoop segs.length pre buf s d
        = (Outcome.ok (), buf ++ segs.map (fun p => p.2), afterData segs.length s, d1) := by
  induction segs generalizing pre buf s d rest with
  | nil => exact ⟨d, by simp [readvLoop, afterData]⟩
  | cons p ps ih =>
    have hrx1 : (d.write (pre ++ [HEXB_READ, CH_NL])).rx
        = avail p.1 ++ (avail (ps.flatMap (fun p => p.1))
            ++ (rest ++ (d.respond d.rstate (pre ++ [HEXB_READ, CH_NL])).2)) := by
      simp only [Dev.write, hrx, List.flatMap_cons, avail_append, List.append_assoc]
    have hword : readword s (d.write (pre ++ [HEXB_READ, CH_NL]))
        = (Outcome.ok p.2, afterDatum s,
            { d.write (pre ++ [HEXB_READ, CH_NL]) with
              rx := avail (ps.flatMap (fun p => p.1))
                  ++ (rest ++ (d.respond d.rstate (pre ++ [HEXB_READ, CH_NL])).2),
              log := (d.write (pre ++ [HEXB_READ, CH_NL])).log ++ p.1.map Ev.rx }) := by
      unfold readword
      rw [hrx1, hseg p (List.mem_cons_self _ _) s _ _ hq]
    obtain ⟨d1, h1⟩ := ih [] (buf ++ [p.2]) (afterDatum s)
      { d.write (pre ++ [HEXB_READ, CH_NL]) with
        rx := avail (ps.flatMap (fun p => p.1))
            ++ (rest ++ (d.respond d.rstate (pre ++ [HEXB_READ, CH_NL])).2),
        log := (d.write (pre ++ [HEXB_READ, CH_NL])).log ++ p.1.map Ev.rx }
      (rest ++ (d.respond d.rstate (pre ++ [HEXB_READ, CH_NL])).2)
      (quiet_afterDatum s) (fun x hx => hseg x (List.mem_cons_of_mem _ hx)) rfl
    refine ⟨d1, ?_⟩
    simp only [List.length_cons]
    rw [readvLoop, hword]
    simp only []
    rw [h1]
    simp [afterData]

theorem readv_segs {ρ : Type} (a : Nat) (inc : Bool) (segs : List (List Nat × Nat))
    (s : HEXBUS) (d : Dev ρ) (rest : List (Option Nat)) (ha : a < 4294967296)
    (hn : segs ≠ []) (hq : quiet s)
    (hseg : ∀ p ∈ segs, ∀ (t : HEXBUS) (r : List (Option Nat)) (l : List Ev), quiet t →
      readwordLoop t 0 3 (avail p.1 ++ r) l
        = (Outcome.ok p.2, afterDatum t, r, l ++ p.1.map Ev.rx))
    (hrx : d.rx = avail (segs.flatMap (fun p => p.1)) ++ rest) :
    ∃ d1, readv a inc segs.length s d
        = (Outcome.ok (), segs.map (fun p => p.2),
            afterData segs.length { s with m_lastaddr := a, m_addr_set := true, m_inc := inc },
            d1) := by
  have hq0 : quiet { s with m_lastaddr := a, m_addr_set := true, m_inc := inc } := hq
  obtain ⟨d1, h1⟩ := readvLoop_segs segs (encode_address s (a ||| (if inc then 0 else 1)))
    [] { s with m_lastaddr := a, m_addr_set := true, m_inc := inc } d rest hq0 hseg hrx
  have hlen : segs.length ≠ 0 := by
    intro h0; exact hn (List.length_eq_zero.mp h0)
  have hla := afterData_lastaddr segs.length
    { s with m_lastaddr := a, m_addr_set := true, m_inc := inc } ha
  simp only [] at hla
  have hchk : (afterData segs.length
      { s with m_lastaddr := a, m_addr_set := true, m_inc := inc }).m_lastaddr
        = u32 (a + (if inc then segs.length <<< 2 else 0)) := by
    rw [hla]
    cases inc
    · simp [u32_of_lt ha]
    · simp only [if_true, Nat.shiftLeft_eq]; congr 1; omega
  refine ⟨d1, ?_⟩
  unfold readv
  rw [if_neg hlen, h1]
  simp only []
  rw [if_neg (not_not.mpr hchk)]
  simp

/-! ## The idle drain and the blocking decoder on a stream of tokens -/

theorem space_not_hex (c : Nat) (h : isspace c = true) : isdigit c = false ∧ isaf c = false := by
  have hc : c = 32 ∨ (9 ≤ c ∧ c ≤ 13) := by simpa [isspace] using h
  constructor
  · simp only [isdigit, decide_eq_false_iff_not]; omega
  · simp only [isaf, decide_eq_false_iff_not]; omega

theorem newcmd_space (x : HEXBUS) (c : Nat) (h : isspace c = true) :
    newcmd x c = { x with m_isspace := true } := by
  simp [newcmd, h]

theorem set_isspace_true (s : HEXBUS) (h : s.m_isspace = true) :
    { s with m_isspace := true } = s := by
  cases s; simp_all

theorem readidleStep_skip (s : HEXBUS) (word c : Nat) (hs : s.m_isspace = true)
    (hc : isspace c = true) : readidleStep s word c = (s, word, Flow.next) := by
  unfold readidleStep
  rw [if_neg (by simp [(space_not_hex c hc).1]), if_neg (by simp [(space_not_hex c hc).2]),
    if_pos (by simp [hs, hc])]

theorem readwordStep_skip (s : HEXBUS) (word abort c : Nat) (hs : s.m_isspace = true)
    (hc : isspace c = true) : readwordStep s word abort c = (s, 0, abort, Flow.next) := by
  rw [readwordStep_space s word abort c hs (space_not_hex c hc).1 (space_not_hex c hc).2,
    newcmd_space s c hc, set_isspace_true s hs]

theorem readwordLoop_spaces (ws : List Nat) (s : HEXBUS) (abort : Nat)
    (rest : List (Option Nat)) (log : List Ev) (hs : s.m_isspace = true)
    (hws : ∀ x ∈ ws, isspace x = true) :
    readwordLoop s 0 abort (avail ws ++ rest) log
      = readwordLoop s 0 abort rest (log ++ ws.map Ev.rx) := by
  induction ws generalizing log with
  | nil => simp [avail]
  | cons x xs ih =>
    rw [avail_cons, List.cons_append, readwordLoop, lclreadcode_one,
      readwordStep_skip s 0 abort x hs (hws x (List.mem_cons_self _ _))]
    simp only []
    rw [ih _ (fun y hy => hws y (List.mem_cons_of_mem _ hy))]
    simp

theorem readidleLoop_spaces (ws : List Nat) (s : HEXBUS) (word : Nat)
    (rest : List (Option Nat)) (log : List Ev) (hs : s.m_isspace = true)
    (hws : ∀ x ∈ ws, isspace x = true) :
    readidleLoop s word (avail ws ++ rest) log
      = readidleLoop s word rest (log ++ ws.map Ev.rx) := by
  induction ws generalizing log with
  | nil => simp [avail]
  | cons x xs ih =>
    rw [avail_cons, List.cons_append, readidleLoop, lclreadcode_one,
      readidleStep_skip s word x hs (hws x (List.mem_cons_self _ _))]
    simp only []
    rw [ih _ (fun y hy => hws y (List.mem_cons_of_mem _ hy))]
    simp

/-- The end of a token whose tag is none of `R`, `E`, `T`, `Z`: both decoders
do the same to the engine. -/
theorem plain_dispatch (s : HEXBUS) (word abort c : Nat) (hs : s.m_isspace = false)
    (hp : s.m_cmd ≠ HEXB_READ ∧ s.m_cmd ≠ HEXB_ERR ∧ s.m_cmd ≠ HEXB_RESET ∧ s.m_cmd ≠ HEXB_IDLE)
    (hc : isspace c = true) :
    ∃ s1, s1.m_isspace = true ∧ readwordStep s word abort c = (s1, 0, abort, Flow.next) ∧
      readidleStep s word c = (s1, 0, Flow.next) := by
  obtain ⟨hd, ha⟩ := space_not_hex c hc
  by_cases h1 : s.m_cmd = HEXB_ADDR
  · exact ⟨_, by rw [newcmd_space _ c hc], readwordStep_A s word abort c h1 hs hd ha,
      readidleStep_A s word c h1 hs hd ha⟩
  by_cases h2 : s.m_cmd = HEXB_ACK
  · exact ⟨_, by rw [newcmd_space _ c hc], readwordStep_K s word abort c h2 hs hd ha,
      readidleStep_K s word c h2 hs hd ha⟩
  by_cases h3 : s.m_cmd = HEXB_INT
  · exact ⟨_, by rw [newcmd_space _ c hc], readwordStep_I s word abort c h3 hs hd ha,
      readidleStep_I s word c h3 hs hd ha⟩
  have hq : quiet s := Or.inr ⟨h1, hp.1, h2, h3, hp.2.1, hp.2.2.2, hp.2.2.1⟩
  exact ⟨_, by rw [newcmd_space _ c hc], readwordStep_quiet s word abort c hq hd ha,
    readidleStep_quiet s word c hq hd ha (Or.inr hs)⟩

theorem plain_token (t : WireToken) (s : HEXBUS) (word1 word2 abort : Nat)
    (rest : List (Option Nat)) (log : List Ev) (hq : quiet s) (hwf : t.wf) (hp : t.plain) :
    ∃ s1, s1.m_isspace = true ∧
      readwordLoop s word1 abort (avail t.bytes ++ rest) log
        = readwordLoop s1 0 abort rest (log ++ t.bytes.map Ev.rx) ∧
      readidleLoop s word2 (avail t.bytes ++ rest) log
        = readidleLoop s1 0 rest (log ++ t.bytes.map Ev.rx) := by
  obtain ⟨w1, w2, w3, w4, w5, w6⟩ := hwf
  obtain ⟨c, ws, hsep⟩ : ∃ c ws, t.sep = c :: ws := by
    cases hs : t.sep with
    | nil => exact absurd hs w5
    | cons c ws => exact ⟨c, ws, rfl⟩
  have hc : isspace c = true := w6 c (by rw [hsep]; exact List.mem_cons_self _ _)
  have hws : ∀ x ∈ ws, isspace x = true :=
    fun x hx => w6 x (by rw [hsep]; exact List.mem_cons_of_mem _ hx)
  obtain ⟨s1, g1, g2, g3⟩ := plain_dispatch { s with m_cmd := t.tag, m_isspace := false }
    (hexfold t.digits 0) abort c rfl hp hc
  have hb : t.bytes = (t.tag :: t.digits) ++ (c :: ws) := by
    simp [WireToken.bytes, hsep]
  refine ⟨s1, g1, ?_, ?_⟩
  · rw [hb, avail_append, List.append_assoc,
      readwordLoop_token s t.tag t.digits word1 abort _ log hq ⟨w1, w2, w3⟩ w4,
      avail_cons, List.cons_append, readwordLoop, lclreadcode_one, g2]
    simp only []
    rw [readwordLoop_spaces ws s1 abort rest _ g1 hws]
    simp
  · rw [hb, avail_append, List.append_assoc,
      readidleLoop_token s t.tag t.digits word2 _ log hq ⟨w1, w2, w3⟩ w4,
      avail_cons, List.cons_append, readidleLoop, lclreadcode_one, g3]
    simp only []
    rw [readidleLoop_spaces ws s1 0 rest _ g1 hws]
    simp

theorem plain_tokens (toks : List WireToken) (s : HEXBUS) (word1 word2 abort : Nat)
    (rest : List (Option Nat)) (log : List Ev) (hq : quiet s)
    (h : ∀ t ∈ toks, t.wf ∧ t.plain) :
    ∃ s1 w1 w2, quiet s1 ∧
      readwordLoop s word1 abort (avail (wire toks) ++ rest) log
        = readwordLoop s1 w1 abort rest (log ++ (wire toks).map Ev.rx) ∧
      readidleLoop s word2 (avail (wire toks) ++ rest) log
        = readidleLoop s1 w2 rest (log ++ (wire toks).map Ev.rx) := by
  induction toks generalizing s word1 word2 log with
  | nil => exact ⟨s, word1, word2, hq, by simp [wire, avail], by simp [wire, avail]⟩
  | cons t ts ih =>
    obtain ⟨s1, g1, g2, g3⟩ := plain_token t s word1 word2 abort
      (avail (wire ts) ++ rest) log hq (h t (List.mem_cons_self _ _)).1
      (h t (List.mem_cons_self _ _)).2
    obtain ⟨s2, w1, w2, k1, k2, k3⟩ := ih s1 0 0 (log ++ t.bytes.map Ev.rx) (Or.inl g1)
      (fun x hx => h x (List.mem_cons_of_mem _ hx))
    have hw : wire (t :: ts) = t.bytes ++ wire ts := by simp [wire]
    refine ⟨s2, w1, w2, k1, ?_, ?_⟩
    · rw [hw, avail_append, List.append_assoc, g2, k2]
      simp
    · rw [hw, avail_append, List.append_assoc, g3, k3]
      simp

/-- C26, counterexample: three idle tokens.  `readidle` drains them and returns
normally; `readword`, processing the same characters, throws `BUSERR(0)` at the
third. -/
theorem idle_tokens_fault_readword_only :
    (readidle fresh (scripted (avail [90, 10, 90, 10, 90, 10]))).1 = Outcome.ok () ∧
    (readword fresh (scripted (avail [90, 10, 90, 10, 90, 10]))).1 = Outcome.buserr 0 := by
  decide

/-- C26, as amended: for every engine between tokens and every stream of well
formed tokens whose tags are none of `R`, `E`, `T`, `Z` (address echoes,
acknowledgements, interrupts, unknown tags; any hexadecimal payload; one or more
white-space characters at the end of each), `readidle` and the character by
character processing of `readword` leave the same engine, field by field, and
raise no fault: `readidle` returns when the stream is used up, `readword` goes on
waiting for a datum.  In front of any further characters both go on from the
same engine. -/
theorem drain_matches_decoder {ρ : Type} (toks : List WireToken) (s : HEXBUS) (d : Dev ρ)
    (rest : List (Option Nat)) (hq : quiet s) (h : ∀ t ∈ toks, t.wf ∧ t.plain) :
    (d.rx = avail (wire toks) →
      (readidle s d).1 = Outcome.ok () ∧ (readword s d).1 = Outcome.hang ∧
      (readidle s d).2.1 = (readword s d).2.1) ∧
    (∃ s1 w1 w2, quiet s1 ∧
      readwordLoop s 0 3 (avail (wire toks) ++ rest) d.log
        = readwordLoop s1 w1 3 rest (d.log ++ (wire toks).map Ev.rx) ∧
      readidleLoop s 0 (avail (wire toks) ++ rest) d.log
        = readidleLoop s1 w2 rest (d.log ++ (wire toks).map Ev.rx)) := by
  refine ⟨?_, plain_tokens toks s 0 0 3 rest d.log hq h⟩
  intro hrx
  obtain ⟨s1, w1, w2, -, k2, k3⟩ := plain_tokens toks s 0 0 3 [] d.log hq h
  rw [List.append_nil] at k2 k3
  unfold readidle readword
  rw [hrx, k2, k3]
  simp [readidleLoop, readwordLoop]

theorem drain_matches_decoder_witness :
    (readidle fresh (scripted (avail (wire [⟨65, [49, 48, 49], [10]⟩, ⟨75, [], [32, 10]⟩])))).2.1
      = (readword fresh
          (scripted (avail (wire [⟨65, [49, 48, 49], [10]⟩, ⟨75, [], [32, 10]⟩])))).2.1 :=
  ((drain_matches_decoder [⟨65, [49, 48, 49], [10]⟩, ⟨75, [], [32, 10]⟩] fresh
    (scripted (avail (wire [⟨65, [49, 48, 49], [10]⟩, ⟨75, [], [32, 10]⟩]))) []
    (Or.inr (by decide))
    (by intro t ht; simp at ht; rcases ht with rfl | rfl <;>
          exact ⟨⟨by decide, by decide, by decide, by decide, by decide, by decide⟩,
            ⟨by decide, by decide, by decide, by decide⟩⟩)).1 rfl).2.2

/-! ## Draining a stream in two calls -/

theorem readidleStep_flow (s : HEXBUS) (word c : Nat) :
    (readidleStep s word c).2.2 = Flow.next ∨
      (readidleStep s word c).2.2 = Flow.throw s.m_lastaddr := by
  unfold readidleStep
  repeat' apply ite_ind (fun r : HEXBUS × Nat × Flow =>
    r.2.2 = Flow.next ∨ r.2.2 = Flow.throw s.m_lastaddr)
  all_goals first
    | exact Or.inl rfl
    | exact Or.inr rfl

theorem readidleStep_word (s : HEXBUS) (word c : Nat) (hd : isdigit c = false)
    (ha : isaf c = false) :
    (readidleStep s word c).2.2 = Flow.next →
      (readidleStep s word c).2.1 = 0 ∨ (readidleStep s word c).1.m_isspace = true := by
  by_cases hsk : (isspace c && s.m_isspace) = true
  · have h1 : isspace c = true ∧ s.m_isspace = true := by simpa using hsk
    rw [readidleStep_skip s word c h1.2 h1.1]
    exact fun _ => Or.inr h1.2
  · unfold readidleStep
    rw [if_neg (by simp [hd]), if_neg (by simp [ha]), if_neg hsk]
    repeat' apply ite_ind (fun r : HEXBUS × Nat × Flow =>
      r.2.2 = Flow.next → r.2.1 = 0 ∨ r.1.m_isspace = true)
    all_goals first
      | exact fun _ => Or.inl rfl
      | (intro h; exact Flow.noConfusion h)

/-- While the last character was white space the word register of `readidle`
has no bearing on what follows. -/
theorem readidleLoop_word_free (rx : List (Option Nat)) (s : HEXBUS) (w1 w2 : Nat)
    (log : List Ev) (hs : s.m_isspace = true) :
    readidleLoop s w1 rx log = readidleLoop s w2 rx log := by
  induction rx generalizing w1 w2 log with
  | nil => simp [readidleLoop]
  | cons x rest ih =>
    cases x with
    | none => simp [readidleLoop]
    | some b =>
      rw [readidleLoop, readidleLoop, lclreadcode_one]
      by_cases hh : isdigit b = true ∨ isaf b = true
      · rw [readidleStep_hex s w1 b hh, readidleStep_hex s w2 b hh]
        exact ih _ _ _
      · have hd : isdigit b = false := by
          cases h : isdigit b
          · rfl
          · exact absurd (Or.inl h) hh
        have ha : isaf b = false := by
          cases h : isaf b
          · rfl
          · exact absurd (Or.inr h) hh
        by_cases hsp : isspace b = true
        · rw [readidleStep_skip s w1 b hs hsp, readidleStep_skip s w2 b hs hsp]
          exact ih _ _ _
        · have hsp2 : isspace b = false := by simpa using hsp
          rw [readidleStep_quiet s w1 b (Or.inl hs) hd ha (Or.inl hsp2),
            readidleStep_quiet s w2 b (Or.inl hs) hd ha (Or.inl hsp2)]

/-- The run of `readidle` over the characters `xs` with more characters behind
them: either it gets through `xs` and goes on behind them, or it throws inside
`xs`, whatever stands behind. -/
theorem readidleLoop_append (xs : List Nat) (s : HEXBUS) (w : Nat) (log : List Ev) :
    (∃ s1 w1, ((∀ c, xs.getLast? = some c → isdigit c = false ∧ isaf c = false) → xs ≠ [] →
          w1 = 0 ∨ s1.m_isspace = true) ∧
        ∀ rest, readidleLoop s w (avail xs ++ rest) log
          = readidleLoop s1 w1 rest (log ++ xs.map Ev.rx)) ∨
    (∃ a s1 r1 l1, ∀ rest, readidleLoop s w (avail xs ++ rest) log
      = (Outcome.buserr a, s1, r1 ++ rest, l1)) := by
  induction xs generalizing s w log with
  | nil => exact Or.inl ⟨s, w, fun _ h => absurd rfl h, fun rest => by simp [avail]⟩
  | cons x xs ih =>
    rcases hstep : readidleStep s w x with ⟨s1, w1, f⟩
    have hfl := readidleStep_flow s w x
    have hwd := readidleStep_word s w x
    rw [hstep] at hfl hwd
    simp only [] at hfl hwd
    cases f with
    | next =>
      cases xs with
      | nil =>
        left
        refine ⟨s1, w1, fun hlast _ => hwd (hlast x rfl).1 (hlast x rfl).2 rfl, fun rest => ?_⟩
        rw [avail_cons, List.cons_append, readidleLoop, lclreadcode_one, hstep]
        simp [avail]
      | cons y ys =>
        rcases ih s1 w1 (log ++ [Ev.rx x]) with ⟨s2, w2, g1, g2⟩ | ⟨a, s2, r1, l1, g⟩
        · left
          refine ⟨s2, w2, ?_, ?_⟩
          · intro hlast _
            exact g1 (fun c hc => hlast c (by rw [List.getLast?_cons_cons]; exact hc))
              (List.cons_ne_nil _ _)
          · intro rest
            rw [avail_cons, List.cons_append, readidleLoop, lclreadcode_one, hstep]
            simp only []
            rw [g2 rest]
            simp
        · right
          refine ⟨a, s2, r1, l1, fun rest => ?_⟩
          rw [avail_cons, List.cons_append, readidleLoop, lclreadcode_one, hstep]
          simp only []
          exact g rest
    | done r => rcases hfl with h | h <;> exact Flow.noConfusion h
    | throw a =>
      right
      refine ⟨a, s1, avail xs, log ++ [Ev.rx x], fun rest => ?_⟩
      rw [avail_cons, List.cons_append, readidleLoop, lclreadcode_one, hstep]

/-- C28, counterexample: the address token `A12345678\n` drained in one
`readidle` call sets `m_lastaddr` to `0x12345678`; drained in two calls, split
after the fourth digit, it sets `m_lastaddr` to `0x5678`: the word register is a
local variable of `readidle`, cleared at every call. -/
theorem split_inside_address_digits :
    (readidle fresh (scripted (avail [65, 49, 50, 51, 52, 53, 54, 55, 56, 10]))).1
      = Outcome.ok () ∧
    (readidle fresh (scripted (avail [65, 49, 50, 51, 52, 53, 54, 55, 56, 10]))).2.1.m_lastaddr
      = 0x12345678 ∧
    (readidle fresh (scripted (avail [65, 49, 50, 51, 52]))).1 = Outcome.ok () ∧
    (readidle (readidle fresh (scripted (avail [65, 49, 50, 51, 52]))).2.1
      (scripted (avail [53, 54, 55, 56, 10]))).2.1.m_lastaddr = 0x5678 := by
  decide

/-- C28, as amended: for every engine, every stream and every split of it after
a character that is not a hexadecimal digit (so not inside the digits of a
token, nor right behind them), draining the first part in one `readidle` call
that returns normally and the second part in another gives the same outcome,
engine, unread characters and log as draining the whole stream in one call; and
when the call on the first part throws, the call on the whole stream throws the
same `BUSERR` from the same engine. -/
theorem chunked_drain (s : HEXBUS) (xs ys : List Nat) (c : Nat) (log : List Ev)
    (hc : isdigit c = false ∧ isaf c = false) :
    ((readidleLoop s 0 (avail (xs ++ [c])) log).1 = Outcome.ok () →
      readidleLoop s 0 (avail (xs ++ [c] ++ ys)) log
        = readidleLoop (readidleLoop s 0 (avail (xs ++ [c])) log).2.1 0 (avail ys)
            (readidleLoop s 0 (avail (xs ++ [c])) log).2.2.2) ∧
    (∀ a, (readidleLoop s 0 (avail (xs ++ [c])) log).1 = Outcome.buserr a →
      (readidleLoop s 0 (avail (xs ++ [c] ++ ys)) log).1 = Outcome.buserr a ∧
      (readidleLoop s 0 (avail (xs ++ [c] ++ ys)) log).2.1
        = (readidleLoop s 0 (avail (xs ++ [c])) log).2.1) := by
  have hsplit : avail (xs ++ [c] ++ ys) = avail (xs ++ [c]) ++ avail ys := avail_append _ _
  rcases readidleLoop_append (xs ++ [c]) s 0 log with ⟨s1, w1, g1, g2⟩ | ⟨a, s1, r1, l1, g⟩
  · have hfirst : readidleLoop s 0 (avail (xs ++ [c])) log
        = (Outcome.ok (), s1, [], log ++ (xs ++ [c]).map Ev.rx) := by
      have := g2 []
      rw [List.append_nil] at this
      rw [this, readidleLoop]
    have hw : w1 = 0 ∨ s1.m_isspace = true :=
      g1 (fun x hx => by
        have : x = c := by simpa using hx.symm
        rw [this]; exact hc) (by simp)
    rw [hsplit, g2 (avail ys), hfirst]
    refine ⟨fun _ => ?_, fun a ha => by simp at ha⟩
    rcases hw with h0 | h0
    · rw [h0]
    · exact readidleLoop_word_free (avail ys) s1 w1 0 _ h0
  · have hfirst : readidleLoop s 0 (avail (xs ++ [c])) log = (Outcome.buserr a, s1, r1, l1) := by
      have := g []
      rw [List.append_nil, List.append_nil] at this
      exact this
    rw [hsplit, g (avail ys), hfirst]
    exact ⟨fun h => by simp at h, fun b hb => ⟨hb, rfl⟩⟩

theorem chunked_drain_witness :
    readidleLoop fresh 0 (avail ([65, 49, 50] ++ [10] ++ [75, 10])) []
      = readidleLoop (readidleLoop fresh 0 (avail ([65, 49, 50] ++ [10])) []).2.1 0
          (avail [75, 10]) (readidleLoop fresh 0 (avail ([65, 49, 50] ++ [10])) []).2.2.2 :=
  (chunked_drain fresh [65, 49, 50] [75, 10] 10 [] (by decide)).1 (by decide)

/-- C27, failing input: `readidle` on the characters `E`, newline, newline.  The
first call throws at the first newline and leaves `m_isspace` false and the tag
`E`; after `reset_err()`, the next call reads the second newline, dispatches the
same `E` token again, sets `m_bus_err` again and throws again.  With a single
newline the next call returns normally.  `readword` on the same characters
throws once and passes over the second newline. -/
theorem error_token_dispatched_again :
    (readidle fresh (scripted (avail [69, 10, 10]))).1 = Outcome.buserr 0 ∧
    (readidle fresh (scripted (avail [69, 10, 10]))).2.2.rx = [some 10] ∧
    (readidle fresh (scripted (avail [69, 10, 10]))).2.1.reset_err.bus_err = false ∧
    (readidle (readidle fresh (scripted (avail [69, 10, 10]))).2.1.reset_err
      (readidle fresh (scripted (avail [69, 10, 10]))).2.2).1 = Outcome.buserr 0 ∧
    (readidle (readidle fresh (scripted (avail [69, 10, 10]))).2.1.reset_err
      (readidle fresh (scripted (avail [69, 10, 10]))).2.2).2.1.bus_err = true ∧
    (readidle (readidle fresh (scripted (avail [69, 10]))).2.1.reset_err
      (readidle fresh (scripted (avail [69, 10]))).2.2).1 = Outcome.ok () ∧
    (readword fresh (scripted (avail [69, 10, 10, 82, 53, 10]))).1 = Outcome.buserr 0 ∧
    (readword (readword fresh (scripted (avail [69, 10, 10, 82, 53, 10]))).2.1.reset_err
      (readword fresh (scripted (avail [69, 10, 10, 82, 53, 10]))).2.2).1 = Outcome.ok 5 ∧
    (readword (readword fresh (scripted (avail [69, 10, 10, 82, 53, 10]))).2.1.reset_err
      (readword fresh (scripted (avail [69, 10, 10, 82, 53, 10]))).2.2).2.1.bus_err = false := by
  decide

/-- C30, failing input: against the simulated remote whose memory holds 7
everywhere, `readi(0x100, 1)`, then `writeio(0x200, 5)`, then `readi(0x200, 2)`,
all returning normally.  `writev` does not assign `m_inc`, so after the write
the engine holds `(m_lastaddr, m_inc) = (0x200, true)` with `m_addr_set` true
while the remote is at `0x200` with incrementing off; `encode_address` elides
the `A` token of the second read, and the remote answers both requests from
`0x200`: the read returns 5, 5 although the word at `0x204` is 7. -/
theorem stale_increment_after_write :
    (readi 256 1 fresh (simulated sevens)).1 = Outcome.ok () ∧
    (writeio 512 5 (readi 256 1 fresh (simulated sevens)).2.2.1
      (readi 256 1 fresh (simulated sevens)).2.2.2).1 = Outcome.ok () ∧
    (writeio 512 5 (readi 256 1 fresh (simulated sevens)).2.2.1
      (readi 256 1 fresh (simulated sevens)).2.2.2).2.1.m_addr_set = true ∧
    (writeio 512 5 (readi 256 1 fresh (simulated sevens)).2.2.1
      (readi 256 1 fresh (simulated sevens)).2.2.2).2.1.m_lastaddr = 512 ∧
    (writeio 512 5 (readi 256 1 fresh (simulated sevens)).2.2.1
      (readi 256 1 fresh (simulated sevens)).2.2.2).2.1.m_inc = true ∧
    (writeio 512 5 (readi 256 1 fresh (simulated sevens)).2.2.1
      (readi 256 1 fresh (simulated sevens)).2.2.2).2.2.rstate.addr = 512 ∧
    (writeio 512 5 (readi 256 1 fresh (simulated sevens)).2.2.1
      (readi 256 1 fresh (simulated sevens)).2.2.2).2.2.rstate.inc = false ∧
    encode_address (writeio 512 5 (readi 256 1 fresh (simulated sevens)).2.2.1
      (readi 256 1 fresh (simulated sevens)).2.2.2).2.1 (512 ||| (if true then 0 else 1)) = [] ∧
    (readi 512 2 (writeio 512 5 (readi 256 1 fresh (simulated sevens)).2.2.1
        (readi 256 1 fresh (simulated sevens)).2.2.2).2.1
      (writeio 512 5 (readi 256 1 fresh (simulated sevens)).2.2.1
        (readi 256 1 fresh (simulated sevens)).2.2.2).2.2).1 = Outcome.ok () ∧
    (readi 512 2 (writeio 512 5 (readi 256 1 fresh (simulated sevens)).2.2.1
        (readi 256 1 fresh (simulated sevens)).2.2.2).2.1
      (writeio 512 5 (readi 256 1 fresh (simulated sevens)).2.2.1
        (readi 256 1 fresh (simulated sevens)).2.2.2).2.2).2.1 = [5, 5] ∧
    (readi 512 2 (writeio 512 5 (readi 256 1 fresh (simulated sevens)).2.2.1
        (readi 256 1 fresh (simulated sevens)).2.2.2).2.1
      (writeio 512 5 (readi 256 1 fresh (simulated sevens)).2.2.1
        (readi 256 1 fresh (simulated sevens)).2.2.2).2.2).2.2.2.rstate.mem 516 = 7 := by
  decide

/-! ## `readword` on a stream of tokens that holds no datum and no error -/

theorem readwordStep_T (s : HEXBUS) (word abort c : Nat) (hc : s.m_cmd = HEXB_RESET)
    (hs : s.m_isspace = false) (hd : isdigit c = false) (ha : isaf c = false) :
    readwordStep s word abort c
      = (newcmd { s with m_addr_set := false } c, 0, abort, Flow.next) := by
  unfold readwordStep
  rw [if_neg (by simp [hd]), if_neg (by simp [ha]), if_neg (by simp [hs]),
    if_neg (by rw [hc]; decide), if_neg (by rw [hc]; decide), if_neg (by rw [hc]; decide),
    if_neg (by rw [hc]; decide), if_neg (by rw [hc]; decide), if_neg (by rw [hc]; decide),
    if_pos hc]

theorem wf_split (t : WireToken) (hwf : t.wf) :
    ∃ c ws, t.bytes = (t.tag :: t.digits) ++ (c :: ws) ∧ isspace c = true ∧
      ∀ x ∈ ws, isspace x = true := by
  obtain ⟨-, -, -, -, w5, w6⟩ := hwf
  cases hs : t.sep with
  | nil => exact absurd hs w5
  | cons c ws =>
    exact ⟨c, ws, by simp [WireToken.bytes, hs],
      w6 c (by rw [hs]; exact List.mem_cons_self _ _),
      fun x hx => w6 x (by rw [hs]; exact List.mem_cons_of_mem _ hx)⟩

theorem readword_token_other (t : WireToken) (s : HEXBUS) (word abort : Nat)
    (rest : List (Option Nat)) (log : List Ev) (hq : quiet s) (hwf : t.wf)
    (hp : t.tag ≠ HEXB_READ ∧ t.tag ≠ HEXB_ERR ∧ t.tag ≠ HEXB_IDLE) :
    ∃ s1, s1.m_isspace = true ∧
      readwordLoop s word abort (avail t.bytes ++ rest) log
        = readwordLoop s1 0 abort rest (log ++ t.bytes.map Ev.rx) := by
  by_cases hT : t.tag = HEXB_RESET
  · obtain ⟨c, ws, hb, hc, hws⟩ := wf_split t hwf
    obtain ⟨hd, ha⟩ := space_not_hex c hc
    refine ⟨newcmd { s with m_cmd := t.tag, m_isspace := false, m_addr_set := false } c,
      by rw [newcmd_space _ c hc], ?_⟩
    rw [hb, avail_append, List.append_assoc,
      readwordLoop_token s t.tag t.digits word abort _ log hq ⟨hwf.1, hwf.2.1, hwf.2.2.1⟩
        hwf.2.2.2.1,
      avail_cons, List.cons_append, readwordLoop, lclreadcode_one,
      readwordStep_T _ _ abort c hT rfl hd ha]
    simp only []
    rw [readwordLoop_spaces ws _ abort rest _ (by rw [newcmd_space _ c hc]) hws]
    simp
  · obtain ⟨s1, g1, g2, -⟩ := plain_token t s word 0 abort rest log hq hwf
      ⟨hp.1, hp.2.1, hT, hp.2.2⟩
    exact ⟨s1, g1, g2⟩

theorem readword_token_Z (t : WireToken) (s : HEXBUS) (word abort : Nat)
    (rest : List (Option Nat)) (log : List Ev) (hq : quiet s) (hwf : t.wf)
    (hz : t.tag = HEXB_IDLE) :
    (u32 (abort + 4294967295) = 0 →
      (readwordLoop s word abort (avail t.bytes ++ rest) log).1 = Outcome.buserr 0) ∧
    (u32 (abort + 4294967295) ≠ 0 →
      ∃ s1, s1.m_isspace = true ∧
        readwordLoop s word abort (avail t.bytes ++ rest) log
          = readwordLoop s1 0 (u32 (abort + 4294967295)) rest (log ++ t.bytes.map Ev.rx)) := by
  obtain ⟨c, ws, hb, hc, hws⟩ := wf_split t hwf
  obtain ⟨hd, ha⟩ := space_not_hex c hc
  have hhead : readwordLoop s word abort (avail t.bytes ++ rest) log
      = readwordLoop { s with m_cmd := t.tag, m_isspace := false } (hexfold t.digits 0) abort
          (some c :: (avail ws ++ rest)) (log ++ (t.tag :: t.digits).map Ev.rx) := by
    rw [hb, avail_append, List.append_assoc,
      readwordLoop_token s t.tag t.digits word abort _ log hq ⟨hwf.1, hwf.2.1, hwf.2.2.1⟩
        hwf.2.2.2.1,
      avail_cons, List.cons_append]
  constructor
  · intro h0
    rw [hhead, readwordLoop, lclreadcode_one, readwordStep_Z _ _ abort c hz rfl hd ha,
      if_pos h0]
  · intro h0
    refine ⟨newcmd { s with m_cmd := t.tag, m_isspace := false } c,
      by rw [newcmd_space _ c hc], ?_⟩
    rw [hhead, readwordLoop, lclreadcode_one, readwordStep_Z _ _ abort c hz rfl hd ha,
      if_neg h0]
    simp only []
    rw [readwordLoop_spaces ws _ _ rest _ (by rw [newcmd_space _ c hc]) hws, hb]
    simp

/-- On a stream of well formed tokens that holds neither an `R` nor an `E`
token, `readword` throws `BUSERR(0)` when the stream holds as many idle tokens
as the countdown stands at, and otherwise reads through it without a fault,
the countdown lowered by the number of idle tokens. -/
theorem readword_tokens (toks : List WireToken) (s : HEXBUS) (word abort : Nat)
    (rest : List (Option Nat)) (log : List Ev) (hq : quiet s) (h0 : 0 < abort)
    (hab : abort < 4294967296)
    (h : ∀ t ∈ toks, t.wf ∧ t.tag ≠ HEXB_READ ∧ t.tag ≠ HEXB_ERR) :
    (abort ≤ countZ toks →
      (readwordLoop s word abort (avail (wire toks) ++ rest) log).1 = Outcome.buserr 0) ∧
    (countZ toks < abort →
      ∃ s1 w1, quiet s1 ∧
        readwordLoop s word abort (avail (wire toks) ++ rest) log
          = readwordLoop s1 w1 (abort - countZ toks) rest (log ++ (wire toks).map Ev.rx)) := by
  induction toks generalizing s word abort log with
  | nil =>
    refine ⟨fun hle => ?_, fun _ => ⟨s, word, hq, by simp [wire, avail, countZ]⟩⟩
    simp [countZ] at hle
    omega
  | cons t ts ih =>
    obtain ⟨hwf, hR, hE⟩ := h t (List.mem_cons_self _ _)
    have hts : ∀ x ∈ ts, x.wf ∧ x.tag ≠ HEXB_READ ∧ x.tag ≠ HEXB_ERR :=
      fun x hx => h x (List.mem_cons_of_mem _ hx)
    have hw : wire (t :: ts) = t.bytes ++ wire ts := by simp [wire]
    by_cases hz : t.tag = HEXB_IDLE
    · have hcz : countZ (t :: ts) = countZ ts + 1 := by simp [countZ, hz]; omega
      have hu : u32 (abort + 4294967295) = abort - 1 := by unfold u32; omega
      obtain ⟨z1, z2⟩ := readword_token_Z t s word abort (avail (wire ts) ++ rest) log hq hwf hz
      by_cases h1 : abort = 1
      · refine ⟨fun _ => ?_, fun hlt => by omega⟩
        rw [hw, avail_append, List.append_assoc]
        exact z1 (by rw [hu, h1])
      · obtain ⟨s1, g1, g2⟩ := z2 (by rw [hu]; omega)
        rw [hu] at g2
        obtain ⟨i1, i2⟩ := ih s1 0 (abort - 1) (log ++ t.bytes.map Ev.rx) (Or.inl g1) (by omega)
          (by omega) hts
        refine ⟨fun hle => ?_, fun hlt => ?_⟩
        · rw [hw, avail_append, List.append_assoc, g2]
          exact i1 (by omega)
        · obtain ⟨s2, w2, k1, k2⟩ := i2 (by omega)
          refine ⟨s2, w2, k1, ?_⟩
          rw [hw, avail_append, List.append_assoc, g2, k2, hcz]
          have e : abort - 1 - countZ ts = abort - (countZ ts + 1) := by omega
          rw [e]
          simp
    · have hcz : countZ (t :: ts) = countZ ts := by simp [countZ, hz]
      obtain ⟨s1, g1, g2⟩ := readword_token_other t s word abort (avail (wire ts) ++ rest) log
        hq hwf ⟨hR, hE, hz⟩
      obtain ⟨i1, i2⟩ := ih s1 0 abort (log ++ t.bytes.map Ev.rx) (Or.inl g1) h0 hab hts
      refine ⟨fun hle => ?_, fun hlt => ?_⟩
      · rw [hw, avail_append, List.append_assoc, g2]
        exact i1 (by omega)
      · obtain ⟨s2, w2, k1, k2⟩ := i2 (by omega)
        refine ⟨s2, w2, k1, ?_⟩
        rw [hw, avail_append, List.append_assoc, g2, k2, hcz]
        simp

/-- C25, counterexample: on an engine whose `m_lastaddr` is 0 (as inside
`readio(0)`), an `E` token makes `readword` throw `BUSERR(0)` although no idle
token was received; `readio(0)` fails with address 0 in the same way. -/
theorem error_at_address_zero :
    (readword { fresh with m_lastaddr := 0, m_addr_set := true }
        (scripted (avail [HEXB_ERR, CH_NL]))).1 = Outcome.buserr 0 ∧
    HEXB_IDLE ∉ [HEXB_ERR, CH_NL] ∧
    (readio 0 fresh (scripted (avail [HEXB_ERR, CH_NL]))).1 = Outcome.buserr 0 := by
  decide

/-- C25, as amended: a pass through `readword` throws only when it dispatches an
`E` token (`BUSERR(m_lastaddr)`, which is `BUSERR(0)` when `m_lastaddr` is 0) or
when it dispatches a `Z` token that brings the countdown to zero (`BUSERR(0)`);
the countdown goes down by one at the dispatch of a `Z` token and at no other
pass.  Every `readword` call starts the countdown at 3: three idle tokens at a
decoder between tokens make the call throw `BUSERR(0)`; on a stream of well
formed tokens without `R` and `E` tokens the call throws `BUSERR(0)` when the
stream holds at least three idle tokens, and reads through it without a fault
when it holds fewer; at most two idle tokens followed by a datum make the call
return the datum, and a `readv` in which at most two idle tokens stand in front
of each datum returns all its words normally. -/
theorem idle_abort_countdown {ρ : Type} (s : HEXBUS) (d : Dev ρ) (a : Nat) (inc : Bool)
    (iw : List (Nat × Nat)) (k w word abort c : Nat) (rest : List (Option Nat)) :
    (∀ x, (readwordStep s word abort c).2.2.2 = Flow.throw x →
      (s.m_cmd = HEXB_ERR ∧ x = s.m_lastaddr) ∨
      (s.m_cmd = HEXB_IDLE ∧ x = 0 ∧ u32 (abort + 4294967295) = 0)) ∧
    ((readwordStep s word abort c).2.2.1
      = if isdigit c = false ∧ isaf c = false ∧ s.m_isspace = false ∧ s.m_cmd = HEXB_IDLE
        then u32 (abort + 4294967295) else abort) ∧
    (quiet s → d.rx = avail (idles 3) ++ rest → (readword s d).1 = Outcome.buserr 0) ∧
    (∀ toks : List WireToken, (∀ t ∈ toks, t.wf ∧ t.tag ≠ HEXB_READ ∧ t.tag ≠ HEXB_ERR) →
      quiet s → d.rx = avail (wire toks) ++ rest →
      (3 ≤ countZ toks → (readword s d).1 = Outcome.buserr 0) ∧
      (countZ toks < 3 → ∃ s1 w1, quiet s1 ∧
        readwordLoop s 0 3 (avail (wire toks) ++ rest) d.log
          = readwordLoop s1 w1 (3 - countZ toks) rest (d.log ++ (wire toks).map Ev.rx))) ∧
    (quiet s → k ≤ 2 → w < 4294967296 → d.rx = avail (idles k ++ encode_datum w) ++ rest →
      (readword s d).1 = Outcome.ok w) ∧
    (quiet s → a < 4294967296 → iw ≠ [] → (∀ p ∈ iw, p.1 ≤ 2 ∧ p.2 < 4294967296) →
      d.rx = avail (iw.flatMap (fun p => idles p.1 ++ encode_datum p.2)) ++ rest →
      (readv a inc iw.length s d).1 = Outcome.ok () ∧
      (readv a inc iw.length s d).2.1 = iw.map (fun p => p.2)) := by
  refine ⟨fun x h => (readwordStep_throw s word abort c x h).2, readwordStep_abort s word abort c,
    ?_, ?_, ?_, ?_⟩
  · intro hq hrx
    unfold readword
    rw [hrx, show idles 3 = [HEXB_IDLE, CH_NL, HEXB_IDLE, CH_NL, HEXB_IDLE, CH_NL] from rfl,
      readwordLoop_idle3 s rest d.log hq]
  · intro toks htoks hq hrx
    obtain ⟨g1, g2⟩ := readword_tokens toks s 0 3 rest d.log hq (by decide) (by decide) htoks
    refine ⟨fun h3 => ?_, g2⟩
    have := g1 h3
    unfold readword
    rw [hrx]
    exact this
  · intro hq hk hw hrx
    unfold readword
    rw [hrx, readwordLoop_idles_datum k w s rest d.log hq hk hw]
  · intro hq ha hn hiw hrx
    have hseg : ∀ p ∈ iw.map (fun p => (idles p.1 ++ encode_datum p.2, p.2)),
        ∀ (t : HEXBUS) (r : List (Option Nat)) (l : List Ev), quiet t →
        readwordLoop t 0 3 (avail p.1 ++ r) l
          = (Outcome.ok p.2, afterDatum t, r, l ++ p.1.map Ev.rx) := by
      intro p hp t r l ht
      obtain ⟨q, hq1, rfl⟩ := List.mem_map.mp hp
      exact readwordLoop_idles_datum q.1 q.2 t r l ht (hiw q hq1).1 (hiw q hq1).2
    have hrx2 : d.rx = avail ((iw.map (fun p => (idles p.1 ++ encode_datum p.2, p.2))).flatMap
        (fun p => p.1)) ++ rest := by
      rw [hrx]
      congr 2
      simp [List.flatMap_def, List.map_map, Function.comp_def]
    obtain ⟨d1, h1⟩ := readv_segs a inc (iw.map (fun p => (idles p.1 ++ encode_datum p.2, p.2)))
      s d rest ha (by simpa using hn) hq hseg hrx2
    rw [List.length_map] at h1
    rw [h1]
    simp [List.map_map, Function.comp_def]

theorem idle_abort_countdown_witness :
    (readv 256 true [(2, 7), (2, 0)].length fresh (scripted (avail
      ([(2, 7), (2, 0)].flatMap (fun p => idles p.1 ++ encode_datum p.2))))).1 = Outcome.ok () ∧
    (readv 256 true [(2, 7), (2, 0)].length fresh (scripted (avail
      ([(2, 7), (2, 0)].flatMap (fun p => idles p.1 ++ encode_datum p.2))))).2.1
      = [(2, 7), (2, 0)].map (fun p => p.2) :=
  (idle_abort_countdown fresh (scripted (avail
      ([(2, 7), (2, 0)].flatMap (fun p => idles p.1 ++ encode_datum p.2)))) 256 true
      [(2, 7), (2, 0)] 0 0 0 3 0 []).2.2.2.2.2 (Or.inr (by decide)) (by decide) (by decide)
      (by decide) (by simp [scripted])

/-! ## The closing check of `readio` -/

/-- C34: for a bus address `a` (below `2^32`), on every engine and every
transport, whenever the inner `readv(a, 0, 1, &v)` returns normally
`m_lastaddr` already equals `a`; `readio` then returns the word `readv` stored,
with the engine and the transport as `readv` left them, and in no run at all
does `readio` take its own `exit(EXIT_FAILURE)` branch: it ends fatally only
when `readv` did, and it clears `m_addr_set` in no run. -/
theorem readio_exit_unreachable {ρ : Type} (a : Nat) (s : HEXBUS) (d : Dev ρ)
    (ha : a < 4294967296) :
    ((readv a false 1 s d).1 = Outcome.ok () →
      (readv a false 1 s d).2.2.1.m_lastaddr = a ∧
      readio a s d = (Outcome.ok ((readv a false 1 s d).2.1.getD 0 0),
        (readv a false 1 s d).2.2.1, (readv a false 1 s d).2.2.2)) ∧
    ((readio a s d).1 = Outcome.fatal → (readv a false 1 s d).1 = Outcome.fatal) ∧
    (readio a s d).2.1 = (readv a false 1 s d).2.2.1 := by
  have key : (readv a false 1 s d).1 = Outcome.ok () →
      (readv a false 1 s d).2.2.1.m_lastaddr = a := by
    intro hok
    rw [readv_ok_lastaddr a false 1 s d (by decide) hok]
    simp only [Bool.false_eq_true, if_false, Nat.add_zero]
    exact u32_of_lt ha
  unfold readio
  rcases hL : readv a false 1 s d with ⟨o, buf, s1, d1⟩
  rw [hL] at key
  cases o with
  | ok u =>
    have h1 : s1.m_lastaddr = a := key rfl
    have h2 : ¬ (s1.m_lastaddr ≠ a) := fun h => h h1
    dsimp only
    rw [if_neg h2]
    exact ⟨fun _ => ⟨h1, rfl⟩, fun h => by simp at h, rfl⟩
  | buserr e => exact ⟨fun h => by simp at h, fun h => by simp at h, rfl⟩
  | fatal => exact ⟨fun h => by simp at h, fun _ => rfl, rfl⟩
  | hang => exact ⟨fun h => by simp at h, fun h => by simp at h, rfl⟩

theorem readio_exit_unreachable_witness :
    (readv 256 false 1 fresh (scripted (avail (encode_datum 5)))).2.2.1.m_lastaddr = 256 ∧
    readio 256 fresh (scripted (avail (encode_datum 5)))
      = (Outcome.ok ((readv 256 false 1 fresh (scripted (avail (encode_datum 5)))).2.1.getD 0 0),
        (readv 256 false 1 fresh (scripted (avail (encode_datum 5)))).2.2.1,
        (readv 256 false 1 fresh (scripted (avail (encode_datum 5)))).2.2.2) :=
  (readio_exit_unreachable 256 fresh (scripted (avail (encode_datum 5))) (by decide)).1
    (by decide)

/-! ## Fixed-address operations always announce their address -/

theorem encode_address_odd (s : HEXBUS) (x : Nat) (hl : s.m_lastaddr % 2 = 0)
    (hx : x % 2 = 1) : encode_address s x = HEXB_ADDR :: sprintf_08x x := by
  unfold encode_address
  have hne : x ≠ s.m_lastaddr := fun h => by rw [h] at hx; omega
  rw [if_neg (fun h => hne h.2.1)]

theorem encode_address_elides (s : HEXBUS) (x : Nat) (h : encode_address s x = []) :
    s.m_addr_set = true ∧ x = s.m_lastaddr ∧ (if s.m_inc then 1 else 0) = (x &&& 1) ^^^ 1 := by
  unfold encode_address at h
  by_cases hc : s.m_addr_set = true ∧ x = s.m_lastaddr ∧
      (if s.m_inc then 1 else 0) = (x &&& 1) ^^^ 1
  · exact hc
  · rw [if_neg hc] at h; exact absurd h (by simp)

theorem readio_log {ρ : Type} (a : Nat) (s : HEXBUS) (d : Dev ρ) :
    (readio a s d).2.2 = (readv a false 1 s d).2.2.2 := by
  unfold readio
  rcases readv a false 1 s d with ⟨o, buf, s1, d1⟩
  cases o with
  | ok u => dsimp only; split <;> rfl
  | buserr e => rfl
  | fatal => rfl
  | hang => rfl

theorem writeio_log {ρ : Type} (a v : Nat) (s : HEXBUS) (d : Dev ρ) :
    (writeio a v s d).2.2 = (writev a false [v] s d).2.2 := by
  unfold writeio
  rcases writev a false [v] s d with ⟨o, s1, d1⟩
  cases o <;> rfl

/-- C31: in an engine whose `m_lastaddr` is a multiple of 4, whatever its
`m_addr_set` and `m_inc` (so also right after an operation on the same address
in the same mode), every fixed-address operation on a 4-byte aligned address
`a` composes and transmits the `A` token of `a | 1` at the head of its first
buffer: `readio`, `readz` of at least one word, `writeio`, and `writez` of at
least one word.  When `encode_address` elides the token, the request it was
given has its low bit clear, which is an increment-mode request. -/
theorem fixed_address_sends_token {ρ : Type} (a len v : Nat) (rest : List Nat) (s : HEXBUS)
    (d : Dev ρ) (hl : s.m_lastaddr % 4 = 0) (ha : a % 4 = 0) (hlen : 1 ≤ len) :
    encode_address s (a ||| (if false then 0 else 1)) = HEXB_ADDR :: sprintf_08x (a + 1) ∧
    (∃ tail, (readio a s d).2.2.log
      = d.log ++ Ev.tx (HEXB_ADDR :: sprintf_08x (a + 1) ++ [HEXB_READ, CH_NL]) :: tail) ∧
    (∃ tail, (readz a len s d).2.2.2.log
      = d.log ++ Ev.tx (HEXB_ADDR :: sprintf_08x (a + 1) ++ [HEXB_READ, CH_NL]) :: tail) ∧
    (∃ tail, (writeio a v s d).2.2.log
      = d.log ++ Ev.sub 0 0 :: Ev.tx (HEXB_ADDR :: sprintf_08x (a + 1) ++ encode_word v)
          :: tail) ∧
    (∃ tail, (writez a (v :: rest) s d).2.2.log
      = d.log ++ Ev.sub 0 0 :: Ev.tx (HEXB_ADDR :: sprintf_08x (a + 1) ++ encode_word v)
          :: tail) ∧
    (∀ x, encode_address s x = [] → x &&& 1 = 0) := by
  have e1 : a ||| (if false then 0 else 1) = a + 1 := by
    simp only [Bool.false_eq_true, if_false]; exact or_one_aligned a ha
  have e2 : encode_address s (a ||| (if false then 0 else 1))
      = HEXB_ADDR :: sprintf_08x (a + 1) := by
    rw [e1]; exact encode_address_odd s (a + 1) (by omega) (by omega)
  refine ⟨e2, ?_, ?_, ?_, ?_, ?_⟩
  · obtain ⟨tail, h, _⟩ := readv_tx a false 1 s d (le_refl 1)
    rw [e2] at h
    exact ⟨tail, by rw [readio_log]; exact h⟩
  · obtain ⟨tail, h, _⟩ := readv_tx a false len s d hlen
    rw [e2] at h
    exact ⟨tail, h⟩
  · obtain ⟨tail, h, _⟩ := writev_tx a false v [] s d
    rw [e2] at h
    exact ⟨tail, by rw [writeio_log]; exact h⟩
  · obtain ⟨tail, h, _⟩ := writev_tx a false v rest s d
    rw [e2] at h
    exact ⟨tail, h⟩
  · intro x hx
    obtain ⟨_, h2, _⟩ := encode_address_elides s x hx
    rw [h2, Nat.and_one_is_mod]
    omega

theorem fixed_address_sends_token_witness :
    encode_address (readio 256 fresh (scripted (avail (encode_datum 5)))).2.1
        (256 ||| (if false then 0 else 1)) = HEXB_ADDR :: sprintf_08x (256 + 1) ∧
    (readio 256 fresh (scripted (avail (encode_datum 5)))).2.1.m_addr_set = true ∧
    (readio 256 fresh (scripted (avail (encode_datum 5)))).2.1.m_lastaddr = 256 ∧
    (readio 256 fresh (scripted (avail (encode_datum 5)))).2.1.m_inc = false :=
  ⟨(fixed_address_sends_token 256 1 5 []
      (readio 256 fresh (scripted (avail (encode_datum 5)))).2.1
      (scripted (avail (encode_datum 7))) (by decide) (by decide) (by decide)).1,
    by decide, by decide, by decide⟩

/-! ## A write of no word -/

/-- C32, failing input: `writev(a, p, 0, buf)` transmits nothing and reads
nothing, yet it returns with `m_lastaddr = a`, `m_addr_set = true` and
`m_nacks = 0` on every engine.  Against the simulated remote whose memory holds
the address at every address: `readi(0x100, 1)` returns 0x100 and leaves the
remote at `0x104`; `writei(0x200, 0, buf)` then leaves the transport log as it
was and the remote at `0x104`, but `encode_address(0x200)` now elides; the
following `readi(0x200, 1)` transmits only `R\n`, returns normally and delivers
0x104, the word at the address the remote still holds.  Without the write of
no word the same read delivers 0x200. -/
theorem zero_length_write_moves_cache :
    (∀ (ρ : Type) (a : Nat) (p : Bool) (s : HEXBUS) (d : Dev ρ),
      writev a p [] s d = (Outcome.ok (),
        { s with m_lastaddr := if p then u32 (a + (0 <<< 2)) else a, m_addr_set := true,
                 m_nacks := 0 }, d)) ∧
    (readi 256 1 fresh (simulated ramp)).1 = Outcome.ok () ∧
    (readi 256 1 fresh (simulated ramp)).2.1 = [256] ∧
    (readi 256 1 fresh (simulated ramp)).2.2.1.m_lastaddr = 260 ∧
    (writei 512 [] (readi 256 1 fresh (simulated ramp)).2.2.1
      (readi 256 1 fresh (simulated ramp)).2.2.2).2.2.log
      = (readi 256 1 fresh (simulated ramp)).2.2.2.log ∧
    (writei 512 [] (readi 256 1 fresh (simulated ramp)).2.2.1
      (readi 256 1 fresh (simulated ramp)).2.2.2).2.2.rstate.addr = 260 ∧
    (writei 512 [] (readi 256 1 fresh (simulated ramp)).2.2.1
      (readi 256 1 fresh (simulated ramp)).2.2.2).2.1.m_lastaddr = 512 ∧
    encode_address (writei 512 [] (readi 256 1 fresh (simulated ramp)).2.2.1
      (readi 256 1 fresh (simulated ramp)).2.2.2).2.1 (512 ||| (if true then 0 else 1)) = [] ∧
    (readi 512 1 (writei 512 [] (readi 256 1 fresh (simulated ramp)).2.2.1
        (readi 256 1 fresh (simulated ramp)).2.2.2).2.1
      (writei 512 [] (readi 256 1 fresh (simulated ramp)).2.2.1
        (readi 256 1 fresh (simulated ramp)).2.2.2).2.2).1 = Outcome.ok () ∧
    (readi 512 1 (writei 512 [] (readi 256 1 fresh (simulated ramp)).2.2.1
        (readi 256 1 fresh (simulated ramp)).2.2.2).2.1
      (writei 512 [] (readi 256 1 fresh (simulated ramp)).2.2.1
        (readi 256 1 fresh (simulated ramp)).2.2.2).2.2).2.1 = [260] ∧
    (readi 512 1 (readi 256 1 fresh (simulated ramp)).2.2.1
      (readi 256 1 fresh (simulated ramp)).2.2.2).2.1 = [512] := by
  refine ⟨?_, by decide, by decide, by decide, by decide, by decide, by decide, by decide,
    by decide, by decide, by decide⟩
  intro ρ a p s d
  cases p <;> simp [writev, writevLoop, waitAcks]

/-! ## `readidle` after an error token -/

/-- C33, failing input: `readidle` on the characters `E`, newline, `K`, newline.
The first call throws at the first newline.  Continuing (after `reset_err()`),
the second call throws again at `K`, the third throws again at the second
newline, and the acknowledgement is never counted: one `E` token has raised
three faults on a stream that holds no further `E` and no idle token.
`readword` on the same characters, followed by a datum, throws once, then
counts the acknowledgement and returns the datum. -/
theorem error_token_faults_repeat :
    (readidle fresh (scripted (avail [69, 10, 75, 10]))).1 = Outcome.buserr 0 ∧
    (readidle fresh (scripted (avail [69, 10, 75, 10]))).2.2.rx = [some 75, some 10] ∧
    (readidle (readidle fresh (scripted (avail [69, 10, 75, 10]))).2.1.reset_err
      (readidle fresh (scripted (avail [69, 10, 75, 10]))).2.2).1 = Outcome.buserr 0 ∧
    (readidle (readidle fresh (scripted (avail [69, 10, 75, 10]))).2.1.reset_err
      (readidle fresh (scripted (avail [69, 10, 75, 10]))).2.2).2.2.rx = [some 10] ∧
    (readidle (readidle (readidle fresh (scripted (avail [69, 10, 75, 10]))).2.1.reset_err
        (readidle fresh (scripted (avail [69, 10, 75, 10]))).2.2).2.1.reset_err
      (readidle (readidle fresh (scripted (avail [69, 10, 75, 10]))).2.1.reset_err
        (readidle fresh (scripted (avail [69, 10, 75, 10]))).2.2).2.2).1 = Outcome.buserr 0 ∧
    (readidle (readidle (readidle fresh (scripted (avail [69, 10, 75, 10]))).2.1.reset_err
        (readidle fresh (scripted (avail [69, 10, 75, 10]))).2.2).2.1.reset_err
      (readidle (readidle fresh (scripted (avail [69, 10, 75, 10]))).2.1.reset_err
        (readidle fresh (scripted (avail [69, 10, 75, 10]))).2.2).2.2).2.1.m_nacks = 0 ∧
    (readword fresh (scripted (avail [69, 10, 75, 10, 82, 53, 10]))).1 = Outcome.buserr 0 ∧
    (readword (readword fresh (scripted (avail [69, 10, 75, 10, 82, 53, 10]))).2.1.reset_err
      (readword fresh (scripted (avail [69, 10, 75, 10, 82, 53, 10]))).2.2).1 = Outcome.ok 5 ∧
    (readword (readword fresh (scripted (avail [69, 10, 75, 10, 82, 53, 10]))).2.1.reset_err
      (readword fresh (scripted (avail [69, 10, 75, 10, 82, 53, 10]))).2.2).2.1.m_nacks = 1 := by
  decide

/-! ## What `lclreadcode` reports -/

/-- C38, failing input: the transport delivers the single byte `0x7f` to
`lclreadcode(buf, 1)`: the call returns 1 with `0x7f` still in `buf[0]`.  For
every delivery the returned count is the number of bytes delivered and the
buffer keeps its length; of `0x7f, R` the caller is given `0x7f, 0x7f`, and of
`R, 0x7f, 5` it is given `R, 0x7f, 0x7f`: the idle bytes stay and the bytes
after them are overwritten. -/
theorem lclreadcode_keeps_idle :
    lclreadcode [127] = ([127], 1) ∧
    (∀ delivered, (lclreadcode delivered).2 = delivered.length) ∧
    lclreadcode [127, 82] = ([127, 127], 2) ∧
    lclreadcode [82, 127, 53] = ([82, 127, 127], 3) ∧
    lclreadcode [255] = ([255], 1) := by
  refine ⟨by decide, fun _ => rfl, by decide, by decide, by decide⟩

/-! ## The length of the command buffer -/

theorem and_mask63 (x : Nat) (h : x < 4294967296) :
    x &&& 4294967233 = x - x % 64 + x % 2 := by
  apply Nat.eq_of_testBit_eq
  intro i
  rw [Nat.testBit_and]
  rcases i with _ | _ | _ | _ | _ | _ | j
  · have h0 : (x - x % 64 + x % 2) % 2 = x % 2 := by omega
    simp [Nat.testBit_zero, h0]
  · have h1 : (x - x % 64 + x % 2) / 2 % 2 = 0 := by omega
    simp [Nat.testBit_succ, Nat.testBit_zero, h1]
  · have h1 : (x - x % 64 + x % 2) / 2 / 2 % 2 = 0 := by omega
    simp [Nat.testBit_succ, Nat.testBit_zero, h1]
  · have h1 : (x - x % 64 + x % 2) / 2 / 2 / 2 % 2 = 0 := by omega
    simp [Nat.testBit_succ, Nat.testBit_zero, h1]
  · have h1 : (x - x % 64 + x % 2) / 2 / 2 / 2 / 2 % 2 = 0 := by omega
    simp [Nat.testBit_succ, Nat.testBit_zero, h1]
  · have h1 : (x - x % 64 + x % 2) / 2 / 2 / 2 / 2 / 2 % 2 = 0 := by omega
    simp [Nat.testBit_succ, Nat.testBit_zero, h1]
  · have hq : (x - x % 64 + x % 2) / 2 / 2 / 2 / 2 / 2 / 2 = x / 2 / 2 / 2 / 2 / 2 / 2 := by
      omega
    have hm : (4294967233 : Nat) / 2 / 2 / 2 / 2 / 2 / 2 = 2 ^ 26 - 1 := by norm_num
    simp only [Nat.testBit_succ, hq, hm, Nat.testBit_two_pow_sub_one]
    by_cases hj : j < 26
    · simp [hj]
    · have : x / 2 / 2 / 2 / 2 / 2 / 2 < 2 ^ j := by
        have h26 : x / 2 / 2 / 2 / 2 / 2 / 2 < 2 ^ 26 := by omega
        exact lt_of_lt_of_le h26 (Nat.pow_le_pow_right (by decide) (by omega))
      simp [hj, Nat.testBit_lt_two_pow this]

theorem hexsig_length (k v : Nat) : (hexsig k v).length ≤ k := by
  induction k generalizing v with
  | zero => simp [hexsig]
  | succ k ih =>
    unfold hexsig
    split
    · simp
    · have := ih (v / 16)
      simp; omega

theorem encode_address_length (s : HEXBUS) (x : Nat) : (encode_address s x).length ≤ 9 := by
  rcases ite_eq_or_eq (s.m_addr_set = true ∧ x = s.m_lastaddr ∧
      (if s.m_inc then 1 else 0) = (x &&& 1) ^^^ 1) ([] : List Nat)
      (HEXB_ADDR :: sprintf_08x x) with h | h
  · unfold encode_address; rw [h]; simp
  · unfold encode_address; rw [h]; simp [sprintf_08x, hexnibbles_length]

theorem encode_word_length (v : Nat) : (encode_word v).length ≤ 10 := by
  unfold encode_word sprintf_x
  have := hexsig_length 8 v
  by_cases h : v = 0
  · simp [h]
  · simp [h]; omega

theorem writev_nil {ρ : Type} (a : Nat) (p : Bool) (s : HEXBUS) (d : Dev ρ) :
    (writev a p [] s d).2.2 = d := by
  cases p <;> simp [writev, writevLoop, waitAcks]

/-- C39, counterexample: for the requests `2^31 - 64` and `INT_MAX` on an engine
without a buffer, the sum `(len & -0x3f) + 0x40` exceeds `INT_MAX`; no length
that is at least `len` is recorded. -/
theorem bufalloc_sum_exceeds_int :
    bufalloc { m_buf := false, m_buflen := 0 } 2147483647 = none ∧
    (2147483647 &&& 4294967233) + 64 = 2147483649 ∧
    bufalloc { m_buf := false, m_buflen := 0 } 2147483584 = none ∧
    (2147483584 &&& 4294967233) + 64 = 2147483648 ∧
    bufalloc { m_buf := true, m_buflen := 128 } 2147483647 = none := by
  decide

/-- C39: for every `0 <= len <= 2^31 - 65`, `bufalloc(len)` returns with a
buffer and with `m_buflen >= len`: unchanged when there was a buffer with
`m_buflen >= len`, and otherwise `(len & -0x3f) + 0x40`, which is `len` with
bits 1 to 5 cleared, plus 64.  `init` records the length 128 for its request of
64.  An `A` token and a write token with the terminating NUL take at most 20
bytes, an `A` token and a read request with the NUL at most 12, and every
buffer that `writev` or `readv` transmits is that short. -/
theorem bufalloc_length (b : CmdBuf) (len : Nat) (hlen : len ≤ 2147483583) :
    (∃ b1, bufalloc b len = some b1 ∧ b1.m_buf = true ∧ len ≤ b1.m_buflen ∧
      ((b.m_buf = true ∧ len ≤ b.m_buflen) → b1 = b) ∧
      (¬ (b.m_buf = true ∧ len ≤ b.m_buflen) →
        b1.m_buflen = (len &&& 4294967233) + 64 ∧
        b1.m_buflen = len - len % 64 + len % 2 + 64)) ∧
    initBuf = some { m_buf := true, m_buflen := 128 } ∧
    (∀ (s : HEXBUS) (x v : Nat), (encode_address s x ++ encode_word v).length + 1 ≤ 20) ∧
    (∀ (s : HEXBUS) (x : Nat), (encode_address s x ++ [HEXB_READ, CH_NL]).length + 1 ≤ 12) ∧
    (∀ (ρ : Type) (a : Nat) (p : Bool) (buf : List Nat) (s : HEXBUS) (d : Dev ρ)
      (ext : List Ev) (bytes : List Nat), (writev a p buf s d).2.2.log = d.log ++ ext →
      Ev.tx bytes ∈ ext → bytes.length + 1 ≤ 20) ∧
    (∀ (ρ : Type) (a : Nat) (inc : Bool) (n : Nat) (s : HEXBUS) (d : Dev ρ)
      (ext : List Ev) (bytes : List Nat), (readv a inc n s d).2.2.2.log = d.log ++ ext →
      Ev.tx bytes ∈ ext → bytes.length + 1 ≤ 12) := by
  have hw : ∀ (s : HEXBUS) (x v : Nat),
      (encode_address s x ++ encode_word v).length + 1 ≤ 20 := by
    intro s x v
    have h1 := encode_address_length s x
    have h2 := encode_word_length v
    rw [List.length_append]; omega
  have hr : ∀ (s : HEXBUS) (x : Nat),
      (encode_address s x ++ [HEXB_READ, CH_NL]).length + 1 ≤ 12 := by
    intro s x
    have h1 := encode_address_length s x
    rw [List.length_append]; simp; omega
  refine ⟨?_, by decide, hw, hr, ?_, ?_⟩
  · have hm := and_mask63 len (by omega)
    unfold bufalloc
    by_cases hc : b.m_buf = true ∧ len ≤ b.m_buflen
    · rw [if_pos hc]
      exact ⟨b, rfl, hc.1, hc.2, fun _ => rfl, fun h => absurd hc h⟩
    · rw [if_neg hc, if_pos (by rw [hm]; omega)]
      exact ⟨_, rfl, rfl, by show len ≤ (len &&& 4294967233) + 64; rw [hm]; omega,
        fun h => absurd h hc, fun _ => ⟨rfl, by show (len &&& 4294967233) + 64 = _; rw [hm]⟩⟩
  · intro ρ a p buf s d ext bytes hlog hin
    cases buf with
    | nil =>
      rw [writev_nil] at hlog
      have : ext = [] := by
        have h := List.append_cancel_left (hlog.symm.trans (List.append_nil d.log).symm)
        exact h
      rw [this] at hin; simp at hin
    | cons v rest =>
      obtain ⟨tail, h1, h2⟩ := writev_tx a p v rest s d
      have he := List.append_cancel_left (hlog.symm.trans h1)
      rw [he] at hin
      simp only [List.mem_cons] at hin
      rcases hin with h | h | h
      · cases h
      · rw [Ev.tx.inj h]; exact hw s _ v
      · obtain ⟨w, _, hb⟩ := h2 bytes h
        have := encode_word_length w
        rw [hb]; omega
  · intro ρ a inc n s d ext bytes hlog hin
    by_cases hn : n = 0
    · subst hn
      have hl : (readv a inc 0 s d).2.2.2.log = d.log := by simp [readv]
      rw [hl] at hlog
      have : ext = [] :=
        List.append_cancel_left (hlog.symm.trans (List.append_nil d.log).symm)
      rw [this] at hin; simp at hin
    · obtain ⟨tail, h1, h2⟩ := readv_tx a inc n s d (by omega)
      have he := List.append_cancel_left (hlog.symm.trans h1)
      rw [he] at hin
      simp only [List.mem_cons] at hin
      rcases hin with h | h
      · rw [Ev.tx.inj h]; exact hr s _
      · rw [h2 bytes h]; decide

theorem bufalloc_length_witness :
    ∃ b1, bufalloc { m_buf := true, m_buflen := 128 } 1000 = some b1 ∧ b1.m_buf = true ∧
      1000 ≤ b1.m_buflen ∧
      (((({ m_buf := true, m_buflen := 128 } : CmdBuf).m_buf = true ∧
        1000 ≤ ({ m_buf := true, m_buflen := 128 } : CmdBuf).m_buflen)) →
        b1 = { m_buf := true, m_buflen := 128 }) ∧
      (¬ (({ m_buf := true, m_buflen := 128 } : CmdBuf).m_buf = true ∧
        1000 ≤ ({ m_buf := true, m_buflen := 128 } : CmdBuf).m_buflen) →
        b1.m_buflen = (1000 &&& 4294967233) + 64 ∧
        b1.m_buflen = 1000 - 1000 % 64 + 1000 % 2 + 64) :=
  (bufalloc_length { m_buf := true, m_buflen := 128 } 1000 (by decide)).1

/-! ## The constellation table -/

theorem fillIndex_eq (k : Nat) : fillIndex k = (k % 32, k / 32 % 32) := by
  unfold fillIndex
  have h1 : k &&& 0x1f = k % 32 := Nat.and_pow_two_sub_one_eq_mod k 5
  have h2 : (k >>> 5) &&& 0x1f = (k >>> 5) % 32 := Nat.and_pow_two_sub_one_eq_mod (k >>> 5) 5
  rw [h1, h2, Nat.shiftRight_eq_div_pow]

theorem fill_spec (hbuf : Nat → Nat) (n y x : Nat) (hn : n ≤ 1024) (hy : y < 32)
    (hx : x < 32) :
    fill hbuf n y x = if 32 * x + y < n then some (hbuf (32 * x + y)) else none := by
  induction n with
  | zero => simp [fill]
  | succ n ih =>
    unfold fill
    rw [fillIndex_eq, ih (by omega)]
    by_cases hc : (y, x) = (n % 32, n / 32 % 32)
    · rw [if_pos hc]
      have h1 : y = n % 32 := (Prod.mk.inj hc).1
      have h2 : x = n / 32 % 32 := (Prod.mk.inj hc).2
      have h3 : 32 * x + y = n := by omega
      rw [if_pos (by omega), h3]
    · rw [if_neg hc]
      have h3 : 32 * x + y ≠ n := by
        intro h
        apply hc
        have h1 : y = n % 32 := by omega
        have h2 : x = n / 32 % 32 := by omega
        rw [← h1, ← h2]
      by_cases h4 : 32 * x + y < n
      · rw [if_pos h4, if_pos (by omega)]
      · rw [if_neg h4, if_neg (by omega)]

/-- C35, failing input: any histogram, at the first pass `y = 0`, `x = 0` of the
print loop.  The indices are `cy = -16`, `cx = -16` and the access
`con[cy][cx]` is outside `int con[32][32]`; in the 32 by 32 passes the indices
are inside the table exactly when `16 <= y` and `16 <= x`.  The fill loop
stores `hbuf[k]` at row `k & 31`, column `(k >> 5) & 31`, so the cell `(y, x)`
holds `hbuf[32 x + y]`; for `16 <= y, x` the print loop reads the cell
`(y - 16, x - 16)` instead, which holds `hbuf[32 (x - 16) + (y - 16)]`: with
`hbuf[k] = k` the word read at `(16, 16)` is 0 while the cell `(16, 16)` holds
528. -/
theorem constellation_reads_outside_table :
    printIndex 0 0 = (-16, -16) ∧
    (∀ hbuf, printed hbuf 0 0 = none) ∧
    (∀ (hbuf : Nat → Nat) (y x : Fin 32),
      (printed hbuf y.val x.val).isSome = decide (16 ≤ y.val ∧ 16 ≤ x.val)) ∧
    (∀ (y x : Fin 32), (0 ≤ (printIndex y.val x.val).1 ∧ (printIndex y.val x.val).1 < 32 ∧
      0 ≤ (printIndex y.val x.val).2 ∧ (printIndex y.val x.val).2 < 32)
        ↔ (16 ≤ y.val ∧ 16 ≤ x.val)) ∧
    (∀ (hbuf : Nat → Nat) (k : Fin 1024),
      fill hbuf 1024 (fillIndex k.val).1 (fillIndex k.val).2 = some (hbuf k.val)) ∧
    (∀ (hbuf : Nat → Nat) (y x : Fin 32), fill hbuf 1024 y.val x.val
      = some (hbuf (32 * x.val + y.val))) ∧
    (∀ (hbuf : Nat → Nat) (y x : Fin 16), printed hbuf (y.val + 16) (x.val + 16)
      = some (hbuf (32 * x.val + y.val))) ∧
    printed (fun k => k) 16 16 = some 0 ∧
    fill (fun k => k) 1024 16 16 = some 528 := by
  have hfill : ∀ (hbuf : Nat → Nat) (y x : Nat), y < 32 → x < 32 →
      fill hbuf 1024 y x = some (hbuf (32 * x + y)) := by
    intro hbuf y x hy hx
    rw [fill_spec hbuf 1024 y x (le_refl _) hy hx, if_pos (by omega)]
  have hidx : ∀ (y x : Nat), (0 ≤ (printIndex y x).1 ∧ (printIndex y x).1 < 32 ∧
      0 ≤ (printIndex y x).2 ∧ (printIndex y x).2 < 32)
        ↔ (16 ≤ y ∧ y < 48 ∧ 16 ≤ x ∧ x < 48) := by
    intro y x
    unfold printIndex
    simp only []
    omega
  have hpr : ∀ (hbuf : Nat → Nat) (y x : Nat), y < 16 → x < 16 →
      printed hbuf (y + 16) (x + 16) = some (hbuf (32 * x + y)) := by
    intro hbuf y x hy hx
    unfold printed readCon
    rw [if_pos ((hidx (y + 16) (x + 16)).2 (by omega))]
    have e1 : (printIndex (y + 16) (x + 16)).1.toNat = y := by
      unfold printIndex; simp only []; omega
    have e2 : (printIndex (y + 16) (x + 16)).2.toNat = x := by
      unfold printIndex; simp only []; omega
    rw [e1, e2]
    exact hfill hbuf y x (by omega) (by omega)
  have hout : ∀ (hbuf : Nat → Nat) (y x : Nat), ¬ (16 ≤ y ∧ y < 48 ∧ 16 ≤ x ∧ x < 48) →
      printed hbuf y x = none := by
    intro hbuf y x h
    unfold printed readCon
    rw [if_neg (fun hc => h ((hidx y x).1 hc))]
  refine ⟨by decide, fun hbuf => hout hbuf 0 0 (by omega), ?_, ?_, ?_, ?_, ?_, ?_, ?_⟩
  · intro hbuf y x
    have hy := y.isLt
    have hx := x.isLt
    by_cases hc : 16 ≤ y.val ∧ 16 ≤ x.val
    · have h := hpr hbuf (y.val - 16) (x.val - 16) (by omega) (by omega)
      have e1 : y.val - 16 + 16 = y.val := by omega
      have e2 : x.val - 16 + 16 = x.val := by omega
      rw [e1, e2] at h
      rw [h]; simp [hc]
    · rw [hout hbuf y.val x.val (by omega)]; simp [hc]
  · intro y x
    have hy := y.isLt
    have hx := x.isLt
    rw [hidx]; omega
  · intro hbuf k
    have hk := k.isLt
    rw [fillIndex_eq]
    simp only []
    rw [hfill hbuf _ _ (Nat.mod_lt _ (by decide)) (Nat.mod_lt _ (by decide))]
    have : 32 * (k.val / 32 % 32) + k.val % 32 = k.val := by omega
    rw [this]
  · intro hbuf y x
    exact hfill hbuf y.val x.val y.isLt x.isLt
  · intro hbuf y x
    exact hpr hbuf y.val x.val y.isLt x.isLt
  · exact hpr (fun k => k) 0 0 (by omega) (by omega)
  · exact hfill (fun k => k) 16 16 (by omega) (by omega)

/-! ## The I2C slave simulator -/

theorem lowbit_and (x y : Bool) : lowbit (x.toNat &&& y.toNat) = (x && y) := by
  cases x <;> cases y <;> decide

theorem addAssign_ofInts (scl sda : Nat) (b : I2CBUS) :
    (I2CBUS.ofInts scl sda).addAssign b
      = { m_scl := lowbit scl && b.m_scl, m_sda := lowbit sda && b.m_sda } := by
  unfold I2CBUS.addAssign I2CBUS.ofInts
  rw [lowbit_and, lowbit_and]

theorem call_returns (s : I2CSIMSLAVE) (scl sda : Nat) (r : I2CBUS) (s1 : I2CSIMSLAVE)
    (h : I2CSIMSLAVE.call s scl sda = SimOut.ok (r, s1)) :
    r = (I2CBUS.ofInts scl sda).addAssign s1.m_bus := by
  unfold I2CSIMSLAVE.call at h
  by_cases hc : scl &&& s.m_bus.m_scl.toNat ≠ 0 ∧ s.m_last_scl ≠ 0
      ∧ sda &&& s.m_bus.m_sda.toNat ≠ 0 ∧ s.m_last_sda = 0
  · rw [if_pos hc] at h
    have h1 := SimOut.ok.inj h
    unfold I2CSIMSLAVE.finish at h1
    rw [← (Prod.mk.inj h1).2, ← (Prod.mk.inj h1).1]
  · rw [if_neg hc] at h
    rcases hd : I2CSIMSLAVE.dispatch { s with m_bus := { m_scl := true, m_sda := true } }
      scl sda (I2CBUS.ofInts scl sda) with s2 | _ | i
    · rw [hd] at h
      have h1 := SimOut.ok.inj h
      unfold I2CSIMSLAVE.finish at h1
      rw [← (Prod.mk.inj h1).2, ← (Prod.mk.inj h1).1]
    · rw [hd] at h; cases h
    · rw [hd] at h; cases h

/-- C37: whenever `I2CSIMSLAVE::operator()` returns, from any slave state and
for any input pair, each line of the bus value it returns is the low bit of the
input line AND the line of `m_bus` as the call leaves it, so a line whose input
is 0 is returned as 0; the call does return from every state `I2CIDLE`,
`I2CLOSTBUS` or `I2CSTX`.  `I2CBUS::operator+` is commutative, associative and
idempotent, `I2CBUS(1,1)` is its identity on both sides, and `operator+=`
leaves the same value. -/
theorem open_drain_bus :
    (∀ (s : I2CSIMSLAVE) (scl sda : Nat) (r : I2CBUS) (s1 : I2CSIMSLAVE),
      I2CSIMSLAVE.call s scl sda = SimOut.ok (r, s1) →
        r.m_scl = (lowbit scl && s1.m_bus.m_scl) ∧ r.m_sda = (lowbit sda && s1.m_bus.m_sda) ∧
        (scl = 0 → r.m_scl = false) ∧ (sda = 0 → r.m_sda = false) ∧
        r = (I2CBUS.ofInts scl sda).add s1.m_bus) ∧
    (∀ (s : I2CSIMSLAVE) (scl sda : Nat),
      s.m_state = I2CSTATE.I2CIDLE ∨ s.m_state = I2CSTATE.I2CLOSTBUS
        ∨ s.m_state = I2CSTATE.I2CSTX →
      ∃ r s1, I2CSIMSLAVE.call s scl sda = SimOut.ok (r, s1)) ∧
    (∃ s1, I2CSIMSLAVE.call (I2CSIMSLAVE.new 0x50 7 0 0 0 0 0 0) 1 0
      = SimOut.ok ({ m_scl := true, m_sda := false }, s1)) ∧
    (∀ a b : I2CBUS, a.add b = b.add a) ∧
    (∀ a b c : I2CBUS, (a.add b).add c = a.add (b.add c)) ∧
    (∀ a : I2CBUS, a.add a = a) ∧
    (∀ a : I2CBUS, a.add (I2CBUS.ofInts 1 1) = a ∧ (I2CBUS.ofInts 1 1).add a = a) ∧
    (∀ a b : I2CBUS, a.addAssign b = a.add b) := by
  refine ⟨?_, ?_, ⟨_, rfl⟩, ?_, ?_, ?_, ?_, ?_⟩
  · intro s scl sda r s1 h
    have hr := call_returns s scl sda r s1 h
    rw [addAssign_ofInts] at hr
    subst hr
    refine ⟨rfl, rfl, ?_, ?_, ?_⟩
    · intro h0; subst h0; rfl
    · intro h0; subst h0; rfl
    · unfold I2CBUS.add I2CBUS.ofInts
      rw [lowbit_and, lowbit_and]
  · intro s scl sda hs
    unfold I2CSIMSLAVE.call
    by_cases hc : scl &&& s.m_bus.m_scl.toNat ≠ 0 ∧ s.m_last_scl ≠ 0
        ∧ sda &&& s.m_bus.m_sda.toNat ≠ 0 ∧ s.m_last_sda = 0
    · rw [if_pos hc]; exact ⟨_, _, rfl⟩
    · rw [if_neg hc]
      have hd : ∃ s2, I2CSIMSLAVE.dispatch { s with m_bus := { m_scl := true, m_sda := true } }
          scl sda (I2CBUS.ofInts scl sda) = SimOut.ok s2 := by
        unfold I2CSIMSLAVE.dispatch
        rcases hs with h | h | h
        · simp only [h]
          split_ifs <;> exact ⟨_, rfl⟩
        · simp only [h]; exact ⟨_, rfl⟩
        · simp only [h]
          split_ifs <;> exact ⟨_, rfl⟩
      obtain ⟨s2, h2⟩ := hd
      rw [h2]; exact ⟨_, _, rfl⟩
  · rintro ⟨a1, a2⟩ ⟨b1, b2⟩
    cases a1 <;> cases a2 <;> cases b1 <;> cases b2 <;> rfl
  · rintro ⟨a1, a2⟩ ⟨b1, b2⟩ ⟨c1, c2⟩
    cases a1 <;> cases a2 <;> cases b1 <;> cases b2 <;> cases c1 <;> cases c2 <;> rfl
  · rintro ⟨a1, a2⟩
    cases a1 <;> cases a2 <;> rfl
  · rintro ⟨a1, a2⟩
    cases a1 <;> cases a2 <;> exact ⟨rfl, rfl⟩
  · rintro ⟨a1, a2⟩ ⟨b1, b2⟩
    cases a1 <;> cases a2 <;> cases b1 <;> cases b2 <;> rfl

/-- C36, failing input: on a slave built with device address `0x50` and 7 address
bits (128 bytes), a master addresses the device for writing, sends the register
address `0x80`, stops, and addresses the device for reading.  The state
`I2CADDR` stores the eight bits in `m_daddr` without the mask, and on the
falling clock edge that ends the acknowledgement `read()` indexes
`m_data[128]`; with the register address `0xff` it indexes `m_data[255]`, with
`0x40` the same calls all return.  `write(addr, data)` masks the address and
stays inside the memory, and `read()` stays inside when `m_daddr` is at most
the mask. -/
theorem register_address_read_outside :
    (I2CSIMSLAVE.new 0x50 7 0 0 0 0 0 0).m_memsz = 128 ∧
    I2CSIMSLAVE.run (I2CSIMSLAVE.new 0x50 7 0 0 0 0 0 0)
      (setAddressThenRead [1, 0, 0, 0, 0, 0, 0, 0]) = SimOut.outside 128 ∧
    I2CSIMSLAVE.run (I2CSIMSLAVE.new 0x50 7 0 0 0 0 0 0)
      (setAddressThenRead [1, 1, 1, 1, 1, 1, 1, 1]) = SimOut.outside 255 ∧
    (∃ s1, I2CSIMSLAVE.run (I2CSIMSLAVE.new 0x50 7 0 0 0 0 0 0)
      (setAddressThenRead [0, 1, 0, 0, 0, 0, 0, 0]) = SimOut.ok s1 ∧
      s1.m_state = I2CSTATE.I2CSTX ∧ s1.m_daddr = 65) ∧
    (∀ (s : I2CSIMSLAVE) (addr data : Nat), s.m_adrmsk < s.m_memsz →
      ∃ s1, I2CSIMSLAVE.write s addr data = SimOut.ok s1 ∧ s1.m_daddr ≤ s.m_adrmsk) ∧
    (∀ (s : I2CSIMSLAVE), s.m_adrmsk < s.m_memsz → s.m_daddr ≤ s.m_adrmsk →
      ∃ v s1, I2CSIMSLAVE.read s = SimOut.ok (v, s1) ∧ s1.m_daddr ≤ s.m_adrmsk) := by
  refine ⟨by decide, by set_option maxRecDepth 100000 in decide,
    by set_option maxRecDepth 100000 in decide, ?_, ?_, ?_⟩
  · have h : ∀ o : SimOut I2CSIMSLAVE,
        (match o with
          | SimOut.ok s1 => decide (s1.m_state = I2CSTATE.I2CSTX ∧ s1.m_daddr = 65)
          | _ => false) = true →
        ∃ s1, o = SimOut.ok s1 ∧ s1.m_state = I2CSTATE.I2CSTX ∧ s1.m_daddr = 65 := by
      intro o ho
      cases o with
      | ok s1 => exact ⟨s1, rfl, of_decide_eq_true ho⟩
      | assert_failed => cases ho
      | outside i => cases ho
    exact h _ (by set_option maxRecDepth 100000 in decide)
  · intro s addr data hm
    have hle : addr &&& s.m_adrmsk ≤ s.m_adrmsk := Nat.and_le_right
    unfold I2CSIMSLAVE.write
    rw [if_pos (by omega)]
    exact ⟨_, rfl, hle⟩
  · intro s hm hd
    have hle : (s.m_daddr + 1) &&& s.m_adrmsk ≤ s.m_adrmsk := Nat.and_le_right
    unfold I2CSIMSLAVE.read
    rw [if_pos (by omega)]
    exact ⟨_, _, rfl, hle⟩

end Hexbus
